import Mathlib

/-!
# MatrixCalculator: a shallow embedding of the matrix engine

The C++ sources embedded here are `MatCalcUtil.cpp`, `DenseMatrix.cpp`, `SparseMatrix.cpp`
and `Matrix.cpp`.

Modelling conventions.
* A finite `double` is an exact rational number (type `ℚ`); arithmetic is exact.  The only
  non-finite value that is modelled is NaN, through `mcu.Double`, which is used wherever the
  source passes around a double that may be NaN (arguments of `doubleAlmostEqual`, the
  determinant handed to `getInverse`, the results of the `Matrix` handle on an invalid matrix).
* `size_t` values are natural numbers; a subtraction that can pass below zero wraps around
  modulo 2^64 (`sizeSub`).
* A `for` loop over `0 .. n-1` is `forLoop n body`, the body being a state transformer.
* Reading a vector out of range is undefined behaviour in the source; the model returns `0`,
  and writing out of range leaves the vector unchanged.
-/

/-- Square rational matrices of Mathlib, used to state what the code computes. -/
abbrev QMatrix (n : ℕ) := Matrix (Fin n) (Fin n) ℚ

/-- Rectangular rational matrices of Mathlib. -/
abbrev QMat (m n : ℕ) := Matrix (Fin m) (Fin n) ℚ

namespace MatrixCalculator

/-- The loop `for (size_t i = 0; i < n; i++) body(i)` as a state transformer. -/
def forLoop {σ : Type} (n : Nat) (body : Nat → σ → σ) (s : σ) : σ :=
  match n with
  | 0 => s
  | k + 1 => body k (forLoop k body s)

namespace mcu

/-- A `double` that may be NaN: either NaN or a finite value. -/
inductive Double where
  | nan : Double
  | fin (q : ℚ) : Double
  deriving DecidableEq

/-- The constant `mcu::EPSILON = std::numeric_limits<double>::epsilon() * 1000`. -/
def EPSILON : ℚ := (1 / 2 ^ 52) * 1000

/-- The function `mcu::doubleAlmostEqual(left, right, epsilon)`. -/
def doubleAlmostEqual : Double → Double → Double → Bool
  | _, _, .nan => false
  | .nan, .nan, .fin _ => true
  | .nan, .fin _, .fin _ => false
  | .fin _, .nan, .fin _ => false
  | .fin left, .fin right, .fin epsilon =>
    let absoluteTolerance := epsilon
    let relativeTolerance := epsilon * max left right
    let absDiff := |left - right|
    decide (absDiff ≤ absoluteTolerance ∨ absDiff ≤ relativeTolerance)

/-- The call `mcu::doubleAlmostEqual(left, right)` on finite values, epsilon left at its
default `mcu::EPSILON`. -/
def almostEqual (left right : ℚ) : Bool :=
  doubleAlmostEqual (.fin left) (.fin right) (.fin EPSILON)

/-- The loop `while (intPart != 0) { intPart /= 10; numDigits++; }`; it ends after at most
`intPart` rounds, which is what `fuel` counts. -/
def countDigitsLoop (fuel intPart numDigits : Nat) : Nat :=
  match fuel with
  | 0 => numDigits
  | fuel + 1 => if intPart = 0 then numDigits else countDigitsLoop fuel (intPart / 10) (numDigits + 1)

/-- The function `mcu::getNumDigitsOfIntegerPart(x, includeNegativeSign)`; the cast
`(long long)absX` truncates towards zero. -/
def getNumDigitsOfIntegerPart (x : ℚ) (includeNegativeSign : Bool) : Nat :=
  let absX := if x < 0 then -x else x
  let intPart : Nat := (Rat.floor absX).toNat
  let numDigits := countDigitsLoop intPart intPart 0
  let numDigits := if numDigits = 0 then 1 else numDigits
  if includeNegativeSign && decide (x < 0) then numDigits + 1 else numDigits

/-- Modelled from the C++ standard library: the nearest integer of a non-negative value, a
tie going to the even neighbour, as the stream insertion of a double rounds. -/
def roundHalfEven (q : ℚ) : Nat :=
  let fl : Nat := (Rat.floor q).toNat
  let frac : ℚ := q - fl
  if frac < 1 / 2 then fl
  else if 1 / 2 < frac then fl + 1
  else if fl % 2 = 0 then fl else fl + 1

/-- The decimal digits of `n`, padded with zeros on the left to `width` characters. -/
def zeroPadded (width n : Nat) : String :=
  let digits := toString n
  String.mk (List.replicate (width - digits.length) (Char.ofNat 48)) ++ digits

/-- Modelled from the C++ standard library: `stream << std::fixed << std::setprecision(p) <<
value`, i.e. the sign, the integer part, and `p` decimals after the point. -/
def formatFixed (precision : Nat) (value : ℚ) : String :=
  let n := roundHalfEven (|value| * ((10 ^ precision : Nat) : ℚ))
  let sign := if value < 0 then "-" else ""
  if precision = 0 then sign ++ toString n
  else sign ++ toString (n / 10 ^ precision) ++ "." ++ zeroPadded precision (n % 10 ^ precision)

/-- The search for the least `k ≥ start` with `q * 10 ^ k ≥ 1`. -/
def negativeExponentLoop (fuel : Nat) (q : ℚ) (k : Nat) : Nat :=
  match fuel with
  | 0 => k
  | fuel + 1 => if 1 ≤ q * ((10 ^ k : Nat) : ℚ) then k else negativeExponentLoop fuel q (k + 1)

/-- The decimal exponent `X` of a positive value: `10 ^ X ≤ q < 10 ^ (X + 1)`. -/
def decimalExponent (q : ℚ) : Int :=
  if 1 ≤ q then (((Nat.toDigits 10 (Rat.floor q).toNat).length - 1 : Nat) : Int)
  else -((negativeExponentLoop ((Nat.toDigits 10 q.den).length + 1) q 1 : Nat) : Int)

/-- A digit string without its trailing zeros. -/
def stripTrailingZeros (digits : List Char) : List Char :=
  (digits.reverse.dropWhile (fun ch => ch = Char.ofNat 48)).reverse

/-- Modelled from the C++ standard library: `stream << value` for a double on a stream in
its default state, i.e. the `%g` conversion with six significant digits. -/
def formatDefault (value : ℚ) : String :=
  if value = 0 then "0"
  else
    let a := |value|
    let X0 := decimalExponent a
    let scaled : ℚ :=
      if X0 ≤ 5 then a * ((10 ^ (5 - X0).toNat : Nat) : ℚ) else a / ((10 ^ (X0 - 5).toNat : Nat) : ℚ)
    let m0 := roundHalfEven scaled
    let m := if m0 = 10 ^ 6 then 10 ^ 5 else m0
    let X := if m0 = 10 ^ 6 then X0 + 1 else X0
    let sign := if value < 0 then "-" else ""
    let digits := (toString m).toList
    if X < -4 ∨ 6 ≤ X then
      let fraction := stripTrailingZeros (digits.drop 1)
      let mantissa := String.mk (digits.take 1) ++
        (if fraction.isEmpty then "" else "." ++ String.mk fraction)
      sign ++ mantissa ++ "e" ++ (if X < 0 then "-" else "+") ++ zeroPadded 2 X.natAbs
    else if 0 ≤ X then
      let fraction := stripTrailingZeros (digits.drop (X.toNat + 1))
      sign ++ String.mk (digits.take (X.toNat + 1)) ++
        (if fraction.isEmpty then "" else "." ++ String.mk fraction)
    else
      let fraction := stripTrailingZeros (List.replicate ((-X).toNat - 1) (Char.ofNat 48) ++ digits)
      sign ++ "0" ++ (if fraction.isEmpty then "" else "." ++ String.mk fraction)

end mcu

/-- The container `std::map<std::pair<size_t, size_t>, double>`: the entries in increasing
key order. -/
abbrev CellMap := List ((Nat × Nat) × ℚ)

namespace CellMap

/-- The comparison `operator<` of `std::pair<size_t, size_t>`: lexicographic. -/
def keyLt (a b : Nat × Nat) : Bool :=
  decide (a.1 < b.1) || (decide (a.1 = b.1) && decide (a.2 < b.2))

/-- The lookup `map.find(key)`: the mapped value, or `none` for `map.end()`. -/
def find (m : CellMap) (key : Nat × Nat) : Option ℚ :=
  match m with
  | [] => none
  | (k, v) :: rest => if k = key then some v else find rest key

/-- The assignment `map[key] = value`: inserts the key at its place in the order, or
overwrites the mapped value. -/
def assign (m : CellMap) (key : Nat × Nat) (value : ℚ) : CellMap :=
  match m with
  | [] => [(key, value)]
  | (k, v) :: rest =>
    if keyLt key k then (key, value) :: (k, v) :: rest
    else if k = key then (key, value) :: rest
    else (k, v) :: assign rest key value

/-- The removal `map.erase(key)`. -/
def erase (m : CellMap) (key : Nat × Nat) : CellMap :=
  m.filter (fun e => decide (e.1 ≠ key))

/-- The count `map.size()`. -/
def size (m : CellMap) : Nat := m.length

end CellMap

/-- The class `DenseMatrix`: the dimensions and the grid `vector<vector<double>>`. -/
structure DenseMatrix where
  numRows : Nat
  numColumns : Nat
  denseMatrix : List (List ℚ)
  deriving DecidableEq, Repr

/-- The class `SparseMatrix`: the dimensions and the map from (row, column) to the value. -/
structure SparseMatrix where
  numRows : Nat
  numColumns : Nat
  sparseMatrix : CellMap
  deriving DecidableEq, Repr

namespace SparseMatrix

/-- The constructor `SparseMatrix(numRows, numColumns)`: no stored entry. -/
def new (numRows numColumns : Nat) : SparseMatrix := ⟨numRows, numColumns, []⟩

def getNumRows (M : SparseMatrix) : Nat := M.numRows

def getNumColumns (M : SparseMatrix) : Nat := M.numColumns

/-- The accessor `getCell(row, column)`: the stored value, `0.0` when there is none. -/
def getCell (M : SparseMatrix) (row column : Nat) : ℚ :=
  match M.sparseMatrix.find (row, column) with
  | some v => v
  | none => 0

/-- The mutator `setCell(row, column, value)`: stores the value, then erases the entry when
the stored value is almost equal to zero. -/
def setCell (M : SparseMatrix) (row column : Nat) (value : ℚ) : SparseMatrix :=
  let stored := M.sparseMatrix.assign (row, column) value
  if mcu.almostEqual value 0 then { M with sparseMatrix := stored.erase (row, column) }
  else { M with sparseMatrix := stored }

/-- The list `getCellDataList()`: the stored (row, column, value) triples in map order. -/
def getCellDataList (M : SparseMatrix) : List (Nat × Nat × ℚ) :=
  M.sparseMatrix.map (fun e => (e.1.1, e.1.2, e.2))

end SparseMatrix

namespace DenseMatrix

/-- The constructor `DenseMatrix(numRows, numColumns, initialValues)`. -/
def new (numRows numColumns : Nat) (initialValues : ℚ) : DenseMatrix :=
  ⟨numRows, numColumns, List.replicate numRows (List.replicate numColumns initialValues)⟩

def getNumRows (M : DenseMatrix) : Nat := M.numRows

def getNumColumns (M : DenseMatrix) : Nat := M.numColumns

/-- The accessor `getCell(row, column) = denseMatrix[row][column]`. -/
def getCell (M : DenseMatrix) (row column : Nat) : ℚ :=
  (M.denseMatrix.getD row []).getD column 0

/-- The mutator `setCell(row, column, value)`: `denseMatrix[row][column] = value`. -/
def setCell (M : DenseMatrix) (row column : Nat) (value : ℚ) : DenseMatrix :=
  { M with denseMatrix := M.denseMatrix.modify (fun r => r.set column value) row }

/-- The grid is well formed: it has `numRows` rows of `numColumns` cells each, which every
constructor and method of the class establishes and keeps. -/
def WF (M : DenseMatrix) : Prop :=
  M.denseMatrix.length = M.numRows ∧
    ∀ i, i < M.numRows → (M.denseMatrix.getD i []).length = M.numColumns

/-- The nested loop `for r < rows, for c < columns: target.setCell(f r c)` that the source
uses to fill a freshly constructed matrix. -/
def fillCells (rows columns : Nat) (pos : Nat → Nat → Nat × Nat) (value : Nat → Nat → ℚ)
    (target : DenseMatrix) : DenseMatrix :=
  forLoop rows (fun r t =>
    forLoop columns (fun c t => t.setCell (pos r c).1 (pos r c).2 (value r c)) t) target

/-- The method `transpose()`. -/
def transpose (M : DenseMatrix) : DenseMatrix :=
  let transposedMatrix :=
    fillCells M.numRows M.numColumns (fun r c => (c, r)) (fun r c => M.getCell r c)
      (new M.numColumns M.numRows 0)
  ⟨M.numColumns, M.numRows, transposedMatrix.denseMatrix⟩

/-- The method `clone()`. -/
def clone (M : DenseMatrix) : DenseMatrix :=
  fillCells M.numRows M.numColumns (fun r c => (r, c)) (fun r c => M.getCell r c)
    (new M.numRows M.numColumns 0)

/-- The method `cloneAsDenseMatrix()`. -/
def cloneAsDenseMatrix (M : DenseMatrix) : DenseMatrix := M.clone

/-- The method `cloneAsSparseMatrix()`: every cell goes through `SparseMatrix::setCell`. -/
def cloneAsSparseMatrix (M : DenseMatrix) : SparseMatrix :=
  forLoop M.numRows (fun r s =>
    forLoop M.numColumns (fun c s => s.setCell r c (M.getCell r c)) s)
    (SparseMatrix.new M.numRows M.numColumns)

/-- The method `scale(scalar)`: `denseMatrix[r][c] *= scalar` for every cell. -/
def scale (M : DenseMatrix) (scalar : ℚ) : DenseMatrix :=
  forLoop M.numRows (fun r t =>
    forLoop M.numColumns (fun c t => t.setCell r c (t.getCell r c * scalar)) t) M

/-- The overload `equal(const DenseMatrix& left)`. -/
def equalD (self left : DenseMatrix) : Bool :=
  if left.getNumRows ≠ self.getNumRows ∨ left.getNumColumns ≠ self.getNumColumns then false
  else
    (List.range self.numRows).all fun r =>
      (List.range self.numColumns).all fun c =>
        mcu.almostEqual (left.getCell r c) (self.getCell r c)

/-- The overload `equal(const SparseMatrix& left)`. -/
def equalS (self : DenseMatrix) (left : SparseMatrix) : Bool :=
  if left.getNumRows ≠ self.getNumRows ∨ left.getNumColumns ≠ self.getNumColumns then false
  else
    (List.range self.numRows).all fun r =>
      (List.range self.numColumns).all fun c =>
        mcu.almostEqual (left.getCell r c) (self.getCell r c)

/-- The overload `mergeByColumns(const DenseMatrix& left)`: `self` is the right operand. -/
def mergeByColumnsD (self left : DenseMatrix) : DenseMatrix :=
  let mergedDense := new self.numRows (left.getNumColumns + self.numColumns) 0
  let mergedDense := fillCells self.numRows left.getNumColumns (fun r c => (r, c))
    (fun r c => left.getCell r c) mergedDense
  fillCells self.numRows self.getNumColumns (fun r c => (r, c + left.getNumColumns))
    (fun r c => self.getCell r c) mergedDense

/-- The overload `mergeByColumns(const SparseMatrix& left)`: `self` is the right operand. -/
def mergeByColumnsS (self : DenseMatrix) (left : SparseMatrix) : DenseMatrix :=
  let mergedDense := new self.numRows (left.getNumColumns + self.numColumns) 0
  let mergedDense := left.getCellDataList.foldl
    (fun t cellData => t.setCell cellData.1 cellData.2.1 cellData.2.2) mergedDense
  fillCells self.numRows self.getNumColumns (fun r c => (r, c + left.getNumColumns))
    (fun r c => self.getCell r c) mergedDense

/-- The overload `mergeByRows(const DenseMatrix& left)`: `self` is the bottom operand. -/
def mergeByRowsD (self left : DenseMatrix) : DenseMatrix :=
  let mergedDense := new (left.getNumRows + self.numRows) self.numColumns 0
  let mergedDense := fillCells left.getNumRows self.numColumns (fun r c => (r, c))
    (fun r c => left.getCell r c) mergedDense
  fillCells self.getNumRows self.numColumns (fun r c => (r + left.getNumRows, c))
    (fun r c => self.getCell r c) mergedDense

/-- The overload `mergeByRows(const SparseMatrix& left)`: `self` is the bottom operand. -/
def mergeByRowsS (self : DenseMatrix) (left : SparseMatrix) : DenseMatrix :=
  let mergedDense := new (left.getNumRows + self.numRows) self.numColumns 0
  let mergedDense := left.getCellDataList.foldl
    (fun t cellData => t.setCell cellData.1 cellData.2.1 cellData.2.2) mergedDense
  fillCells self.getNumRows self.numColumns (fun r c => (r + left.getNumRows, c))
    (fun r c => self.getCell r c) mergedDense

/-- The method `splitByColumn(leftNewNumColumns, returnLeftMatrix)`. -/
def splitByColumn (M : DenseMatrix) (leftNewNumColumns : Nat) (returnLeftMatrix : Bool) :
    DenseMatrix :=
  let rightNewNumColumns := M.numColumns - leftNewNumColumns
  let splitMatrixNumColumns := if returnLeftMatrix then leftNewNumColumns else rightNewNumColumns
  let columnOffset := if returnLeftMatrix then 0 else leftNewNumColumns
  let split := new M.numRows splitMatrixNumColumns 0
  fillCells split.getNumRows split.getNumColumns (fun r c => (r, c))
    (fun r c => M.getCell r (c + columnOffset)) split

/-- The method `splitByRow(topNewNumRows, returnTopMatrix)`. -/
def splitByRow (M : DenseMatrix) (topNewNumRows : Nat) (returnTopMatrix : Bool) :
    DenseMatrix :=
  let bottomNewNumRows := M.numRows - topNewNumRows
  let splitMatrixNumRows := if returnTopMatrix then topNewNumRows else bottomNewNumRows
  let rowOffset := if returnTopMatrix then 0 else topNewNumRows
  let split := new splitMatrixNumRows M.numColumns 0
  fillCells split.getNumRows split.getNumColumns (fun r c => (r, c))
    (fun r c => M.getCell (r + rowOffset) c) split

/-- The overload `getSubMatrix(subRowBeginIndex, subNumRows, subColumnBeginIndex,
subNumColumns)`; `none` is the null pointer. -/
def getSubMatrixRect (M : DenseMatrix) (subRowBeginIndex subNumRows subColumnBeginIndex
    subNumColumns : Nat) : Option DenseMatrix :=
  if subNumRows = 0 ∨ subNumColumns = 0 then none
  else
    let subDense := new subNumRows subNumColumns 0
    some (fillCells subDense.getNumRows subDense.getNumColumns (fun r c => (r, c))
      (fun r c => M.getCell (r + subRowBeginIndex) (c + subColumnBeginIndex)) subDense)

/-- The method `getSubMatrixTopLeft`; `none` is the null pointer. -/
def getSubMatrixTopLeft (M : DenseMatrix) (ignoredRowIndex ignoredColumnIndex : Nat) :
    Option DenseMatrix :=
  if ignoredRowIndex = 0 ∨ ignoredColumnIndex = 0 then none
  else
    let left := M.splitByColumn ignoredColumnIndex true
    some (left.splitByRow ignoredRowIndex true)

/-- The method `getSubMatrixTopRight`; `none` is the null pointer. -/
def getSubMatrixTopRight (M : DenseMatrix) (ignoredRowIndex ignoredColumnIndex : Nat) :
    Option DenseMatrix :=
  if ignoredRowIndex = 0 ∨ ignoredColumnIndex = M.numColumns - 1 then none
  else
    let right := M.splitByColumn (ignoredColumnIndex + 1) false
    some (right.splitByRow ignoredRowIndex true)

/-- The method `getSubMatrixBottomLeft`; `none` is the null pointer. -/
def getSubMatrixBottomLeft (M : DenseMatrix) (ignoredRowIndex ignoredColumnIndex : Nat) :
    Option DenseMatrix :=
  if ignoredRowIndex = M.numRows - 1 ∨ ignoredColumnIndex = 0 then none
  else
    let left := M.splitByColumn ignoredColumnIndex true
    some (left.splitByRow (ignoredRowIndex + 1) false)

/-- The method `getSubMatrixBottomRight`; `none` is the null pointer. -/
def getSubMatrixBottomRight (M : DenseMatrix) (ignoredRowIndex ignoredColumnIndex : Nat) :
    Option DenseMatrix :=
  if ignoredRowIndex = M.numRows - 1 ∨ ignoredColumnIndex = M.numColumns - 1 then none
  else
    let right := M.splitByColumn (ignoredColumnIndex + 1) false
    some (right.splitByRow (ignoredRowIndex + 1) false)

/-- The merging step of `getSubMatrix(ignoredRowIndex, ignoredColumnIndex)`: two nullable
parts are merged when both exist, otherwise the existing one is cloned. -/
def mergeParts (merge : DenseMatrix → DenseMatrix → DenseMatrix)
    (first second : Option DenseMatrix) : Option DenseMatrix :=
  match first, second with
  | some a, some b => some (merge a b)
  | some a, none => some a.clone
  | none, some b => some b.clone
  | none, none => none

/-- The overload `getSubMatrix(ignoredRowIndex, ignoredColumnIndex)`; `none` is the null
pointer.  The call `topLeft->mergeByColumns(*topRight)` dispatches to
`topRight->mergeByColumns(const DenseMatrix& topLeft)`, all parts being dense. -/
def getSubMatrix (M : DenseMatrix) (ignoredRowIndex ignoredColumnIndex : Nat) :
    Option DenseMatrix :=
  let topLeft := M.getSubMatrixTopLeft ignoredRowIndex ignoredColumnIndex
  let topRight := M.getSubMatrixTopRight ignoredRowIndex ignoredColumnIndex
  let bottomLeft := M.getSubMatrixBottomLeft ignoredRowIndex ignoredColumnIndex
  let bottomRight := M.getSubMatrixBottomRight ignoredRowIndex ignoredColumnIndex
  let top := mergeParts (fun l r => r.mergeByColumnsD l) topLeft topRight
  let bottom := mergeParts (fun l r => r.mergeByColumnsD l) bottomLeft bottomRight
  mergeParts (fun t b => b.mergeByRowsD t) top bottom

/-- The sub-matrix that `getDeterminant()` builds for column `c`: the rows below row 0
without column `c`, merged from the part left of `c` and the part right of `c`.  Both parts
are null only for a matrix that is not square, where the source dereferences a null pointer;
the model then takes the empty matrix. -/
def determinantSubMatrix (M : DenseMatrix) (c : Nat) : DenseMatrix :=
  let leftSubMatrix := M.getSubMatrixRect 1 (M.numRows - 1) 0 c
  let rightSubMatrix := M.getSubMatrixRect 1 (M.numRows - 1) (c + 1) ((M.numColumns - 1) - c)
  match leftSubMatrix, rightSubMatrix with
  | none, some right => right.clone
  | some left, none => left.clone
  | some left, some right => right.mergeByColumnsD left
  | none, none => (new 0 0 0).clone

/-- The recursion of `getDeterminant()`, Laplace expansion along row 0.  The recursion depth
is the number of rows, which is what `fuel` counts. -/
def getDeterminantAux (fuel : Nat) (M : DenseMatrix) : ℚ :=
  match fuel with
  | 0 => 0
  | fuel + 1 =>
    if M.numRows = 1 then M.getCell 0 0
    else if M.numRows = 2 then M.getCell 0 0 * M.getCell 1 1 - M.getCell 0 1 * M.getCell 1 0
    else
      forLoop M.numColumns (fun c determinant =>
        let cellAtFirstRow := M.getCell 0 c
        if mcu.almostEqual cellAtFirstRow 0 then determinant
        else
          let cellAtFirstRow := if c % 2 = 1 then -cellAtFirstRow else cellAtFirstRow
          let mergedSub := M.determinantSubMatrix c
          let subMatDet := getDeterminantAux fuel mergedSub
          determinant + cellAtFirstRow * subMatDet) 0

/-- The method `getDeterminant()`. -/
def getDeterminant (M : DenseMatrix) : ℚ := getDeterminantAux M.numRows M

/-- The method `getMinorMatrix()`.  The outer `none` is a run that dereferences the null
pointer returned by `getSubMatrix`. -/
def getMinorMatrix (M : DenseMatrix) : Option DenseMatrix :=
  forLoop M.numRows (fun r acc =>
    forLoop M.numColumns (fun c acc =>
      match acc, M.getSubMatrix r c with
      | some minor, some subDenseMatrix => some (minor.setCell r c subDenseMatrix.getDeterminant)
      | _, _ => none) acc) (some (new M.numRows M.numColumns 0))

/-- The method `applyCheckerboardPattern()`. -/
def applyCheckerboardPattern (M : DenseMatrix) : DenseMatrix :=
  forLoop M.numRows (fun r t =>
    forLoop M.numColumns (fun c t =>
      if (r + c) % 2 = 0 then t else t.setCell r c (-(t.getCell r c))) t) M

/-- The method `getInverse(determinant)`.  The outer `none` is a run that dereferences a null
pointer; the inner `none` is the returned null pointer. -/
def getInverse (M : DenseMatrix) (determinant : mcu.Double) : Option (Option DenseMatrix) :=
  if mcu.doubleAlmostEqual determinant (.fin 0) (.fin mcu.EPSILON)
      || mcu.doubleAlmostEqual determinant .nan (.fin mcu.EPSILON) then some none
  else
    match determinant with
    | .nan => some none
    | .fin d =>
      if M.getNumRows = 1 then some (some (new 1 1 d))
      else
        match M.getMinorMatrix with
        | none => none
        | some inverse =>
          let inverse := inverse.applyCheckerboardPattern
          let inverse := inverse.transpose
          let inverse := inverse.scale (1 / d)
          some (some inverse)

end DenseMatrix

namespace SparseMatrix

/-- The loop `for (iter = map.begin(); iter != map.end(); ++iter)` over the stored entries,
the body receiving row, column and value. -/
def forEachCell {σ : Type} (cells : CellMap) (body : Nat → Nat → ℚ → σ → σ) (s : σ) : σ :=
  cells.foldl (fun s e => body e.1.1 e.1.2 e.2 s) s

/-- The method `transpose()`. -/
def transpose (M : SparseMatrix) : SparseMatrix :=
  let map_newSparseMatrix : CellMap :=
    forEachCell M.sparseMatrix (fun row column value m => CellMap.assign m (column, row) value) []
  ⟨M.numColumns, M.numRows, map_newSparseMatrix⟩

/-- The method `clone()`. -/
def clone (M : SparseMatrix) : SparseMatrix :=
  forEachCell M.sparseMatrix (fun row column valueAtCell clone =>
    clone.setCell row column valueAtCell) (new M.numRows M.numColumns)

/-- The method `cloneAsDenseMatrix()`. -/
def cloneAsDenseMatrix (M : SparseMatrix) : DenseMatrix :=
  forEachCell M.sparseMatrix (fun row column valueAtCell denseClone =>
    denseClone.setCell row column valueAtCell) (DenseMatrix.new M.numRows M.numColumns 0)

/-- The method `cloneAsSparseMatrix()`. -/
def cloneAsSparseMatrix (M : SparseMatrix) : SparseMatrix := M.clone

/-- The method `scale(scalar)`: iterates over a copy of the cell list. -/
def scale (M : SparseMatrix) (scalar : ℚ) : SparseMatrix :=
  M.getCellDataList.foldl (fun t cellData =>
    t.setCell cellData.1 cellData.2.1 (cellData.2.2 * scalar)) M

/-- The overload `equal(const DenseMatrix& left)`. -/
def equalD (self : SparseMatrix) (left : DenseMatrix) : Bool :=
  if left.getNumRows ≠ self.getNumRows ∨ left.getNumColumns ≠ self.getNumColumns then false
  else
    (List.range self.numRows).all fun r =>
      (List.range self.numColumns).all fun c =>
        mcu.almostEqual (left.getCell r c) (self.getCell r c)

/-- The overload `equal(const SparseMatrix& left)`. -/
def equalS (self left : SparseMatrix) : Bool :=
  if left.getNumRows ≠ self.getNumRows ∨ left.getNumColumns ≠ self.getNumColumns then false
  else
    let leftCellDataList := left.getCellDataList
    let rightCellDataList := self.getCellDataList
    if leftCellDataList.length ≠ rightCellDataList.length then false
    else
      leftCellDataList.all fun cellData =>
        mcu.almostEqual cellData.2.2 (self.getCell cellData.1 cellData.2.1)

/-- The overload `mergeByColumns(const DenseMatrix& left)`: `self` is the right operand. -/
def mergeByColumnsD (self : SparseMatrix) (left : DenseMatrix) : DenseMatrix :=
  let mergedDense := DenseMatrix.new self.numRows (left.getNumColumns + self.numColumns) 0
  let mergedDense := DenseMatrix.fillCells self.numRows left.getNumColumns (fun r c => (r, c))
    (fun r c => left.getCell r c) mergedDense
  self.getCellDataList.foldl (fun t cellData =>
    t.setCell cellData.1 (cellData.2.1 + left.getNumColumns) cellData.2.2) mergedDense

/-- The overload `mergeByColumns(const SparseMatrix& left)`: `self` is the right operand. -/
def mergeByColumnsS (self left : SparseMatrix) : SparseMatrix :=
  let mergedSparse := new self.numRows (left.getNumColumns + self.numColumns)
  let mergedSparse := forEachCell left.sparseMatrix (fun row column leftValue t =>
    t.setCell row column leftValue) mergedSparse
  forEachCell self.sparseMatrix (fun row column rightValue t =>
    t.setCell row (column + left.getNumColumns) rightValue) mergedSparse

/-- The overload `mergeByRows(const DenseMatrix& left)`: `self` is the bottom operand. -/
def mergeByRowsD (self : SparseMatrix) (left : DenseMatrix) : DenseMatrix :=
  let mergedDense := DenseMatrix.new (left.getNumRows + self.numRows) self.numColumns 0
  let mergedDense := DenseMatrix.fillCells left.getNumRows self.numColumns (fun r c => (r, c))
    (fun r c => left.getCell r c) mergedDense
  self.getCellDataList.foldl (fun t cellData =>
    t.setCell (cellData.1 + left.getNumRows) cellData.2.1 cellData.2.2) mergedDense

/-- The overload `mergeByRows(const SparseMatrix& left)`: `self` is the bottom operand. -/
def mergeByRowsS (self left : SparseMatrix) : SparseMatrix :=
  let mergedSparse := new (left.getNumRows + self.numRows) self.numColumns
  let mergedSparse := forEachCell left.sparseMatrix (fun row column leftValue t =>
    t.setCell row column leftValue) mergedSparse
  forEachCell self.sparseMatrix (fun row column rightValue t =>
    t.setCell (row + left.getNumRows) column rightValue) mergedSparse

/-- The overload `getSubMatrix(subRowBeginIndex, subNumRows, subColumnBeginIndex,
subNumColumns)`; `none` is the null pointer. -/
def getSubMatrixRect (M : SparseMatrix) (subRowBeginIndex subNumRows subColumnBeginIndex
    subNumColumns : Nat) : Option SparseMatrix :=
  if subNumRows = 0 ∨ subNumColumns = 0 then none
  else
    some (M.getCellDataList.foldl (fun subSparse cellData =>
      let bigMatRow := cellData.1
      let bigMatCol := cellData.2.1
      let bigMatValue := cellData.2.2
      if (subRowBeginIndex ≤ bigMatRow ∧ bigMatRow < subRowBeginIndex + subNumRows)
          ∧ (subColumnBeginIndex ≤ bigMatCol ∧ bigMatCol < subColumnBeginIndex + subNumColumns)
      then subSparse.setCell (bigMatRow - subRowBeginIndex) (bigMatCol - subColumnBeginIndex)
        bigMatValue
      else subSparse) (new subNumRows subNumColumns))

/-- The method `getSubMatrixTopLeft`; `none` is the null pointer. -/
def getSubMatrixTopLeft (M : SparseMatrix) (ignoredRowIndex ignoredColumnIndex : Nat) :
    Option SparseMatrix :=
  if ignoredRowIndex = 0 ∨ ignoredColumnIndex = 0 then none
  else
    some (M.getCellDataList.foldl (fun topLeft cellData =>
      let bigRow := cellData.1
      let bigColumn := cellData.2.1
      let bigValue := cellData.2.2
      if bigRow < ignoredRowIndex ∧ bigColumn < ignoredColumnIndex
      then topLeft.setCell bigRow bigColumn bigValue
      else topLeft) (new ignoredRowIndex ignoredColumnIndex))

/-- The method `getSubMatrixTopRight`; `none` is the null pointer. -/
def getSubMatrixTopRight (M : SparseMatrix) (ignoredRowIndex ignoredColumnIndex : Nat) :
    Option SparseMatrix :=
  if ignoredRowIndex = 0 ∨ ignoredColumnIndex = M.numColumns - 1 then none
  else
    some (M.getCellDataList.foldl (fun topRight cellData =>
      let bigRow := cellData.1
      let bigColumn := cellData.2.1
      let bigValue := cellData.2.2
      if bigRow < ignoredRowIndex ∧ (ignoredColumnIndex < bigColumn ∧ bigColumn < M.numColumns)
      then topRight.setCell bigRow (bigColumn - (ignoredColumnIndex + 1)) bigValue
      else topRight) (new ignoredRowIndex ((M.numColumns - 1) - ignoredColumnIndex)))

/-- The method `getSubMatrixBottomLeft`; `none` is the null pointer. -/
def getSubMatrixBottomLeft (M : SparseMatrix) (ignoredRowIndex ignoredColumnIndex : Nat) :
    Option SparseMatrix :=
  if ignoredRowIndex = M.numRows - 1 ∨ ignoredColumnIndex = 0 then none
  else
    some (M.getCellDataList.foldl (fun bottomLeft cellData =>
      let bigRow := cellData.1
      let bigColumn := cellData.2.1
      let bigValue := cellData.2.2
      if (ignoredRowIndex < bigRow ∧ bigRow < M.numRows) ∧ bigColumn < ignoredColumnIndex
      then bottomLeft.setCell (bigRow - (ignoredRowIndex + 1)) bigColumn bigValue
      else bottomLeft) (new ((M.numRows - 1) - ignoredRowIndex) ignoredColumnIndex))

/-- The method `getSubMatrixBottomRight`; `none` is the null pointer. -/
def getSubMatrixBottomRight (M : SparseMatrix) (ignoredRowIndex ignoredColumnIndex : Nat) :
    Option SparseMatrix :=
  if ignoredRowIndex = M.numRows - 1 ∨ ignoredColumnIndex = M.numColumns - 1 then none
  else
    some (M.getCellDataList.foldl (fun bottomRight cellData =>
      let bigRow := cellData.1
      let bigColumn := cellData.2.1
      let bigValue := cellData.2.2
      if (ignoredRowIndex < bigRow ∧ bigRow < M.numRows)
          ∧ (ignoredColumnIndex < bigColumn ∧ bigColumn < M.numColumns)
      then bottomRight.setCell (bigRow - (ignoredRowIndex + 1))
        (bigColumn - (ignoredColumnIndex + 1)) bigValue
      else bottomRight)
      (new ((M.numRows - 1) - ignoredRowIndex) ((M.numColumns - 1) - ignoredColumnIndex)))

/-- The merging step of `getSubMatrix(ignoredRowIndex, ignoredColumnIndex)`: two nullable
parts are merged when both exist, otherwise the existing one is cloned. -/
def mergeParts (merge : SparseMatrix → SparseMatrix → SparseMatrix)
    (first second : Option SparseMatrix) : Option SparseMatrix :=
  match first, second with
  | some a, some b => some (merge a b)
  | some a, none => some a.clone
  | none, some b => some b.clone
  | none, none => none

/-- The overload `getSubMatrix(ignoredRowIndex, ignoredColumnIndex)`; `none` is the null
pointer.  The call `topLeft->mergeByColumns(*topRight)` dispatches to
`topRight->mergeByColumns(const SparseMatrix& topLeft)`, all parts being sparse. -/
def getSubMatrix (M : SparseMatrix) (ignoredRowIndex ignoredColumnIndex : Nat) :
    Option SparseMatrix :=
  let topLeft := M.getSubMatrixTopLeft ignoredRowIndex ignoredColumnIndex
  let topRight := M.getSubMatrixTopRight ignoredRowIndex ignoredColumnIndex
  let bottomLeft := M.getSubMatrixBottomLeft ignoredRowIndex ignoredColumnIndex
  let bottomRight := M.getSubMatrixBottomRight ignoredRowIndex ignoredColumnIndex
  let top := mergeParts (fun l r => r.mergeByColumnsS l) topLeft topRight
  let bottom := mergeParts (fun l r => r.mergeByColumnsS l) bottomLeft bottomRight
  mergeParts (fun t b => b.mergeByRowsS t) top bottom

/-- The sub-matrix that `getDeterminant()` builds for column `c`: the rows below row 0
without column `c`, merged from the part left of `c` and the part right of `c`.  Both parts
are null only for a matrix that is not square, where the source dereferences a null pointer;
the model then takes the empty matrix. -/
def determinantSubMatrix (M : SparseMatrix) (c : Nat) : SparseMatrix :=
  let leftSubMatrix := M.getSubMatrixRect 1 (M.numRows - 1) 0 c
  let rightSubMatrix := M.getSubMatrixRect 1 (M.numRows - 1) (c + 1) ((M.numColumns - 1) - c)
  match leftSubMatrix, rightSubMatrix with
  | none, some right => right.clone
  | some left, none => left.clone
  | some left, some right => right.mergeByColumnsS left
  | none, none => (new 0 0).clone

/-- The recursion of `getDeterminant()`, Laplace expansion along row 0.  The recursion depth
is the number of rows, which is what `fuel` counts. -/
def getDeterminantAux (fuel : Nat) (M : SparseMatrix) : ℚ :=
  match fuel with
  | 0 => 0
  | fuel + 1 =>
    if M.numRows = 1 then M.getCell 0 0
    else if M.numRows = 2 then M.getCell 0 0 * M.getCell 1 1 - M.getCell 0 1 * M.getCell 1 0
    else
      forLoop M.numColumns (fun c determinant =>
        let cellAtFirstRow := M.getCell 0 c
        if mcu.almostEqual cellAtFirstRow 0 then determinant
        else
          let cellAtFirstRow := if c % 2 = 1 then -cellAtFirstRow else cellAtFirstRow
          let mergedSub := M.determinantSubMatrix c
          let subMatDet := getDeterminantAux fuel mergedSub
          determinant + cellAtFirstRow * subMatDet) 0

/-- The method `getDeterminant()`. -/
def getDeterminant (M : SparseMatrix) : ℚ := getDeterminantAux M.numRows M

/-- The method `getMinorMatrix()`.  The outer `none` is a run that dereferences the null
pointer returned by `getSubMatrix`. -/
def getMinorMatrix (M : SparseMatrix) : Option SparseMatrix :=
  forLoop M.numRows (fun r acc =>
    forLoop M.numColumns (fun c acc =>
      match acc, M.getSubMatrix r c with
      | some minor, some subSparseMatrix =>
        some (minor.setCell r c subSparseMatrix.getDeterminant)
      | _, _ => none) acc) (some (new M.numRows M.numColumns))

/-- The method `applyCheckerboardPattern()`: the loop runs over the entries the map holds
when the loop starts. -/
def applyCheckerboardPattern (M : SparseMatrix) : SparseMatrix :=
  forEachCell M.sparseMatrix (fun row column valueAtCell t =>
    if (row + column) % 2 = 0 then t else t.setCell row column (-valueAtCell)) M

/-- The method `getInverse(determinant)`.  The outer `none` is a run that dereferences a null
pointer; the inner `none` is the returned null pointer. -/
def getInverse (M : SparseMatrix) (determinant : mcu.Double) : Option (Option SparseMatrix) :=
  if mcu.doubleAlmostEqual determinant (.fin 0) (.fin mcu.EPSILON)
      || mcu.doubleAlmostEqual determinant .nan (.fin mcu.EPSILON) then some none
  else
    match determinant with
    | .nan => some none
    | .fin d =>
      if M.getNumRows = 1 then some (some ((new 1 1).setCell 0 0 d))
      else
        match M.getMinorMatrix with
        | none => none
        | some inverse =>
          let inverse := inverse.applyCheckerboardPattern
          let inverse := inverse.transpose
          let inverse := inverse.scale (1 / d)
          some (some inverse)

end SparseMatrix

/-- The abstract class `MatrixBase` with its two concrete classes. -/
inductive MatrixBase where
  | dense (m : DenseMatrix) : MatrixBase
  | sparse (m : SparseMatrix) : MatrixBase
  deriving DecidableEq, Repr

namespace DenseMatrix

/-- The column widths of `getColumnAlignmentMapForPrinting()`: for every column the largest
number of integer-part digits. -/
def getColumnAlignmentMapForPrinting (M : DenseMatrix) : Nat → Nat :=
  fun column =>
    forLoop M.getNumRows (fun r maxDigits =>
      let value := M.getCell r column
      let value := if mcu.almostEqual value 0 then 0 else value
      let numDigits := mcu.getNumDigitsOfIntegerPart value true
      if numDigits > maxDigits then numDigits else maxDigits) 0

/-- The method `getPrintStr(precision)`. -/
def getPrintStr (M : DenseMatrix) (precision : Nat) : String :=
  let map_colIndex_maxDigits := M.getColumnAlignmentMapForPrinting
  forLoop M.getNumRows (fun r sst =>
    forLoop M.getNumColumns (fun c sst =>
      let sst := if c ≠ 0 then sst ++ " " else sst
      let value := M.getCell r c
      let value := if mcu.almostEqual value 0 then 0 else value
      let intPartLength := mcu.getNumDigitsOfIntegerPart value true
      let maxIntPartLength := map_colIndex_maxDigits c
      let sst := forLoop (maxIntPartLength - intPartLength) (fun _ sst => sst ++ " ") sst
      let sst := sst ++ mcu.formatFixed precision value
      if c ≠ M.getNumColumns - 1 then sst ++ "," else sst) sst ++ "\n") ""

/-- The pivot search of the forward phase: the first row `r` with
`leadingEntryRow ≤ r < numRows` whose cell in column `c` is not almost zero. -/
def findPivotRow (M : DenseMatrix) (c leadingEntryRow numRows : Nat) : Option Nat :=
  (List.range' leadingEntryRow (numRows - leadingEntryRow)).find?
    (fun r => !mcu.almostEqual (M.getCell r c) 0)

/-- The statement `std::swap(denseMatrix[r], denseMatrix[leadingEntryRow])`. -/
def swapRows (M : DenseMatrix) (r leadingEntryRow : Nat) : DenseMatrix :=
  let rowR := M.denseMatrix.getD r []
  let rowLead := M.denseMatrix.getD leadingEntryRow []
  { M with denseMatrix := (M.denseMatrix.set r rowLead).set leadingEntryRow rowR }

/-- The row operation `row r -= coefficient * row pivotRow` on the columns
`colBegin ≤ col < numCols`. -/
def rowOperation (M : DenseMatrix) (r pivotRow colBegin numCols : Nat) (coefficient : ℚ) :
    DenseMatrix :=
  forLoop (numCols - colBegin) (fun i t =>
    let col := colBegin + i
    let subtrahend := coefficient * t.getCell pivotRow col
    let minuend := t.getCell r col
    let difference := minuend - subtrahend
    t.setCell r col difference) M

/-- The second loop of a forward step: eliminates the entries of column `c` below the
leading entry. -/
def eliminateBelow (M : DenseMatrix) (c leadingEntryRow numRows numCols : Nat) : DenseMatrix :=
  let leadingEntryValue := M.getCell leadingEntryRow c
  forLoop (numRows - (leadingEntryRow + 1)) (fun i t =>
    let r := leadingEntryRow + 1 + i
    let valueAtColumn := t.getCell r c
    if mcu.almostEqual valueAtColumn 0 then t
    else
      let coefficient := valueAtColumn / leadingEntryValue
      t.rowOperation r leadingEntryRow 0 numCols coefficient) M

/-- One round of the forward phase (the body that `solveFor` and `getRank` both contain) for
column `c`: `none` when the column holds no pivot, otherwise the matrix after the swap and
the elimination. -/
def forwardColumn (M : DenseMatrix) (c leadingEntryRow numRows numCols : Nat) :
    Option DenseMatrix :=
  match M.findPivotRow c leadingEntryRow numRows with
  | none => none
  | some r =>
    let M := if r ≠ leadingEntryRow then M.swapRows r leadingEntryRow else M
    some (M.eliminateBelow c leadingEntryRow numRows numCols)

/-- The local variables of `solveFor` that the elimination loops change. -/
structure SolveState where
  augmentedMatrix : DenseMatrix
  leadingEntryRow : Nat
  numSteps : Nat
  sst : String
  stopped : Bool

/-- The verbose record of one step. -/
def SolveState.logStep (st : SolveState) (verbose : Bool) (doublePrecision : Nat) : SolveState :=
  if verbose then
    { st with
      numSteps := st.numSteps + 1
      sst := st.sst ++ "Step " ++ toString (st.numSteps + 1) ++ ":" ++ "\n" ++ "\n"
        ++ st.augmentedMatrix.getPrintStr doublePrecision ++ "\n" ++ "\n" }
  else st

/-- Step 1 of `solveFor`: the reduction to row echelon form. -/
def solveForward (augNumRows augNumCols : Nat) (verbose : Bool) (doublePrecision : Nat)
    (st : SolveState) : SolveState :=
  forLoop (augNumCols - 1) (fun c st =>
    match st.augmentedMatrix.forwardColumn c st.leadingEntryRow augNumRows augNumCols with
    | none => st
    | some reduced =>
      SolveState.logStep
        { st with augmentedMatrix := reduced, leadingEntryRow := st.leadingEntryRow + 1 }
        verbose doublePrecision) st

/-- The loop of step 2 over the rows above the pivot, from `leadingEntryRow - 1` down to 0. -/
def eliminateAbove (augNumCols : Nat) (verbose : Bool) (doublePrecision : Nat)
    (c : Nat) (pivotValue : ℚ) (st : SolveState) : SolveState :=
  forLoop st.leadingEntryRow (fun i st =>
    let r := st.leadingEntryRow - 1 - i
    let valueAbovePivot := st.augmentedMatrix.getCell r c
    if mcu.almostEqual valueAbovePivot 0 then st
    else
      let coefficient := valueAbovePivot / pivotValue
      SolveState.logStep
        { st with augmentedMatrix :=
            st.augmentedMatrix.rowOperation r st.leadingEntryRow c augNumCols coefficient }
        verbose doublePrecision) st

/-- The division of the pivot row by the pivot, on the columns `c ≤ col < augNumCols`. -/
def normalizePivotRow (M : DenseMatrix) (leadingEntryRow c augNumCols : Nat) (pivotValue : ℚ) :
    DenseMatrix :=
  forLoop (augNumCols - c) (fun i t =>
    let col := c + i
    let existingValue := t.getCell leadingEntryRow col
    let newValue := existingValue / pivotValue
    t.setCell leadingEntryRow col newValue) M

/-- Step 2 of `solveFor`: the reduction to reduced row echelon form.  The field `stopped`
records that the loop was left through `break`. -/
def solveBackward (augNumRows augNumCols : Nat) (verbose : Bool) (doublePrecision : Nat)
    (st : SolveState) : SolveState :=
  forLoop (augNumCols - 1) (fun c st =>
    if st.stopped then st
    else if st.leadingEntryRow = 0 then { st with leadingEntryRow := st.leadingEntryRow + 1 }
    else if st.leadingEntryRow ≥ augNumRows then { st with stopped := true }
    else
      let pivotValue := st.augmentedMatrix.getCell st.leadingEntryRow c
      if mcu.almostEqual pivotValue 0 then st
      else
        let st := eliminateAbove augNumCols verbose doublePrecision c pivotValue st
        let st := { st with augmentedMatrix :=
          st.augmentedMatrix.normalizePivotRow st.leadingEntryRow c augNumCols pivotValue }
        let st := SolveState.logStep st verbose doublePrecision
        { st with leadingEntryRow := st.leadingEntryRow + 1 })
    { st with leadingEntryRow := 0 }

/-- The insertion `freeVarIndices.insert(index)` into a `std::set<size_t>`: the elements in
increasing order, none twice. -/
def setInsert (index : Nat) : List Nat → List Nat
  | [] => [index]
  | x :: rest =>
    if index < x then index :: x :: rest
    else if index = x then x :: rest
    else x :: setInsert index rest

/-- The local variables of step 3 of `solveFor`. -/
structure ReadoutState where
  solution_sst : String
  noSolution : Bool
  freeVarIndices : List Nat
  isAllZerosBeforeAugmentedColumn : Bool
  foundPivotEntry : Bool
  pivotEntryCol : Nat
  rowDone : Bool

/-- The body of the inner loop of step 3, for the cell (r, c); `rowDone` records that the
inner loop was left through `break`. -/
def readoutCell (M : DenseMatrix) (augNumCols r c : Nat) (rs : ReadoutState) : ReadoutState :=
  if rs.rowDone then rs
  else
    let valueAtCell := M.getCell r c
    let isZeroValue := mcu.almostEqual valueAtCell 0
    if !rs.foundPivotEntry && isZeroValue then rs
    else
      let rs := if !rs.foundPivotEntry then { rs with pivotEntryCol := c, foundPivotEntry := true }
        else rs
      let rs := if c ≠ augNumCols - 1 then { rs with isAllZerosBeforeAugmentedColumn := false }
        else rs
      if decide (c = augNumCols - 1) && rs.isAllZerosBeforeAugmentedColumn
          && !mcu.almostEqual valueAtCell 0 then
        { rs with noSolution := true, rowDone := true }
      else if c = rs.pivotEntryCol then
        { rs with solution_sst := rs.solution_sst ++ "x" ++ toString (c + 1) ++ " =" }
      else
        let nonPivotElement := M.getCell r c
        let isAugColIndex := decide (c = augNumCols - 1)
        if !isAugColIndex && mcu.almostEqual nonPivotElement 0 then rs
        else
          let shownNumber := |nonPivotElement|
          let text := rs.solution_sst ++ " "
          let text :=
            if isAugColIndex then
              (if nonPivotElement < 0 then text ++ "-" else text ++ "+")
            else
              (if nonPivotElement < 0 then text ++ "+" else text ++ "-")
          let text := text ++ " " ++ mcu.formatDefault shownNumber
          if !isAugColIndex then
            { rs with
              solution_sst := text ++ "x" ++ toString (c + 1)
              freeVarIndices := setInsert c rs.freeVarIndices }
          else { rs with solution_sst := text }

/-- The body of the outer loop of step 3, for row `r`. -/
def readoutRow (M : DenseMatrix) (augNumCols r : Nat) (rs : ReadoutState) : ReadoutState :=
  let rs := { rs with
    isAllZerosBeforeAugmentedColumn := true, foundPivotEntry := false, pivotEntryCol := 0,
    rowDone := false }
  let rs := forLoop augNumCols (fun c rs => readoutCell M augNumCols r c rs) rs
  if rs.isAllZerosBeforeAugmentedColumn = false then
    { rs with solution_sst := rs.solution_sst ++ "\n" }
  else rs

/-- The closing line of step 3: the free variables, separated by commas. -/
def freeVariableLine (freeVarIndices : List Nat) : String :=
  let names := (freeVarIndices.foldl (fun (acc : String × Bool) index =>
    let shownIndex := index + 1
    if acc.2 then (acc.1 ++ "x" ++ toString shownIndex, false)
    else (acc.1 ++ ", x" ++ toString shownIndex, false)) ("", true)).1
  if freeVarIndices.length > 0 then names ++ " are free variables." ++ "\n" else names

/-- Step 3 of `solveFor`: the text of the solution set. -/
def solveReadout (M : DenseMatrix) (augNumRows augNumCols : Nat) : String :=
  let rs := forLoop augNumRows (fun r rs => readoutRow M augNumCols r rs)
    (⟨"", false, [], true, false, 0, false⟩ : ReadoutState)
  if rs.noSolution then "No solution." ++ "\n"
  else rs.solution_sst ++ freeVariableLine rs.freeVarIndices

/-- The matrix `this->mergeByColumns(augmentedColumn)` of `solveFor`: the call dispatches on
the class of `augmentedColumn`, with this dense matrix as the left operand. -/
def augment (M : DenseMatrix) (augmentedColumn : MatrixBase) : DenseMatrix :=
  match augmentedColumn with
  | .dense right => right.mergeByColumnsD M
  | .sparse right => right.mergeByColumnsD M

/-- The augmented matrix of `solveFor` after step 1 and step 2. -/
def solveEliminate (M : DenseMatrix) (augmentedColumn : MatrixBase) (verbose : Bool)
    (doublePrecision : Nat) : SolveState :=
  let augmentedMatrix := M.augment augmentedColumn
  let augNumRows := augmentedMatrix.getNumRows
  let augNumCols := augmentedMatrix.getNumColumns
  let st : SolveState := ⟨augmentedMatrix, 0, 0, "", false⟩
  let st := solveForward augNumRows augNumCols verbose doublePrecision st
  solveBackward augNumRows augNumCols verbose doublePrecision st

/-- The method `solveFor(augmentedColumn, verbose, doublePrecision)`. -/
def solveFor (M : DenseMatrix) (augmentedColumn : MatrixBase) (verbose : Bool)
    (doublePrecision : Nat) : String :=
  let st := M.solveEliminate augmentedColumn verbose doublePrecision
  let augNumRows := st.augmentedMatrix.getNumRows
  let augNumCols := st.augmentedMatrix.getNumColumns
  st.sst ++ "\n" ++ "Solution:" ++ "\n" ++ "\n"
    ++ solveReadout st.augmentedMatrix augNumRows augNumCols

/-- Step 1 of `getRank`: the reduction of the clone to row echelon form. -/
def rankForward (clone : DenseMatrix) : DenseMatrix × Nat :=
  let cloneNumRows := clone.getNumRows
  let cloneNumCols := clone.getNumColumns
  forLoop cloneNumCols (fun c (st : DenseMatrix × Nat) =>
    match st.1.forwardColumn c st.2 cloneNumRows cloneNumCols with
    | none => st
    | some reduced => (reduced, st.2 + 1)) (clone, 0)

/-- The test of step 2 of `getRank`: every cell of row `r` is almost zero. -/
def isZeroRow (M : DenseMatrix) (r : Nat) : Bool :=
  (List.range M.getNumColumns).all fun c => mcu.almostEqual (M.getCell r c) 0

/-- The method `getRank()`. -/
def getRank (M : DenseMatrix) : Nat :=
  let clone := (rankForward M.cloneAsDenseMatrix).1
  let numZeroRows := forLoop clone.getNumRows (fun r numZeroRows =>
    if clone.isZeroRow r then numZeroRows + 1 else numZeroRows) 0
  clone.getNumRows - numZeroRows

end DenseMatrix

namespace SparseMatrix

/-- The method `solveFor`: delegates to a dense clone. -/
def solveFor (M : SparseMatrix) (augmentedColumn : MatrixBase) (verbose : Bool)
    (doublePrecision : Nat) : String :=
  M.cloneAsDenseMatrix.solveFor augmentedColumn verbose doublePrecision

/-- The method `getRank`: delegates to a dense clone. -/
def getRank (M : SparseMatrix) : Nat := M.cloneAsDenseMatrix.getRank

end SparseMatrix

namespace MatrixBase

def getNumRows : MatrixBase → Nat
  | .dense m => m.getNumRows
  | .sparse m => m.getNumRows

def getNumColumns : MatrixBase → Nat
  | .dense m => m.getNumColumns
  | .sparse m => m.getNumColumns

def getCell : MatrixBase → Nat → Nat → ℚ
  | .dense m, row, column => m.getCell row column
  | .sparse m, row, column => m.getCell row column

def setCell : MatrixBase → Nat → Nat → ℚ → MatrixBase
  | .dense m, row, column, value => .dense (m.setCell row column value)
  | .sparse m, row, column, value => .sparse (m.setCell row column value)

def clone : MatrixBase → MatrixBase
  | .dense m => .dense m.clone
  | .sparse m => .sparse m.clone

def cloneAsDenseMatrix : MatrixBase → DenseMatrix
  | .dense m => m.cloneAsDenseMatrix
  | .sparse m => m.cloneAsDenseMatrix

def cloneAsSparseMatrix : MatrixBase → SparseMatrix
  | .dense m => m.cloneAsSparseMatrix
  | .sparse m => m.cloneAsSparseMatrix

/-- The virtual `equal(const MatrixBase& right)`: it calls `right.equal(*this)`, which selects
the overload of the class of `right` for the class of the receiver. -/
def equal : MatrixBase → MatrixBase → Bool
  | .dense left, .dense right => right.equalD left
  | .sparse left, .dense right => right.equalS left
  | .dense left, .sparse right => right.equalD left
  | .sparse left, .sparse right => right.equalS left

def getDeterminant : MatrixBase → ℚ
  | .dense m => m.getDeterminant
  | .sparse m => m.getDeterminant

/-- The virtual `getInverse(determinant)`; the outer `none` is a run that dereferences a null
pointer, the inner `none` the returned null pointer. -/
def getInverse : MatrixBase → mcu.Double → Option (Option MatrixBase)
  | .dense m, determinant => (m.getInverse determinant).map (Option.map MatrixBase.dense)
  | .sparse m, determinant => (m.getInverse determinant).map (Option.map MatrixBase.sparse)

def solveFor : MatrixBase → MatrixBase → Bool → Nat → String
  | .dense m, augmentedColumn, verbose, doublePrecision =>
    m.solveFor augmentedColumn verbose doublePrecision
  | .sparse m, augmentedColumn, verbose, doublePrecision =>
    m.solveFor augmentedColumn verbose doublePrecision

def getRank : MatrixBase → Nat
  | .dense m => m.getRank
  | .sparse m => m.getRank

end MatrixBase

/-- The class `Matrix`: the handle that owns one `MatrixBase`, `none` being the null pointer
of the invalid state. -/
structure Matrix where
  matrixPtr : Option MatrixBase
  deriving DecidableEq, Repr

namespace Matrix

/-- The default constructor: the invalid state. -/
def invalid : Matrix := ⟨none⟩

/-- The static method `createDense`. -/
def createDense (numRows numColumns : Nat) (initialValues : ℚ) : Matrix :=
  ⟨some (.dense (DenseMatrix.new numRows numColumns initialValues))⟩

/-- The static method `createSparse`. -/
def createSparse (numRows numColumns : Nat) : Matrix :=
  ⟨some (.sparse (SparseMatrix.new numRows numColumns))⟩

/-- The static method `createZero`. -/
def createZero (numRows numColumns : Nat) : Matrix := createSparse numRows numColumns

def getNumRows (M : Matrix) : Nat :=
  match M.matrixPtr with
  | some m => m.getNumRows
  | none => 0

def getNumColumns (M : Matrix) : Nat :=
  match M.matrixPtr with
  | some m => m.getNumColumns
  | none => 0

def getCell (M : Matrix) (row column : Nat) : mcu.Double :=
  match M.matrixPtr with
  | some m => .fin (m.getCell row column)
  | none => .nan

def setCell (M : Matrix) (row column : Nat) (value : ℚ) : Matrix :=
  match M.matrixPtr with
  | some m => ⟨some (m.setCell row column value)⟩
  | none => M

/-- The static method `createIdentity`. -/
def createIdentity (numDimensions : Nat) : Matrix :=
  forLoop numDimensions (fun d identity => identity.setCell d d 1)
    (createZero numDimensions numDimensions)

/-- The operator `operator==`. -/
def operatorEq (self right : Matrix) : Bool :=
  match self.matrixPtr, right.matrixPtr with
  | some l, some r => l.equal r
  | _, _ => false

/-- The operator `operator!=`. -/
def operatorNe (self right : Matrix) : Bool := !(self.operatorEq right)

/-- The method `toDense()`. -/
def toDense (M : Matrix) : Matrix :=
  match M.matrixPtr with
  | none => M
  | some oldPtr => ⟨some (.dense oldPtr.cloneAsDenseMatrix)⟩

/-- The method `toSparse()`. -/
def toSparse (M : Matrix) : Matrix :=
  match M.matrixPtr with
  | none => M
  | some oldPtr => ⟨some (.sparse oldPtr.cloneAsSparseMatrix)⟩

/-- The method `getDeterminant()`: NaN for the invalid matrix. -/
def getDeterminant (M : Matrix) : mcu.Double :=
  match M.matrixPtr with
  | some m => .fin m.getDeterminant
  | none => .nan

/-- The method `getInverse(determinant)`; `none` is a run that dereferences a null pointer. -/
def getInverse (M : Matrix) (determinant : mcu.Double) : Option Matrix :=
  match M.matrixPtr with
  | none => some invalid
  | some m => (m.getInverse determinant).map Matrix.mk

/-- The method `solveFor(augmentedColumn, verbose, doublePrecision)`. -/
def solveFor (M augmentedColumn : Matrix) (verbose : Bool) (doublePrecision : Nat) : String :=
  match M.matrixPtr, augmentedColumn.matrixPtr with
  | some m, some aug => m.solveFor aug verbose doublePrecision
  | _, _ => ""

/-- The method `getRank()`. -/
def getRank (M : Matrix) : Nat :=
  match M.matrixPtr with
  | none => 0
  | some m => m.getRank

end Matrix

namespace DenseMatrix

/-- What a correct dense result looks like: well formed, of the given dimensions, holding
the given cells. -/
structure Holds (S : DenseMatrix) (R C : Nat) (f : Nat → Nat → ℚ) : Prop where
  wf : S.WF
  rows : S.numRows = R
  cols : S.numColumns = C
  cell : ∀ i j, i < R → j < C → S.getCell i j = f i j

end DenseMatrix
namespace DenseMatrix

/-- What a correct nullable part looks like: null exactly when it has no cell. -/
def IsBlock (o : Option DenseMatrix) (R C : Nat) (f : Nat → Nat → ℚ) : Prop :=
  match o with
  | none => R = 0 ∨ C = 0
  | some S => 0 < R ∧ 0 < C ∧ Holds S R C f

end DenseMatrix

/-- The Mathlib matrix of the first `m × n` cells of a cell reader. -/
def cellMatrix (cell : Nat → Nat → ℚ) (m n : Nat) : QMat m n :=
  Matrix.of fun i j => cell i.val j.val

/-- A value that the tolerance test classifies as its exact value does: it is exactly zero
or it is not almost equal to zero. -/
def mcu.Crisp (x : ℚ) : Prop := x = 0 ∨ mcu.almostEqual x 0 = false

/-- The keys of the map are in strictly increasing order, as in every `std::map`. -/
def CellMap.Sorted (m : CellMap) : Prop :=
  List.Pairwise (fun a b => CellMap.keyLt a.1 b.1 = true) m

/-- The value that `SparseMatrix::setCell` leaves in a cell: a value almost equal to zero is
erased, which reads back as zero. -/
def mcu.flush (x : ℚ) : ℚ := if mcu.almostEqual x 0 then 0 else x

/-- The sparse matrix is well formed: the keys are in order, every key lies inside the
dimensions and no stored value is almost equal to zero. -/
structure SparseMatrix.WF (S : SparseMatrix) : Prop where
  sorted : S.sparseMatrix.Sorted
  inRange : ∀ k v, S.sparseMatrix.find k = some v → k.1 < S.numRows ∧ k.2 < S.numColumns
  nonZero : ∀ k v, S.sparseMatrix.find k = some v → mcu.almostEqual v 0 = false

namespace SparseMatrix

/-- The loop shape shared by the sparse methods that build a matrix from the stored cells
of another: every stored cell whose key passes the test is written at its new position. -/
def gather (cells : CellMap) (test : Nat × Nat → Prop) [DecidablePred test]
    (g : Nat × Nat → Nat × Nat) (T : SparseMatrix) : SparseMatrix :=
  cells.foldl (fun t e => if test e.1 then t.setCell (g e.1).1 (g e.1).2 e.2 else t) T

end SparseMatrix
namespace SparseMatrix

/-- What a correct sparse result looks like: well formed, of the given dimensions, holding
the given cells. -/
structure Holds (S : SparseMatrix) (R C : Nat) (f : Nat → Nat → ℚ) : Prop where
  wf : S.WF
  rows : S.numRows = R
  cols : S.numColumns = C
  cell : ∀ i j, i < R → j < C → S.getCell i j = f i j

/-- What a correct nullable sparse part looks like: null exactly when it has no cell. -/
def IsBlock (o : Option SparseMatrix) (R C : Nat) (f : Nat → Nat → ℚ) : Prop :=
  match o with
  | none => R = 0 ∨ C = 0
  | some S => 0 < R ∧ 0 < C ∧ Holds S R C f

end SparseMatrix
namespace DenseMatrix

/-- The value that `getMinorMatrix()` writes into the cell (r, c), when `getSubMatrix(r, c)`
is not null. -/
def minorValue (M : DenseMatrix) (r c : Nat) : ℚ :=
  match M.getSubMatrix r c with
  | some subDenseMatrix => subDenseMatrix.getDeterminant
  | none => 0

end DenseMatrix
namespace SparseMatrix

/-- The loop shape of the sparse methods that rewrite the stored cells in place: every
stored cell of the snapshot whose key passes the test is written back with a new value. -/
def rewrite (cells : CellMap) (test : Nat × Nat → Prop) [DecidablePred test]
    (val : Nat × Nat → ℚ → ℚ) (T : SparseMatrix) : SparseMatrix :=
  cells.foldl (fun t e => if test e.1 then t.setCell e.1.1 e.1.2 (val e.1 e.2) else t) T

end SparseMatrix
namespace SparseMatrix

/-- The value that the sparse `getMinorMatrix()` hands to `setCell` for the cell (r, c), when
`getSubMatrix(r, c)` is not null. -/
def minorValue (M : SparseMatrix) (r c : Nat) : ℚ :=
  match M.getSubMatrix r c with
  | some subSparseMatrix => subSparseMatrix.getDeterminant
  | none => 0

end SparseMatrix

/-- Well-formedness of a matrix of either class. -/
def MatrixBase.WF : MatrixBase → Prop
  | .dense m => m.WF
  | .sparse m => m.WF

/-- Every cell of a Mathlib matrix is crisp. -/
def mcu.CrispMatrix {m n : Nat} (X : QMat m n) : Prop := ∀ i j, mcu.Crisp (X i j)

instance mcu.instDecidableCrisp (x : ℚ) : Decidable (mcu.Crisp x) := by
  unfold mcu.Crisp
  infer_instance

instance DenseMatrix.instDecidableWF (M : DenseMatrix) : Decidable M.WF := by
  unfold DenseMatrix.WF
  infer_instance

/-- A test fixture: the dense matrix with the given rows, as the tests build it with
`createDense` and `setCell`. -/
def Matrix.denseOfRows (rows : List (List ℚ)) : Matrix :=
  ⟨some (.dense ⟨rows.length, (rows.headD []).length, rows⟩)⟩

/-- A test fixture: the sparse matrix with the given rows, every cell set with `setCell`. -/
def Matrix.sparseOfRows (rows : List (List ℚ)) : Matrix :=
  (Matrix.denseOfRows rows).toSparse

/-- The inverse round trip on the handle `A`: with `B = A.getInverse(A.getDeterminant())`,
the matrix `C = B.getInverse(B.getDeterminant())` is valid and `C == A`. -/
def Matrix.InverseRoundTrip (A : Matrix) : Prop :=
  ∃ B C : Matrix, A.getInverse A.getDeterminant = some B ∧
    B.getInverse B.getDeterminant = some C ∧ C ≠ Matrix.invalid ∧ C.operatorEq A = true

/-- The subtraction `a - b` of two `size_t` values: when `b` exceeds `a` the result wraps
around modulo 2^64. -/
def sizeSub (a b : Nat) : Nat := if b ≤ a then a - b else a + 2 ^ 64 - b

/-- The call `v.resize(n)` of a `std::vector`: the first `n` elements are kept and the vector
is padded with value-initialised elements up to the length `n`. -/
def vectorResize {α : Type} (v : List α) (n : Nat) (fill : α) : List α :=
  v.take n ++ List.replicate (n - v.length) fill

namespace mcu

/-- The quotient of two element counts converted to `double`: `0.0 / 0.0` is NaN and a
positive count divided by `0.0` is +infinity. -/
inductive CountQuotient where
  | nan : CountQuotient
  | posInf : CountQuotient
  | fin (q : ℚ) : CountQuotient
  deriving DecidableEq, Repr

/-- The division `nominator / denominator` of `getSparsity()`. -/
def countQuotient (nominator denominator : Nat) : CountQuotient :=
  if denominator = 0 then (if nominator = 0 then .nan else .posInf)
  else .fin ((nominator : ℚ) / (denominator : ℚ))

/-- The comparison `quotient > threshold` of doubles: false for NaN. -/
def CountQuotient.gt (x : CountQuotient) (threshold : ℚ) : Bool :=
  match x with
  | .nan => false
  | .posInf => true
  | .fin q => decide (q > threshold)

end mcu

namespace DenseMatrix

/-- The statement `denseMatrix[r].resize(n)`. -/
def resizeRow (M : DenseMatrix) (r n : Nat) : DenseMatrix :=
  { M with denseMatrix := M.denseMatrix.modify (fun row => vectorResize row n 0) r }

/-- The method `resizeNumRows(newNumRows)`. -/
def resizeNumRows (M : DenseMatrix) (newNumRows : Nat) : DenseMatrix :=
  if M.numRows = newNumRows then M
  else
    let oldNumRows := M.numRows
    let M : DenseMatrix :=
      { M with numRows := newNumRows, denseMatrix := vectorResize M.denseMatrix newNumRows [] }
    if oldNumRows < M.numRows then
      forLoop (M.numRows - oldNumRows) (fun i t =>
        let r := oldNumRows + i
        let t := t.resizeRow r t.numColumns
        forLoop t.numColumns (fun c t => t.setCell r c 0) t) M
    else M

/-- The method `resizeNumColumns(newNumColumns)`. -/
def resizeNumColumns (M : DenseMatrix) (newNumColumns : Nat) : DenseMatrix :=
  if M.numColumns = newNumColumns then M
  else
    let oldNumColumns := M.numColumns
    let M : DenseMatrix := { M with numColumns := newNumColumns }
    forLoop M.numRows (fun r t =>
      let t := t.resizeRow r t.numColumns
      if oldNumColumns < t.numColumns then
        forLoop (t.numColumns - oldNumColumns) (fun i t => t.setCell r (oldNumColumns + i) 0) t
      else t) M

/-- The method `resize(newNumRows, newNumColumns)`. -/
def resize (M : DenseMatrix) (newNumRows newNumColumns : Nat) : DenseMatrix :=
  (M.resizeNumRows newNumRows).resizeNumColumns newNumColumns

/-- The method `getSparsity()`: the share of the cells that are almost equal to zero. The
product `numRows * numColumns` and the counter `numZeroElements++` are `size_t` values and
wrap around modulo 2^64. -/
def getSparsity (M : DenseMatrix) : mcu.CountQuotient :=
  let numElements := (M.numRows * M.numColumns) % 2 ^ 64
  let numZeroElements := forLoop M.numRows (fun r numZeroElements =>
    forLoop M.numColumns (fun c numZeroElements =>
      if mcu.almostEqual (M.getCell r c) 0 then (numZeroElements + 1) % 2 ^ 64
      else numZeroElements)
      numZeroElements) 0
  mcu.countQuotient numZeroElements numElements

/-- The method `isSparse()`; the constant `MatrixBase::SparsityThreshold` is declared in a
header that is not among the sources and is taken as a parameter. -/
def isSparse (M : DenseMatrix) (sparsityThreshold : ℚ) : Bool :=
  M.getSparsity.gt sparsityThreshold

/-- The method `isDense()`. -/
def isDense (M : DenseMatrix) (sparsityThreshold : ℚ) : Bool := !M.isSparse sparsityThreshold

/-- The method `requiresConversion()` of the dense class: true when the matrix is not dense. -/
def requiresConversion (M : DenseMatrix) (sparsityThreshold : ℚ) : Bool :=
  !M.isDense sparsityThreshold

/-- The overload `add(const DenseMatrix& left)`: `self` is the right operand. -/
def addD (self left : DenseMatrix) : DenseMatrix :=
  let addedDense := new self.numRows self.numColumns 0
  let addedDense := fillCells left.numRows left.numColumns (fun r c => (r, c))
    (fun r c => left.getCell r c) addedDense
  forLoop self.numRows (fun r t =>
    forLoop self.numColumns (fun c t => t.setCell r c (t.getCell r c + self.getCell r c)) t)
    addedDense

/-- The overload `add(const SparseMatrix& left)`: `self` is the right operand. -/
def addS (self : DenseMatrix) (left : SparseMatrix) : DenseMatrix :=
  let addedDense := new self.numRows self.numColumns 0
  let addedDense := left.getCellDataList.foldl
    (fun t cellData => t.setCell cellData.1 cellData.2.1 cellData.2.2) addedDense
  forLoop self.numRows (fun r t =>
    forLoop self.numColumns (fun c t =>
      let rightValue := self.getCell r c
      let existingValue := t.getCell r c
      let newValue := existingValue + rightValue
      t.setCell r c newValue) t) addedDense

/-- The overload `subtract(const DenseMatrix& left)`: `self` is the right operand. -/
def subtractD (self left : DenseMatrix) : DenseMatrix :=
  let subtractedDense := new self.numRows self.numColumns 0
  let subtractedDense := fillCells left.numRows left.numColumns (fun r c => (r, c))
    (fun r c => left.getCell r c) subtractedDense
  forLoop self.numRows (fun r t =>
    forLoop self.numColumns (fun c t =>
      let rightValue := self.getCell r c
      let existingValue := t.getCell r c
      let newValue := existingValue - rightValue
      t.setCell r c newValue) t) subtractedDense

/-- The overload `subtract(const SparseMatrix& left)`: `self` is the right operand. -/
def subtractS (self : DenseMatrix) (left : SparseMatrix) : DenseMatrix :=
  let subtractedDense := new self.numRows self.numColumns 0
  let subtractedDense := left.getCellDataList.foldl
    (fun t cellData => t.setCell cellData.1 cellData.2.1 cellData.2.2) subtractedDense
  forLoop self.numRows (fun r t =>
    forLoop self.numColumns (fun c t =>
      let rightValue := self.getCell r c
      let existingValue := t.getCell r c
      let newValue := existingValue - rightValue
      t.setCell r c newValue) t) subtractedDense

/-- The triple loop that every `multiply` overload with a dense result runs: `leftCell` and
`rightCell` read the two operands. -/
def multiplyLoop (leftNumRows leftNumColumns rightNumColumns : Nat)
    (leftCell rightCell : Nat → Nat → ℚ) (denseProduct : DenseMatrix) : DenseMatrix :=
  forLoop leftNumRows (fun leftRow t =>
    forLoop leftNumColumns (fun leftCol t =>
      forLoop rightNumColumns (fun rightCol t =>
        let leftValue := leftCell leftRow leftCol
        let rightValue := rightCell leftCol rightCol
        let product := leftValue * rightValue
        let existingValue := t.getCell leftRow rightCol
        let newValue := existingValue + product
        t.setCell leftRow rightCol newValue) t) t) denseProduct

/-- The overload `multiply(const DenseMatrix& left)`: `self` is the right operand. -/
def multiplyD (self left : DenseMatrix) : DenseMatrix :=
  multiplyLoop left.getNumRows left.getNumColumns self.numColumns left.getCell self.getCell
    (new left.getNumRows self.numColumns 0)

/-- The overload `multiply(const SparseMatrix& left)`: `self` is the right operand. -/
def multiplyS (self : DenseMatrix) (left : SparseMatrix) : DenseMatrix :=
  multiplyLoop left.getNumRows left.getNumColumns self.numColumns left.getCell self.getCell
    (new left.getNumRows self.numColumns 0)

end DenseMatrix

namespace SparseMatrix

/-- The method `resizeNumRows(newNumRows)`: when the matrix shrinks, the keys of the rows
that fall away are collected and then erased. -/
def resizeNumRows (M : SparseMatrix) (newNumRows : Nat) : SparseMatrix :=
  if M.numRows = newNumRows then M
  else
    let oldNumRows := M.numRows
    let M : SparseMatrix := { M with numRows := newNumRows }
    if oldNumRows > M.numRows then
      let pairsToBeErased :=
        (M.sparseMatrix.filter (fun e => decide (e.1.1 ≥ M.numRows))).map Prod.fst
      { M with sparseMatrix := pairsToBeErased.foldl (fun m key => m.erase key) M.sparseMatrix }
    else M

/-- The method `resizeNumColumns(newNumColumns)`. -/
def resizeNumColumns (M : SparseMatrix) (newNumColumns : Nat) : SparseMatrix :=
  if M.numColumns = newNumColumns then M
  else
    let oldNumColumns := M.numColumns
    let M : SparseMatrix := { M with numColumns := newNumColumns }
    if oldNumColumns > M.numColumns then
      let pairsToBeErased :=
        (M.sparseMatrix.filter (fun e => decide (e.1.2 ≥ M.numColumns))).map Prod.fst
      { M with sparseMatrix := pairsToBeErased.foldl (fun m key => m.erase key) M.sparseMatrix }
    else M

/-- The method `resize(newNumRows, newNumColumns)`. -/
def resize (M : SparseMatrix) (newNumRows newNumColumns : Nat) : SparseMatrix :=
  (M.resizeNumRows newNumRows).resizeNumColumns newNumColumns

/-- The method `getSparsity()`: the cells without a stored entry over all cells. The product
`numRows * numColumns` and the value of `sparseMatrix.size()` are `size_t` values, taken
modulo 2^64, and their difference wraps around. -/
def getSparsity (M : SparseMatrix) : mcu.CountQuotient :=
  let numElements := (M.numRows * M.numColumns) % 2 ^ 64
  let numZeroElements := sizeSub numElements (M.sparseMatrix.size % 2 ^ 64)
  mcu.countQuotient numZeroElements numElements

/-- The method `isSparse()`; the constant `MatrixBase::SparsityThreshold` is declared in a
header that is not among the sources and is taken as a parameter. -/
def isSparse (M : SparseMatrix) (sparsityThreshold : ℚ) : Bool :=
  M.getSparsity.gt sparsityThreshold

/-- The method `isDense()`. -/
def isDense (M : SparseMatrix) (sparsityThreshold : ℚ) : Bool := !M.isSparse sparsityThreshold

/-- The method `requiresConversion()` of the sparse class: true when the matrix is not
sparse. -/
def requiresConversion (M : SparseMatrix) (sparsityThreshold : ℚ) : Bool :=
  !M.isSparse sparsityThreshold

/-- The overload `add(const DenseMatrix& left)`: `self` is the right operand. -/
def addD (self : SparseMatrix) (left : DenseMatrix) : DenseMatrix :=
  let addedDense := DenseMatrix.new self.numRows self.numColumns 0
  let addedDense := DenseMatrix.fillCells left.getNumRows left.getNumColumns (fun r c => (r, c))
    (fun r c => left.getCell r c) addedDense
  self.getCellDataList.foldl (fun t cellData =>
    let row := cellData.1
    let column := cellData.2.1
    let value := cellData.2.2
    let existingValue := t.getCell row column
    let newValue := existingValue + value
    t.setCell row column newValue) addedDense

/-- The overload `add(const SparseMatrix& left)`: `self` is the right operand. -/
def addS (self left : SparseMatrix) : SparseMatrix :=
  let addedSparse := new self.numRows self.numColumns
  let addedSparse := left.getCellDataList.foldl
    (fun t cellData => t.setCell cellData.1 cellData.2.1 cellData.2.2) addedSparse
  self.getCellDataList.foldl (fun t cellData =>
    let row := cellData.1
    let column := cellData.2.1
    let value := cellData.2.2
    let existingValue := t.getCell row column
    let newValue := existingValue + value
    t.setCell row column newValue) addedSparse

/-- The overload `subtract(const DenseMatrix& left)`: `self` is the right operand. -/
def subtractD (self : SparseMatrix) (left : DenseMatrix) : DenseMatrix :=
  let subtractedDense := DenseMatrix.new self.numRows self.numColumns 0
  let subtractedDense := DenseMatrix.fillCells left.getNumRows left.getNumColumns
    (fun r c => (r, c)) (fun r c => left.getCell r c) subtractedDense
  self.getCellDataList.foldl (fun t cellData =>
    let row := cellData.1
    let column := cellData.2.1
    let value := cellData.2.2
    let existingValue := t.getCell row column
    let newValue := existingValue - value
    t.setCell row column newValue) subtractedDense

/-- The overload `subtract(const SparseMatrix& left)`: `self` is the right operand. -/
def subtractS (self left : SparseMatrix) : SparseMatrix :=
  let subtractedSparse := new self.numRows self.numColumns
  let subtractedSparse := left.getCellDataList.foldl
    (fun t cellData => t.setCell cellData.1 cellData.2.1 cellData.2.2) subtractedSparse
  self.getCellDataList.foldl (fun t cellData =>
    let row := cellData.1
    let column := cellData.2.1
    let value := cellData.2.2
    let existingValue := t.getCell row column
    let newValue := existingValue - value
    t.setCell row column newValue) subtractedSparse

/-- The overload `multiply(const DenseMatrix& left)`: `self` is the right operand. -/
def multiplyD (self : SparseMatrix) (left : DenseMatrix) : DenseMatrix :=
  DenseMatrix.multiplyLoop left.getNumRows left.getNumColumns self.numColumns left.getCell
    self.getCell (DenseMatrix.new left.getNumRows self.numColumns 0)

/-- The overload `multiply(const SparseMatrix& left)`: `self` is the right operand; the
triple loop of the dense overloads on a sparse result. -/
def multiplyS (self left : SparseMatrix) : SparseMatrix :=
  forLoop left.getNumRows (fun leftRow t =>
    forLoop left.getNumColumns (fun leftCol t =>
      forLoop self.numColumns (fun rightCol t =>
        let leftValue := left.getCell leftRow leftCol
        let rightValue := self.getCell leftCol rightCol
        let product := leftValue * rightValue
        let existingValue := t.getCell leftRow rightCol
        let newValue := existingValue + product
        t.setCell leftRow rightCol newValue) t) t) (new left.getNumRows self.numColumns)

/-- The method `splitByColumn(leftNewNumColumns, returnLeftMatrix)`. -/
def splitByColumn (M : SparseMatrix) (leftNewNumColumns : Nat) (returnLeftMatrix : Bool) :
    SparseMatrix :=
  let totalNumColumns := M.numColumns
  let rightNewNumColumns := sizeSub totalNumColumns leftNewNumColumns
  let splitMatrixNumColumns := if returnLeftMatrix then leftNewNumColumns else rightNewNumColumns
  let columnOffset := if returnLeftMatrix then 0 else leftNewNumColumns
  let splitMatrixColumnBeginIndex := if returnLeftMatrix then 0 else leftNewNumColumns
  let splitMatrixColumnEndIndex :=
    if returnLeftMatrix then sizeSub leftNewNumColumns 1 else sizeSub totalNumColumns 1
  forEachCell M.sparseMatrix (fun row column value split =>
    if splitMatrixColumnBeginIndex ≤ column ∧ column ≤ splitMatrixColumnEndIndex then
      let newColumnIndex :=
        if returnLeftMatrix then column + columnOffset else column - columnOffset
      split.setCell row newColumnIndex value
    else split) (new M.numRows splitMatrixNumColumns)

/-- The method `splitByRow(topNewNumRows, returnTopMatrix)`. -/
def splitByRow (M : SparseMatrix) (topNewNumRows : Nat) (returnTopMatrix : Bool) :
    SparseMatrix :=
  let totalNumRows := M.numRows
  let bottomNewNumRows := sizeSub totalNumRows topNewNumRows
  let splitMatrixNumRows := if returnTopMatrix then topNewNumRows else bottomNewNumRows
  let rowOffset := if returnTopMatrix then 0 else topNewNumRows
  let splitMatrixRowBeginIndex := if returnTopMatrix then 0 else topNewNumRows
  let splitMatrixRowEndIndex :=
    if returnTopMatrix then sizeSub topNewNumRows 1 else sizeSub totalNumRows 1
  forEachCell M.sparseMatrix (fun row column value split =>
    if splitMatrixRowBeginIndex ≤ row ∧ row ≤ splitMatrixRowEndIndex then
      let newRowIndex := if returnTopMatrix then row + rowOffset else row - rowOffset
      split.setCell newRowIndex column value
    else split) (new splitMatrixNumRows M.numColumns)

end SparseMatrix

namespace MatrixBase

def resizeNumRows : MatrixBase → Nat → MatrixBase
  | .dense m, newNumRows => .dense (m.resizeNumRows newNumRows)
  | .sparse m, newNumRows => .sparse (m.resizeNumRows newNumRows)

def resizeNumColumns : MatrixBase → Nat → MatrixBase
  | .dense m, newNumColumns => .dense (m.resizeNumColumns newNumColumns)
  | .sparse m, newNumColumns => .sparse (m.resizeNumColumns newNumColumns)

def transpose : MatrixBase → MatrixBase
  | .dense m => .dense m.transpose
  | .sparse m => .sparse m.transpose

def scale : MatrixBase → ℚ → MatrixBase
  | .dense m, scalar => .dense (m.scale scalar)
  | .sparse m, scalar => .sparse (m.scale scalar)

def getSparsity : MatrixBase → mcu.CountQuotient
  | .dense m => m.getSparsity
  | .sparse m => m.getSparsity

def isSparse : MatrixBase → ℚ → Bool
  | .dense m, sparsityThreshold => m.isSparse sparsityThreshold
  | .sparse m, sparsityThreshold => m.isSparse sparsityThreshold

def isDense : MatrixBase → ℚ → Bool
  | .dense m, sparsityThreshold => m.isDense sparsityThreshold
  | .sparse m, sparsityThreshold => m.isDense sparsityThreshold

def requiresConversion : MatrixBase → ℚ → Bool
  | .dense m, sparsityThreshold => m.requiresConversion sparsityThreshold
  | .sparse m, sparsityThreshold => m.requiresConversion sparsityThreshold

/-- The virtual `getConvertedCopy()`: a dense matrix returns `cloneAsSparseMatrix()`, a
sparse matrix returns `cloneAsDenseMatrix()`. -/
def getConvertedCopy : MatrixBase → MatrixBase
  | .dense m => .sparse m.cloneAsSparseMatrix
  | .sparse m => .dense m.cloneAsDenseMatrix

/-- The virtual `add(const MatrixBase& right)`: it calls `right.add(*this)`, which selects the
overload of the class of `right` for the class of the receiver. -/
def add : MatrixBase → MatrixBase → MatrixBase
  | .dense left, .dense right => .dense (right.addD left)
  | .sparse left, .dense right => .dense (right.addS left)
  | .dense left, .sparse right => .dense (right.addD left)
  | .sparse left, .sparse right => .sparse (right.addS left)

/-- The virtual `subtract(const MatrixBase& right)`. -/
def subtract : MatrixBase → MatrixBase → MatrixBase
  | .dense left, .dense right => .dense (right.subtractD left)
  | .sparse left, .dense right => .dense (right.subtractS left)
  | .dense left, .sparse right => .dense (right.subtractD left)
  | .sparse left, .sparse right => .sparse (right.subtractS left)

/-- The virtual `multiply(const MatrixBase& right)`. -/
def multiply : MatrixBase → MatrixBase → MatrixBase
  | .dense left, .dense right => .dense (right.multiplyD left)
  | .sparse left, .dense right => .dense (right.multiplyS left)
  | .dense left, .sparse right => .dense (right.multiplyD left)
  | .sparse left, .sparse right => .sparse (right.multiplyS left)

/-- The virtual `mergeByColumns(const MatrixBase& right)`. -/
def mergeByColumns : MatrixBase → MatrixBase → MatrixBase
  | .dense left, .dense right => .dense (right.mergeByColumnsD left)
  | .sparse left, .dense right => .dense (right.mergeByColumnsS left)
  | .dense left, .sparse right => .dense (right.mergeByColumnsD left)
  | .sparse left, .sparse right => .sparse (right.mergeByColumnsS left)

/-- The virtual `mergeByRows(const MatrixBase& right)`. -/
def mergeByRows : MatrixBase → MatrixBase → MatrixBase
  | .dense left, .dense right => .dense (right.mergeByRowsD left)
  | .sparse left, .dense right => .dense (right.mergeByRowsS left)
  | .dense left, .sparse right => .dense (right.mergeByRowsD left)
  | .sparse left, .sparse right => .sparse (right.mergeByRowsS left)

def splitByColumn : MatrixBase → Nat → Bool → MatrixBase
  | .dense m, leftNewNumColumns, returnLeftMatrix =>
    .dense (m.splitByColumn leftNewNumColumns returnLeftMatrix)
  | .sparse m, leftNewNumColumns, returnLeftMatrix =>
    .sparse (m.splitByColumn leftNewNumColumns returnLeftMatrix)

def splitByRow : MatrixBase → Nat → Bool → MatrixBase
  | .dense m, topNewNumRows, returnTopMatrix =>
    .dense (m.splitByRow topNewNumRows returnTopMatrix)
  | .sparse m, topNewNumRows, returnTopMatrix =>
    .sparse (m.splitByRow topNewNumRows returnTopMatrix)

/-- The class that holds the values: true for `DenseMatrix`. -/
def isDenseBacked : MatrixBase → Bool
  | .dense _ => true
  | .sparse _ => false

end MatrixBase

namespace Matrix

/-- The operator `operator+`: the invalid matrix when an operand is invalid. -/
def operatorAdd (self right : Matrix) : Matrix :=
  match self.matrixPtr, right.matrixPtr with
  | some l, some r => ⟨some (l.add r)⟩
  | _, _ => invalid

/-- The operator `operator-`. -/
def operatorSub (self right : Matrix) : Matrix :=
  match self.matrixPtr, right.matrixPtr with
  | some l, some r => ⟨some (l.subtract r)⟩
  | _, _ => invalid

/-- The operator `operator*(const Matrix& right)`. -/
def operatorMul (self right : Matrix) : Matrix :=
  match self.matrixPtr, right.matrixPtr with
  | some l, some r => ⟨some (l.multiply r)⟩
  | _, _ => invalid

/-- The operator `operator*(double scalar)`: a copy of the matrix, scaled. -/
def operatorMulScalar (self : Matrix) (scalar : ℚ) : Matrix :=
  match self.matrixPtr with
  | none => invalid
  | some m => ⟨some (m.clone.scale scalar)⟩

/-- The friend `operator*(double scalar, const Matrix& right)`. -/
def scalarMul (scalar : ℚ) (right : Matrix) : Matrix :=
  match right.matrixPtr with
  | none => invalid
  | some m => ⟨some (m.clone.scale scalar)⟩

def resizeNumRows (M : Matrix) (newNumRows : Nat) : Matrix :=
  match M.matrixPtr with
  | some m => ⟨some (m.resizeNumRows newNumRows)⟩
  | none => M

def resizeNumColumns (M : Matrix) (newNumColumns : Nat) : Matrix :=
  match M.matrixPtr with
  | some m => ⟨some (m.resizeNumColumns newNumColumns)⟩
  | none => M

/-- The method `resize(newNumRows, newNumColumns)`. -/
def resize (M : Matrix) (newNumRows newNumColumns : Nat) : Matrix :=
  (M.resizeNumRows newNumRows).resizeNumColumns newNumColumns

def transpose (M : Matrix) : Matrix :=
  match M.matrixPtr with
  | some m => ⟨some m.transpose⟩
  | none => M

/-- The method `isSparse()`: false for the invalid matrix. -/
def isSparse (M : Matrix) (sparsityThreshold : ℚ) : Bool :=
  match M.matrixPtr with
  | some m => m.isSparse sparsityThreshold
  | none => false

/-- The method `isDense()`: false for the invalid matrix. -/
def isDense (M : Matrix) (sparsityThreshold : ℚ) : Bool :=
  match M.matrixPtr with
  | some m => m.isDense sparsityThreshold
  | none => false

/-- The method `requiresConversion()`: false for the invalid matrix. -/
def requiresConversion (M : Matrix) (sparsityThreshold : ℚ) : Bool :=
  match M.matrixPtr with
  | none => false
  | some m => m.requiresConversion sparsityThreshold

/-- The method `convertToAppropriateMatrixType()`: the resource is replaced by its converted
copy. -/
def convertToAppropriateMatrixType (M : Matrix) : Matrix :=
  match M.matrixPtr with
  | none => M
  | some oldPtr => ⟨some oldPtr.getConvertedCopy⟩

def mergeByColumns (self right : Matrix) : Matrix :=
  match self.matrixPtr, right.matrixPtr with
  | some l, some r => ⟨some (l.mergeByColumns r)⟩
  | _, _ => invalid

def mergeByRows (self right : Matrix) : Matrix :=
  match self.matrixPtr, right.matrixPtr with
  | some l, some r => ⟨some (l.mergeByRows r)⟩
  | _, _ => invalid

def splitByColumn (M : Matrix) (leftNewNumColumns : Nat) (returnLeftMatrix : Bool) : Matrix :=
  match M.matrixPtr with
  | none => invalid
  | some m => ⟨some (m.splitByColumn leftNewNumColumns returnLeftMatrix)⟩

def splitByRow (M : Matrix) (topNewNumRows : Nat) (returnTopMatrix : Bool) : Matrix :=
  match M.matrixPtr with
  | none => invalid
  | some m => ⟨some (m.splitByRow topNewNumRows returnTopMatrix)⟩

/-- The handle is dense-backed: it is valid and its resource is a `DenseMatrix`. -/
def isDenseBacked (M : Matrix) : Bool :=
  match M.matrixPtr with
  | some m => m.isDenseBacked
  | none => false

/-- The handle is sparse-backed: it is valid and its resource is a `SparseMatrix`. -/
def isSparseBacked (M : Matrix) : Bool :=
  match M.matrixPtr with
  | some m => !m.isDenseBacked
  | none => false

end Matrix

/-- The augmented matrix that a non-verbose `solveFor` reads the solution from: the merged
matrix after the forward and the backward phase.  The sparse class runs the dense method on
its dense clone. -/
def MatrixBase.eliminated : MatrixBase → MatrixBase → DenseMatrix
  | .dense m, augmentedColumn => (m.solveEliminate augmentedColumn false 0).augmentedMatrix
  | .sparse m, augmentedColumn =>
    (m.cloneAsDenseMatrix.solveEliminate augmentedColumn false 0).augmentedMatrix

namespace ieee

/-- A value of the type `double` with its infinities and NaN.  A finite value is an exact
rational: rounding inside the finite range is not modelled, overflow is. -/
inductive Value where
  | nan : Value
  | posInf : Value
  | negInf : Value
  | fin (q : ℚ) : Value
  deriving DecidableEq, Repr

/-- The bound from which on an exact result is rounded to an infinity (round to nearest):
`DBL_MAX` plus half a unit in the last place, 2^1024 - 2^970. -/
def overflowBound : ℚ := 2 ^ 1024 - 2 ^ 970

/-- The double that an arithmetic operation returns when its exact result is `q`. -/
def ofExact (q : ℚ) : Value :=
  if overflowBound ≤ q then .posInf else if q ≤ -overflowBound then .negInf else .fin q

namespace Value

/-- The test `std::isnan(x)`. -/
def isnan : Value → Bool
  | .nan => true
  | _ => false

/-- The negation `-x`. -/
def neg : Value → Value
  | .nan => .nan
  | .posInf => .negInf
  | .negInf => .posInf
  | .fin q => .fin (-q)

/-- The sum `x + y`: an infinity plus the opposite infinity is NaN. -/
def add : Value → Value → Value
  | .nan, _ => .nan
  | _, .nan => .nan
  | .posInf, .negInf => .nan
  | .negInf, .posInf => .nan
  | .posInf, _ => .posInf
  | .negInf, _ => .negInf
  | .fin _, .posInf => .posInf
  | .fin _, .negInf => .negInf
  | .fin a, .fin b => ofExact (a + b)

/-- The difference `x - y`: an infinity minus itself is NaN. -/
def sub (x y : Value) : Value := x.add y.neg

/-- The product of an infinity (`positive` tells its sign) and the finite value `q`: NaN
when `q` is 0. -/
def mulInf (positive : Bool) (q : ℚ) : Value :=
  if q = 0 then .nan else if decide (0 < q) = positive then .posInf else .negInf

/-- The product `x * y`. -/
def mul : Value → Value → Value
  | .nan, _ => .nan
  | _, .nan => .nan
  | .posInf, .posInf => .posInf
  | .posInf, .negInf => .negInf
  | .negInf, .posInf => .negInf
  | .negInf, .negInf => .posInf
  | .posInf, .fin b => mulInf true b
  | .negInf, .fin b => mulInf false b
  | .fin a, .posInf => mulInf true a
  | .fin a, .negInf => mulInf false a
  | .fin a, .fin b => ofExact (a * b)

/-- The function `std::abs(x)`. -/
def abs : Value → Value
  | .nan => .nan
  | .posInf => .posInf
  | .negInf => .posInf
  | .fin q => .fin |q|

/-- The comparison `x < y`: false when an operand is NaN. -/
def lt : Value → Value → Bool
  | .nan, _ => false
  | _, .nan => false
  | .posInf, _ => false
  | .negInf, .negInf => false
  | .negInf, _ => true
  | .fin _, .posInf => true
  | .fin _, .negInf => false
  | .fin a, .fin b => decide (a < b)

/-- The comparison `x <= y`: false when an operand is NaN. -/
def le : Value → Value → Bool
  | .nan, _ => false
  | _, .nan => false
  | .negInf, _ => true
  | .posInf, .posInf => true
  | .posInf, _ => false
  | .fin _, .posInf => true
  | .fin _, .negInf => false
  | .fin a, .fin b => decide (a ≤ b)

/-- The function `std::max(a, b)`, which returns `(a < b) ? b : a`. -/
def max (a b : Value) : Value := if a.lt b then b else a

end Value

/-- The constant `mcu::EPSILON`. -/
def EPSILON : Value := .fin mcu.EPSILON

/-- The function `mcu::doubleAlmostEqual(left, right, epsilon)` on doubles with
infinities. -/
def doubleAlmostEqual (left right epsilon : Value) : Bool :=
  if epsilon.isnan then false
  else if left.isnan && right.isnan then true
  else if left.isnan || right.isnan then false
  else
    let absoluteTolerance := epsilon
    let relativeTolerance := epsilon.mul (Value.max left right)
    let absDiff := (left.sub right).abs
    if absDiff.le absoluteTolerance || absDiff.le relativeTolerance then true else false

/-- The class `DenseMatrix` with cells that may overflow to an infinity. -/
structure DenseMatrix where
  numRows : Nat
  numColumns : Nat
  denseMatrix : List (List Value)
  deriving DecidableEq, Repr

namespace DenseMatrix

/-- The constructor `DenseMatrix(numRows, numColumns, initialValues)`. -/
def new (numRows numColumns : Nat) (initialValues : Value) : DenseMatrix :=
  ⟨numRows, numColumns, List.replicate numRows (List.replicate numColumns initialValues)⟩

/-- The accessor `getCell(row, column)`: `denseMatrix[row][column]`. -/
def getCell (M : DenseMatrix) (row column : Nat) : Value :=
  (M.denseMatrix.getD row []).getD column (.fin 0)

/-- The mutator `setCell(row, column, value)`: `denseMatrix[row][column] = value`. -/
def setCell (M : DenseMatrix) (row column : Nat) (value : Value) : DenseMatrix :=
  { M with denseMatrix := M.denseMatrix.modify (fun r => r.set column value) row }

/-- The method `clone()`. -/
def clone (M : DenseMatrix) : DenseMatrix :=
  forLoop M.numRows (fun r t =>
    forLoop M.numColumns (fun c t => t.setCell r c (M.getCell r c)) t)
    (new M.numRows M.numColumns (.fin 0))

/-- The method `scale(scalar)`: `denseMatrix[r][c] *= scalar` for every cell. -/
def scale (M : DenseMatrix) (scalar : Value) : DenseMatrix :=
  forLoop M.numRows (fun r t =>
    forLoop M.numColumns (fun c t => t.setCell r c ((t.getCell r c).mul scalar)) t) M

/-- The overload `equal(const DenseMatrix& left)`. -/
def equalD (self left : DenseMatrix) : Bool :=
  if left.numRows ≠ self.numRows ∨ left.numColumns ≠ self.numColumns then false
  else
    (List.range self.numRows).all fun r =>
      (List.range self.numColumns).all fun c =>
        doubleAlmostEqual (left.getCell r c) (self.getCell r c) EPSILON

/-- The overload `add(const DenseMatrix& left)`: `self` is the right operand. -/
def addD (self left : DenseMatrix) : DenseMatrix :=
  let addedDense := new self.numRows self.numColumns (.fin 0)
  let addedDense := forLoop left.numRows (fun r t =>
    forLoop left.numColumns (fun c t => t.setCell r c (left.getCell r c)) t) addedDense
  forLoop self.numRows (fun r t =>
    forLoop self.numColumns (fun c t =>
      t.setCell r c ((t.getCell r c).add (self.getCell r c))) t) addedDense

/-- The overload `subtract(const DenseMatrix& left)`: `self` is the right operand. -/
def subtractD (self left : DenseMatrix) : DenseMatrix :=
  let subtractedDense := new self.numRows self.numColumns (.fin 0)
  let subtractedDense := forLoop left.numRows (fun r t =>
    forLoop left.numColumns (fun c t => t.setCell r c (left.getCell r c)) t) subtractedDense
  forLoop self.numRows (fun r t =>
    forLoop self.numColumns (fun c t =>
      let rightValue := self.getCell r c
      let existingValue := t.getCell r c
      let newValue := existingValue.sub rightValue
      t.setCell r c newValue) t) subtractedDense

end DenseMatrix

/-- The operator `Matrix::operator+` on two dense-backed matrices: `matrixPtr->add(right)`,
which the double dispatch resolves to `right.add(const DenseMatrix& left)` with the receiver
as `left`. -/
def operatorAdd (self right : DenseMatrix) : DenseMatrix := right.addD self

/-- The operator `Matrix::operator-` on two dense-backed matrices. -/
def operatorSub (self right : DenseMatrix) : DenseMatrix := right.subtractD self

/-- The operator `Matrix::operator==` on two dense-backed matrices: `matrixPtr->equal(right)`,
resolved to `right.equal(const DenseMatrix& left)` with the receiver as `left`. -/
def operatorEq (self right : DenseMatrix) : Bool := right.equalD self

/-- The friend `operator*(double scalar, const Matrix& right)` on a dense-backed matrix: a
copy of the matrix, scaled. -/
def scalarMul (scalar : Value) (right : DenseMatrix) : DenseMatrix := right.clone.scale scalar

end ieee

/-- The invariant of the sparse class: no stored value is almost equal to zero. -/
def SparseMatrix.NoZeroEntry (S : SparseMatrix) : Prop :=
  ∀ e ∈ S.sparseMatrix, mcu.almostEqual e.2 0 = false

/-- The number of cells within tolerance of zero among the cells (r, c) with r < R and
c < C of a cell reader. -/
def zeroCellCount (cell : Nat → Nat → ℚ) (R C : Nat) : Nat :=
  ((Finset.range R ×ˢ Finset.range C).filter
    (fun p => mcu.almostEqual (cell p.1 p.2) 0 = true)).card

/-- The state of the forward phase of `getRank()` after the first `k` columns: the clone and
the leading-entry row. -/
def DenseMatrix.rankStage (M : DenseMatrix) (k : Nat) : DenseMatrix × Nat :=
  forLoop k (fun c (st : DenseMatrix × Nat) =>
    match st.1.forwardColumn c st.2 M.cloneAsDenseMatrix.getNumRows
      M.cloneAsDenseMatrix.getNumColumns with
    | none => st
    | some reduced => (reduced, st.2 + 1)) (M.cloneAsDenseMatrix, 0)

/-- Every cell that the forward phase of `getRank()` goes through is classified by the
tolerance test as its exact value is: after each number of columns, each cell of the clone
is exactly zero or not almost equal to zero. -/
def DenseMatrix.RankCrisp (M : DenseMatrix) : Prop :=
  ∀ k, k ≤ M.numColumns → ∀ i, i < M.numRows → ∀ j, j < M.numColumns →
    mcu.Crisp ((M.rankStage k).1.getCell i j)

/-- The same condition for either class; the sparse class runs `getRank()` on its dense
clone. -/
def MatrixBase.RankCrisp : MatrixBase → Prop
  | .dense m => m.RankCrisp
  | .sparse m => m.cloneAsDenseMatrix.RankCrisp

/-- The row `i` of a dense matrix as a vector of its first `C` cells. -/
def DenseMatrix.rowVec (t : DenseMatrix) (C : Nat) (i : Nat) : Fin C → ℚ :=
  fun j => t.getCell i j.val

/-- What the forward phase of `getRank()` keeps true after `k` columns: the rows span the
row space of the matrix, the rows from the leading-entry row on are zero in the first `k`
columns, and the rows above it form a row echelon form. -/
structure DenseMatrix.RankInv (M : DenseMatrix) (k : Nat) (st : DenseMatrix × Nat) : Prop where
  wf : st.1.WF
  rows : st.1.numRows = M.numRows
  cols : st.1.numColumns = M.numColumns
  span : Submodule.span ℚ (Set.range (fun i : Fin M.numRows => st.1.rowVec M.numColumns i))
    = Submodule.span ℚ (Set.range (fun i : Fin M.numRows => M.rowVec M.numColumns i))
  lead_le : st.2 ≤ M.numRows
  below : ∀ i j, st.2 ≤ i → i < M.numRows → j < k → j < M.numColumns → st.1.getCell i j = 0
  echelon : ∃ piv : Nat → Nat,
    (∀ i, i < st.2 → piv i < k ∧ piv i < M.numColumns ∧ st.1.getCell i (piv i) ≠ 0 ∧
      ∀ j, j < piv i → st.1.getCell i j = 0) ∧
    (∀ i i1, i < i1 → i1 < st.2 → piv i < piv i1)

instance DenseMatrix.instDecidableRankCrisp (M : DenseMatrix) : Decidable M.RankCrisp := by
  unfold DenseMatrix.RankCrisp
  infer_instance

instance MatrixBase.instDecidableRankCrisp (m : MatrixBase) : Decidable m.RankCrisp := by
  cases m with
  | dense d => exact DenseMatrix.instDecidableRankCrisp d
  | sparse s => exact DenseMatrix.instDecidableRankCrisp s.cloneAsDenseMatrix

namespace SparseMatrix

/-- The column widths of `getColumnAlignmentMapForPrinting()`: for every column the largest
number of integer-part digits. -/
def getColumnAlignmentMapForPrinting (M : SparseMatrix) : Nat → Nat :=
  fun column =>
    forLoop M.getNumRows (fun r maxDigits =>
      let value := M.getCell r column
      let value := if mcu.almostEqual value 0 then 0 else value
      let numDigits := mcu.getNumDigitsOfIntegerPart value true
      if numDigits > maxDigits then numDigits else maxDigits) 0

/-- The method `getPrintStr(precision)`. -/
def getPrintStr (M : SparseMatrix) (precision : Nat) : String :=
  let map_colIndex_maxDigits := M.getColumnAlignmentMapForPrinting
  forLoop M.getNumRows (fun r sst =>
    forLoop M.getNumColumns (fun c sst =>
      let sst := if c ≠ 0 then sst ++ " " else sst
      let value := M.getCell r c
      let value := if mcu.almostEqual value 0 then 0 else value
      let intPartLength := mcu.getNumDigitsOfIntegerPart value true
      let maxIntPartLength := map_colIndex_maxDigits c
      let sst := forLoop (maxIntPartLength - intPartLength) (fun _ sst => sst ++ " ") sst
      let sst := sst ++ mcu.formatFixed precision value
      if c ≠ M.getNumColumns - 1 then sst ++ "," else sst) sst ++ "\n") ""

end SparseMatrix

namespace MatrixBase

/-- The virtual `getSubMatrix(subRowBeginIndex, subNumRows, subColumnBeginIndex,
subNumColumns)`; `none` is the null pointer. -/
def getSubMatrixRect : MatrixBase → Nat → Nat → Nat → Nat → Option MatrixBase
  | .dense m, subRowBeginIndex, subNumRows, subColumnBeginIndex, subNumColumns =>
    (m.getSubMatrixRect subRowBeginIndex subNumRows subColumnBeginIndex subNumColumns).map
      MatrixBase.dense
  | .sparse m, subRowBeginIndex, subNumRows, subColumnBeginIndex, subNumColumns =>
    (m.getSubMatrixRect subRowBeginIndex subNumRows subColumnBeginIndex subNumColumns).map
      MatrixBase.sparse

/-- The virtual `getSubMatrix(ignoredRowIndex, ignoredColumnIndex)`; `none` is the null
pointer. -/
def getSubMatrix : MatrixBase → Nat → Nat → Option MatrixBase
  | .dense m, ignoredRowIndex, ignoredColumnIndex =>
    (m.getSubMatrix ignoredRowIndex ignoredColumnIndex).map MatrixBase.dense
  | .sparse m, ignoredRowIndex, ignoredColumnIndex =>
    (m.getSubMatrix ignoredRowIndex ignoredColumnIndex).map MatrixBase.sparse

/-- The virtual `getMinorMatrix()`; `none` is a run that dereferences a null pointer. -/
def getMinorMatrix : MatrixBase → Option MatrixBase
  | .dense m => m.getMinorMatrix.map MatrixBase.dense
  | .sparse m => m.getMinorMatrix.map MatrixBase.sparse

def getPrintStr : MatrixBase → Nat → String
  | .dense m, precision => m.getPrintStr precision
  | .sparse m, precision => m.getPrintStr precision

end MatrixBase

namespace Matrix

/-- The method `getSubMatrix(subRowBeginIndex, subNumRows, subColumnBeginIndex,
subNumColumns)`: the invalid matrix when the resource returns the null pointer. -/
def getSubMatrixRect (M : Matrix) (subRowBeginIndex subNumRows subColumnBeginIndex
    subNumColumns : Nat) : Matrix :=
  match M.matrixPtr with
  | none => invalid
  | some m => ⟨m.getSubMatrixRect subRowBeginIndex subNumRows subColumnBeginIndex subNumColumns⟩

/-- The method `getSubMatrix(ignoredRowIndex, ignoredColumnIndex)`. -/
def getSubMatrix (M : Matrix) (ignoredRowIndex ignoredColumnIndex : Nat) : Matrix :=
  match M.matrixPtr with
  | none => invalid
  | some m => ⟨m.getSubMatrix ignoredRowIndex ignoredColumnIndex⟩

/-- The method `getMinorMatrix()`; `none` is a run that dereferences a null pointer. -/
def getMinorMatrix (M : Matrix) : Option Matrix :=
  match M.matrixPtr with
  | none => some invalid
  | some m => m.getMinorMatrix.map (fun minor => ⟨some minor⟩)

/-- The method `getPrintStr(precision)`: the empty string for the invalid matrix. -/
def getPrintStr (M : Matrix) (precision : Nat) : String :=
  match M.matrixPtr with
  | none => ""
  | some m => m.getPrintStr precision

end Matrix

/-- The width that the print layout gives to the integer part (sign included) of column `c`:
the largest number of integer-part digits among the shown values of the column, a value
within tolerance of zero being shown as zero. -/
def printWidth (cell : Nat → Nat → ℚ) (R c : Nat) : Nat :=
  ((List.range R).map fun r =>
    mcu.getNumDigitsOfIntegerPart (mcu.flush (cell r c)) true).foldl max 0

/-- The text of the cell (r, c) in the print layout: the shown value in fixed notation,
padded with spaces on the left by the number of integer-part digits that it lacks to reach
the width of its column. -/
def printCellText (cell : Nat → Nat → ℚ) (R precision r c : Nat) : String :=
  String.mk (List.replicate
    (printWidth cell R c - mcu.getNumDigitsOfIntegerPart (mcu.flush (cell r c)) true)
    (Char.ofNat 32)) ++ mcu.formatFixed precision (mcu.flush (cell r c))

/-- The print layout of an R×C table of cells: one line per row, ended by a newline, the
cell texts of a row separated by a comma and a space. -/
def printLayout (cell : Nat → Nat → ℚ) (R C precision : Nat) : String :=
  String.join ((List.range R).map fun r =>
    ", ".intercalate ((List.range C).map fun c => printCellText cell R precision r c) ++ "\n")

/-- The virtual `applyCheckerboardPattern()`. -/
def MatrixBase.applyCheckerboardPattern : MatrixBase → MatrixBase
  | .dense m => .dense m.applyCheckerboardPattern
  | .sparse m => .sparse m.applyCheckerboardPattern

/-- The method `applyCheckerboardPattern()` of the handle: nothing happens on the invalid
matrix. -/
def Matrix.applyCheckerboardPattern (M : Matrix) : Matrix :=
  match M.matrixPtr with
  | some m => ⟨some m.applyCheckerboardPattern⟩
  | none => M

/-- The value that a cell of a sparse matrix holds after the first `n` rounds of a loop that
adds `f 0`, `f 1`, ... to it through `setCell`: every partial sum within tolerance of 0 is
stored as 0. -/
def flushedSum (f : Nat → ℚ) : Nat → ℚ
  | 0 => 0
  | n + 1 => mcu.flush (flushedSum f n + f n)

end MatrixCalculator

/-! ## Theorems -/

namespace MatrixCalculator

theorem forLoop_zero {σ : Type} (body : Nat → σ → σ) (s : σ) : forLoop 0 body s = s := rfl

theorem forLoop_succ {σ : Type} (n : Nat) (body : Nat → σ → σ) (s : σ) :
    forLoop (n + 1) body s = body n (forLoop n body s) := rfl

/-- A property kept by every round of a loop holds after the loop. -/
theorem forLoop_invariant {σ : Type} (P : σ → Prop) (n : Nat) (body : Nat → σ → σ) (s : σ)
    (h0 : P s) (hstep : ∀ i t, i < n → P t → P (body i t)) : P (forLoop n body s) := by
  induction n with
  | zero => exact h0
  | succ k ih =>
    rw [forLoop_succ]
    exact hstep k _ (Nat.lt_succ_self k) (ih (fun i t hi ht => hstep i t (Nat.lt_succ_of_lt hi) ht))

namespace DenseMatrix

@[simp] theorem numRows_setCell (M : DenseMatrix) (r c : Nat) (v : ℚ) :
    (M.setCell r c v).numRows = M.numRows := rfl

@[simp] theorem numColumns_setCell (M : DenseMatrix) (r c : Nat) (v : ℚ) :
    (M.setCell r c v).numColumns = M.numColumns := rfl

theorem getD_modify_set (l : List (List ℚ)) (r c i : Nat) (v : ℚ) :
    (l.modify (fun row => row.set c v) r).getD i [] =
      if i = r then (l.getD i []).set c v else l.getD i [] := by
  induction l generalizing r i with
  | nil => cases r <;> simp [List.modify]
  | cons x xs ih =>
    cases r with
    | zero =>
      cases i with
      | zero => simp [List.modify]
      | succ i => simp [List.modify]
    | succ r =>
      cases i with
      | zero => simp [List.modify]
      | succ i => simpa [List.modify] using ih r i

theorem getCell_setCell_ne (M : DenseMatrix) (r c i j : Nat) (v : ℚ) (h : ¬ (i = r ∧ j = c)) :
    (M.setCell r c v).getCell i j = M.getCell i j := by
  unfold getCell setCell
  simp only [getD_modify_set]
  by_cases hi : i = r
  · subst hi
    have hj : j ≠ c := fun hj => h ⟨rfl, hj⟩
    simp only [if_true]
    simp [List.getD_eq_getElem?_getD, List.getElem?_set, Ne.symm hj]
  · simp [hi]

theorem WF_setCell {M : DenseMatrix} (h : M.WF) (r c : Nat) (v : ℚ) : (M.setCell r c v).WF := by
  obtain ⟨h1, h2⟩ := h
  refine ⟨?_, ?_⟩
  · simp [setCell, h1]
  · intro i hi
    simp only [setCell, getD_modify_set]
    have := h2 i hi
    split
    · simpa using this
    · exact this

theorem getCell_setCell_eq {M : DenseMatrix} (h : M.WF) (r c : Nat) (v : ℚ)
    (hr : r < M.numRows) (hc : c < M.numColumns) : (M.setCell r c v).getCell r c = v := by
  obtain ⟨h1, h2⟩ := h
  unfold getCell setCell
  simp only [getD_modify_set, if_true]
  have := h2 r hr
  simp only [List.getD_eq_getElem?_getD] at this ⊢
  simp [List.getElem?_set, this, hc]

theorem getCell_of_not_lt {M : DenseMatrix} (h : M.WF) (i j : Nat)
    (hij : ¬ (i < M.numRows ∧ j < M.numColumns)) : M.getCell i j = 0 := by
  obtain ⟨h1, h2⟩ := h
  unfold getCell
  by_cases hi : i < M.numRows
  · have hj : ¬ j < M.numColumns := fun hj => hij ⟨hi, hj⟩
    have := h2 i hi
    rw [List.getD_eq_getElem?_getD (M.denseMatrix.getD i []), List.getElem?_eq_none (by omega)]
    rfl
  · rw [List.getD_eq_getElem?_getD M.denseMatrix, List.getElem?_eq_none (by omega)]
    simp

theorem WF_new (R C : Nat) (v : ℚ) : (new R C v).WF := by
  refine ⟨by simp [new], ?_⟩
  intro i hi
  simp only [new] at hi ⊢
  simp [List.getD_eq_getElem?_getD, List.getElem?_replicate, hi]

theorem getCell_new (R C : Nat) (v : ℚ) (i j : Nat) (hi : i < R) (hj : j < C) :
    (new R C v).getCell i j = v := by
  simp [new, getCell, List.getD_eq_getElem?_getD, List.getElem?_replicate, hi, hj]

/-- The state after the inner loop of `fillCells` for row `r`. -/
theorem fillRow_props (pos : Nat → Nat → Nat × Nat) (value : Nat → Nat → ℚ) (r C : Nat)
    (T : DenseMatrix) :
    let T1 := forLoop C (fun c t => t.setCell (pos r c).1 (pos r c).2 (value r c)) T
    T1.numRows = T.numRows ∧ T1.numColumns = T.numColumns ∧ (T.WF → T1.WF) ∧
    (∀ i j, (∀ c, c < C → pos r c ≠ (i, j)) → T1.getCell i j = T.getCell i j) ∧
    (T.WF → ∀ c, c < C → (∀ c1, c1 < C → pos r c1 = pos r c → c1 = c) →
      (pos r c).1 < T.numRows → (pos r c).2 < T.numColumns →
      T1.getCell (pos r c).1 (pos r c).2 = value r c) := by
  induction C with
  | zero =>
    refine ⟨rfl, rfl, id, fun _ _ _ => rfl, ?_⟩
    intro _ c hc
    omega
  | succ k ih =>
    obtain ⟨ih1, ih2, ih3, ih4, ih5⟩ := ih
    simp only [forLoop_succ]
    refine ⟨by simpa using ih1, by simpa using ih2, fun h => WF_setCell (ih3 h) _ _ _, ?_, ?_⟩
    · intro i j hmiss
      rw [getCell_setCell_ne]
      · exact ih4 i j (fun c hc => hmiss c (Nat.lt_succ_of_lt hc))
      · intro h
        exact hmiss k (Nat.lt_succ_self k) (Prod.ext h.1.symm h.2.symm)
    · intro hwf c hc hinj hr hcol
      by_cases hck : c = k
      · subst hck
        exact getCell_setCell_eq (ih3 hwf) _ _ _ (by rw [ih1]; exact hr) (by rw [ih2]; exact hcol)
      · have hlt : c < k := by omega
        rw [getCell_setCell_ne]
        · exact ih5 hwf c hlt (fun c1 hc1 h => hinj c1 (Nat.lt_succ_of_lt hc1) h) hr hcol
        · intro h
          have : pos r k = pos r c := Prod.ext h.1.symm h.2.symm
          exact hck (hinj k (Nat.lt_succ_self k) this).symm

theorem fillCells_props (pos : Nat → Nat → Nat × Nat) (value : Nat → Nat → ℚ) (R C : Nat)
    (T : DenseMatrix) :
    let T1 := fillCells R C pos value T
    T1.numRows = T.numRows ∧ T1.numColumns = T.numColumns ∧ (T.WF → T1.WF) ∧
    (∀ i j, (∀ r c, r < R → c < C → pos r c ≠ (i, j)) → T1.getCell i j = T.getCell i j) ∧
    (T.WF → ∀ r c, r < R → c < C →
      (∀ r1 c1, r1 < R → c1 < C → pos r1 c1 = pos r c → r1 = r ∧ c1 = c) →
      (pos r c).1 < T.numRows → (pos r c).2 < T.numColumns →
      T1.getCell (pos r c).1 (pos r c).2 = value r c) := by
  induction R with
  | zero =>
    refine ⟨rfl, rfl, id, fun _ _ _ => rfl, ?_⟩
    intro _ r c hr
    omega
  | succ k ih =>
    obtain ⟨ih1, ih2, ih3, ih4, ih5⟩ := ih
    have hrow := fillRow_props pos value k C (fillCells k C pos value T)
    obtain ⟨r1, r2, r3, r4, r5⟩ := hrow
    have hunf : fillCells (k + 1) C pos value T =
        forLoop C (fun c t => t.setCell (pos k c).1 (pos k c).2 (value k c))
          (fillCells k C pos value T) := rfl
    simp only [hunf]
    refine ⟨r1.trans ih1, r2.trans ih2, fun h => r3 (ih3 h), ?_, ?_⟩
    · intro i j hmiss
      rw [r4 i j (fun c hc => hmiss k c (Nat.lt_succ_self k) hc)]
      exact ih4 i j (fun r c hr hc => hmiss r c (Nat.lt_succ_of_lt hr) hc)
    · intro hwf r c hr hc hinj hrow hcol
      by_cases hrk : r = k
      · subst hrk
        exact r5 (ih3 hwf) c hc (fun c1 hc1 h => (hinj r c1 (Nat.lt_succ_self r) hc1 h).2)
          (by rw [ih1]; exact hrow) (by rw [ih2]; exact hcol)
      · have hlt : r < k := by omega
        rw [r4]
        · exact ih5 hwf r c hlt hc
            (fun r1 c1 hr1 hc1 h => hinj r1 c1 (Nat.lt_succ_of_lt hr1) hc1 h) hrow hcol
        · intro c1 hc1 h
          exact hrk (hinj k c1 (Nat.lt_succ_self k) hc1 h).1.symm

end DenseMatrix
namespace DenseMatrix

theorem Holds.congr {S : DenseMatrix} {R C : Nat} {f g : Nat → Nat → ℚ} (h : Holds S R C f)
    (hfg : ∀ i j, i < R → j < C → f i j = g i j) : Holds S R C g :=
  ⟨h.wf, h.rows, h.cols, fun i j hi hj => (h.cell i j hi hj).trans (hfg i j hi hj)⟩

theorem holds_self {M : DenseMatrix} (h : M.WF) : Holds M M.numRows M.numColumns M.getCell :=
  ⟨h, rfl, rfl, fun _ _ _ _ => rfl⟩

/-- A fill of every cell of a fresh `R × C` matrix. -/
theorem holds_fill_new (R C : Nat) (value : Nat → Nat → ℚ) :
    Holds (fillCells R C (fun r c => (r, c)) value (new R C 0)) R C value := by
  obtain ⟨h1, h2, h3, _, h5⟩ := fillCells_props (fun r c => (r, c)) value R C (new R C 0)
  refine ⟨h3 (WF_new R C 0), h1, h2, ?_⟩
  intro i j hi hj
  exact h5 (WF_new R C 0) i j hi hj (fun r1 c1 _ _ h => by simpa using h) hi hj

theorem holds_clone (M : DenseMatrix) : Holds M.clone M.numRows M.numColumns M.getCell :=
  holds_fill_new _ _ _

theorem holds_splitByColumn (M : DenseMatrix) (k : Nat) (b : Bool) :
    Holds (M.splitByColumn k b) M.numRows (if b then k else M.numColumns - k)
      (fun i j => M.getCell i (j + if b then 0 else k)) := by
  unfold splitByColumn
  simp only [getNumRows, getNumColumns, new]
  exact holds_fill_new _ _ _

theorem holds_splitByRow (M : DenseMatrix) (k : Nat) (b : Bool) :
    Holds (M.splitByRow k b) (if b then k else M.numRows - k) M.numColumns
      (fun i j => M.getCell (i + if b then 0 else k) j) := by
  unfold splitByRow
  simp only [getNumRows, getNumColumns, new]
  exact holds_fill_new _ _ _

theorem holds_mergeByColumnsD (self left : DenseMatrix) :
    Holds (self.mergeByColumnsD left) self.numRows (left.numColumns + self.numColumns)
      (fun i j => if j < left.numColumns then left.getCell i j
        else self.getCell i (j - left.numColumns)) := by
  unfold mergeByColumnsD
  simp only [getNumColumns]
  set T0 := new self.numRows (left.numColumns + self.numColumns) 0 with hT0
  obtain ⟨a1, a2, a3, a4, a5⟩ := fillCells_props (fun r c => (r, c))
    (fun r c => left.getCell r c) self.numRows left.numColumns T0
  set T1 := fillCells self.numRows left.numColumns (fun r c => (r, c))
    (fun r c => left.getCell r c) T0 with hT1
  obtain ⟨b1, b2, b3, b4, b5⟩ := fillCells_props (fun r c => (r, c + left.numColumns))
    (fun r c => self.getCell r c) self.numRows self.numColumns T1
  have hwf0 : T0.WF := WF_new _ _ _
  refine ⟨b3 (a3 hwf0), by rw [b1, a1]; rfl, by rw [b2, a2]; rfl, ?_⟩
  intro i j hi hj
  by_cases hjl : j < left.numColumns
  · rw [if_pos hjl, b4 i j (fun r c _ _ h => by simp at h; omega)]
    exact a5 hwf0 i j hi hjl (fun r1 c1 _ _ h => by simpa using h) hi hj
  · rw [if_neg hjl]
    have := b5 (a3 hwf0) i (j - left.numColumns) hi (by omega)
      (fun r1 c1 _ _ h => by simpa using h) (by rw [a1]; exact hi)
      (by rw [a2]; show j - left.numColumns + left.numColumns < left.numColumns + self.numColumns
          omega)
    simpa [Nat.sub_add_cancel (Nat.le_of_not_lt hjl)] using this

theorem holds_mergeByRowsD (self left : DenseMatrix) :
    Holds (self.mergeByRowsD left) (left.numRows + self.numRows) self.numColumns
      (fun i j => if i < left.numRows then left.getCell i j
        else self.getCell (i - left.numRows) j) := by
  unfold mergeByRowsD
  simp only [getNumRows]
  set T0 := new (left.numRows + self.numRows) self.numColumns 0 with hT0
  obtain ⟨a1, a2, a3, a4, a5⟩ := fillCells_props (fun r c => (r, c))
    (fun r c => left.getCell r c) left.numRows self.numColumns T0
  set T1 := fillCells left.numRows self.numColumns (fun r c => (r, c))
    (fun r c => left.getCell r c) T0 with hT1
  obtain ⟨b1, b2, b3, b4, b5⟩ := fillCells_props (fun r c => (r + left.numRows, c))
    (fun r c => self.getCell r c) self.numRows self.numColumns T1
  have hwf0 : T0.WF := WF_new _ _ _
  refine ⟨b3 (a3 hwf0), by rw [b1, a1]; rfl, by rw [b2, a2]; rfl, ?_⟩
  intro i j hi hj
  by_cases hil : i < left.numRows
  · rw [if_pos hil, b4 i j (fun r c _ _ h => by simp at h; omega)]
    exact a5 hwf0 i j hil hj (fun r1 c1 _ _ h => by simpa using h) hi hj
  · rw [if_neg hil]
    have := b5 (a3 hwf0) (i - left.numRows) j (by omega) hj
      (fun r1 c1 _ _ h => by simpa using h)
      (by rw [a1]; show i - left.numRows + left.numRows < left.numRows + self.numRows
          omega) (by rw [a2]; exact hj)
    simpa [Nat.sub_add_cancel (Nat.le_of_not_lt hil)] using this

theorem isBlock_getSubMatrixRect (M : DenseMatrix) (rb R cb C : Nat) :
    IsBlock (M.getSubMatrixRect rb R cb C) R C (fun i j => M.getCell (i + rb) (j + cb)) := by
  unfold getSubMatrixRect
  split
  · assumption
  · rename_i h
    simp only [IsBlock, getNumRows, getNumColumns, new]
    exact ⟨by omega, by omega, holds_fill_new _ _ _⟩

end DenseMatrix
namespace DenseMatrix

theorem isBlock_mergeColumns {o1 o2 : Option DenseMatrix} {R C1 C2 : Nat}
    {f1 f2 : Nat → Nat → ℚ} (h1 : IsBlock o1 R C1 f1) (h2 : IsBlock o2 R C2 f2) :
    IsBlock (mergeParts (fun l r => r.mergeByColumnsD l) o1 o2) R (C1 + C2)
      (fun i j => if j < C1 then f1 i j else f2 i (j - C1)) := by
  cases o1 with
  | none =>
    cases o2 with
    | none =>
      simp only [IsBlock, mergeParts] at *
      omega
    | some b =>
      obtain ⟨hR, hC, hb⟩ := h2
      have hC1 : C1 = 0 := by
        simp only [IsBlock] at h1
        omega
      subst hC1
      refine ⟨hR, by omega, ?_⟩
      have := holds_clone b
      rw [hb.rows, hb.cols] at this
      refine ⟨this.wf, this.rows, by simpa using this.cols, ?_⟩
      intro i j hi hj
      simp only [Nat.zero_add] at hj
      rw [this.cell i j hi hj, hb.cell i j hi hj]
      simp
  | some a =>
    obtain ⟨hR, hC, ha⟩ := h1
    cases o2 with
    | none =>
      have hC2 : C2 = 0 := by
        simp only [IsBlock] at h2
        omega
      subst hC2
      refine ⟨hR, by omega, ?_⟩
      have := holds_clone a
      rw [ha.rows, ha.cols] at this
      refine ⟨this.wf, this.rows, by simpa using this.cols, ?_⟩
      intro i j hi hj
      simp only [Nat.add_zero] at hj
      rw [this.cell i j hi hj, ha.cell i j hi hj]
      simp [hj]
    | some b =>
      obtain ⟨_, hC2, hb⟩ := h2
      refine ⟨hR, by omega, ?_⟩
      have := holds_mergeByColumnsD b a
      rw [hb.rows, ha.cols, hb.cols] at this
      refine this.congr ?_
      intro i j hi hj
      by_cases hj1 : j < C1
      · simp only [if_pos hj1]
        exact ha.cell i j hi hj1
      · simp only [if_neg hj1]
        exact hb.cell i (j - C1) hi (by omega)

theorem isBlock_mergeRows {o1 o2 : Option DenseMatrix} {R1 R2 C : Nat}
    {f1 f2 : Nat → Nat → ℚ} (h1 : IsBlock o1 R1 C f1) (h2 : IsBlock o2 R2 C f2) :
    IsBlock (mergeParts (fun t b => b.mergeByRowsD t) o1 o2) (R1 + R2) C
      (fun i j => if i < R1 then f1 i j else f2 (i - R1) j) := by
  cases o1 with
  | none =>
    cases o2 with
    | none =>
      simp only [IsBlock, mergeParts] at *
      omega
    | some b =>
      obtain ⟨hR, hC, hb⟩ := h2
      have hR1 : R1 = 0 := by
        simp only [IsBlock] at h1
        omega
      subst hR1
      refine ⟨by omega, hC, ?_⟩
      have := holds_clone b
      rw [hb.rows, hb.cols] at this
      refine ⟨this.wf, by simpa using this.rows, this.cols, ?_⟩
      intro i j hi hj
      simp only [Nat.zero_add] at hi
      rw [this.cell i j hi hj, hb.cell i j hi hj]
      simp
  | some a =>
    obtain ⟨hR, hC, ha⟩ := h1
    cases o2 with
    | none =>
      have hR2 : R2 = 0 := by
        simp only [IsBlock] at h2
        omega
      subst hR2
      refine ⟨by omega, hC, ?_⟩
      have := holds_clone a
      rw [ha.rows, ha.cols] at this
      refine ⟨this.wf, by simpa using this.rows, this.cols, ?_⟩
      intro i j hi hj
      simp only [Nat.add_zero] at hi
      rw [this.cell i j hi hj, ha.cell i j hi hj]
      simp [hi]
    | some b =>
      obtain ⟨hR2, _, hb⟩ := h2
      refine ⟨by omega, hC, ?_⟩
      have := holds_mergeByRowsD b a
      rw [hb.cols, ha.rows, hb.rows] at this
      refine this.congr ?_
      intro i j hi hj
      by_cases hi1 : i < R1
      · simp only [if_pos hi1]
        exact ha.cell i j hi1 hj
      · simp only [if_neg hi1]
        exact hb.cell (i - R1) j (by omega) hj

theorem isBlock_topLeft (M : DenseMatrix) (r c : Nat) (hr : r ≤ M.numRows) (hc : c ≤ M.numColumns) :
    IsBlock (M.getSubMatrixTopLeft r c) r c (fun i j => M.getCell i j) := by
  unfold getSubMatrixTopLeft
  split
  · assumption
  · rename_i h
    refine ⟨by omega, by omega, ?_⟩
    have h1 := holds_splitByColumn M c true
    have h2 := holds_splitByRow (M.splitByColumn c true) r true
    rw [h1.cols] at h2
    simp only [if_true] at h1 h2
    refine h2.congr ?_
    intro i j hi hj
    simpa using h1.cell i j (by omega) hj

theorem isBlock_topRight (M : DenseMatrix) (r c : Nat) (hr : r ≤ M.numRows)
    (hc : c < M.numColumns) :
    IsBlock (M.getSubMatrixTopRight r c) r (M.numColumns - 1 - c)
      (fun i j => M.getCell i (j + (c + 1))) := by
  unfold getSubMatrixTopRight
  split
  · rename_i h
    simp only [IsBlock]
    omega
  · rename_i h
    refine ⟨by omega, by omega, ?_⟩
    have h1 := holds_splitByColumn M (c + 1) false
    have h2 := holds_splitByRow (M.splitByColumn (c + 1) false) r true
    rw [h1.cols] at h2
    simp only [if_true, Bool.false_eq_true, if_false] at h1 h2
    have e : M.numColumns - (c + 1) = M.numColumns - 1 - c := by omega
    rw [e] at h1 h2
    refine h2.congr ?_
    intro i j hi hj
    simpa using h1.cell i j (by omega) hj

theorem isBlock_bottomLeft (M : DenseMatrix) (r c : Nat) (hr : r < M.numRows)
    (hc : c ≤ M.numColumns) :
    IsBlock (M.getSubMatrixBottomLeft r c) (M.numRows - 1 - r) c
      (fun i j => M.getCell (i + (r + 1)) j) := by
  unfold getSubMatrixBottomLeft
  split
  · rename_i h
    simp only [IsBlock]
    omega
  · rename_i h
    refine ⟨by omega, by omega, ?_⟩
    have h1 := holds_splitByColumn M c true
    have h2 := holds_splitByRow (M.splitByColumn c true) (r + 1) false
    rw [h1.cols, h1.rows] at h2
    simp only [if_true, Bool.false_eq_true, if_false] at h1 h2
    have e : M.numRows - (r + 1) = M.numRows - 1 - r := by omega
    rw [e] at h2
    refine h2.congr ?_
    intro i j hi hj
    simpa using h1.cell (i + (r + 1)) j (by omega) hj

theorem isBlock_bottomRight (M : DenseMatrix) (r c : Nat) (hr : r < M.numRows)
    (hc : c < M.numColumns) :
    IsBlock (M.getSubMatrixBottomRight r c) (M.numRows - 1 - r) (M.numColumns - 1 - c)
      (fun i j => M.getCell (i + (r + 1)) (j + (c + 1))) := by
  unfold getSubMatrixBottomRight
  split
  · rename_i h
    simp only [IsBlock]
    omega
  · rename_i h
    refine ⟨by omega, by omega, ?_⟩
    have h1 := holds_splitByColumn M (c + 1) false
    have h2 := holds_splitByRow (M.splitByColumn (c + 1) false) (r + 1) false
    rw [h1.cols, h1.rows] at h2
    simp only [if_true, Bool.false_eq_true, if_false] at h1 h2
    have e : M.numRows - (r + 1) = M.numRows - 1 - r := by omega
    have e2 : M.numColumns - (c + 1) = M.numColumns - 1 - c := by omega
    rw [e, e2] at h2
    rw [e2] at h1
    refine h2.congr ?_
    intro i j hi hj
    simpa using h1.cell (i + (r + 1)) j (by omega) hj

/-- The cell of the matrix without row `r` and column `c`. -/
theorem isBlock_getSubMatrix (M : DenseMatrix) (r c : Nat) (hr : r < M.numRows)
    (hc : c < M.numColumns) :
    IsBlock (M.getSubMatrix r c) (M.numRows - 1) (M.numColumns - 1)
      (fun i j => M.getCell (if i < r then i else i + 1) (if j < c then j else j + 1)) := by
  have h := isBlock_mergeRows
    (isBlock_mergeColumns (isBlock_topLeft M r c (by omega) (by omega))
      (isBlock_topRight M r c (by omega) hc))
    (isBlock_mergeColumns (isBlock_bottomLeft M r c hr (by omega))
      (isBlock_bottomRight M r c hr hc))
  have e1 : r + (M.numRows - 1 - r) = M.numRows - 1 := by omega
  have e2 : c + (M.numColumns - 1 - c) = M.numColumns - 1 := by omega
  rw [e1, e2] at h
  unfold getSubMatrix
  revert h
  generalize mergeParts (fun t b => b.mergeByRowsD t) _ _ = o
  intro h
  cases o with
  | none => exact h
  | some S =>
    obtain ⟨hR, hC, hS⟩ := h
    refine ⟨hR, hC, hS.congr ?_⟩
    intro i j hi hj
    by_cases hi1 : i < r <;> by_cases hj1 : j < c <;> simp only [hi1, hj1, if_true, if_false]
    · congr 1; omega
    · congr 1; omega
    · congr 1 <;> omega

theorem isBlock_determinantSubMatrix (M : DenseMatrix) (c : Nat) (hr : 2 ≤ M.numRows)
    (hc : c < M.numColumns) (hc2 : 2 ≤ M.numColumns) :
    Holds (M.determinantSubMatrix c) (M.numRows - 1) (M.numColumns - 1)
      (fun i j => M.getCell (i + 1) (if j < c then j else j + 1)) := by
  have h1 := isBlock_getSubMatrixRect M 1 (M.numRows - 1) 0 c
  have h2 := isBlock_getSubMatrixRect M 1 (M.numRows - 1) (c + 1) (M.numColumns - 1 - c)
  have h := isBlock_mergeColumns h1 h2
  have e2 : c + (M.numColumns - 1 - c) = M.numColumns - 1 := by omega
  rw [e2] at h
  have hmp : M.determinantSubMatrix c = match
      mergeParts (fun l r => r.mergeByColumnsD l) (M.getSubMatrixRect 1 (M.numRows - 1) 0 c)
        (M.getSubMatrixRect 1 (M.numRows - 1) (c + 1) (M.numColumns - 1 - c)) with
      | some S => S
      | none => (new 0 0 0).clone := by
    unfold determinantSubMatrix mergeParts
    cases M.getSubMatrixRect 1 (M.numRows - 1) 0 c <;>
      cases M.getSubMatrixRect 1 (M.numRows - 1) (c + 1) (M.numColumns - 1 - c) <;> rfl
  rw [hmp]
  revert h
  generalize mergeParts (fun l r => r.mergeByColumnsD l) _ _ = o
  intro h
  cases o with
  | none =>
    simp only [IsBlock] at h
    omega
  | some S =>
    obtain ⟨hR, hC, hS⟩ := h
    refine hS.congr ?_
    intro i j hi hj
    by_cases hj1 : j < c <;> simp only [hj1, if_true, if_false]
    · simp
    · congr 1; omega

end DenseMatrix

theorem forLoop_sum (n : Nat) (g : Nat → ℚ) :
    forLoop n (fun c acc => acc + g c) 0 = ∑ c in Finset.range n, g c := by
  induction n with
  | zero => rfl
  | succ k ih => rw [forLoop_succ, ih, Finset.sum_range_succ]

theorem mcu.epsilon_pos : 0 < mcu.EPSILON := by
  unfold mcu.EPSILON
  positivity

theorem mcu.almostEqual_zero_iff (x : ℚ) : mcu.almostEqual x 0 = true ↔ |x| ≤ mcu.EPSILON := by
  unfold mcu.almostEqual mcu.doubleAlmostEqual
  simp only [sub_zero, decide_eq_true_eq]
  constructor
  · rintro (h | h)
    · exact h
    · rcases le_or_lt x 0 with hx | hx
      · rw [max_eq_right hx, mul_zero] at h
        exact h.trans mcu.epsilon_pos.le
      · rw [max_eq_left hx.le, abs_of_pos hx] at h
        have h1 : mcu.EPSILON < 1 := by unfold mcu.EPSILON; norm_num
        nlinarith
  · exact fun h => Or.inl h

theorem mcu.almostEqual_self (x : ℚ) : mcu.almostEqual x x = true := by
  unfold mcu.almostEqual mcu.doubleAlmostEqual
  simp only [sub_self, abs_zero, decide_eq_true_eq]
  exact Or.inl mcu.epsilon_pos.le

theorem mcu.crisp_zero : mcu.Crisp 0 := Or.inl rfl

theorem mcu.Crisp.eq_zero {x : ℚ} (h : mcu.Crisp x) (hx : mcu.almostEqual x 0 = true) : x = 0 := by
  rcases h with h | h
  · exact h
  · rw [h] at hx
    cases hx

namespace DenseMatrix

/-- The Laplace recursion of the dense backend computes the determinant of a square matrix
whose cells are all crisp. -/
theorem getDeterminantAux_eq_det (n : Nat) : ∀ M : DenseMatrix, M.WF → M.numRows = n + 1 →
    M.numColumns = n + 1 → (∀ i j, i < n + 1 → j < n + 1 → mcu.Crisp (M.getCell i j)) →
    getDeterminantAux (n + 1) M = (cellMatrix M.getCell (n + 1) (n + 1)).det := by
  induction n with
  | zero =>
    intro M _ hR _ _
    simp [getDeterminantAux, hR, Matrix.det_fin_one, cellMatrix]
  | succ k ih =>
    intro M hwf hR hC hcrisp
    cases k with
    | zero =>
      simp [getDeterminantAux, hR, Matrix.det_fin_two, cellMatrix]
    | succ k =>
      rw [getDeterminantAux]
      have hR1 : M.numRows ≠ 1 := by omega
      have hR2 : M.numRows ≠ 2 := by omega
      simp only [hR1, hR2, if_false]
      have hbody : (fun c determinant =>
          if mcu.almostEqual (M.getCell 0 c) 0 = true then determinant
          else determinant + (if c % 2 = 1 then -M.getCell 0 c else M.getCell 0 c) *
            getDeterminantAux (k + 1 + 1) (M.determinantSubMatrix c)) =
          (fun c determinant => determinant +
            (if mcu.almostEqual (M.getCell 0 c) 0 = true then 0
              else (if c % 2 = 1 then -M.getCell 0 c else M.getCell 0 c) *
                getDeterminantAux (k + 1 + 1) (M.determinantSubMatrix c))) := by
        funext c d
        split <;> simp
      rw [hbody, forLoop_sum, hC, Matrix.det_succ_row_zero, ← Fin.sum_univ_eq_sum_range]
      refine Finset.sum_congr rfl ?_
      intro c _
      have hc : (c : Nat) < M.numColumns := by rw [hC]; exact c.2
      have hsub := isBlock_determinantSubMatrix M c (by omega) hc (by omega)
      have hR' : M.numRows - 1 = k + 1 + 1 := by omega
      have hC' : M.numColumns - 1 = k + 1 + 1 := by omega
      rw [hR', hC'] at hsub
      have hdet := ih (M.determinantSubMatrix c) hsub.wf hsub.rows hsub.cols (by
        intro i j hi hj
        rw [hsub.cell i j hi hj]
        apply hcrisp
        · omega
        · split <;> omega)
      have hmat : cellMatrix (M.determinantSubMatrix c).getCell (k + 1 + 1) (k + 1 + 1) =
          (cellMatrix M.getCell (k + 1 + 1 + 1) (k + 1 + 1 + 1)).submatrix Fin.succ c.succAbove := by
        ext i j
        simp only [cellMatrix, Matrix.of_apply, Matrix.submatrix_apply]
        rw [hsub.cell i j i.2 j.2]
        congr 1
        simp only [Fin.succAbove, Fin.lt_def, Fin.coe_castSucc]
        split <;> simp
      rw [hdet, hmat]
      by_cases hz : mcu.almostEqual (M.getCell 0 c) 0 = true
      · have h0 := (hcrisp 0 c (by omega) c.2).eq_zero hz
        simp [hz, cellMatrix, h0]
      · simp only [hz, if_false]
        have hsign : (if (c : Nat) % 2 = 1 then -M.getCell 0 c else M.getCell 0 c) =
            (-1) ^ (c : Nat) * M.getCell 0 c := by
          rcases Nat.even_or_odd (c : Nat) with he | ho
          · have : (c : Nat) % 2 ≠ 1 := by
              rw [Nat.even_iff] at he; omega
            simp [this, he.neg_one_pow]
          · have : (c : Nat) % 2 = 1 := Nat.odd_iff.mp ho
            simp [this, ho.neg_one_pow]
        rw [hsign]
        simp [cellMatrix]

end DenseMatrix

namespace CellMap

theorem keyLt_irrefl (a : Nat × Nat) : keyLt a a = false := by
  simp [keyLt]

theorem keyLt_trans {a b c : Nat × Nat} (h1 : keyLt a b = true) (h2 : keyLt b c = true) :
    keyLt a c = true := by
  simp only [keyLt, Bool.or_eq_true, Bool.and_eq_true, decide_eq_true_eq] at *
  omega

theorem keyLt_total {a b : Nat × Nat} (h1 : keyLt a b = false) (h2 : a ≠ b) :
    keyLt b a = true := by
  have : ¬ (a.1 = b.1 ∧ a.2 = b.2) := fun h => h2 (Prod.ext h.1 h.2)
  simp only [keyLt, Bool.or_eq_false_iff, Bool.and_eq_false_imp, decide_eq_false_iff_not,
    decide_eq_true_eq, Bool.or_eq_true, Bool.and_eq_true] at *
  omega

theorem find_assign (m : CellMap) (k k1 : Nat × Nat) (v : ℚ) :
    find (assign m k v) k1 = if k = k1 then some v else find m k1 := by
  induction m with
  | nil => simp [assign, find]
  | cons e rest ih =>
    obtain ⟨ke, ve⟩ := e
    simp only [assign]
    split
    · simp [find]
    · split
      · rename_i h
        subst h
        simp only [find]
        split <;> rfl
      · rename_i h
        simp only [find, ih]
        by_cases h1 : ke = k1
        · subst h1
          simp [h, Ne.symm h]
        · simp [h1]

theorem find_erase (m : CellMap) (k k1 : Nat × Nat) :
    find (erase m k) k1 = if k = k1 then none else find m k1 := by
  induction m with
  | nil => simp [erase, find]
  | cons e rest ih =>
    obtain ⟨ke, ve⟩ := e
    simp only [erase, List.filter] at ih ⊢
    by_cases h : ke = k
    · subst h
      simp only [ne_eq, not_true_eq_false, decide_False, ih, find]
      split <;> rfl
    · simp only [ne_eq, h, not_false_eq_true, decide_True, find, ih]
      by_cases h1 : ke = k1
      · subst h1
        simp [Ne.symm h]
      · simp [h1]

theorem find_of_mem {m : CellMap} (hs : m.Sorted) {e : (Nat × Nat) × ℚ} (he : e ∈ m) :
    find m e.1 = some e.2 := by
  induction m with
  | nil => cases he
  | cons x rest ih =>
    obtain ⟨kx, vx⟩ := x
    rw [Sorted, List.pairwise_cons] at hs
    simp only [find]
    rcases List.mem_cons.mp he with h | h
    · subst h
      simp
    · have hlt := hs.1 e h
      have hne : kx ≠ e.1 := by
        intro heq
        simp only at hlt
        rw [heq, keyLt_irrefl] at hlt
        cases hlt
      simp only [hne, if_false]
      exact ih hs.2 h

theorem mem_of_find {m : CellMap} {k : Nat × Nat} {v : ℚ} (h : find m k = some v) :
    (k, v) ∈ m := by
  induction m with
  | nil => simp [find] at h
  | cons x rest ih =>
    obtain ⟨kx, vx⟩ := x
    simp only [find] at h
    split at h
    · rename_i hk
      subst hk
      simp only [Option.some.injEq] at h
      subst h
      exact List.mem_cons_self _ _
    · exact List.mem_cons_of_mem _ (ih h)

theorem sorted_nil : Sorted [] := List.Pairwise.nil

theorem mem_assign {m : CellMap} {k : Nat × Nat} {v : ℚ} {e : (Nat × Nat) × ℚ}
    (he : e ∈ assign m k v) : e = (k, v) ∨ e ∈ m := by
  induction m with
  | nil =>
    simp only [assign, List.mem_singleton] at he
    exact Or.inl he
  | cons x rest ih =>
    obtain ⟨kx, vx⟩ := x
    simp only [assign] at he
    split at he
    · rcases List.mem_cons.mp he with h | h
      · exact Or.inl h
      · exact Or.inr h
    · split at he
      · rcases List.mem_cons.mp he with h | h
        · exact Or.inl h
        · exact Or.inr (List.mem_cons_of_mem _ h)
      · rcases List.mem_cons.mp he with h | h
        · exact Or.inr (h ▸ List.mem_cons_self _ _)
        · rcases ih h with h1 | h1
          · exact Or.inl h1
          · exact Or.inr (List.mem_cons_of_mem _ h1)

theorem sorted_assign {m : CellMap} (hs : m.Sorted) (k : Nat × Nat) (v : ℚ) :
    (assign m k v).Sorted := by
  induction m with
  | nil => simp [assign, Sorted]
  | cons x rest ih =>
    obtain ⟨kx, vx⟩ := x
    have hs' := hs
    rw [Sorted, List.pairwise_cons] at hs
    simp only [assign]
    split
    · rename_i hlt
      rw [Sorted, List.pairwise_cons]
      refine ⟨?_, hs'⟩
      intro e he
      rcases List.mem_cons.mp he with h | h
      · subst h
        exact hlt
      · exact keyLt_trans hlt (hs.1 e h)
    · rename_i hlt
      split
      · rename_i heq
        subst heq
        rw [Sorted, List.pairwise_cons]
        exact ⟨hs.1, hs.2⟩
      · rename_i hne
        rw [Sorted, List.pairwise_cons]
        refine ⟨?_, ih hs.2⟩
        intro e he
        rcases mem_assign he with h | h
        · subst h
          exact keyLt_total (by simpa using hlt) (Ne.symm hne)
        · exact hs.1 e h

theorem sorted_erase {m : CellMap} (hs : m.Sorted) (k : Nat × Nat) : (erase m k).Sorted :=
  List.Pairwise.sublist (List.filter_sublist _) hs

end CellMap

theorem mcu.flush_zero : mcu.flush 0 = 0 := by simp [mcu.flush]

theorem mcu.flush_of_crisp {x : ℚ} (h : mcu.Crisp x) : mcu.flush x = x := by
  unfold mcu.flush
  split
  · rename_i hz
    exact (h.eq_zero hz).symm
  · rfl

theorem mcu.crisp_flush (x : ℚ) : mcu.Crisp (mcu.flush x) := by
  unfold mcu.flush
  split
  · exact Or.inl rfl
  · rename_i h
    exact Or.inr (by simpa using h)

namespace SparseMatrix

@[simp] theorem sparse_numRows_setCell (M : SparseMatrix) (r c : Nat) (v : ℚ) :
    (M.setCell r c v).numRows = M.numRows := by
  unfold setCell; split <;> rfl

@[simp] theorem sparse_numColumns_setCell (M : SparseMatrix) (r c : Nat) (v : ℚ) :
    (M.setCell r c v).numColumns = M.numColumns := by
  unfold setCell; split <;> rfl

theorem find_setCell (M : SparseMatrix) (r c : Nat) (v : ℚ) (k : Nat × Nat) :
    (M.setCell r c v).sparseMatrix.find k =
      if (r, c) = k then (if mcu.almostEqual v 0 then none else some v)
      else M.sparseMatrix.find k := by
  unfold setCell
  by_cases hz : mcu.almostEqual v 0 = true
  · simp only [hz, if_true, CellMap.find_erase, CellMap.find_assign]
    split <;> rfl
  · simp only [hz]
    simp [CellMap.find_assign]

theorem getCell_eq_find (M : SparseMatrix) (i j : Nat) :
    M.getCell i j = (M.sparseMatrix.find (i, j)).getD 0 := by
  unfold getCell
  cases M.sparseMatrix.find (i, j) <;> rfl

theorem sparse_getCell_setCell (M : SparseMatrix) (r c : Nat) (v : ℚ) (i j : Nat) :
    (M.setCell r c v).getCell i j =
      if (r, c) = (i, j) then mcu.flush v else M.getCell i j := by
  rw [getCell_eq_find, getCell_eq_find, find_setCell]
  by_cases h : (r, c) = (i, j)
  · simp only [h, if_true, mcu.flush]
    split <;> rfl
  · simp only [h, if_false]

theorem sorted_setCell {M : SparseMatrix} (h : M.sparseMatrix.Sorted) (r c : Nat) (v : ℚ) :
    (M.setCell r c v).sparseMatrix.Sorted := by
  unfold setCell
  split
  · exact CellMap.sorted_erase (CellMap.sorted_assign h _ _) _
  · exact CellMap.sorted_assign h _ _

theorem sparse_WF_setCell {M : SparseMatrix} (h : M.WF) (r c : Nat) (v : ℚ) (hr : r < M.numRows)
    (hc : c < M.numColumns) : (M.setCell r c v).WF := by
  refine ⟨sorted_setCell h.sorted r c v, ?_, ?_⟩
  · intro k w hk
    rw [find_setCell] at hk
    simp only [sparse_numRows_setCell, sparse_numColumns_setCell]
    split at hk
    · rename_i heq
      subst heq
      exact ⟨hr, hc⟩
    · exact h.inRange k w hk
  · intro k w hk
    rw [find_setCell] at hk
    split at hk
    · split at hk
      · cases hk
      · rename_i hz
        simp only [Option.some.injEq] at hk
        subst hk
        simpa using hz
    · exact h.nonZero k w hk

theorem sparse_WF_new (R C : Nat) : (new R C).WF :=
  ⟨CellMap.sorted_nil, fun _ _ h => by simp [new, CellMap.find] at h,
    fun _ _ h => by simp [new, CellMap.find] at h⟩

theorem sparse_getCell_new (R C i j : Nat) : (new R C).getCell i j = 0 := rfl

theorem WF.crisp {M : SparseMatrix} (h : M.WF) (i j : Nat) : mcu.Crisp (M.getCell i j) := by
  rw [getCell_eq_find]
  cases hf : M.sparseMatrix.find (i, j) with
  | none => exact Or.inl rfl
  | some v => exact Or.inr (h.nonZero _ _ hf)

theorem WF.sparse_getCell_of_not_lt {M : SparseMatrix} (h : M.WF) (i j : Nat)
    (hij : ¬ (i < M.numRows ∧ j < M.numColumns)) : M.getCell i j = 0 := by
  rw [getCell_eq_find]
  cases hf : M.sparseMatrix.find (i, j) with
  | none => rfl
  | some v => exact absurd (h.inRange _ _ hf) hij

theorem gather_dims (cells : CellMap) (test : Nat × Nat → Prop) [DecidablePred test]
    (g : Nat × Nat → Nat × Nat) (T : SparseMatrix) :
    (gather cells test g T).numRows = T.numRows ∧
      (gather cells test g T).numColumns = T.numColumns := by
  induction cells generalizing T with
  | nil => exact ⟨rfl, rfl⟩
  | cons e rest ih =>
    simp only [gather, List.foldl_cons]
    have := ih (if test e.1 then T.setCell (g e.1).1 (g e.1).2 e.2 else T)
    simp only [gather] at this
    rw [this.1, this.2]
    split <;> simp

theorem gather_WF (cells : CellMap) (test : Nat × Nat → Prop) [DecidablePred test]
    (g : Nat × Nat → Nat × Nat) (T : SparseMatrix) (hT : T.WF)
    (hg : ∀ e ∈ cells, test e.1 → (g e.1).1 < T.numRows ∧ (g e.1).2 < T.numColumns) :
    (gather cells test g T).WF := by
  induction cells generalizing T with
  | nil => exact hT
  | cons e rest ih =>
    simp only [gather, List.foldl_cons]
    apply ih
    · split
      · rename_i ht
        have := hg e (List.mem_cons_self _ _) ht
        exact sparse_WF_setCell hT _ _ _ this.1 this.2
      · exact hT
    · intro e1 he1 ht1
      have := hg e1 (List.mem_cons_of_mem _ he1) ht1
      split <;> simpa using this

theorem gather_miss (cells : CellMap) (test : Nat × Nat → Prop) [DecidablePred test]
    (g : Nat × Nat → Nat × Nat) (T : SparseMatrix) (k : Nat × Nat)
    (hmiss : ∀ e ∈ cells, test e.1 → g e.1 ≠ k) :
    (gather cells test g T).sparseMatrix.find k = T.sparseMatrix.find k := by
  induction cells generalizing T with
  | nil => rfl
  | cons e rest ih =>
    simp only [gather, List.foldl_cons]
    have := ih (if test e.1 then T.setCell (g e.1).1 (g e.1).2 e.2 else T)
      (fun e1 he1 => hmiss e1 (List.mem_cons_of_mem _ he1))
    simp only [gather] at this
    rw [this]
    split
    · rename_i ht
      rw [find_setCell, if_neg]
      exact hmiss e (List.mem_cons_self _ _) ht
    · rfl

theorem gather_hit (cells : CellMap) (test : Nat × Nat → Prop) [DecidablePred test]
    (g : Nat × Nat → Nat × Nat) (T : SparseMatrix) (hs : cells.Sorted)
    (e : (Nat × Nat) × ℚ) (he : e ∈ cells) (ht : test e.1)
    (hinj : ∀ e1 ∈ cells, test e1.1 → g e1.1 = g e.1 → e1.1 = e.1) :
    (gather cells test g T).sparseMatrix.find (g e.1) =
      if mcu.almostEqual e.2 0 then none else some e.2 := by
  induction cells generalizing T with
  | nil => cases he
  | cons x rest ih =>
    rw [CellMap.Sorted, List.pairwise_cons] at hs
    simp only [gather, List.foldl_cons]
    rcases List.mem_cons.mp he with h | h
    · subst h
      have := gather_miss rest test g (if test e.1 then T.setCell (g e.1).1 (g e.1).2 e.2 else T)
        (g e.1) (by
          intro e1 he1 ht1 hg1
          have hk := hinj e1 (List.mem_cons_of_mem _ he1) ht1 hg1
          have hlt := hs.1 e1 he1
          rw [hk, CellMap.keyLt_irrefl] at hlt
          cases hlt)
      simp only [gather] at this
      rw [this, if_pos ht, find_setCell]
      simp
    · exact ih _ hs.2 h (fun e1 he1 => hinj e1 (List.mem_cons_of_mem _ he1))

/-- The cell of a gathered matrix that started empty, read through an inverse `src` of the
position map. -/
theorem gather_getCell (M : SparseMatrix) (test : Nat × Nat → Prop) [DecidablePred test]
    (g : Nat × Nat → Nat × Nat) (R C : Nat) (hs : M.sparseMatrix.Sorted)
    (i j : Nat) (src : Nat × Nat)
    (hsrc : ∀ k, test k → g k = (i, j) → k = src) :
    (gather M.sparseMatrix test g (new R C)).getCell i j =
      if test src ∧ g src = (i, j) then mcu.flush (M.getCell src.1 src.2) else 0 := by
  rw [getCell_eq_find]
  by_cases hcase : test src ∧ g src = (i, j)
  · rw [if_pos hcase]
    cases hf : M.sparseMatrix.find src with
    | none =>
      rw [gather_miss]
      · simp [getCell_eq_find, hf, new, CellMap.find, mcu.flush_zero]
      · intro e he hte hge
        have := hsrc e.1 hte hge
        have hfe := CellMap.find_of_mem hs he
        rw [this, hf] at hfe
        cases hfe
    | some v =>
      have hmem := CellMap.mem_of_find hf
      have := gather_hit M.sparseMatrix test g (new R C) hs (src, v) hmem hcase.1 (by
        intro e1 _ ht1 hg1
        exact hsrc e1.1 ht1 (hg1.trans hcase.2))
      simp only at this
      rw [hcase.2] at this
      rw [this, getCell_eq_find, hf]
      simp only [Option.getD_some, mcu.flush]
      split <;> rfl
  · rw [if_neg hcase, gather_miss]
    · rfl
    · intro e _ hte hge
      have := hsrc e.1 hte hge
      exact hcase ⟨this ▸ hte, this ▸ hge⟩

end SparseMatrix
namespace SparseMatrix

theorem Holds.sparse_congr {S : SparseMatrix} {R C : Nat} {f g : Nat → Nat → ℚ} (h : Holds S R C f)
    (hfg : ∀ i j, i < R → j < C → f i j = g i j) : Holds S R C g :=
  ⟨h.wf, h.rows, h.cols, fun i j hi hj => (h.cell i j hi hj).trans (hfg i j hi hj)⟩

theorem sparse_holds_self {M : SparseMatrix} (h : M.WF) : Holds M M.numRows M.numColumns M.getCell :=
  ⟨h, rfl, rfl, fun _ _ _ _ => rfl⟩

/-- The cell of a gathered matrix, read through an inverse `src` of the position map. -/
theorem gather_getCell_on (M : SparseMatrix) (test : Nat × Nat → Prop) [DecidablePred test]
    (g : Nat × Nat → Nat × Nat) (T : SparseMatrix) (hs : M.sparseMatrix.Sorted)
    (i j : Nat) (src : Nat × Nat)
    (hsrc : ∀ k, test k → g k = (i, j) → k = src) :
    (gather M.sparseMatrix test g T).getCell i j =
      match M.sparseMatrix.find src with
      | some v => if test src ∧ g src = (i, j) then mcu.flush v else T.getCell i j
      | none => T.getCell i j := by
  rw [getCell_eq_find]
  have hmiss : ¬ (test src ∧ g src = (i, j)) ∨ M.sparseMatrix.find src = none →
      (gather M.sparseMatrix test g T).sparseMatrix.find (i, j) = T.sparseMatrix.find (i, j) := by
    intro hno
    apply gather_miss
    intro e he hte hge
    have hk := hsrc e.1 hte hge
    rcases hno with hno | hno
    · exact hno ⟨hk ▸ hte, hk ▸ hge⟩
    · have hfe := CellMap.find_of_mem hs he
      rw [hk, hno] at hfe
      cases hfe
  cases hf : M.sparseMatrix.find src with
  | none =>
    simp only
    rw [hmiss (Or.inr hf), getCell_eq_find]
  | some v =>
    simp only
    by_cases hcase : test src ∧ g src = (i, j)
    · rw [if_pos hcase]
      have hmem := CellMap.mem_of_find hf
      have := gather_hit M.sparseMatrix test g T hs (src, v) hmem hcase.1 (by
        intro e1 _ ht1 hg1
        exact hsrc e1.1 ht1 (hg1.trans hcase.2))
      simp only at this
      rw [hcase.2] at this
      rw [this]
      simp only [mcu.flush]
      split <;> rfl
    · rw [if_neg hcase, hmiss (Or.inl hcase), getCell_eq_find]

/-- A gather from a well-formed source into a fresh matrix, all positions in range. -/
theorem holds_gather_new (M : SparseMatrix) (hM : M.WF) (test : Nat × Nat → Prop)
    [DecidablePred test] (g src : Nat × Nat → Nat × Nat) (R C : Nat)
    (hrange : ∀ k, test k → (g k).1 < R ∧ (g k).2 < C)
    (hsrc : ∀ k, test k → src (g k) = k)
    (hin : ∀ i j, i < R → j < C → test (src (i, j)) ∧ g (src (i, j)) = (i, j)) :
    Holds (gather M.sparseMatrix test g (new R C)) R C
      (fun i j => M.getCell (src (i, j)).1 (src (i, j)).2) := by
  have hd := gather_dims M.sparseMatrix test g (new R C)
  refine ⟨?_, hd.1, hd.2, ?_⟩
  · exact gather_WF _ _ _ _ (sparse_WF_new R C) (fun e _ ht => hrange e.1 ht)
  · intro i j hi hj
    rw [gather_getCell_on M test g (new R C) hM.sorted i j (src (i, j))
      (fun k hk hg => by rw [← hg, hsrc k hk])]
    rw [getCell_eq_find M]
    cases hf : M.sparseMatrix.find (src (i, j)) with
    | none => rfl
    | some v =>
      simp only [hin i j hi hj, and_self, if_true, Option.getD_some]
      exact mcu.flush_of_crisp (Or.inr (hM.nonZero _ _ hf))

theorem clone_eq_gather (M : SparseMatrix) :
    M.clone = gather M.sparseMatrix (fun _ => True) id (new M.numRows M.numColumns) := by
  simp [clone, gather, forEachCell]

theorem sparse_holds_clone {M : SparseMatrix} (hM : M.WF) :
    Holds M.clone M.numRows M.numColumns M.getCell := by
  rw [clone_eq_gather]
  have hd := gather_dims M.sparseMatrix (fun _ => True) id (new M.numRows M.numColumns)
  refine ⟨?_, hd.1, hd.2, ?_⟩
  · apply gather_WF _ _ _ _ (sparse_WF_new _ _)
    intro e he _
    exact hM.inRange e.1 e.2 (CellMap.find_of_mem hM.sorted he)
  · intro i j _ _
    rw [gather_getCell_on M _ id _ hM.sorted i j (i, j) (fun k _ hg => hg)]
    rw [getCell_eq_find M]
    cases hf : M.sparseMatrix.find (i, j) with
    | none => rfl
    | some v =>
      simp only [id, and_self, if_true, Option.getD_some]
      exact mcu.flush_of_crisp (Or.inr (hM.nonZero _ _ hf))

theorem getSubMatrixRect_eq_gather (M : SparseMatrix) (rb R cb C : Nat) :
    M.getSubMatrixRect rb R cb C =
      if R = 0 ∨ C = 0 then none
      else some (gather M.sparseMatrix
        (fun k => (rb ≤ k.1 ∧ k.1 < rb + R) ∧ (cb ≤ k.2 ∧ k.2 < cb + C))
        (fun k => (k.1 - rb, k.2 - cb)) (new R C)) := by
  simp [getSubMatrixRect, gather, getCellDataList, List.foldl_map]

theorem sparse_isBlock_getSubMatrixRect (M : SparseMatrix) (hM : M.WF) (rb R cb C : Nat) :
    IsBlock (M.getSubMatrixRect rb R cb C) R C (fun i j => M.getCell (i + rb) (j + cb)) := by
  rw [getSubMatrixRect_eq_gather]
  split
  · assumption
  · refine ⟨by omega, by omega, ?_⟩
    have := holds_gather_new M hM
      (fun k => (rb ≤ k.1 ∧ k.1 < rb + R) ∧ (cb ≤ k.2 ∧ k.2 < cb + C))
      (fun k => (k.1 - rb, k.2 - cb)) (fun p => (p.1 + rb, p.2 + cb)) R C
      (fun k hk => by simp only; omega)
      (fun k hk => by
        apply Prod.ext <;> simp only <;> omega)
      (fun i j hi hj => by
        refine ⟨by simp only; omega, ?_⟩
        simp)
    exact this

end SparseMatrix
namespace SparseMatrix

theorem mergeByColumnsS_eq_gather (self left : SparseMatrix) :
    self.mergeByColumnsS left =
      gather self.sparseMatrix (fun _ => True) (fun k => (k.1, k.2 + left.numColumns))
        (gather left.sparseMatrix (fun _ => True) id
          (new self.numRows (left.numColumns + self.numColumns))) := by
  simp [mergeByColumnsS, gather, forEachCell, getNumColumns]

theorem holds_mergeByColumnsS {self left : SparseMatrix} (hs : self.WF) (hl : left.WF)
    (hrows : left.numRows = self.numRows) :
    Holds (self.mergeByColumnsS left) self.numRows (left.numColumns + self.numColumns)
      (fun i j => if j < left.numColumns then left.getCell i j
        else self.getCell i (j - left.numColumns)) := by
  rw [mergeByColumnsS_eq_gather]
  set T0 := new self.numRows (left.numColumns + self.numColumns) with hT0
  set T1 := gather left.sparseMatrix (fun _ => True) id T0 with hT1
  have hd1 := gather_dims left.sparseMatrix (fun _ => True) id T0
  have hwf1 : T1.WF := by
    apply gather_WF _ _ _ _ (sparse_WF_new _ _)
    intro e he _
    have := hl.inRange e.1 e.2 (CellMap.find_of_mem hl.sorted he)
    simp only [id, hT0, new]
    omega
  have hd2 := gather_dims self.sparseMatrix (fun _ => True)
    (fun k => (k.1, k.2 + left.numColumns)) T1
  refine ⟨?_, by rw [hd2.1, hd1.1]; rfl, by rw [hd2.2, hd1.2]; rfl, ?_⟩
  · apply gather_WF _ _ _ _ hwf1
    intro e he _
    have := hs.inRange e.1 e.2 (CellMap.find_of_mem hs.sorted he)
    rw [hd1.1, hd1.2]
    simp only [hT0, new]
    omega
  · intro i j hi hj
    have hT1cell : T1.getCell i j = left.getCell i j := by
      rw [hT1, gather_getCell_on left _ id T0 hl.sorted i j (i, j) (fun k _ hg => hg)]
      rw [getCell_eq_find left]
      cases hf : left.sparseMatrix.find (i, j) with
      | none => rfl
      | some v =>
        simp only [id, and_self, if_true, Option.getD_some]
        exact mcu.flush_of_crisp (Or.inr (hl.nonZero _ _ hf))
    rw [gather_getCell_on self _ _ T1 hs.sorted i j (i, j - left.numColumns)
      (fun k _ hg => by
        simp only [Prod.mk.injEq] at hg
        apply Prod.ext <;> simp only <;> omega)]
    by_cases hjl : j < left.numColumns
    · rw [if_pos hjl]
      have hne : ¬ (True ∧ (i, j - left.numColumns + left.numColumns) = (i, j)) := by
        simp only [Prod.mk.injEq, true_and]
        omega
      cases hf : self.sparseMatrix.find (i, j - left.numColumns) with
      | none => exact hT1cell
      | some v =>
        simp only [hne, if_false]
        exact hT1cell
    · rw [if_neg hjl]
      rw [getCell_eq_find self]
      cases hf : self.sparseMatrix.find (i, j - left.numColumns) with
      | none =>
        simp only [Option.getD_none]
        rw [hT1cell]
        exact hl.sparse_getCell_of_not_lt i j (fun h => hjl h.2)
      | some v =>
        have he : (i, j - left.numColumns + left.numColumns) = (i, j) := by
          simp only [Prod.mk.injEq, true_and]
          omega
        simp only [he, and_self, if_true, Option.getD_some]
        exact mcu.flush_of_crisp (Or.inr (hs.nonZero _ _ hf))

theorem mergeByRowsS_eq_gather (self left : SparseMatrix) :
    self.mergeByRowsS left =
      gather self.sparseMatrix (fun _ => True) (fun k => (k.1 + left.numRows, k.2))
        (gather left.sparseMatrix (fun _ => True) id
          (new (left.numRows + self.numRows) self.numColumns)) := by
  simp [mergeByRowsS, gather, forEachCell, getNumRows]

theorem holds_mergeByRowsS {self left : SparseMatrix} (hs : self.WF) (hl : left.WF)
    (hcols : left.numColumns = self.numColumns) :
    Holds (self.mergeByRowsS left) (left.numRows + self.numRows) self.numColumns
      (fun i j => if i < left.numRows then left.getCell i j
        else self.getCell (i - left.numRows) j) := by
  rw [mergeByRowsS_eq_gather]
  set T0 := new (left.numRows + self.numRows) self.numColumns with hT0
  set T1 := gather left.sparseMatrix (fun _ => True) id T0 with hT1
  have hd1 := gather_dims left.sparseMatrix (fun _ => True) id T0
  have hwf1 : T1.WF := by
    apply gather_WF _ _ _ _ (sparse_WF_new _ _)
    intro e he _
    have := hl.inRange e.1 e.2 (CellMap.find_of_mem hl.sorted he)
    simp only [id, hT0, new]
    omega
  have hd2 := gather_dims self.sparseMatrix (fun _ => True)
    (fun k => (k.1 + left.numRows, k.2)) T1
  refine ⟨?_, by rw [hd2.1, hd1.1]; rfl, by rw [hd2.2, hd1.2]; rfl, ?_⟩
  · apply gather_WF _ _ _ _ hwf1
    intro e he _
    have := hs.inRange e.1 e.2 (CellMap.find_of_mem hs.sorted he)
    rw [hd1.1, hd1.2]
    simp only [hT0, new]
    omega
  · intro i j hi hj
    have hT1cell : T1.getCell i j = left.getCell i j := by
      rw [hT1, gather_getCell_on left _ id T0 hl.sorted i j (i, j) (fun k _ hg => hg)]
      rw [getCell_eq_find left]
      cases hf : left.sparseMatrix.find (i, j) with
      | none => rfl
      | some v =>
        simp only [id, and_self, if_true, Option.getD_some]
        exact mcu.flush_of_crisp (Or.inr (hl.nonZero _ _ hf))
    rw [gather_getCell_on self _ _ T1 hs.sorted i j (i - left.numRows, j)
      (fun k _ hg => by
        simp only [Prod.mk.injEq] at hg
        apply Prod.ext <;> simp only <;> omega)]
    by_cases hil : i < left.numRows
    · rw [if_pos hil]
      have hne : ¬ (True ∧ (i - left.numRows + left.numRows, j) = (i, j)) := by
        simp only [Prod.mk.injEq, true_and]
        omega
      cases hf : self.sparseMatrix.find (i - left.numRows, j) with
      | none => exact hT1cell
      | some v =>
        simp only [hne, if_false]
        exact hT1cell
    · rw [if_neg hil]
      rw [getCell_eq_find self]
      cases hf : self.sparseMatrix.find (i - left.numRows, j) with
      | none =>
        simp only [Option.getD_none]
        rw [hT1cell]
        exact hl.sparse_getCell_of_not_lt i j (fun h => hil h.1)
      | some v =>
        have he : (i - left.numRows + left.numRows, j) = (i, j) := by
          simp only [Prod.mk.injEq, and_true]
          omega
        simp only [he, and_self, if_true, Option.getD_some]
        exact mcu.flush_of_crisp (Or.inr (hs.nonZero _ _ hf))

theorem sparse_isBlock_mergeColumns {o1 o2 : Option SparseMatrix} {R C1 C2 : Nat}
    {f1 f2 : Nat → Nat → ℚ} (h1 : IsBlock o1 R C1 f1) (h2 : IsBlock o2 R C2 f2) :
    IsBlock (mergeParts (fun l r => r.mergeByColumnsS l) o1 o2) R (C1 + C2)
      (fun i j => if j < C1 then f1 i j else f2 i (j - C1)) := by
  cases o1 with
  | none =>
    cases o2 with
    | none =>
      simp only [IsBlock, mergeParts] at *
      omega
    | some b =>
      obtain ⟨hR, hC, hb⟩ := h2
      have hC1 : C1 = 0 := by
        simp only [IsBlock] at h1
        omega
      subst hC1
      refine ⟨hR, by omega, ?_⟩
      have := sparse_holds_clone hb.wf
      rw [hb.rows, hb.cols] at this
      refine ⟨this.wf, this.rows, by simpa using this.cols, ?_⟩
      intro i j hi hj
      simp only [Nat.zero_add] at hj
      rw [this.cell i j hi hj, hb.cell i j hi hj]
      simp
  | some a =>
    obtain ⟨hR, hC, ha⟩ := h1
    cases o2 with
    | none =>
      have hC2 : C2 = 0 := by
        simp only [IsBlock] at h2
        omega
      subst hC2
      refine ⟨hR, by omega, ?_⟩
      have := sparse_holds_clone ha.wf
      rw [ha.rows, ha.cols] at this
      refine ⟨this.wf, this.rows, by simpa using this.cols, ?_⟩
      intro i j hi hj
      simp only [Nat.add_zero] at hj
      rw [this.cell i j hi hj, ha.cell i j hi hj]
      simp [hj]
    | some b =>
      obtain ⟨_, hC2, hb⟩ := h2
      refine ⟨hR, by omega, ?_⟩
      have := holds_mergeByColumnsS hb.wf ha.wf (by rw [ha.rows, hb.rows])
      rw [hb.rows, ha.cols, hb.cols] at this
      refine this.sparse_congr ?_
      intro i j hi hj
      by_cases hj1 : j < C1
      · simp only [if_pos hj1]
        exact ha.cell i j hi hj1
      · simp only [if_neg hj1]
        exact hb.cell i (j - C1) hi (by omega)

theorem sparse_isBlock_mergeRows {o1 o2 : Option SparseMatrix} {R1 R2 C : Nat}
    {f1 f2 : Nat → Nat → ℚ} (h1 : IsBlock o1 R1 C f1) (h2 : IsBlock o2 R2 C f2) :
    IsBlock (mergeParts (fun t b => b.mergeByRowsS t) o1 o2) (R1 + R2) C
      (fun i j => if i < R1 then f1 i j else f2 (i - R1) j) := by
  cases o1 with
  | none =>
    cases o2 with
    | none =>
      simp only [IsBlock, mergeParts] at *
      omega
    | some b =>
      obtain ⟨hR, hC, hb⟩ := h2
      have hR1 : R1 = 0 := by
        simp only [IsBlock] at h1
        omega
      subst hR1
      refine ⟨by omega, hC, ?_⟩
      have := sparse_holds_clone hb.wf
      rw [hb.rows, hb.cols] at this
      refine ⟨this.wf, by simpa using this.rows, this.cols, ?_⟩
      intro i j hi hj
      simp only [Nat.zero_add] at hi
      rw [this.cell i j hi hj, hb.cell i j hi hj]
      simp
  | some a =>
    obtain ⟨hR, hC, ha⟩ := h1
    cases o2 with
    | none =>
      have hR2 : R2 = 0 := by
        simp only [IsBlock] at h2
        omega
      subst hR2
      refine ⟨by omega, hC, ?_⟩
      have := sparse_holds_clone ha.wf
      rw [ha.rows, ha.cols] at this
      refine ⟨this.wf, by simpa using this.rows, this.cols, ?_⟩
      intro i j hi hj
      simp only [Nat.add_zero] at hi
      rw [this.cell i j hi hj, ha.cell i j hi hj]
      simp [hi]
    | some b =>
      obtain ⟨hR2, _, hb⟩ := h2
      refine ⟨by omega, hC, ?_⟩
      have := holds_mergeByRowsS hb.wf ha.wf (by rw [ha.cols, hb.cols])
      rw [hb.cols, ha.rows, hb.rows] at this
      refine this.sparse_congr ?_
      intro i j hi hj
      by_cases hi1 : i < R1
      · simp only [if_pos hi1]
        exact ha.cell i j hi1 hj
      · simp only [if_neg hi1]
        exact hb.cell (i - R1) j (by omega) hj

end SparseMatrix
namespace SparseMatrix

theorem sparse_isBlock_topLeft (M : SparseMatrix) (hM : M.WF) (r c : Nat) :
    IsBlock (M.getSubMatrixTopLeft r c) r c (fun i j => M.getCell i j) := by
  have he : M.getSubMatrixTopLeft r c = if r = 0 ∨ c = 0 then none
      else some (gather M.sparseMatrix (fun k => k.1 < r ∧ k.2 < c) id (new r c)) := by
    simp [getSubMatrixTopLeft, gather, getCellDataList, List.foldl_map]
  rw [he]
  split
  · assumption
  · refine ⟨by omega, by omega, ?_⟩
    exact holds_gather_new M hM (fun k => k.1 < r ∧ k.2 < c) id id r c
      (fun k hk => hk) (fun k _ => rfl) (fun i j hi hj => ⟨⟨hi, hj⟩, rfl⟩)

theorem sparse_isBlock_topRight (M : SparseMatrix) (hM : M.WF) (r c : Nat) (hc : c < M.numColumns) :
    IsBlock (M.getSubMatrixTopRight r c) r (M.numColumns - 1 - c)
      (fun i j => M.getCell i (j + (c + 1))) := by
  have he : M.getSubMatrixTopRight r c = if r = 0 ∨ c = M.numColumns - 1 then none
      else some (gather M.sparseMatrix (fun k => k.1 < r ∧ (c < k.2 ∧ k.2 < M.numColumns))
        (fun k => (k.1, k.2 - (c + 1))) (new r (M.numColumns - 1 - c))) := by
    simp [getSubMatrixTopRight, gather, getCellDataList, List.foldl_map]
  rw [he]
  split
  · rename_i h
    simp only [IsBlock]
    omega
  · refine ⟨by omega, by omega, ?_⟩
    exact holds_gather_new M hM (fun k => k.1 < r ∧ (c < k.2 ∧ k.2 < M.numColumns))
      (fun k => (k.1, k.2 - (c + 1))) (fun p => (p.1, p.2 + (c + 1))) r _
      (fun k hk => by simp only; omega)
      (fun k hk => by apply Prod.ext <;> simp only <;> omega)
      (fun i j hi hj => ⟨by simp only; omega, by simp⟩)

theorem sparse_isBlock_bottomLeft (M : SparseMatrix) (hM : M.WF) (r c : Nat) (hr : r < M.numRows) :
    IsBlock (M.getSubMatrixBottomLeft r c) (M.numRows - 1 - r) c
      (fun i j => M.getCell (i + (r + 1)) j) := by
  have he : M.getSubMatrixBottomLeft r c = if r = M.numRows - 1 ∨ c = 0 then none
      else some (gather M.sparseMatrix (fun k => (r < k.1 ∧ k.1 < M.numRows) ∧ k.2 < c)
        (fun k => (k.1 - (r + 1), k.2)) (new (M.numRows - 1 - r) c)) := by
    simp [getSubMatrixBottomLeft, gather, getCellDataList, List.foldl_map]
  rw [he]
  split
  · rename_i h
    simp only [IsBlock]
    omega
  · refine ⟨by omega, by omega, ?_⟩
    exact holds_gather_new M hM (fun k => (r < k.1 ∧ k.1 < M.numRows) ∧ k.2 < c)
      (fun k => (k.1 - (r + 1), k.2)) (fun p => (p.1 + (r + 1), p.2)) _ c
      (fun k hk => by simp only; omega)
      (fun k hk => by apply Prod.ext <;> simp only <;> omega)
      (fun i j hi hj => ⟨by simp only; omega, by simp⟩)

theorem sparse_isBlock_bottomRight (M : SparseMatrix) (hM : M.WF) (r c : Nat) (hr : r < M.numRows)
    (hc : c < M.numColumns) :
    IsBlock (M.getSubMatrixBottomRight r c) (M.numRows - 1 - r) (M.numColumns - 1 - c)
      (fun i j => M.getCell (i + (r + 1)) (j + (c + 1))) := by
  have he : M.getSubMatrixBottomRight r c =
      if r = M.numRows - 1 ∨ c = M.numColumns - 1 then none
      else some (gather M.sparseMatrix
        (fun k => (r < k.1 ∧ k.1 < M.numRows) ∧ (c < k.2 ∧ k.2 < M.numColumns))
        (fun k => (k.1 - (r + 1), k.2 - (c + 1)))
        (new (M.numRows - 1 - r) (M.numColumns - 1 - c))) := by
    simp [getSubMatrixBottomRight, gather, getCellDataList, List.foldl_map]
  rw [he]
  split
  · rename_i h
    simp only [IsBlock]
    omega
  · refine ⟨by omega, by omega, ?_⟩
    exact holds_gather_new M hM
      (fun k => (r < k.1 ∧ k.1 < M.numRows) ∧ (c < k.2 ∧ k.2 < M.numColumns))
      (fun k => (k.1 - (r + 1), k.2 - (c + 1))) (fun p => (p.1 + (r + 1), p.2 + (c + 1))) _ _
      (fun k hk => by simp only; omega)
      (fun k hk => by apply Prod.ext <;> simp only <;> omega)
      (fun i j hi hj => ⟨by simp only; omega, by simp⟩)

/-- The cell of the sparse matrix without row `r` and column `c`. -/
theorem sparse_isBlock_getSubMatrix (M : SparseMatrix) (hM : M.WF) (r c : Nat) (hr : r < M.numRows)
    (hc : c < M.numColumns) :
    IsBlock (M.getSubMatrix r c) (M.numRows - 1) (M.numColumns - 1)
      (fun i j => M.getCell (if i < r then i else i + 1) (if j < c then j else j + 1)) := by
  have h := sparse_isBlock_mergeRows
    (sparse_isBlock_mergeColumns (sparse_isBlock_topLeft M hM r c) (sparse_isBlock_topRight M hM r c hc))
    (sparse_isBlock_mergeColumns (sparse_isBlock_bottomLeft M hM r c hr) (sparse_isBlock_bottomRight M hM r c hr hc))
  have e1 : r + (M.numRows - 1 - r) = M.numRows - 1 := by omega
  have e2 : c + (M.numColumns - 1 - c) = M.numColumns - 1 := by omega
  rw [e1, e2] at h
  unfold getSubMatrix
  revert h
  generalize mergeParts (fun t b => b.mergeByRowsS t) _ _ = o
  intro h
  cases o with
  | none => exact h
  | some S =>
    obtain ⟨hR, hC, hS⟩ := h
    refine ⟨hR, hC, hS.sparse_congr ?_⟩
    intro i j hi hj
    by_cases hi1 : i < r <;> by_cases hj1 : j < c <;> simp only [hi1, hj1, if_true, if_false]
    · congr 1; omega
    · congr 1; omega
    · congr 1 <;> omega

theorem holds_determinantSubMatrix (M : SparseMatrix) (hM : M.WF) (c : Nat)
    (hr : 2 ≤ M.numRows) (hc : c < M.numColumns) (hc2 : 2 ≤ M.numColumns) :
    Holds (M.determinantSubMatrix c) (M.numRows - 1) (M.numColumns - 1)
      (fun i j => M.getCell (i + 1) (if j < c then j else j + 1)) := by
  have h1 := sparse_isBlock_getSubMatrixRect M hM 1 (M.numRows - 1) 0 c
  have h2 := sparse_isBlock_getSubMatrixRect M hM 1 (M.numRows - 1) (c + 1) (M.numColumns - 1 - c)
  have h := sparse_isBlock_mergeColumns h1 h2
  have e2 : c + (M.numColumns - 1 - c) = M.numColumns - 1 := by omega
  rw [e2] at h
  have hmp : M.determinantSubMatrix c = match
      mergeParts (fun l r => r.mergeByColumnsS l) (M.getSubMatrixRect 1 (M.numRows - 1) 0 c)
        (M.getSubMatrixRect 1 (M.numRows - 1) (c + 1) (M.numColumns - 1 - c)) with
      | some S => S
      | none => (new 0 0).clone := by
    unfold determinantSubMatrix mergeParts
    cases M.getSubMatrixRect 1 (M.numRows - 1) 0 c <;>
      cases M.getSubMatrixRect 1 (M.numRows - 1) (c + 1) (M.numColumns - 1 - c) <;> rfl
  rw [hmp]
  revert h
  generalize mergeParts (fun l r => r.mergeByColumnsS l) _ _ = o
  intro h
  cases o with
  | none =>
    simp only [IsBlock] at h
    omega
  | some S =>
    obtain ⟨hR, hC, hS⟩ := h
    refine hS.sparse_congr ?_
    intro i j hi hj
    by_cases hj1 : j < c <;> simp only [hj1, if_true, if_false]
    · simp
    · congr 1; omega

/-- The Laplace recursion of the sparse backend computes the determinant of a well-formed
square matrix. -/
theorem sparse_getDeterminantAux_eq_det (n : Nat) : ∀ M : SparseMatrix, M.WF → M.numRows = n + 1 →
    M.numColumns = n + 1 →
    getDeterminantAux (n + 1) M = (cellMatrix M.getCell (n + 1) (n + 1)).det := by
  induction n with
  | zero =>
    intro M _ hR _
    simp [getDeterminantAux, hR, Matrix.det_fin_one, cellMatrix]
  | succ k ih =>
    intro M hwf hR hC
    cases k with
    | zero =>
      simp [getDeterminantAux, hR, Matrix.det_fin_two, cellMatrix]
    | succ k =>
      rw [getDeterminantAux]
      have hR1 : M.numRows ≠ 1 := by omega
      have hR2 : M.numRows ≠ 2 := by omega
      simp only [hR1, hR2, if_false]
      have hbody : (fun c determinant =>
          if mcu.almostEqual (M.getCell 0 c) 0 = true then determinant
          else determinant + (if c % 2 = 1 then -M.getCell 0 c else M.getCell 0 c) *
            getDeterminantAux (k + 1 + 1) (M.determinantSubMatrix c)) =
          (fun c determinant => determinant +
            (if mcu.almostEqual (M.getCell 0 c) 0 = true then 0
              else (if c % 2 = 1 then -M.getCell 0 c else M.getCell 0 c) *
                getDeterminantAux (k + 1 + 1) (M.determinantSubMatrix c))) := by
        funext c d
        split <;> simp
      rw [hbody, forLoop_sum, hC, Matrix.det_succ_row_zero, ← Fin.sum_univ_eq_sum_range]
      refine Finset.sum_congr rfl ?_
      intro c _
      have hc : (c : Nat) < M.numColumns := by rw [hC]; exact c.2
      have hsub := holds_determinantSubMatrix M hwf c (by omega) hc (by omega)
      have hR' : M.numRows - 1 = k + 1 + 1 := by omega
      have hC' : M.numColumns - 1 = k + 1 + 1 := by omega
      rw [hR', hC'] at hsub
      have hdet := ih (M.determinantSubMatrix c) hsub.wf hsub.rows hsub.cols
      have hmat : cellMatrix (M.determinantSubMatrix c).getCell (k + 1 + 1) (k + 1 + 1) =
          (cellMatrix M.getCell (k + 1 + 1 + 1) (k + 1 + 1 + 1)).submatrix Fin.succ c.succAbove := by
        ext i j
        simp only [cellMatrix, Matrix.of_apply, Matrix.submatrix_apply]
        rw [hsub.cell i j i.2 j.2]
        congr 1
        simp only [Fin.succAbove, Fin.lt_def, Fin.coe_castSucc]
        split <;> simp
      rw [hdet, hmat]
      by_cases hz : mcu.almostEqual (M.getCell 0 c) 0 = true
      · have h0 := (hwf.crisp 0 c).eq_zero hz
        simp [hz, cellMatrix, h0]
      · simp only [hz, if_false]
        have hsign : (if (c : Nat) % 2 = 1 then -M.getCell 0 c else M.getCell 0 c) =
            (-1) ^ (c : Nat) * M.getCell 0 c := by
          rcases Nat.even_or_odd (c : Nat) with he | ho
          · have : (c : Nat) % 2 ≠ 1 := by
              rw [Nat.even_iff] at he; omega
            simp [this, he.neg_one_pow]
          · have : (c : Nat) % 2 = 1 := Nat.odd_iff.mp ho
            simp [this, ho.neg_one_pow]
        rw [hsign]
        simp [cellMatrix]

end SparseMatrix
namespace DenseMatrix

/-- A nested loop that rewrites every cell once, from its own old value. -/
theorem holds_rewrite (R C : Nat) (upd : Nat → Nat → DenseMatrix → DenseMatrix)
    (F : Nat → Nat → ℚ → ℚ)
    (hrows : ∀ r c t, (upd r c t).numRows = t.numRows)
    (hcols : ∀ r c t, (upd r c t).numColumns = t.numColumns)
    (hwf : ∀ r c t, t.WF → (upd r c t).WF)
    (hcell : ∀ r c t i j, t.WF → r < t.numRows → c < t.numColumns →
      (upd r c t).getCell i j = if i = r ∧ j = c then F r c (t.getCell r c) else t.getCell i j)
    (T : DenseMatrix) (hT : T.WF) (hR : T.numRows = R) (hC : T.numColumns = C) :
    Holds (forLoop R (fun r t => forLoop C (fun c t => upd r c t) t) T) R C
      (fun i j => F i j (T.getCell i j)) := by
  -- the state after `c0` cells of row `r0`
  have hrow : ∀ r0, r0 < R → ∀ (T1 : DenseMatrix), T1.WF → T1.numRows = R → T1.numColumns = C →
      ∀ c0, c0 ≤ C →
      (forLoop c0 (fun c t => upd r0 c t) T1).WF ∧
      (forLoop c0 (fun c t => upd r0 c t) T1).numRows = R ∧
      (forLoop c0 (fun c t => upd r0 c t) T1).numColumns = C ∧
      ∀ i j, (forLoop c0 (fun c t => upd r0 c t) T1).getCell i j =
        if i = r0 ∧ j < c0 then F i j (T1.getCell i j) else T1.getCell i j := by
    intro r0 hr0R T1 hT1 hR1 hC1 c0
    induction c0 with
    | zero =>
      intro _
      exact ⟨hT1, hR1, hC1, fun i j => by simp [forLoop_zero]⟩
    | succ k ih =>
      intro hk
      obtain ⟨a1, a2, a3, a4⟩ := ih (by omega)
      simp only [forLoop_succ]
      refine ⟨hwf _ _ _ a1, by rw [hrows, a2], by rw [hcols, a3], ?_⟩
      intro i j
      rw [hcell r0 k _ i j a1 (by rw [a2]; exact hr0R) (by rw [a3]; omega), a4, a4]
      by_cases h1 : i = r0 ∧ j = k
      · obtain ⟨rfl, rfl⟩ := h1
        simp
      · rw [if_neg h1]
        by_cases h2 : i = r0 ∧ j < k
        · rw [if_pos h2, if_pos ⟨h2.1, by omega⟩]
        · rw [if_neg h2, if_neg]
          intro h3
          apply h1
          refine ⟨h3.1, ?_⟩
          have : ¬ j < k := fun h => h2 ⟨h3.1, h⟩
          omega
  have hall : ∀ r0, r0 ≤ R →
      (forLoop r0 (fun r t => forLoop C (fun c t => upd r c t) t) T).WF ∧
      (forLoop r0 (fun r t => forLoop C (fun c t => upd r c t) t) T).numRows = R ∧
      (forLoop r0 (fun r t => forLoop C (fun c t => upd r c t) t) T).numColumns = C ∧
      ∀ i j, j < C → (forLoop r0 (fun r t => forLoop C (fun c t => upd r c t) t) T).getCell i j =
        if i < r0 then F i j (T.getCell i j) else T.getCell i j := by
    intro r0
    induction r0 with
    | zero =>
      intro _
      exact ⟨hT, hR, hC, fun i j _ => by simp [forLoop_zero]⟩
    | succ k ih =>
      intro hk
      obtain ⟨a1, a2, a3, a4⟩ := ih (by omega)
      obtain ⟨b1, b2, b3, b4⟩ := hrow k (by omega) _ a1 a2 a3 C (le_refl C)
      simp only [forLoop_succ]
      refine ⟨b1, b2, b3, ?_⟩
      intro i j hj
      rw [b4, a4 i j hj]
      by_cases h1 : i = k
      · subst h1
        simp [hj]
      · have h2 : ¬ (i = k ∧ j < C) := fun h => h1 h.1
        rw [if_neg h2]
        by_cases h3 : i < k
        · rw [if_pos h3, if_pos (by omega)]
        · rw [if_neg h3, if_neg (by omega)]
  obtain ⟨c1, c2, c3, c4⟩ := hall R (le_refl R)
  exact ⟨c1, c2, c3, fun i j hi hj => by rw [c4 i j hj, if_pos hi]⟩

theorem getCell_setCell {M : DenseMatrix} (h : M.WF) (r c : Nat) (v : ℚ) (i j : Nat)
    (hr : r < M.numRows) (hc : c < M.numColumns) :
    (M.setCell r c v).getCell i j = if i = r ∧ j = c then v else M.getCell i j := by
  by_cases hij : i = r ∧ j = c
  · obtain ⟨rfl, rfl⟩ := hij
    simp [getCell_setCell_eq h _ _ _ hr hc]
  · rw [if_neg hij, getCell_setCell_ne _ _ _ _ _ _ hij]

theorem holds_scale {M : DenseMatrix} (hM : M.WF) (scalar : ℚ) :
    Holds (M.scale scalar) M.numRows M.numColumns (fun i j => M.getCell i j * scalar) := by
  unfold scale
  exact holds_rewrite M.numRows M.numColumns
    (fun r c t => t.setCell r c (t.getCell r c * scalar)) (fun _ _ x => x * scalar)
    (fun _ _ _ => rfl) (fun _ _ _ => rfl) (fun _ _ _ h => WF_setCell h _ _ _)
    (fun r c t i j ht hr hc => getCell_setCell ht r c _ i j hr hc) M hM rfl rfl

theorem holds_applyCheckerboardPattern {M : DenseMatrix} (hM : M.WF) :
    Holds M.applyCheckerboardPattern M.numRows M.numColumns
      (fun i j => if (i + j) % 2 = 0 then M.getCell i j else -M.getCell i j) := by
  unfold applyCheckerboardPattern
  refine holds_rewrite M.numRows M.numColumns
    (fun r c t => if (r + c) % 2 = 0 then t else t.setCell r c (-(t.getCell r c)))
    (fun r c x => if (r + c) % 2 = 0 then x else -x)
    (fun r c t => by simp only; split <;> rfl) (fun r c t => by simp only; split <;> rfl)
    (fun r c t h => by simp only; split; exact h; exact WF_setCell h _ _ _)
    (fun r c t i j ht hr hc => ?_) M hM rfl rfl
  simp only
  by_cases hp : (r + c) % 2 = 0
  · simp only [hp, if_true]
    split
    · rename_i h
      rw [h.1, h.2]
    · rfl
  · simp only [hp, if_false]
    exact getCell_setCell ht r c _ i j hr hc

theorem holds_transpose (M : DenseMatrix) :
    Holds M.transpose M.numColumns M.numRows (fun i j => M.getCell j i) := by
  obtain ⟨h1, h2, h3, _, h5⟩ := fillCells_props (fun r c => (c, r)) (fun r c => M.getCell r c)
    M.numRows M.numColumns (new M.numColumns M.numRows 0)
  have heq : M.transpose = fillCells M.numRows M.numColumns (fun r c => (c, r))
      (fun r c => M.getCell r c) (new M.numColumns M.numRows 0) := by
    unfold transpose
    simp only
    generalize hT : fillCells M.numRows M.numColumns (fun r c => (c, r))
      (fun r c => M.getCell r c) (new M.numColumns M.numRows 0) = T at h1 h2
    cases T
    simp only [new] at h1 h2
    simp [h1, h2]
  rw [heq]
  refine ⟨h3 (WF_new _ _ _), h1, h2, ?_⟩
  intro i j hi hj
  exact h5 (WF_new _ _ _) j i hj hi (fun r1 c1 _ _ h => by
    simp only [Prod.mk.injEq] at h
    exact ⟨h.2, h.1⟩) hi hj

theorem getMinorMatrix_eq (M : DenseMatrix)
    (hsub : ∀ r c, r < M.numRows → c < M.numColumns → M.getSubMatrix r c ≠ none) :
    M.getMinorMatrix = some (fillCells M.numRows M.numColumns (fun r c => (r, c))
      (fun r c => M.minorValue r c) (new M.numRows M.numColumns 0)) := by
  unfold getMinorMatrix fillCells
  generalize new M.numRows M.numColumns 0 = T
  have hrow : ∀ r, r < M.numRows → ∀ c0, c0 ≤ M.numColumns → ∀ T1 : DenseMatrix,
      forLoop c0 (fun c acc =>
        match acc, M.getSubMatrix r c with
        | some minor, some subDenseMatrix =>
          some (minor.setCell r c subDenseMatrix.getDeterminant)
        | _, _ => none) (some T1) =
      some (forLoop c0 (fun c t => t.setCell r c (M.minorValue r c)) T1) := by
    intro r hr c0
    induction c0 with
    | zero => intro _ _; rfl
    | succ k ih =>
      intro hk T1
      simp only [forLoop_succ]
      rw [ih (by omega)]
      have := hsub r k hr (by omega)
      unfold minorValue
      cases hs : M.getSubMatrix r k with
      | none => exact absurd hs this
      | some S => rfl
  have hall : ∀ r0, r0 ≤ M.numRows →
      forLoop r0 (fun r acc => forLoop M.numColumns (fun c acc =>
        match acc, M.getSubMatrix r c with
        | some minor, some subDenseMatrix =>
          some (minor.setCell r c subDenseMatrix.getDeterminant)
        | _, _ => none) acc) (some T) =
      some (forLoop r0 (fun r t =>
        forLoop M.numColumns (fun c t => t.setCell r c (M.minorValue r c)) t) T) := by
    intro r0
    induction r0 with
    | zero => intro _; rfl
    | succ k ih =>
      intro hk
      simp only [forLoop_succ]
      rw [ih (by omega)]
      exact hrow k (by omega) M.numColumns (le_refl _) _
  exact hall M.numRows (le_refl _)

end DenseMatrix

theorem mcu.doubleAlmostEqual_nan_right (d : ℚ) (e : mcu.Double) :
    mcu.doubleAlmostEqual (.fin d) .nan e = false := by
  cases e <;> rfl

namespace DenseMatrix

theorem getDeterminant_eq_det {M : DenseMatrix} (n : Nat) (hwf : M.WF) (hR : M.numRows = n + 1)
    (hC : M.numColumns = n + 1)
    (hcrisp : ∀ i j, i < n + 1 → j < n + 1 → mcu.Crisp (M.getCell i j)) :
    M.getDeterminant = (cellMatrix M.getCell (n + 1) (n + 1)).det := by
  unfold getDeterminant
  rw [hR]
  exact getDeterminantAux_eq_det n M hwf hR hC hcrisp

/-- The minor that `getMinorMatrix()` stores is the determinant of the matrix without row
`r` and column `c`. -/
theorem minorValue_eq_det {M : DenseMatrix} (k : Nat) (hwf : M.WF) (hR : M.numRows = k + 2)
    (hC : M.numColumns = k + 2)
    (hcrisp : ∀ i j, i < k + 2 → j < k + 2 → mcu.Crisp (M.getCell i j))
    (r c : Fin (k + 2)) :
    M.getSubMatrix r c ≠ none ∧
    M.minorValue r c =
      ((cellMatrix M.getCell (k + 2) (k + 2)).submatrix r.succAbove c.succAbove).det := by
  have hb := isBlock_getSubMatrix M r c (by rw [hR]; exact r.2) (by rw [hC]; exact c.2)
  unfold minorValue
  cases hs : M.getSubMatrix r c with
  | none =>
    rw [hs] at hb
    simp only [IsBlock] at hb
    omega
  | some S =>
    rw [hs] at hb
    obtain ⟨_, _, hS⟩ := hb
    have hR' : M.numRows - 1 = k + 1 := by omega
    have hC' : M.numColumns - 1 = k + 1 := by omega
    rw [hR', hC'] at hS
    refine ⟨by simp, ?_⟩
    simp only
    rw [getDeterminant_eq_det k hS.wf hS.rows hS.cols (by
      intro i j hi hj
      rw [hS.cell i j hi hj]
      apply hcrisp <;> split <;> omega)]
    congr 1
    ext i j
    simp only [cellMatrix, Matrix.of_apply, Matrix.submatrix_apply]
    rw [hS.cell i j i.2 j.2]
    congr 1
    · simp only [Fin.succAbove, Fin.lt_def, Fin.coe_castSucc]
      split <;> simp
    · simp only [Fin.succAbove, Fin.lt_def, Fin.coe_castSucc]
      split <;> simp

/-- The result of the dense `getInverse` on a square matrix of at least two rows. -/
theorem holds_getInverse {M : DenseMatrix} (k : Nat) (hwf : M.WF) (hR : M.numRows = k + 2)
    (hC : M.numColumns = k + 2)
    (hcrisp : ∀ i j, i < k + 2 → j < k + 2 → mcu.Crisp (M.getCell i j))
    (d : ℚ) (hd : mcu.almostEqual d 0 = false) :
    ∃ B, M.getInverse (.fin d) = some (some B) ∧ B.WF ∧ B.numRows = k + 2 ∧
      B.numColumns = k + 2 ∧
      cellMatrix B.getCell (k + 2) (k + 2) =
        d⁻¹ • (cellMatrix M.getCell (k + 2) (k + 2)).adjugate := by
  have hsub : ∀ r c, r < M.numRows → c < M.numColumns → M.getSubMatrix r c ≠ none := by
    intro r c hr hc
    exact (minorValue_eq_det k hwf hR hC hcrisp ⟨r, by omega⟩ ⟨c, by omega⟩).1
  have hminor := holds_fill_new M.numRows M.numColumns (fun r c => M.minorValue r c)
  set Mn := fillCells M.numRows M.numColumns (fun r c => (r, c))
    (fun r c => M.minorValue r c) (new M.numRows M.numColumns 0) with hMn
  have hchk := holds_applyCheckerboardPattern hminor.wf
  rw [hminor.rows, hminor.cols] at hchk
  have htr := holds_transpose Mn.applyCheckerboardPattern
  rw [hchk.rows, hchk.cols] at htr
  have hsc := holds_scale htr.wf (1 / d)
  rw [htr.rows, htr.cols] at hsc
  refine ⟨(Mn.applyCheckerboardPattern.transpose).scale (1 / d), ?_, hsc.wf, ?_, ?_, ?_⟩
  · unfold getInverse
    have h1 : mcu.doubleAlmostEqual (.fin d) (.fin 0) (.fin mcu.EPSILON) = false := hd
    rw [h1, mcu.doubleAlmostEqual_nan_right]
    simp only [Bool.or_self, Bool.false_eq_true, if_false, getNumRows]
    have hR1 : M.numRows ≠ 1 := by omega
    simp only [hR1, if_false]
    rw [getMinorMatrix_eq M hsub]
  · rw [hsc.rows, hC]
  · rw [hsc.cols, hR]
  · ext i j
    simp only [cellMatrix, Matrix.of_apply, Matrix.smul_apply, smul_eq_mul]
    rw [hsc.cell i j (by rw [hC]; exact i.2) (by rw [hR]; exact j.2)]
    rw [htr.cell i j (by rw [hC]; exact i.2) (by rw [hR]; exact j.2)]
    rw [hchk.cell j i (by rw [hR]; exact j.2) (by rw [hC]; exact i.2)]
    rw [hminor.cell j i (by rw [hR]; exact j.2) (by rw [hC]; exact i.2)]
    rw [(minorValue_eq_det k hwf hR hC hcrisp j i).2]
    rw [Matrix.adjugate_fin_succ_eq_det_submatrix]
    have hsign : ((-1 : ℚ)) ^ ((j : Nat) + (i : Nat)) =
        if ((j : Nat) + (i : Nat)) % 2 = 0 then 1 else -1 := by
      rcases Nat.even_or_odd ((j : Nat) + (i : Nat)) with he | ho
      · rw [he.neg_one_pow, if_pos (Nat.even_iff.mp he)]
      · rw [ho.neg_one_pow, if_neg (by rw [Nat.odd_iff] at ho; omega)]
    rw [hsign]
    simp only [cellMatrix]
    split <;> field_simp

end DenseMatrix
namespace SparseMatrix

theorem rewrite_dims (cells : CellMap) (test : Nat × Nat → Prop) [DecidablePred test]
    (val : Nat × Nat → ℚ → ℚ) (T : SparseMatrix) :
    (rewrite cells test val T).numRows = T.numRows ∧
      (rewrite cells test val T).numColumns = T.numColumns := by
  induction cells generalizing T with
  | nil => exact ⟨rfl, rfl⟩
  | cons e rest ih =>
    simp only [rewrite, List.foldl_cons]
    have := ih (if test e.1 then T.setCell e.1.1 e.1.2 (val e.1 e.2) else T)
    simp only [rewrite] at this
    rw [this.1, this.2]
    split <;> simp

theorem rewrite_WF (cells : CellMap) (test : Nat × Nat → Prop) [DecidablePred test]
    (val : Nat × Nat → ℚ → ℚ) (T : SparseMatrix) (hT : T.WF)
    (hg : ∀ e ∈ cells, test e.1 → e.1.1 < T.numRows ∧ e.1.2 < T.numColumns) :
    (rewrite cells test val T).WF := by
  induction cells generalizing T with
  | nil => exact hT
  | cons e rest ih =>
    simp only [rewrite, List.foldl_cons]
    apply ih
    · split
      · rename_i ht
        have := hg e (List.mem_cons_self _ _) ht
        exact sparse_WF_setCell hT _ _ _ this.1 this.2
      · exact hT
    · intro e1 he1 ht1
      have := hg e1 (List.mem_cons_of_mem _ he1) ht1
      split <;> simpa using this

theorem rewrite_miss (cells : CellMap) (test : Nat × Nat → Prop) [DecidablePred test]
    (val : Nat × Nat → ℚ → ℚ) (T : SparseMatrix) (k : Nat × Nat)
    (hmiss : ∀ e ∈ cells, test e.1 → e.1 ≠ k) :
    (rewrite cells test val T).sparseMatrix.find k = T.sparseMatrix.find k := by
  induction cells generalizing T with
  | nil => rfl
  | cons e rest ih =>
    simp only [rewrite, List.foldl_cons]
    have := ih (if test e.1 then T.setCell e.1.1 e.1.2 (val e.1 e.2) else T)
      (fun e1 he1 => hmiss e1 (List.mem_cons_of_mem _ he1))
    simp only [rewrite] at this
    rw [this]
    split
    · rename_i ht
      rw [find_setCell, if_neg]
      exact hmiss e (List.mem_cons_self _ _) ht
    · rfl

theorem rewrite_hit (cells : CellMap) (test : Nat × Nat → Prop) [DecidablePred test]
    (val : Nat × Nat → ℚ → ℚ) (T : SparseMatrix) (hs : cells.Sorted)
    (e : (Nat × Nat) × ℚ) (he : e ∈ cells) (ht : test e.1) :
    (rewrite cells test val T).sparseMatrix.find e.1 =
      if mcu.almostEqual (val e.1 e.2) 0 then none else some (val e.1 e.2) := by
  induction cells generalizing T with
  | nil => cases he
  | cons x rest ih =>
    rw [CellMap.Sorted, List.pairwise_cons] at hs
    simp only [rewrite, List.foldl_cons]
    rcases List.mem_cons.mp he with h | h
    · subst h
      have := rewrite_miss rest test val
        (if test e.1 then T.setCell e.1.1 e.1.2 (val e.1 e.2) else T) e.1 (by
          intro e1 he1 _ hk
          have hlt := hs.1 e1 he1
          rw [hk, CellMap.keyLt_irrefl] at hlt
          cases hlt)
      simp only [rewrite] at this
      rw [this, if_pos ht, find_setCell]
      simp
    · exact ih _ hs.2 h

/-- The cell of a matrix whose stored cells were rewritten in place. -/
theorem rewrite_self_getCell {M : SparseMatrix} (hM : M.WF) (test : Nat × Nat → Prop)
    [DecidablePred test] (val : Nat × Nat → ℚ → ℚ) (i j : Nat) :
    (rewrite M.sparseMatrix test val M).getCell i j =
      if test (i, j) ∧ M.sparseMatrix.find (i, j) ≠ none
      then mcu.flush (val (i, j) (M.getCell i j)) else M.getCell i j := by
  rw [getCell_eq_find, getCell_eq_find M]
  cases hf : M.sparseMatrix.find (i, j) with
  | none =>
    simp only [ne_eq, not_true_eq_false, and_false, if_false, Option.getD_none]
    rw [rewrite_miss, hf]
    · rfl
    · intro e he _ hk
      have := CellMap.find_of_mem hM.sorted he
      rw [hk, hf] at this
      cases this
  | some v =>
    by_cases ht : test (i, j)
    · have := rewrite_hit M.sparseMatrix test val M hM.sorted ((i, j), v)
        (CellMap.mem_of_find hf) ht
      simp only at this
      rw [this]
      simp only [ht, ne_eq, not_false_eq_true, and_self, if_true, Option.getD_some, mcu.flush,
        reduceCtorEq]
      split <;> rfl
    · simp only [ht, false_and, if_false, Option.getD_some]
      rw [rewrite_miss, hf]
      · rfl
      · intro e _ hte hk
        exact ht (hk ▸ hte)

theorem rewrite_self_WF {M : SparseMatrix} (hM : M.WF) (test : Nat × Nat → Prop)
    [DecidablePred test] (val : Nat × Nat → ℚ → ℚ) : (rewrite M.sparseMatrix test val M).WF :=
  rewrite_WF _ _ _ _ hM (fun e he _ => hM.inRange e.1 e.2 (CellMap.find_of_mem hM.sorted he))

theorem getCell_eq_zero_of_find_none {M : SparseMatrix} {i j : Nat}
    (h : M.sparseMatrix.find (i, j) = none) : M.getCell i j = 0 := by
  rw [getCell_eq_find, h]; rfl

theorem scale_eq_rewrite (M : SparseMatrix) (scalar : ℚ) :
    M.scale scalar = rewrite M.sparseMatrix (fun _ => True) (fun _ v => v * scalar) M := by
  simp [scale, rewrite, getCellDataList, List.foldl_map]

theorem sparse_holds_scale {M : SparseMatrix} (hM : M.WF) (scalar : ℚ) :
    Holds (M.scale scalar) M.numRows M.numColumns
      (fun i j => mcu.flush (M.getCell i j * scalar)) := by
  rw [scale_eq_rewrite]
  have hd := rewrite_dims M.sparseMatrix (fun _ => True) (fun _ v => v * scalar) M
  refine ⟨rewrite_self_WF hM _ _, hd.1, hd.2, ?_⟩
  intro i j _ _
  rw [rewrite_self_getCell hM]
  split
  · rfl
  · rename_i h
    simp only [true_and, ne_eq, not_not] at h
    rw [getCell_eq_zero_of_find_none h]
    simp [mcu.flush_zero]

theorem mcu_almostEqual_neg (x : ℚ) : mcu.almostEqual (-x) 0 = mcu.almostEqual x 0 := by
  rw [Bool.eq_iff_iff, mcu.almostEqual_zero_iff, mcu.almostEqual_zero_iff, abs_neg]

theorem applyCheckerboardPattern_eq_rewrite (M : SparseMatrix) :
    M.applyCheckerboardPattern =
      rewrite M.sparseMatrix (fun k => ¬ (k.1 + k.2) % 2 = 0) (fun _ v => -v) M := by
  simp only [applyCheckerboardPattern, rewrite, forEachCell]
  congr 1
  funext t e
  by_cases h : (e.1.1 + e.1.2) % 2 = 0 <;> simp [h]

theorem sparse_holds_applyCheckerboardPattern {M : SparseMatrix} (hM : M.WF) :
    Holds M.applyCheckerboardPattern M.numRows M.numColumns
      (fun i j => if (i + j) % 2 = 0 then M.getCell i j else -M.getCell i j) := by
  rw [applyCheckerboardPattern_eq_rewrite]
  have hd := rewrite_dims M.sparseMatrix (fun k => ¬ (k.1 + k.2) % 2 = 0) (fun _ v => -v) M
  refine ⟨rewrite_self_WF hM _ _, hd.1, hd.2, ?_⟩
  intro i j _ _
  rw [rewrite_self_getCell hM]
  by_cases hp : (i + j) % 2 = 0
  · simp [hp]
  · simp only [hp, not_false_eq_true, true_and, if_false]
    split
    · apply mcu.flush_of_crisp
      rcases hM.crisp i j with h | h
      · left; rw [h]; simp
      · right; rw [mcu_almostEqual_neg]; exact h
    · rename_i h
      simp only [ne_eq, not_not] at h
      rw [getCell_eq_zero_of_find_none h]
      simp

end SparseMatrix
namespace SparseMatrix

theorem transposeMap_miss (cells m0 : CellMap) (k : Nat × Nat)
    (hmiss : ∀ e ∈ cells, (e.1.2, e.1.1) ≠ k) :
    CellMap.find (cells.foldl (fun m e => CellMap.assign m (e.1.2, e.1.1) e.2) m0) k =
      CellMap.find m0 k := by
  induction cells generalizing m0 with
  | nil => rfl
  | cons e rest ih =>
    simp only [List.foldl_cons]
    rw [ih _ (fun e1 he1 => hmiss e1 (List.mem_cons_of_mem _ he1)), CellMap.find_assign,
      if_neg (hmiss e (List.mem_cons_self _ _))]

theorem transposeMap_hit (cells m0 : CellMap) (hs : cells.Sorted) (e : (Nat × Nat) × ℚ)
    (he : e ∈ cells) :
    CellMap.find (cells.foldl (fun m e => CellMap.assign m (e.1.2, e.1.1) e.2) m0)
      (e.1.2, e.1.1) = some e.2 := by
  induction cells generalizing m0 with
  | nil => cases he
  | cons x rest ih =>
    rw [CellMap.Sorted, List.pairwise_cons] at hs
    simp only [List.foldl_cons]
    rcases List.mem_cons.mp he with h | h
    · subst h
      rw [transposeMap_miss, CellMap.find_assign, if_pos rfl]
      intro e1 he1 hk
      have hlt := hs.1 e1 he1
      have : e1.1 = e.1 := by
        simp only [Prod.mk.injEq] at hk
        exact Prod.ext hk.2 hk.1
      rw [this, CellMap.keyLt_irrefl] at hlt
      cases hlt
    · exact ih _ hs.2 h

theorem transposeMap_sorted (cells m0 : CellMap) (h0 : m0.Sorted) :
    (cells.foldl (fun m e => CellMap.assign m (e.1.2, e.1.1) e.2) m0).Sorted := by
  induction cells generalizing m0 with
  | nil => exact h0
  | cons e rest ih =>
    simp only [List.foldl_cons]
    exact ih _ (CellMap.sorted_assign h0 _ _)

theorem find_transpose {M : SparseMatrix} (hM : M.sparseMatrix.Sorted) (k : Nat × Nat) :
    M.transpose.sparseMatrix.find k = M.sparseMatrix.find (k.2, k.1) := by
  simp only [transpose, forEachCell]
  cases hf : M.sparseMatrix.find (k.2, k.1) with
  | none =>
    rw [transposeMap_miss]
    · rfl
    · intro e he hk
      have := CellMap.find_of_mem hM he
      have hek : e.1 = (k.2, k.1) := by
        rw [← hk]
      rw [hek, hf] at this
      cases this
  | some v =>
    have := transposeMap_hit M.sparseMatrix [] hM ((k.2, k.1), v) (CellMap.mem_of_find hf)
    simpa using this

theorem sparse_holds_transpose {M : SparseMatrix} (hM : M.WF) :
    Holds M.transpose M.numColumns M.numRows (fun i j => M.getCell j i) := by
  refine ⟨⟨?_, ?_, ?_⟩, rfl, rfl, ?_⟩
  · exact transposeMap_sorted _ _ CellMap.sorted_nil
  · intro k v hk
    rw [find_transpose hM.sorted] at hk
    have := hM.inRange _ _ hk
    exact ⟨this.2, this.1⟩
  · intro k v hk
    rw [find_transpose hM.sorted] at hk
    exact hM.nonZero _ _ hk
  · intro i j _ _
    rw [getCell_eq_find, getCell_eq_find, find_transpose hM.sorted]

/-- A nested loop that writes every cell of a fresh sparse matrix once. -/
theorem sparse_holds_fill_new (R C : Nat) (V : Nat → Nat → ℚ) :
    Holds (forLoop R (fun r t => forLoop C (fun c t => t.setCell r c (V r c)) t) (new R C)) R C
      (fun i j => mcu.flush (V i j)) := by
  have hrow : ∀ r0, r0 < R → ∀ (T1 : SparseMatrix), T1.WF → T1.numRows = R → T1.numColumns = C →
      ∀ c0, c0 ≤ C →
      (forLoop c0 (fun c t => t.setCell r0 c (V r0 c)) T1).WF ∧
      (forLoop c0 (fun c t => t.setCell r0 c (V r0 c)) T1).numRows = R ∧
      (forLoop c0 (fun c t => t.setCell r0 c (V r0 c)) T1).numColumns = C ∧
      ∀ i j, (forLoop c0 (fun c t => t.setCell r0 c (V r0 c)) T1).getCell i j =
        if i = r0 ∧ j < c0 then mcu.flush (V i j) else T1.getCell i j := by
    intro r0 hr0R T1 hT1 hR1 hC1 c0
    induction c0 with
    | zero =>
      intro _
      exact ⟨hT1, hR1, hC1, fun i j => by simp [forLoop_zero]⟩
    | succ k ih =>
      intro hk
      obtain ⟨a1, a2, a3, a4⟩ := ih (by omega)
      simp only [forLoop_succ]
      refine ⟨sparse_WF_setCell a1 _ _ _ (by rw [a2]; exact hr0R) (by rw [a3]; omega),
        by rw [sparse_numRows_setCell, a2], by rw [sparse_numColumns_setCell, a3], ?_⟩
      intro i j
      rw [sparse_getCell_setCell, a4]
      by_cases h1 : (r0, k) = (i, j)
      · simp only [Prod.mk.injEq] at h1
        obtain ⟨rfl, rfl⟩ := h1
        simp
      · rw [if_neg h1]
        simp only [Prod.mk.injEq] at h1
        by_cases h2 : i = r0 ∧ j < k
        · rw [if_pos h2, if_pos ⟨h2.1, by omega⟩]
        · rw [if_neg h2, if_neg]
          intro h3
          apply h1
          refine ⟨h3.1.symm, ?_⟩
          have : ¬ j < k := fun h => h2 ⟨h3.1, h⟩
          omega
  have hall : ∀ r0, r0 ≤ R →
      (forLoop r0 (fun r t => forLoop C (fun c t => t.setCell r c (V r c)) t) (new R C)).WF ∧
      (forLoop r0 (fun r t => forLoop C (fun c t => t.setCell r c (V r c)) t)
        (new R C)).numRows = R ∧
      (forLoop r0 (fun r t => forLoop C (fun c t => t.setCell r c (V r c)) t)
        (new R C)).numColumns = C ∧
      ∀ i j, j < C →
        (forLoop r0 (fun r t => forLoop C (fun c t => t.setCell r c (V r c)) t)
          (new R C)).getCell i j = if i < r0 then mcu.flush (V i j) else 0 := by
    intro r0
    induction r0 with
    | zero =>
      intro _
      exact ⟨sparse_WF_new R C, rfl, rfl, fun i j _ => by simp [forLoop_zero, sparse_getCell_new]⟩
    | succ k ih =>
      intro hk
      obtain ⟨a1, a2, a3, a4⟩ := ih (by omega)
      obtain ⟨b1, b2, b3, b4⟩ := hrow k (by omega) _ a1 a2 a3 C (le_refl C)
      simp only [forLoop_succ]
      refine ⟨b1, b2, b3, ?_⟩
      intro i j hj
      rw [b4, a4 i j hj]
      by_cases h1 : i = k
      · subst h1
        simp [hj]
      · have h2 : ¬ (i = k ∧ j < C) := fun h => h1 h.1
        rw [if_neg h2]
        by_cases h3 : i < k
        · rw [if_pos h3, if_pos (by omega)]
        · rw [if_neg h3, if_neg (by omega)]
  obtain ⟨c1, c2, c3, c4⟩ := hall R (le_refl R)
  exact ⟨c1, c2, c3, fun i j hi hj => by rw [c4 i j hj, if_pos hi]⟩

theorem sparse_getMinorMatrix_eq (M : SparseMatrix)
    (hsub : ∀ r c, r < M.numRows → c < M.numColumns → M.getSubMatrix r c ≠ none) :
    M.getMinorMatrix = some (forLoop M.numRows (fun r t =>
      forLoop M.numColumns (fun c t => t.setCell r c (M.minorValue r c)) t)
      (new M.numRows M.numColumns)) := by
  unfold getMinorMatrix
  generalize new M.numRows M.numColumns = T
  have hrow : ∀ r, r < M.numRows → ∀ c0, c0 ≤ M.numColumns → ∀ T1 : SparseMatrix,
      forLoop c0 (fun c acc =>
        match acc, M.getSubMatrix r c with
        | some minor, some subSparseMatrix =>
          some (minor.setCell r c subSparseMatrix.getDeterminant)
        | _, _ => none) (some T1) =
      some (forLoop c0 (fun c t => t.setCell r c (M.minorValue r c)) T1) := by
    intro r hr c0
    induction c0 with
    | zero => intro _ _; rfl
    | succ k ih =>
      intro hk T1
      simp only [forLoop_succ]
      rw [ih (by omega)]
      have := hsub r k hr (by omega)
      unfold minorValue
      cases hs : M.getSubMatrix r k with
      | none => exact absurd hs this
      | some S => rfl
  have hall : ∀ r0, r0 ≤ M.numRows →
      forLoop r0 (fun r acc => forLoop M.numColumns (fun c acc =>
        match acc, M.getSubMatrix r c with
        | some minor, some subSparseMatrix =>
          some (minor.setCell r c subSparseMatrix.getDeterminant)
        | _, _ => none) acc) (some T) =
      some (forLoop r0 (fun r t =>
        forLoop M.numColumns (fun c t => t.setCell r c (M.minorValue r c)) t) T) := by
    intro r0
    induction r0 with
    | zero => intro _; rfl
    | succ k ih =>
      intro hk
      simp only [forLoop_succ]
      rw [ih (by omega)]
      exact hrow k (by omega) M.numColumns (le_refl _) _
  exact hall M.numRows (le_refl _)

theorem sparse_getDeterminant_eq_det {M : SparseMatrix} (n : Nat) (hwf : M.WF) (hR : M.numRows = n + 1)
    (hC : M.numColumns = n + 1) :
    M.getDeterminant = (cellMatrix M.getCell (n + 1) (n + 1)).det := by
  unfold getDeterminant
  rw [hR]
  exact sparse_getDeterminantAux_eq_det n M hwf hR hC

theorem sparse_minorValue_eq_det {M : SparseMatrix} (k : Nat) (hwf : M.WF) (hR : M.numRows = k + 2)
    (hC : M.numColumns = k + 2) (r c : Fin (k + 2)) :
    M.getSubMatrix r c ≠ none ∧
    M.minorValue r c =
      ((cellMatrix M.getCell (k + 2) (k + 2)).submatrix r.succAbove c.succAbove).det := by
  have hb := sparse_isBlock_getSubMatrix M hwf r c (by rw [hR]; exact r.2) (by rw [hC]; exact c.2)
  unfold minorValue
  cases hs : M.getSubMatrix r c with
  | none =>
    rw [hs] at hb
    simp only [IsBlock] at hb
    omega
  | some S =>
    rw [hs] at hb
    obtain ⟨_, _, hS⟩ := hb
    have hR' : M.numRows - 1 = k + 1 := by omega
    have hC' : M.numColumns - 1 = k + 1 := by omega
    rw [hR', hC'] at hS
    refine ⟨by simp, ?_⟩
    simp only
    rw [sparse_getDeterminant_eq_det k hS.wf hS.rows hS.cols]
    congr 1
    ext i j
    simp only [cellMatrix, Matrix.of_apply, Matrix.submatrix_apply]
    rw [hS.cell i j i.2 j.2]
    congr 1
    · simp only [Fin.succAbove, Fin.lt_def, Fin.coe_castSucc]
      split <;> simp
    · simp only [Fin.succAbove, Fin.lt_def, Fin.coe_castSucc]
      split <;> simp

theorem mcu_crisp_neg {x : ℚ} (h : mcu.Crisp x) : mcu.Crisp (-x) := by
  rcases h with h | h
  · left; rw [h]; simp
  · right; rw [mcu_almostEqual_neg]; exact h

/-- The result of the sparse `getInverse` on a square matrix of at least two rows, when no
cofactor and no cell of the inverse is flushed. -/
theorem sparse_holds_getInverse {M : SparseMatrix} (k : Nat) (hwf : M.WF) (hR : M.numRows = k + 2)
    (hC : M.numColumns = k + 2) (d : ℚ) (hd : mcu.almostEqual d 0 = false)
    (hadj : ∀ i j, mcu.Crisp ((cellMatrix M.getCell (k + 2) (k + 2)).adjugate i j))
    (hinv : ∀ i j, mcu.Crisp (d⁻¹ * (cellMatrix M.getCell (k + 2) (k + 2)).adjugate i j)) :
    ∃ B, M.getInverse (.fin d) = some (some B) ∧ B.WF ∧ B.numRows = k + 2 ∧
      B.numColumns = k + 2 ∧
      cellMatrix B.getCell (k + 2) (k + 2) =
        d⁻¹ • (cellMatrix M.getCell (k + 2) (k + 2)).adjugate := by
  have hsub : ∀ r c, r < M.numRows → c < M.numColumns → M.getSubMatrix r c ≠ none := by
    intro r c hr hc
    exact (sparse_minorValue_eq_det k hwf hR hC ⟨r, by omega⟩ ⟨c, by omega⟩).1
  have hminor := sparse_holds_fill_new M.numRows M.numColumns (fun r c => M.minorValue r c)
  set Mn := forLoop M.numRows (fun r t =>
      forLoop M.numColumns (fun c t => t.setCell r c (M.minorValue r c)) t)
      (new M.numRows M.numColumns) with hMn
  have hchk := sparse_holds_applyCheckerboardPattern hminor.wf
  rw [hminor.rows, hminor.cols] at hchk
  have htr := sparse_holds_transpose hchk.wf
  rw [hchk.rows, hchk.cols] at htr
  have hsc := sparse_holds_scale htr.wf (1 / d)
  rw [htr.rows, htr.cols] at hsc
  refine ⟨(Mn.applyCheckerboardPattern.transpose).scale (1 / d), ?_, hsc.wf, ?_, ?_, ?_⟩
  · unfold getInverse
    have h1 : mcu.doubleAlmostEqual (.fin d) (.fin 0) (.fin mcu.EPSILON) = false := hd
    rw [h1, mcu.doubleAlmostEqual_nan_right]
    simp only [Bool.or_self, Bool.false_eq_true, if_false, getNumRows]
    have hR1 : M.numRows ≠ 1 := by omega
    simp only [hR1, if_false]
    rw [sparse_getMinorMatrix_eq M hsub]
  · rw [hsc.rows, hC]
  · rw [hsc.cols, hR]
  · ext i j
    simp only [cellMatrix, Matrix.of_apply, Matrix.smul_apply, smul_eq_mul]
    rw [hsc.cell i j (by rw [hC]; exact i.2) (by rw [hR]; exact j.2)]
    rw [htr.cell i j (by rw [hC]; exact i.2) (by rw [hR]; exact j.2)]
    rw [hchk.cell j i (by rw [hR]; exact j.2) (by rw [hC]; exact i.2)]
    rw [hminor.cell j i (by rw [hR]; exact j.2) (by rw [hC]; exact i.2)]
    rw [(sparse_minorValue_eq_det k hwf hR hC j i).2]
    have hadjij := hadj i j
    have hinvij := hinv i j
    rw [Matrix.adjugate_fin_succ_eq_det_submatrix] at hadjij hinvij ⊢
    have hsign : ((-1 : ℚ)) ^ ((j : Nat) + (i : Nat)) =
        if ((j : Nat) + (i : Nat)) % 2 = 0 then 1 else -1 := by
      rcases Nat.even_or_odd ((j : Nat) + (i : Nat)) with he | ho
      · rw [he.neg_one_pow, if_pos (Nat.even_iff.mp he)]
      · rw [ho.neg_one_pow, if_neg (by rw [Nat.odd_iff] at ho; omega)]
    rw [hsign] at hadjij hinvij ⊢
    simp only [cellMatrix] at hadjij hinvij ⊢
    by_cases hp : ((j : Nat) + (i : Nat)) % 2 = 0
    · simp only [hp, if_true, one_mul] at hadjij hinvij ⊢
      rw [mcu.flush_of_crisp hadjij]
      have : ∀ x : ℚ, x * (1 / d) = d⁻¹ * x := fun x => by ring
      rw [this, mcu.flush_of_crisp hinvij]
    · simp only [hp, if_false, neg_mul, one_mul, mul_neg] at hadjij hinvij ⊢
      have hc1 := mcu_crisp_neg hadjij
      rw [neg_neg] at hc1
      rw [mcu.flush_of_crisp hc1]
      have : ∀ x : ℚ, -(x * (1 / d)) = -(d⁻¹ * x) := fun x => by ring
      rw [this, mcu.flush_of_crisp hinvij]

end SparseMatrix

theorem mcu.almostEqual_comm (a b : ℚ) : mcu.almostEqual a b = mcu.almostEqual b a := by
  unfold mcu.almostEqual mcu.doubleAlmostEqual
  simp only [abs_sub_comm a b, max_comm a b]

/-- The nested `all` over the index ranges that the `equal` overloads run. -/
theorem all_range_iff (R C : Nat) (p : Nat → Nat → Bool) :
    ((List.range R).all fun r => (List.range C).all fun c => p r c) = true ↔
      ∀ r c, r < R → c < C → p r c = true := by
  simp only [List.all_eq_true, List.mem_range]
  constructor
  · intro h r c hr hc
    exact h r hr c hc
  · intro h r hr c hc
    exact h r c hr hc

namespace DenseMatrix

theorem equalD_iff (self left : DenseMatrix) :
    self.equalD left = true ↔
      left.numRows = self.numRows ∧ left.numColumns = self.numColumns ∧
      ∀ r c, r < self.numRows → c < self.numColumns →
        mcu.almostEqual (left.getCell r c) (self.getCell r c) = true := by
  unfold equalD
  simp only [getNumRows, getNumColumns]
  by_cases h : left.numRows ≠ self.numRows ∨ left.numColumns ≠ self.numColumns
  · rw [if_pos h]
    constructor
    · intro hf; cases hf
    · rintro ⟨h1, h2, _⟩
      rcases h with h | h
      · exact absurd h1 h
      · exact absurd h2 h
  · rw [if_neg h, all_range_iff]
    simp only [ne_eq, not_or, not_not] at h
    exact ⟨fun hall => ⟨h.1, h.2, hall⟩, fun hall => hall.2.2⟩

theorem equalS_iff (self : DenseMatrix) (left : SparseMatrix) :
    self.equalS left = true ↔
      left.numRows = self.numRows ∧ left.numColumns = self.numColumns ∧
      ∀ r c, r < self.numRows → c < self.numColumns →
        mcu.almostEqual (left.getCell r c) (self.getCell r c) = true := by
  unfold equalS
  simp only [getNumRows, getNumColumns, SparseMatrix.getNumRows, SparseMatrix.getNumColumns]
  by_cases h : left.numRows ≠ self.numRows ∨ left.numColumns ≠ self.numColumns
  · rw [if_pos h]
    constructor
    · intro hf; cases hf
    · rintro ⟨h1, h2, _⟩
      rcases h with h | h
      · exact absurd h1 h
      · exact absurd h2 h
  · rw [if_neg h, all_range_iff]
    simp only [ne_eq, not_or, not_not] at h
    exact ⟨fun hall => ⟨h.1, h.2, hall⟩, fun hall => hall.2.2⟩

end DenseMatrix

namespace CellMap

theorem nodup_keys {m : CellMap} (hs : m.Sorted) : (m.map Prod.fst).Nodup := by
  rw [List.Nodup, List.pairwise_map]
  refine List.Pairwise.imp ?_ hs
  intro a b hlt heq
  rw [heq, keyLt_irrefl] at hlt
  cases hlt

theorem mem_keys_iff {m : CellMap} (hs : m.Sorted) (k : Nat × Nat) :
    k ∈ m.map Prod.fst ↔ find m k ≠ none := by
  constructor
  · intro hk
    obtain ⟨e, he, rfl⟩ := List.mem_map.mp hk
    rw [find_of_mem hs he]
    simp
  · intro hk
    cases hf : find m k with
    | none => exact absurd hf hk
    | some v => exact List.mem_map.mpr ⟨(k, v), mem_of_find hf, rfl⟩

end CellMap

namespace SparseMatrix

theorem sparse_equalD_iff (self : SparseMatrix) (left : DenseMatrix) :
    self.equalD left = true ↔
      left.numRows = self.numRows ∧ left.numColumns = self.numColumns ∧
      ∀ r c, r < self.numRows → c < self.numColumns →
        mcu.almostEqual (left.getCell r c) (self.getCell r c) = true := by
  unfold equalD
  simp only [getNumRows, getNumColumns, DenseMatrix.getNumRows, DenseMatrix.getNumColumns]
  by_cases h : left.numRows ≠ self.numRows ∨ left.numColumns ≠ self.numColumns
  · rw [if_pos h]
    constructor
    · intro hf; cases hf
    · rintro ⟨h1, h2, _⟩
      rcases h with h | h
      · exact absurd h1 h
      · exact absurd h2 h
  · rw [if_neg h, all_range_iff]
    simp only [ne_eq, not_or, not_not] at h
    exact ⟨fun hall => ⟨h.1, h.2, hall⟩, fun hall => hall.2.2⟩

/-- A stored key of one well-formed operand is a stored key of the other as soon as the two
cells are almost equal. -/
theorem find_ne_none_of_almostEqual {A B : SparseMatrix} (hA : A.WF) {k : Nat × Nat}
    (hk : A.sparseMatrix.find k ≠ none)
    (heq : mcu.almostEqual (A.getCell k.1 k.2) (B.getCell k.1 k.2) = true) :
    B.sparseMatrix.find k ≠ none := by
  intro hB
  cases hf : A.sparseMatrix.find k with
  | none => exact hk hf
  | some v =>
    have hz := hA.nonZero k v hf
    rw [getCell_eq_find A, getCell_eq_find B, hf, hB] at heq
    simp only [Option.getD_some, Option.getD_none] at heq
    rw [hz] at heq
    cases heq

theorem sparse_equalS_iff {self left : SparseMatrix} (hs : self.WF) (hl : left.WF) :
    self.equalS left = true ↔
      left.numRows = self.numRows ∧ left.numColumns = self.numColumns ∧
      ∀ r c, r < self.numRows → c < self.numColumns →
        mcu.almostEqual (left.getCell r c) (self.getCell r c) = true := by
  unfold equalS
  simp only [getNumRows, getNumColumns]
  by_cases h : left.numRows ≠ self.numRows ∨ left.numColumns ≠ self.numColumns
  · rw [if_pos h]
    constructor
    · intro hf; cases hf
    · rintro ⟨h1, h2, _⟩
      rcases h with h | h
      · exact absurd h1 h
      · exact absurd h2 h
  · rw [if_neg h]
    simp only [ne_eq, not_or, not_not] at h
    obtain ⟨hR, hC⟩ := h
    simp only [getCellDataList, List.length_map]
    have hentry : ((left.sparseMatrix.map (fun e => (e.1.1, e.1.2, e.2))).all
        (fun cellData : Nat × Nat × ℚ =>
          mcu.almostEqual cellData.2.2 (self.getCell cellData.1 cellData.2.1)) = true) ↔
        ∀ e ∈ left.sparseMatrix, mcu.almostEqual e.2 (self.getCell e.1.1 e.1.2) = true := by
      simp only [List.all_eq_true, List.mem_map]
      constructor
      · intro h e he
        exact h (e.1.1, e.1.2, e.2) ⟨e, he, rfl⟩
      · intro h x hx
        obtain ⟨e, he, hxe⟩ := hx
        subst hxe
        exact h e he
    constructor
    · intro hall
      split at hall
      · cases hall
      · rename_i hlen
        simp only [ne_eq, not_not] at hlen
        rw [hentry] at hall
        refine ⟨hR, hC, ?_⟩
        have hsub : left.sparseMatrix.map Prod.fst ⊆ self.sparseMatrix.map Prod.fst := by
          intro k hk
          rw [CellMap.mem_keys_iff hl.sorted] at hk
          rw [CellMap.mem_keys_iff hs.sorted]
          apply find_ne_none_of_almostEqual hl hk
          cases hf : left.sparseMatrix.find k with
          | none => exact absurd hf hk
          | some v =>
            have := hall (k, v) (CellMap.mem_of_find hf)
            rw [getCell_eq_find left, hf]
            exact this
        have hperm := ((CellMap.nodup_keys hl.sorted).subperm hsub).perm_of_length_le
          (by simp only [List.length_map]; omega)
        intro r c _ _
        cases hf : left.sparseMatrix.find (r, c) with
        | some v =>
          have := hall ((r, c), v) (CellMap.mem_of_find hf)
          rw [getCell_eq_find left, hf]
          exact this
        | none =>
          have hnot : (r, c) ∉ self.sparseMatrix.map Prod.fst := by
            intro hmem
            have := (hperm.mem_iff).mpr hmem
            rw [CellMap.mem_keys_iff hl.sorted] at this
            exact this hf
          rw [CellMap.mem_keys_iff hs.sorted, not_not] at hnot
          rw [getCell_eq_find left, getCell_eq_find self, hf, hnot]
          exact mcu.almostEqual_self 0
    · rintro ⟨_, _, hcells⟩
      have hkeys : ∀ k, k ∈ left.sparseMatrix.map Prod.fst ↔ k ∈ self.sparseMatrix.map Prod.fst := by
        intro k
        rw [CellMap.mem_keys_iff hl.sorted, CellMap.mem_keys_iff hs.sorted]
        constructor
        · intro hk
          cases hf : left.sparseMatrix.find k with
          | none => exact absurd hf hk
          | some v =>
            have hr := hl.inRange k v hf
            exact find_ne_none_of_almostEqual hl hk
              (hcells k.1 k.2 (by omega) (by omega))
        · intro hk
          cases hf : self.sparseMatrix.find k with
          | none => exact absurd hf hk
          | some v =>
            have hr := hs.inRange k v hf
            apply find_ne_none_of_almostEqual hs hk
            rw [mcu.almostEqual_comm]
            exact hcells k.1 k.2 hr.1 hr.2
      have hperm := (List.perm_ext_iff_of_nodup (CellMap.nodup_keys hl.sorted)
        (CellMap.nodup_keys hs.sorted)).mpr hkeys
      have hlen := hperm.length_eq
      simp only [List.length_map] at hlen
      rw [if_neg (by simpa using hlen), hentry]
      intro e he
      have hf := CellMap.find_of_mem hl.sorted he
      have hr := hl.inRange e.1 e.2 hf
      have := hcells e.1.1 e.1.2 (by omega) (by omega)
      rw [getCell_eq_find left, hf] at this
      exact this

end SparseMatrix

namespace MatrixBase

/-- The double dispatch of `equal`: on well-formed operands every one of the four overloads
compares the dimensions and then every pair of cells. -/
theorem equal_iff {A B : MatrixBase} (hA : A.WF) (hB : B.WF) :
    A.equal B = true ↔
      A.getNumRows = B.getNumRows ∧ A.getNumColumns = B.getNumColumns ∧
      ∀ r c, r < A.getNumRows → c < A.getNumColumns →
        mcu.almostEqual (A.getCell r c) (B.getCell r c) = true := by
  cases A with
  | dense a =>
    cases B with
    | dense b =>
      simp only [equal, getNumRows, getNumColumns, getCell, DenseMatrix.getNumRows,
        DenseMatrix.getNumColumns, DenseMatrix.equalD_iff]
      constructor
      · rintro ⟨h1, h2, h3⟩
        exact ⟨h1, h2, fun r c hr hc => h3 r c (h1 ▸ hr) (h2 ▸ hc)⟩
      · rintro ⟨h1, h2, h3⟩
        exact ⟨h1, h2, fun r c hr hc => h3 r c (h1 ▸ hr) (h2 ▸ hc)⟩
    | sparse b =>
      simp only [equal, getNumRows, getNumColumns, getCell, DenseMatrix.getNumRows,
        DenseMatrix.getNumColumns, SparseMatrix.getNumRows, SparseMatrix.getNumColumns,
        SparseMatrix.sparse_equalD_iff]
      constructor
      · rintro ⟨h1, h2, h3⟩
        exact ⟨h1, h2, fun r c hr hc => h3 r c (h1 ▸ hr) (h2 ▸ hc)⟩
      · rintro ⟨h1, h2, h3⟩
        exact ⟨h1, h2, fun r c hr hc => h3 r c (h1 ▸ hr) (h2 ▸ hc)⟩
  | sparse a =>
    cases B with
    | dense b =>
      simp only [equal, getNumRows, getNumColumns, getCell, DenseMatrix.getNumRows,
        DenseMatrix.getNumColumns, SparseMatrix.getNumRows, SparseMatrix.getNumColumns,
        DenseMatrix.equalS_iff]
      constructor
      · rintro ⟨h1, h2, h3⟩
        exact ⟨h1, h2, fun r c hr hc => h3 r c (h1 ▸ hr) (h2 ▸ hc)⟩
      · rintro ⟨h1, h2, h3⟩
        exact ⟨h1, h2, fun r c hr hc => h3 r c (h1 ▸ hr) (h2 ▸ hc)⟩
    | sparse b =>
      simp only [equal, getNumRows, getNumColumns, getCell, SparseMatrix.getNumRows,
        SparseMatrix.getNumColumns, SparseMatrix.sparse_equalS_iff hB hA]
      constructor
      · rintro ⟨h1, h2, h3⟩
        exact ⟨h1, h2, fun r c hr hc => h3 r c (h1 ▸ hr) (h2 ▸ hc)⟩
      · rintro ⟨h1, h2, h3⟩
        exact ⟨h1, h2, fun r c hr hc => h3 r c (h1 ▸ hr) (h2 ▸ hc)⟩

theorem base_getDeterminant_eq_det {m : MatrixBase} (n : Nat) (hwf : m.WF)
    (hR : m.getNumRows = n + 1) (hC : m.getNumColumns = n + 1)
    (hcrisp : mcu.CrispMatrix (cellMatrix m.getCell (n + 1) (n + 1))) :
    m.getDeterminant = (cellMatrix m.getCell (n + 1) (n + 1)).det := by
  cases m with
  | dense a =>
    have : ∀ i j, i < n + 1 → j < n + 1 → mcu.Crisp (a.getCell i j) :=
      fun i j hi hj => hcrisp ⟨i, hi⟩ ⟨j, hj⟩
    exact DenseMatrix.getDeterminant_eq_det n hwf hR hC this
  | sparse a => exact SparseMatrix.sparse_getDeterminant_eq_det n hwf hR hC

theorem getInverse_spec {m : MatrixBase} (k : Nat) (hwf : m.WF) (hR : m.getNumRows = k + 2)
    (hC : m.getNumColumns = k + 2) (d : ℚ) (hd : mcu.almostEqual d 0 = false)
    (hcells : mcu.CrispMatrix (cellMatrix m.getCell (k + 2) (k + 2)))
    (hadj : mcu.CrispMatrix (cellMatrix m.getCell (k + 2) (k + 2)).adjugate)
    (hinv : mcu.CrispMatrix (d⁻¹ • (cellMatrix m.getCell (k + 2) (k + 2)).adjugate)) :
    ∃ B : MatrixBase, m.getInverse (.fin d) = some (some B) ∧ B.WF ∧ B.getNumRows = k + 2 ∧
      B.getNumColumns = k + 2 ∧
      cellMatrix B.getCell (k + 2) (k + 2) =
        d⁻¹ • (cellMatrix m.getCell (k + 2) (k + 2)).adjugate := by
  cases m with
  | dense a =>
    obtain ⟨B, h1, h2, h3, h4, h5⟩ := DenseMatrix.holds_getInverse k hwf hR hC
      (fun i j hi hj => hcells ⟨i, hi⟩ ⟨j, hj⟩) d hd
    exact ⟨.dense B, by simp [getInverse, h1], h2, h3, h4, h5⟩
  | sparse a =>
    obtain ⟨B, h1, h2, h3, h4, h5⟩ := SparseMatrix.sparse_holds_getInverse k hwf hR hC d hd hadj
      (fun i j => by simpa using hinv i j)
    exact ⟨.sparse B, by simp [getInverse, h1], h2, h3, h4, h5⟩

/-- The result of `getInverse` on a square matrix: never a failed run, null exactly for a
determinant that is almost zero or NaN, of the dimensions of the matrix otherwise. -/
theorem getInverse_shape {m : MatrixBase} (n : Nat) (hwf : m.WF) (hR : m.getNumRows = n + 1)
    (hC : m.getNumColumns = n + 1) (d : mcu.Double) :
    (mcu.doubleAlmostEqual d (.fin 0) (.fin mcu.EPSILON) = true ∨ d = .nan) ∧
        m.getInverse d = some none ∨
    ¬ (mcu.doubleAlmostEqual d (.fin 0) (.fin mcu.EPSILON) = true ∨ d = .nan) ∧
        ∃ B : MatrixBase, m.getInverse d = some (some B) ∧ B.getNumRows = n + 1 ∧
          B.getNumColumns = n + 1 := by
  cases d with
  | nan =>
    left
    refine ⟨Or.inr rfl, ?_⟩
    cases m <;> rfl
  | fin q =>
    by_cases hq : mcu.almostEqual q 0 = true
    · left
      have h1 : mcu.doubleAlmostEqual (.fin q) (.fin 0) (.fin mcu.EPSILON) = true := hq
      refine ⟨Or.inl h1, ?_⟩
      cases m <;> simp [getInverse, DenseMatrix.getInverse, SparseMatrix.getInverse, h1]
    · right
      have hq' : mcu.almostEqual q 0 = false := by simpa using hq
      have h1 : mcu.doubleAlmostEqual (.fin q) (.fin 0) (.fin mcu.EPSILON) = false := hq'
      refine ⟨by simp [h1], ?_⟩
      cases n with
      | zero =>
        cases m with
        | dense a =>
          have hR1 : a.getNumRows = 1 := hR
          refine ⟨.dense (DenseMatrix.new 1 1 q), ?_, rfl, rfl⟩
          simp [getInverse, DenseMatrix.getInverse, h1, mcu.doubleAlmostEqual_nan_right, hR1]
        | sparse a =>
          have hR1 : a.getNumRows = 1 := hR
          refine ⟨.sparse ((SparseMatrix.new 1 1).setCell 0 0 q), ?_, ?_, ?_⟩
          · simp [getInverse, SparseMatrix.getInverse, h1, mcu.doubleAlmostEqual_nan_right, hR1]
          · simp [getNumRows, SparseMatrix.getNumRows, SparseMatrix.new]
          · simp [getNumColumns, SparseMatrix.getNumColumns, SparseMatrix.new]
      | succ k =>
        cases m with
        | dense a =>
          have hsub : ∀ r c, r < a.numRows → c < a.numColumns → a.getSubMatrix r c ≠ none := by
            intro r c hr hc
            have hb := DenseMatrix.isBlock_getSubMatrix a r c hr hc
            intro hnone
            rw [hnone] at hb
            simp only [DenseMatrix.IsBlock] at hb
            have h1 : a.numRows = k + 2 := hR
            have h2 : a.numColumns = k + 2 := hC
            omega
          have hminor := DenseMatrix.holds_fill_new a.numRows a.numColumns
            (fun r c => a.minorValue r c)
          have hchk := DenseMatrix.holds_applyCheckerboardPattern hminor.wf
          rw [hminor.rows, hminor.cols] at hchk
          have htr := DenseMatrix.holds_transpose
            (DenseMatrix.fillCells a.numRows a.numColumns (fun r c => (r, c))
              (fun r c => a.minorValue r c)
              (DenseMatrix.new a.numRows a.numColumns 0)).applyCheckerboardPattern
          rw [hchk.rows, hchk.cols] at htr
          have hsc := DenseMatrix.holds_scale htr.wf (1 / q)
          rw [htr.rows, htr.cols] at hsc
          refine ⟨.dense _, ?_, (hsc.rows.trans hC), (hsc.cols.trans hR)⟩
          have hR1 : a.getNumRows ≠ 1 := by
            have h1 : a.getNumRows = k + 2 := hR
            omega
          simp only [getInverse, DenseMatrix.getInverse, h1, mcu.doubleAlmostEqual_nan_right,
            Bool.or_self, Bool.false_eq_true, if_false, hR1,
            DenseMatrix.getMinorMatrix_eq a hsub, Option.map_some']
        | sparse a =>
          have hsub : ∀ r c, r < a.numRows → c < a.numColumns → a.getSubMatrix r c ≠ none := by
            intro r c hr hc
            have hb := SparseMatrix.sparse_isBlock_getSubMatrix a hwf r c hr hc
            intro hnone
            rw [hnone] at hb
            simp only [SparseMatrix.IsBlock] at hb
            have h1 : a.numRows = k + 2 := hR
            have h2 : a.numColumns = k + 2 := hC
            omega
          have hminor := SparseMatrix.sparse_holds_fill_new a.numRows a.numColumns
            (fun r c => a.minorValue r c)
          have hchk := SparseMatrix.sparse_holds_applyCheckerboardPattern hminor.wf
          rw [hminor.rows, hminor.cols] at hchk
          have htr := SparseMatrix.sparse_holds_transpose hchk.wf
          rw [hchk.rows, hchk.cols] at htr
          have hsc := SparseMatrix.sparse_holds_scale htr.wf (1 / q)
          rw [htr.rows, htr.cols] at hsc
          refine ⟨.sparse _, ?_, (hsc.rows.trans hC), (hsc.cols.trans hR)⟩
          have hR1 : a.getNumRows ≠ 1 := by
            have h1 : a.getNumRows = k + 2 := hR
            omega
          simp only [getInverse, SparseMatrix.getInverse, h1, mcu.doubleAlmostEqual_nan_right,
            Bool.or_self, Bool.false_eq_true, if_false, hR1,
            SparseMatrix.sparse_getMinorMatrix_eq a hsub, Option.map_some']

end MatrixBase

theorem mcu.ne_zero_of_not_almostEqual {d : ℚ} (hd : mcu.almostEqual d 0 = false) : d ≠ 0 := by
  intro h
  rw [h, mcu.almostEqual_self] at hd
  cases hd

/-- C1 (counterexample): on the dense 3×3 matrix [[2^-60, 0, 0], [0, 2^60, 0], [0, 0, 1]],
whose determinant is 1, `getDeterminant()` returns 0: the cell 2^-60 of row 0 is within
tolerance of 0 and its term is skipped. -/
theorem C1_counterexample :
    (Matrix.denseOfRows [[1 / 2 ^ 60, 0, 0], [0, 2 ^ 60, 0], [0, 0, 1]]).getDeterminant
      = .fin 0 ∧
    (cellMatrix (DenseMatrix.getCell
      ⟨3, 3, [[1 / 2 ^ 60, 0, 0], [0, 2 ^ 60, 0], [0, 0, 1]]⟩) 3 3).det = 1 := by
  refine ⟨by decide!, ?_⟩
  rw [Matrix.det_fin_three]
  simp [cellMatrix, DenseMatrix.getCell]

/-- C1 (amended): for every square n×n matrix with n ≥ 1, in either backend, whose cells are
each exactly 0 or not within tolerance of 0, `getDeterminant()` returns the determinant of
the matrix; e.g. [[10]] gives 10, [[1,2],[3,4]] gives -2, [[12,1,2],[3,4,5],[6,7,8]] gives -36
and [[1,2,3,4],[12,55,55,5],[11,55,55,6],[10,9,8,7]] gives 1023, in both backends. -/
theorem C1_getDeterminant_of_crisp :
    (∀ (n : Nat) (m : MatrixBase), m.WF → m.getNumRows = n + 1 → m.getNumColumns = n + 1 →
      mcu.CrispMatrix (cellMatrix m.getCell (n + 1) (n + 1)) →
      (Matrix.mk (some m)).getDeterminant = .fin (cellMatrix m.getCell (n + 1) (n + 1)).det) ∧
    (Matrix.denseOfRows [[10]]).getDeterminant = .fin 10 ∧
    (Matrix.sparseOfRows [[10]]).getDeterminant = .fin 10 ∧
    (Matrix.denseOfRows [[1, 2], [3, 4]]).getDeterminant = .fin (-2) ∧
    (Matrix.sparseOfRows [[1, 2], [3, 4]]).getDeterminant = .fin (-2) ∧
    (Matrix.denseOfRows [[12, 1, 2], [3, 4, 5], [6, 7, 8]]).getDeterminant = .fin (-36) ∧
    (Matrix.sparseOfRows [[12, 1, 2], [3, 4, 5], [6, 7, 8]]).getDeterminant = .fin (-36) ∧
    (Matrix.denseOfRows
      [[1, 2, 3, 4], [12, 55, 55, 5], [11, 55, 55, 6], [10, 9, 8, 7]]).getDeterminant
        = .fin 1023 ∧
    (Matrix.sparseOfRows
      [[1, 2, 3, 4], [12, 55, 55, 5], [11, 55, 55, 6], [10, 9, 8, 7]]).getDeterminant
        = .fin 1023 := by
  refine ⟨?_, by decide!, by decide!, by decide!, by decide!, by decide!, by decide!,
    by decide!, by decide!⟩
  intro n m hwf hR hC hcrisp
  simp only [Matrix.getDeterminant]
  rw [MatrixBase.base_getDeterminant_eq_det n hwf hR hC hcrisp]

/-- C1 (witness): the amended claim applied to the dense matrix [[1,2],[3,4]]. -/
theorem C1_getDeterminant_of_crisp_witness :
    (MatrixBase.dense ⟨2, 2, [[1, 2], [3, 4]]⟩).WF ∧
    mcu.CrispMatrix (cellMatrix (MatrixBase.dense ⟨2, 2, [[1, 2], [3, 4]]⟩).getCell 2 2) ∧
    (Matrix.mk (some (MatrixBase.dense ⟨2, 2, [[1, 2], [3, 4]]⟩))).getDeterminant =
      .fin (cellMatrix (MatrixBase.dense ⟨2, 2, [[1, 2], [3, 4]]⟩).getCell 2 2).det := by
  have hwf : (MatrixBase.dense ⟨2, 2, [[1, 2], [3, 4]]⟩).WF := by
    show DenseMatrix.WF _
    decide
  have hcrisp :
      mcu.CrispMatrix (cellMatrix (MatrixBase.dense ⟨2, 2, [[1, 2], [3, 4]]⟩).getCell 2 2) := by
    intro i j
    fin_cases i <;> fin_cases j <;> exact Or.inr (by decide!)
  exact ⟨hwf, hcrisp, C1_getDeterminant_of_crisp.1 1 _ hwf rfl rfl hcrisp⟩

/-- C2: for every square dense n×n matrix A with n ≥ 2 whose cells are each exactly 0 or not
within tolerance of 0, and whose determinant d = A.getDeterminant() is not within tolerance
of 0, A.getInverse(d) is the adjugate scaled by 1/d: its cell (i,j) is
(-1)^(i+j) · det(A without row j and column i) / d, and A multiplied by it is the identity
matrix; e.g. the inverse of [[1,2],[3,4]] is [[-2,1],[1.5,-0.5]]. -/
theorem C2_getInverse_is_scaled_adjugate :
    (∀ (k : Nat) (A : DenseMatrix), A.WF → A.numRows = k + 2 → A.numColumns = k + 2 →
      mcu.CrispMatrix (cellMatrix A.getCell (k + 2) (k + 2)) →
      mcu.almostEqual A.getDeterminant 0 = false →
      ∃ B : DenseMatrix, A.getInverse (.fin A.getDeterminant) = some (some B) ∧ B.WF ∧
        B.numRows = k + 2 ∧ B.numColumns = k + 2 ∧
        (∀ i j : Fin (k + 2), B.getCell i j =
          (-1) ^ ((i : Nat) + (j : Nat)) *
            ((cellMatrix A.getCell (k + 2) (k + 2)).submatrix j.succAbove i.succAbove).det
            / A.getDeterminant) ∧
        cellMatrix A.getCell (k + 2) (k + 2) * cellMatrix B.getCell (k + 2) (k + 2) = 1) ∧
    (Matrix.denseOfRows [[1, 2], [3, 4]]).getInverse
        (Matrix.denseOfRows [[1, 2], [3, 4]]).getDeterminant
      = some (Matrix.denseOfRows [[-2, 1], [3 / 2, -1 / 2]]) := by
  refine ⟨?_, by decide!⟩
  intro k A hwf hR hC hcrisp hd
  have hcr : ∀ i j, i < k + 2 → j < k + 2 → mcu.Crisp (A.getCell i j) :=
    fun i j hi hj => hcrisp ⟨i, hi⟩ ⟨j, hj⟩
  have hdet := DenseMatrix.getDeterminant_eq_det (k + 1) hwf hR hC hcr
  obtain ⟨B, h1, h2, h3, h4, h5⟩ :=
    DenseMatrix.holds_getInverse k hwf hR hC hcr A.getDeterminant hd
  have hd0 := mcu.ne_zero_of_not_almostEqual hd
  refine ⟨B, h1, h2, h3, h4, ?_, ?_⟩
  · intro i j
    have := congrFun (congrFun h5 i) j
    simp only [cellMatrix, Matrix.of_apply, Matrix.smul_apply, smul_eq_mul] at this
    rw [this, Matrix.adjugate_fin_succ_eq_det_submatrix]
    simp only [cellMatrix]
    rw [Nat.add_comm (j : Nat) (i : Nat)]
    field_simp
  · rw [h5, Matrix.mul_smul, Matrix.mul_adjugate, ← hdet, smul_smul, inv_mul_cancel₀ hd0,
      one_smul]

/-- C2 (witness): the claim applied to the dense matrix [[1,2],[3,4]]. -/
theorem C2_getInverse_is_scaled_adjugate_witness :
    (⟨2, 2, [[1, 2], [3, 4]]⟩ : DenseMatrix).WF ∧
    mcu.CrispMatrix (cellMatrix (DenseMatrix.getCell ⟨2, 2, [[1, 2], [3, 4]]⟩) 2 2) ∧
    mcu.almostEqual (DenseMatrix.getDeterminant ⟨2, 2, [[1, 2], [3, 4]]⟩) 0 = false ∧
    ∃ B : DenseMatrix,
      DenseMatrix.getInverse ⟨2, 2, [[1, 2], [3, 4]]⟩
        (.fin (DenseMatrix.getDeterminant ⟨2, 2, [[1, 2], [3, 4]]⟩)) = some (some B) ∧
      cellMatrix (DenseMatrix.getCell ⟨2, 2, [[1, 2], [3, 4]]⟩) 2 2 * cellMatrix B.getCell 2 2
        = 1 := by
  have hwf : (⟨2, 2, [[1, 2], [3, 4]]⟩ : DenseMatrix).WF := by decide
  have hcrisp :
      mcu.CrispMatrix (cellMatrix (DenseMatrix.getCell ⟨2, 2, [[1, 2], [3, 4]]⟩) 2 2) := by
    intro i j
    fin_cases i <;> fin_cases j <;> exact Or.inr (by decide!)
  have hd : mcu.almostEqual (DenseMatrix.getDeterminant ⟨2, 2, [[1, 2], [3, 4]]⟩) 0 = false := by
    decide!
  obtain ⟨B, h1, _, _, _, _, h6⟩ :=
    C2_getInverse_is_scaled_adjugate.1 0 ⟨2, 2, [[1, 2], [3, 4]]⟩ hwf rfl rfl hcrisp hd
  exact ⟨hwf, hcrisp, hd, B, h1, h6⟩

/-- C3: on a valid square matrix, in either backend, `getInverse(d)` never fails, and it
returns the invalid matrix, which reports 0 rows and 0 columns, if and only if `d` is within
tolerance of 0 or `d` is NaN; otherwise the result has the dimensions of the matrix. -/
theorem C3_getInverse_invalid_iff (n : Nat) (m : MatrixBase) (hwf : m.WF)
    (hR : m.getNumRows = n + 1) (hC : m.getNumColumns = n + 1) (d : mcu.Double) :
    ∃ R : Matrix, (Matrix.mk (some m)).getInverse d = some R ∧
      (R = Matrix.invalid ↔
        (mcu.doubleAlmostEqual d (.fin 0) (.fin mcu.EPSILON) = true ∨ d = .nan)) ∧
      (R = Matrix.invalid → R.getNumRows = 0 ∧ R.getNumColumns = 0) ∧
      (R ≠ Matrix.invalid → R.getNumRows = n + 1 ∧ R.getNumColumns = n + 1) := by
  rcases MatrixBase.getInverse_shape n hwf hR hC d with ⟨hcond, hinv⟩ | ⟨hcond, B, hinv, hBR, hBC⟩
  · refine ⟨Matrix.invalid, by simp [Matrix.getInverse, hinv, Matrix.invalid], ?_, ?_, ?_⟩
    · exact ⟨fun _ => hcond, fun _ => rfl⟩
    · intro _; exact ⟨rfl, rfl⟩
    · intro h; exact absurd rfl h
  · refine ⟨⟨some B⟩, by simp [Matrix.getInverse, hinv], ?_, ?_, ?_⟩
    · constructor
      · intro h
        simp [Matrix.invalid] at h
      · intro h
        exact absurd h hcond
    · intro h
      simp [Matrix.invalid] at h
    · intro _
      exact ⟨hBR, hBC⟩

/-- C3 (witness): the claim applied to the singular dense matrix [[1,2],[2,4]] and d = 0. -/
theorem C3_getInverse_invalid_iff_witness :
    (MatrixBase.dense ⟨2, 2, [[1, 2], [2, 4]]⟩).WF ∧
    ∃ R : Matrix, (Matrix.mk (some (MatrixBase.dense ⟨2, 2, [[1, 2], [2, 4]]⟩))).getInverse
        (.fin 0) = some R ∧
      (R = Matrix.invalid ↔
        (mcu.doubleAlmostEqual (.fin 0) (.fin 0) (.fin mcu.EPSILON) = true ∨
          mcu.Double.fin 0 = .nan)) ∧
      (R = Matrix.invalid → R.getNumRows = 0 ∧ R.getNumColumns = 0) ∧
      (R ≠ Matrix.invalid → R.getNumRows = 1 + 1 ∧ R.getNumColumns = 1 + 1) := by
  have hwf : (MatrixBase.dense ⟨2, 2, [[1, 2], [2, 4]]⟩).WF := by
    show DenseMatrix.WF _
    decide
  exact ⟨hwf, C3_getInverse_invalid_iff 1 _ hwf rfl rfl (.fin 0)⟩

/-- C4 (counterexample): the dense matrix A = [[10^7, 0], [0, 10^7]] has determinant 10^14,
which is not within tolerance of 0, and its inverse B = [[10^-7, 0], [0, 10^-7]] has
determinant 10^-14, which is: inverting B returns the invalid matrix, which is not == A. -/
theorem C4_counterexample :
    mcu.doubleAlmostEqual (Matrix.denseOfRows [[10 ^ 7, 0], [0, 10 ^ 7]]).getDeterminant
      (.fin 0) (.fin mcu.EPSILON) = false ∧
    (Matrix.denseOfRows [[10 ^ 7, 0], [0, 10 ^ 7]]).getInverse
      (Matrix.denseOfRows [[10 ^ 7, 0], [0, 10 ^ 7]]).getDeterminant
        = some (Matrix.denseOfRows [[1 / 10 ^ 7, 0], [0, 1 / 10 ^ 7]]) ∧
    (Matrix.denseOfRows [[1 / 10 ^ 7, 0], [0, 1 / 10 ^ 7]]).getInverse
      (Matrix.denseOfRows [[1 / 10 ^ 7, 0], [0, 1 / 10 ^ 7]]).getDeterminant
        = some Matrix.invalid ∧
    Matrix.invalid.operatorEq (Matrix.denseOfRows [[10 ^ 7, 0], [0, 10 ^ 7]]) = false := by
  refine ⟨by decide!, by decide!, by decide!, by decide!⟩

theorem MatrixBase.roundTrip_of_cells {m B C : MatrixBase} {n : Nat} (hm : m.WF)
    (hR : m.getNumRows = n) (hC : m.getNumColumns = n) (hCwf : C.WF)
    (hCR : C.getNumRows = n) (hCC : C.getNumColumns = n)
    (h1 : m.getInverse (.fin m.getDeterminant) = some (some B))
    (h2 : B.getInverse (.fin B.getDeterminant) = some (some C))
    (hcells : ∀ r c, r < n → c < n → C.getCell r c = m.getCell r c) :
    (Matrix.mk (some m)).InverseRoundTrip := by
  refine ⟨⟨some B⟩, ⟨some C⟩, ?_, ?_, ?_, ?_⟩
  · simp [Matrix.getInverse, Matrix.getDeterminant, h1]
  · simp [Matrix.getInverse, Matrix.getDeterminant, h2]
  · simp [Matrix.invalid]
  · simp only [Matrix.operatorEq]
    rw [MatrixBase.equal_iff hCwf hm]
    refine ⟨hCR.trans hR.symm, hCC.trans hC.symm, ?_⟩
    intro r c hr hc
    rw [hcells r c (hCR ▸ hr) (hCC ▸ hc)]
    exact mcu.almostEqual_self _

/-- C4 (amended): for every square matrix A, in either backend, whose determinant is not
within tolerance of 0, inverting twice gives back A (with B = A.getInverse(A.getDeterminant()),
the matrix B.getInverse(B.getDeterminant()) is valid and == A), provided that, when A has at
least two rows, the determinant of the inverse of A is not within tolerance of 0 either and
every cell of A, of its adjugate, of its inverse and of the adjugate of its inverse is
exactly 0 or not within tolerance of 0. -/
theorem C4_inverse_round_trip :
    (∀ m : MatrixBase, m.WF → m.getNumRows = 1 → m.getNumColumns = 1 →
      mcu.almostEqual m.getDeterminant 0 = false →
      (Matrix.mk (some m)).InverseRoundTrip) ∧
    (∀ (k : Nat) (m : MatrixBase), m.WF → m.getNumRows = k + 2 → m.getNumColumns = k + 2 →
      mcu.almostEqual m.getDeterminant 0 = false →
      mcu.CrispMatrix (cellMatrix m.getCell (k + 2) (k + 2)) →
      mcu.CrispMatrix (cellMatrix m.getCell (k + 2) (k + 2)).adjugate →
      mcu.CrispMatrix (cellMatrix m.getCell (k + 2) (k + 2))⁻¹ →
      mcu.CrispMatrix ((cellMatrix m.getCell (k + 2) (k + 2))⁻¹).adjugate →
      mcu.almostEqual ((cellMatrix m.getCell (k + 2) (k + 2))⁻¹).det 0 = false →
      (Matrix.mk (some m)).InverseRoundTrip) := by
  constructor
  · intro m hwf hR hC hd
    have hdet : m.getDeterminant = m.getCell 0 0 := by
      cases m with
      | dense a =>
        have : a.numRows = 1 := hR
        simp [MatrixBase.getDeterminant, DenseMatrix.getDeterminant, this,
          DenseMatrix.getDeterminantAux, MatrixBase.getCell]
      | sparse a =>
        have : a.numRows = 1 := hR
        simp [MatrixBase.getDeterminant, SparseMatrix.getDeterminant, this,
          SparseMatrix.getDeterminantAux, MatrixBase.getCell]
    have hd1 : mcu.doubleAlmostEqual (.fin m.getDeterminant) (.fin 0) (.fin mcu.EPSILON)
        = false := hd
    cases m with
    | dense a =>
      have hR1 : a.getNumRows = 1 := hR
      have hB : (DenseMatrix.new 1 1 a.getDeterminant).getDeterminant = a.getDeterminant := by
        simp [DenseMatrix.getDeterminant, DenseMatrix.getDeterminantAux, DenseMatrix.new,
          DenseMatrix.getCell]
      refine MatrixBase.roundTrip_of_cells (n := 1)
        (B := .dense (DenseMatrix.new 1 1 a.getDeterminant))
        (C := .dense (DenseMatrix.new 1 1 a.getDeterminant)) hwf hR hC
        (DenseMatrix.WF_new 1 1 _) rfl rfl ?_ ?_ ?_
      · simp only [MatrixBase.getDeterminant] at hd1 ⊢
        simp [MatrixBase.getInverse, DenseMatrix.getInverse, hd1,
          mcu.doubleAlmostEqual_nan_right, hR1]
      · simp only [MatrixBase.getDeterminant] at hd1 ⊢
        rw [hB]
        simp [MatrixBase.getInverse, DenseMatrix.getInverse, hd1,
          mcu.doubleAlmostEqual_nan_right, DenseMatrix.getNumRows, DenseMatrix.new]
      · intro r c hr hc
        have hr0 : r = 0 := by omega
        have hc0 : c = 0 := by omega
        subst hr0 hc0
        simp only [MatrixBase.getCell]
        rw [DenseMatrix.getCell_new 1 1 _ 0 0 (by omega) (by omega)]
        exact hdet
    | sparse a =>
      have hR1 : a.getNumRows = 1 := hR
      have hwfB : ((SparseMatrix.new 1 1).setCell 0 0 a.getDeterminant).WF :=
        SparseMatrix.sparse_WF_setCell (SparseMatrix.sparse_WF_new 1 1) 0 0 _ (by simp [SparseMatrix.new])
          (by simp [SparseMatrix.new])
      have hcellB : ((SparseMatrix.new 1 1).setCell 0 0 a.getDeterminant).getCell 0 0
          = a.getDeterminant := by
        rw [SparseMatrix.sparse_getCell_setCell, if_pos rfl]
        exact mcu.flush_of_crisp (Or.inr hd)
      have hB : ((SparseMatrix.new 1 1).setCell 0 0 a.getDeterminant).getDeterminant
          = a.getDeterminant := by
        have h1 : ((SparseMatrix.new 1 1).setCell 0 0 a.getDeterminant).numRows = 1 := by
          simp [SparseMatrix.new]
        generalize a.getDeterminant = q at h1 hcellB ⊢
        unfold SparseMatrix.getDeterminant
        rw [h1]
        simp only [SparseMatrix.getDeterminantAux, h1, if_true]
        exact hcellB
      refine MatrixBase.roundTrip_of_cells (n := 1)
        (B := .sparse ((SparseMatrix.new 1 1).setCell 0 0 a.getDeterminant))
        (C := .sparse ((SparseMatrix.new 1 1).setCell 0 0 a.getDeterminant)) hwf hR hC
        hwfB (by simp [MatrixBase.getNumRows, SparseMatrix.getNumRows, SparseMatrix.new])
        (by simp [MatrixBase.getNumColumns, SparseMatrix.getNumColumns, SparseMatrix.new])
        ?_ ?_ ?_
      · simp only [MatrixBase.getDeterminant] at hd1 ⊢
        simp [MatrixBase.getInverse, SparseMatrix.getInverse, hd1,
          mcu.doubleAlmostEqual_nan_right, hR1]
      · simp only [MatrixBase.getDeterminant] at hd1 ⊢
        rw [hB]
        simp [MatrixBase.getInverse, SparseMatrix.getInverse, hd1,
          mcu.doubleAlmostEqual_nan_right, SparseMatrix.getNumRows, SparseMatrix.new]
      · intro r c hr hc
        have hr0 : r = 0 := by omega
        have hc0 : c = 0 := by omega
        subst hr0 hc0
        simp only [MatrixBase.getCell]
        rw [hcellB]
        exact hdet
  · intro k m hwf hR hC hd hcells hadj hinv hadjinv hdinv
    set X := cellMatrix m.getCell (k + 2) (k + 2) with hX
    have hdet := MatrixBase.base_getDeterminant_eq_det (k + 1) hwf hR hC hcells
    rw [← hX] at hdet
    have hd0 : X.det ≠ 0 := by
      rw [← hdet]
      exact mcu.ne_zero_of_not_almostEqual hd
    have hunit : IsUnit X.det := isUnit_iff_ne_zero.mpr hd0
    have hXinv : X⁻¹ = X.det⁻¹ • X.adjugate := by
      rw [Matrix.inv_def, Ring.inverse_eq_inv']
    obtain ⟨B, hB1, hBwf, hBR, hBC, hBcells⟩ := MatrixBase.getInverse_spec k hwf hR hC
      m.getDeterminant hd hcells hadj (by rw [hdet, ← hXinv]; exact hinv)
    rw [hdet, ← hXinv] at hBcells
    have hBdet := MatrixBase.base_getDeterminant_eq_det (k + 1) hBwf hBR hBC
      (by rw [hBcells]; exact hinv)
    rw [hBcells] at hBdet
    have hXinvinv : (X⁻¹)⁻¹ = (X⁻¹).det⁻¹ • (X⁻¹).adjugate := by
      rw [Matrix.inv_def (X⁻¹), Ring.inverse_eq_inv']
    have hback : (X⁻¹)⁻¹ = X := Matrix.nonsing_inv_nonsing_inv X hunit
    obtain ⟨C, hC1, hCwf, hCR, hCC, hCcells⟩ := MatrixBase.getInverse_spec k hBwf hBR hBC
      B.getDeterminant (by rw [hBdet]; exact hdinv) (by rw [hBcells]; exact hinv)
      (by rw [hBcells]; exact hadjinv)
      (by rw [hBcells, hBdet, ← hXinvinv, hback]; exact hcells)
    rw [hBcells, hBdet, ← hXinvinv, hback] at hCcells
    refine MatrixBase.roundTrip_of_cells (n := k + 2) hwf hR hC hCwf hCR hCC hB1 hC1 ?_
    intro r c hr hc
    have := congrFun (congrFun hCcells ⟨r, hr⟩) ⟨c, hc⟩
    simpa [cellMatrix, hX] using this

theorem mcu.crisp_of_abs_gt {x : ℚ} (h : mcu.EPSILON < |x|) : mcu.Crisp x := by
  right
  rw [Bool.eq_false_iff]
  intro hz
  rw [mcu.almostEqual_zero_iff] at hz
  exact absurd hz (not_le.mpr h)

/-- C4 (witness): the amended claim applied to the dense matrix [[1,2],[3,4]]. -/
theorem C4_inverse_round_trip_witness :
    (MatrixBase.dense ⟨2, 2, [[1, 2], [3, 4]]⟩).WF ∧
    mcu.almostEqual (MatrixBase.dense ⟨2, 2, [[1, 2], [3, 4]]⟩).getDeterminant 0 = false ∧
    mcu.CrispMatrix (cellMatrix (MatrixBase.dense ⟨2, 2, [[1, 2], [3, 4]]⟩).getCell 2 2) ∧
    mcu.CrispMatrix (cellMatrix (MatrixBase.dense ⟨2, 2, [[1, 2], [3, 4]]⟩).getCell 2 2).adjugate ∧
    mcu.CrispMatrix (cellMatrix (MatrixBase.dense ⟨2, 2, [[1, 2], [3, 4]]⟩).getCell 2 2)⁻¹ ∧
    mcu.CrispMatrix
      ((cellMatrix (MatrixBase.dense ⟨2, 2, [[1, 2], [3, 4]]⟩).getCell 2 2)⁻¹).adjugate ∧
    mcu.almostEqual
      ((cellMatrix (MatrixBase.dense ⟨2, 2, [[1, 2], [3, 4]]⟩).getCell 2 2)⁻¹).det 0 = false ∧
    (Matrix.mk (some (MatrixBase.dense ⟨2, 2, [[1, 2], [3, 4]]⟩))).InverseRoundTrip := by
  have hwf : (MatrixBase.dense ⟨2, 2, [[1, 2], [3, 4]]⟩).WF := by
    show DenseMatrix.WF _
    decide
  have hd : mcu.almostEqual (MatrixBase.dense ⟨2, 2, [[1, 2], [3, 4]]⟩).getDeterminant 0
      = false := by decide!
  have hX : cellMatrix (MatrixBase.dense ⟨2, 2, [[1, 2], [3, 4]]⟩).getCell 2 2
      = !![1, 2; 3, 4] := by
    ext i j
    fin_cases i <;> fin_cases j <;> rfl
  have hXinv : (!![1, 2; 3, 4] : QMatrix 2)⁻¹ = !![-2, 1; 3 / 2, -1 / 2] := by
    apply Matrix.inv_eq_right_inv
    ext i j
    fin_cases i <;> fin_cases j <;> simp [Matrix.mul_apply, Fin.sum_univ_two] <;> norm_num
  have heps : mcu.EPSILON < 1 / 4 := by unfold mcu.EPSILON; norm_num
  have hcells : mcu.CrispMatrix (!![1, 2; 3, 4] : QMatrix 2) := by
    intro i j
    apply mcu.crisp_of_abs_gt
    fin_cases i <;> fin_cases j <;> simp <;> linarith
  have hadj : mcu.CrispMatrix (!![1, 2; 3, 4] : QMatrix 2).adjugate := by
    intro i j
    apply mcu.crisp_of_abs_gt
    rw [Matrix.adjugate_fin_two]
    fin_cases i <;> fin_cases j <;> simp <;> linarith
  have hinv : mcu.CrispMatrix (!![-2, 1; 3 / 2, -1 / 2] : QMatrix 2) := by
    intro i j
    apply mcu.crisp_of_abs_gt
    fin_cases i <;> fin_cases j <;> simp [abs_div] <;> linarith
  have hadjinv : mcu.CrispMatrix (!![-2, 1; 3 / 2, -1 / 2] : QMatrix 2).adjugate := by
    intro i j
    apply mcu.crisp_of_abs_gt
    rw [Matrix.adjugate_fin_two]
    fin_cases i <;> fin_cases j <;> simp [abs_div] <;> linarith
  have hdinv : mcu.almostEqual (!![-2, 1; 3 / 2, -1 / 2] : QMatrix 2).det 0 = false := by
    rw [Matrix.det_fin_two]
    have : mcu.Crisp ((!![-2, 1; 3 / 2, -1 / 2] : QMatrix 2) 0 0 *
        (!![-2, 1; 3 / 2, -1 / 2] : QMatrix 2) 1 1 -
        (!![-2, 1; 3 / 2, -1 / 2] : QMatrix 2) 0 1 *
        (!![-2, 1; 3 / 2, -1 / 2] : QMatrix 2) 1 0) := by
      apply mcu.crisp_of_abs_gt
      simp
      norm_num
      rw [abs_of_pos (by norm_num)]
      linarith
    rcases this with h | h
    · simp at h
      norm_num at h
    · exact h
  rw [← hXinv, ← hX] at hinv hadjinv hdinv
  rw [← hX] at hcells hadj
  exact ⟨hwf, hd, hcells, hadj, hinv, hadjinv, hdinv,
    C4_inverse_round_trip.2 0 _ hwf rfl rfl hd hcells hadj hinv hadjinv hdinv⟩

namespace DenseMatrix

theorem logStep_false (st : SolveState) (p : Nat) : SolveState.logStep st false p = st := rfl

theorem solveEliminate_precision (M : DenseMatrix) (aug : MatrixBase) (p : Nat) :
    M.solveEliminate aug false p = M.solveEliminate aug false 0 := by
  simp only [solveEliminate, solveForward, solveBackward, eliminateAbove, logStep_false]

theorem solveForward_sst (R C p : Nat) (st : SolveState) :
    (solveForward R C false p st).sst = st.sst := by
  unfold solveForward
  refine forLoop_invariant (fun s : SolveState => s.sst = st.sst) _ _ _ rfl ?_
  intro c t _ ht
  show (match t.augmentedMatrix.forwardColumn c t.leadingEntryRow R C with
    | none => t
    | some reduced => SolveState.logStep
        { t with augmentedMatrix := reduced, leadingEntryRow := t.leadingEntryRow + 1 }
        false p).sst = st.sst
  cases t.augmentedMatrix.forwardColumn c t.leadingEntryRow R C with
  | none => exact ht
  | some red => exact ht

theorem eliminateAbove_sst (C p c : Nat) (v : ℚ) (st : SolveState) :
    (eliminateAbove C false p c v st).sst = st.sst := by
  unfold eliminateAbove
  refine forLoop_invariant (fun s : SolveState => s.sst = st.sst) _ _ _ rfl ?_
  intro i t _ ht
  simp only []
  split
  · exact ht
  · exact ht

theorem solveBackward_sst (R C p : Nat) (st : SolveState) :
    (solveBackward R C false p st).sst = st.sst := by
  unfold solveBackward
  refine forLoop_invariant (fun s : SolveState => s.sst = st.sst) _ _ _ rfl ?_
  intro c t _ ht
  simp only []
  split
  · exact ht
  · split
    · exact ht
    · split
      · exact ht
      · split
        · exact ht
        · show (eliminateAbove C false p c _ t).sst = st.sst
          rw [eliminateAbove_sst]; exact ht

theorem solveEliminate_sst (M : DenseMatrix) (aug : MatrixBase) (p : Nat) :
    (M.solveEliminate aug false p).sst = "" := by
  unfold solveEliminate
  simp only []
  rw [solveBackward_sst, solveForward_sst]

theorem readoutCell_noSolution (M : DenseMatrix) (n r c : Nat) (rs : ReadoutState)
    (h : rs.noSolution = true) : (readoutCell M n r c rs).noSolution = true := by
  unfold readoutCell
  simp only [apply_ite ReadoutState.noSolution, h, ite_self]

theorem readoutRow_noSolution (M : DenseMatrix) (n r : Nat) (rs : ReadoutState)
    (h : rs.noSolution = true) : (readoutRow M n r rs).noSolution = true := by
  unfold readoutRow
  simp only []
  have key : (forLoop n (fun c rs => readoutCell M n r c rs)
      { rs with isAllZerosBeforeAugmentedColumn := true, foundPivotEntry := false,
                pivotEntryCol := 0, rowDone := false }).noSolution = true :=
    forLoop_invariant (fun s : ReadoutState => s.noSolution = true) _ _ _ h
      (fun c t _ ht => readoutCell_noSolution M n r c t ht)
  split
  · exact key
  · exact key

theorem readoutRow_inconsistent (M : DenseMatrix) (n r : Nat) (rs : ReadoutState) (hn : 0 < n)
    (hzero : ∀ c, c < n - 1 → mcu.almostEqual (M.getCell r c) 0 = true)
    (haug : mcu.almostEqual (M.getCell r (n - 1)) 0 = false) :
    (readoutRow M n r rs).noSolution = true := by
  obtain ⟨k, rfl⟩ : ∃ k, n = k + 1 := ⟨n - 1, by omega⟩
  simp only [Nat.add_sub_cancel] at hzero haug
  have hskip : ∀ j, j ≤ k → forLoop j (fun c rs => readoutCell M (k + 1) r c rs)
      { rs with isAllZerosBeforeAugmentedColumn := true, foundPivotEntry := false,
                pivotEntryCol := 0, rowDone := false } =
      { rs with isAllZerosBeforeAugmentedColumn := true, foundPivotEntry := false,
                pivotEntryCol := 0, rowDone := false } := by
    intro j hj
    induction j with
    | zero => rfl
    | succ i ih =>
      rw [forLoop_succ, ih (by omega)]
      simp [readoutCell, hzero i (by omega)]
  unfold readoutRow
  simp only []
  rw [forLoop_succ, hskip k (Nat.le_refl k)]
  simp [readoutCell, haug]

theorem solveReadout_inconsistent (M : DenseMatrix) (R n r : Nat) (hr : r < R) (hn : 0 < n)
    (hzero : ∀ c, c < n - 1 → mcu.almostEqual (M.getCell r c) 0 = true)
    (haug : mcu.almostEqual (M.getCell r (n - 1)) 0 = false) :
    solveReadout M R n = "No solution.\n" := by
  have key : ∀ j, r < j → (forLoop j (fun r rs => readoutRow M n r rs)
      (⟨"", false, [], true, false, 0, false⟩ : ReadoutState)).noSolution = true := by
    intro j hj
    induction j with
    | zero => omega
    | succ i ih =>
      rw [forLoop_succ]
      by_cases hi : r = i
      · subst hi
        exact readoutRow_inconsistent M n r _ hn hzero haug
      · exact readoutRow_noSolution M n i _ (ih (by omega))
  unfold solveReadout
  simp only [key R hr, if_true]
  rfl

theorem solveFor_inconsistent (M : DenseMatrix) (aug : MatrixBase) (p r : Nat)
    (hr : r < (M.solveEliminate aug false 0).augmentedMatrix.getNumRows)
    (hn : 0 < (M.solveEliminate aug false 0).augmentedMatrix.getNumColumns)
    (hzero : ∀ c, c < (M.solveEliminate aug false 0).augmentedMatrix.getNumColumns - 1 →
      mcu.almostEqual ((M.solveEliminate aug false 0).augmentedMatrix.getCell r c) 0 = true)
    (haug : mcu.almostEqual ((M.solveEliminate aug false 0).augmentedMatrix.getCell r
      ((M.solveEliminate aug false 0).augmentedMatrix.getNumColumns - 1)) 0 = false) :
    M.solveFor aug false p = "\nSolution:\n\nNo solution.\n" := by
  unfold solveFor
  simp only []
  rw [solveEliminate_sst, solveEliminate_precision M aug p,
    solveReadout_inconsistent _ _ _ r hr hn hzero haug]
  rfl

end DenseMatrix

/-- C5 (failing input): for the 1×1 system 2·x1 = 2, whose only solution is x1 = 1, the
non-verbose `solveFor` answers "x1 = + 2" in both backends: the backward phase skips the
pivot row 0, so that row is never divided by its pivot.  On the system of the unit test,
whose first pivot is 1, the answer is the expected one. -/
theorem C5_solveFor_first_pivot_not_normalised :
    Matrix.solveFor (Matrix.denseOfRows [[2]]) (Matrix.denseOfRows [[2]]) false 2
      = "\nSolution:\n\nx1 = + 2\n" ∧
    Matrix.solveFor (Matrix.sparseOfRows [[2]]) (Matrix.sparseOfRows [[2]]) false 2
      = "\nSolution:\n\nx1 = + 2\n" ∧
    (∀ x : ℚ, 2 * x = 2 ↔ x = 1) ∧
    Matrix.solveFor
        (Matrix.denseOfRows [[1, 2, -3, 0], [1, -1, 0, 1], [0, 2, -2, 0], [2, 1, 1, 1]])
        (Matrix.denseOfRows [[1], [-1], [3], [0]]) false 2
      = "\nSolution:\n\nx1 = - 2\nx2 = + 1.5\nx3 = + 0\nx4 = + 2.5\n" := by
  refine ⟨by decide!, by decide!, ?_, by decide!⟩
  intro x
  constructor
  · intro h; linarith
  · intro h; rw [h]; norm_num

/-- C6 (failing input): for the consistent system 1·x1 + 0·x2 = 1, in which column 2 never
becomes a pivot, the non-verbose `solveFor` answers "x1 = + 1" without any free-variable
line, in both backends: a column is recorded as free only when its coefficient is printed in
some row.  For 2·x1 + 2·x2 = 2 the pivot row is printed without having been divided by its
pivot.  On the system of the unit test the answer is the expected one. -/
theorem C6_solveFor_unreported_free_variable :
    Matrix.solveFor (Matrix.denseOfRows [[1, 0]]) (Matrix.denseOfRows [[1]]) false 2
      = "\nSolution:\n\nx1 = + 1\n" ∧
    Matrix.solveFor (Matrix.sparseOfRows [[1, 0]]) (Matrix.sparseOfRows [[1]]) false 2
      = "\nSolution:\n\nx1 = + 1\n" ∧
    Matrix.solveFor (Matrix.denseOfRows [[2, 2]]) (Matrix.denseOfRows [[2]]) false 2
      = "\nSolution:\n\nx1 = - 2x2 + 2\nx2 are free variables.\n" ∧
    Matrix.solveFor
        (Matrix.denseOfRows [[1, 3, -1, 4], [1, 1, -1, -2], [1, 7, -1, 16]])
        (Matrix.denseOfRows [[8], [2], [20]]) false 2
      = "\nSolution:\n\nx1 = + 1x3 + 5x4 - 1\nx2 = - 3x4 + 3\nx3, x4 are free variables.\n" := by
  refine ⟨by decide!, by decide!, by decide!, by decide!⟩

/-- C7: if after the elimination some row of the augmented matrix has every coefficient
within tolerance of 0 and an augmented entry that is not, the non-verbose `solveFor` returns
exactly "\nSolution:\n\nNo solution.\n", in both backends; e.g. the system
[[3,-1,-1,0],[1,-1,0,1],[0,1,-2,2],[-1,3,-1,-4]] with [2,5,0,-1]. -/
theorem C7_solveFor_no_solution :
    (∀ (m augmentedColumn : MatrixBase) (p r : Nat),
      r < (m.eliminated augmentedColumn).getNumRows →
      0 < (m.eliminated augmentedColumn).getNumColumns →
      (∀ c, c < (m.eliminated augmentedColumn).getNumColumns - 1 →
        mcu.almostEqual ((m.eliminated augmentedColumn).getCell r c) 0 = true) →
      mcu.almostEqual ((m.eliminated augmentedColumn).getCell r
        ((m.eliminated augmentedColumn).getNumColumns - 1)) 0 = false →
      (Matrix.mk (some m)).solveFor ⟨some augmentedColumn⟩ false p
        = "\nSolution:\n\nNo solution.\n") ∧
    Matrix.solveFor
        (Matrix.denseOfRows [[3, -1, -1, 0], [1, -1, 0, 1], [0, 1, -2, 2], [-1, 3, -1, -4]])
        (Matrix.denseOfRows [[2], [5], [0], [-1]]) false 2
      = "\nSolution:\n\nNo solution.\n" ∧
    Matrix.solveFor
        (Matrix.sparseOfRows [[3, -1, -1, 0], [1, -1, 0, 1], [0, 1, -2, 2], [-1, 3, -1, -4]])
        (Matrix.sparseOfRows [[2], [5], [0], [-1]]) false 2
      = "\nSolution:\n\nNo solution.\n" := by
  refine ⟨?_, by decide!, by decide!⟩
  intro m aug p r hr hn hzero haug
  cases m with
  | dense d => exact DenseMatrix.solveFor_inconsistent d aug p r hr hn hzero haug
  | sparse s =>
    exact DenseMatrix.solveFor_inconsistent s.cloneAsDenseMatrix aug p r hr hn hzero haug

/-- C7 (witness): the claim applied to the system of the unit test held by the dense backend;
after the elimination its last row is (0, 0, 0, 0 | 17). -/
theorem C7_solveFor_no_solution_witness :
    mcu.almostEqual (((MatrixBase.dense
        ⟨4, 4, [[3, -1, -1, 0], [1, -1, 0, 1], [0, 1, -2, 2], [-1, 3, -1, -4]]⟩).eliminated
        (.dense ⟨4, 1, [[2], [5], [0], [-1]]⟩)).getCell 3 4) 0 = false ∧
    (Matrix.mk (some (MatrixBase.dense
        ⟨4, 4, [[3, -1, -1, 0], [1, -1, 0, 1], [0, 1, -2, 2], [-1, 3, -1, -4]]⟩))).solveFor
        ⟨some (MatrixBase.dense ⟨4, 1, [[2], [5], [0], [-1]]⟩)⟩ false 2
      = "\nSolution:\n\nNo solution.\n" :=
  ⟨by decide!, C7_solveFor_no_solution.1
    (.dense ⟨4, 4, [[3, -1, -1, 0], [1, -1, 0, 1], [0, 1, -2, 2], [-1, 3, -1, -4]]⟩)
    (.dense ⟨4, 1, [[2], [5], [0], [-1]]⟩) 2 3
    (by decide!) (by decide!) (by decide!) (by decide!)⟩

namespace DenseMatrix

/-- The loop over the stored cells of a sparse matrix that writes into a dense target: every
cell is combined by `F` with the target cell at the position `g` of its key. -/
theorem foldCells_props (cells : CellMap) (g : Nat × Nat → Nat × Nat) (F : ℚ → ℚ → ℚ)
    (T : DenseMatrix) :
    (cells.foldl (fun t e =>
        t.setCell (g e.1).1 (g e.1).2 (F (t.getCell (g e.1).1 (g e.1).2) e.2)) T).numRows
      = T.numRows ∧
    (cells.foldl (fun t e =>
        t.setCell (g e.1).1 (g e.1).2 (F (t.getCell (g e.1).1 (g e.1).2) e.2)) T).numColumns
      = T.numColumns ∧
    (T.WF → (cells.foldl (fun t e =>
        t.setCell (g e.1).1 (g e.1).2 (F (t.getCell (g e.1).1 (g e.1).2) e.2)) T).WF) ∧
    (∀ i j, (∀ e ∈ cells, g e.1 ≠ (i, j)) →
      (cells.foldl (fun t e =>
        t.setCell (g e.1).1 (g e.1).2 (F (t.getCell (g e.1).1 (g e.1).2) e.2)) T).getCell i j
        = T.getCell i j) ∧
    (T.WF → cells.Sorted → ∀ e ∈ cells, (∀ e1 ∈ cells, g e1.1 = g e.1 → e1.1 = e.1) →
      (g e.1).1 < T.numRows → (g e.1).2 < T.numColumns →
      (cells.foldl (fun t e =>
        t.setCell (g e.1).1 (g e.1).2 (F (t.getCell (g e.1).1 (g e.1).2) e.2)) T).getCell
          (g e.1).1 (g e.1).2 = F (T.getCell (g e.1).1 (g e.1).2) e.2) := by
  induction cells generalizing T with
  | nil =>
    refine ⟨rfl, rfl, fun h => h, fun _ _ _ => rfl, ?_⟩
    intro _ _ e he
    cases he
  | cons x rest ih =>
    simp only [List.foldl_cons]
    obtain ⟨h1, h2, h3, h4, h5⟩ :=
      ih (T.setCell (g x.1).1 (g x.1).2 (F (T.getCell (g x.1).1 (g x.1).2) x.2))
    refine ⟨h1, h2, fun hT => h3 (WF_setCell hT _ _ _), ?_, ?_⟩
    · intro i j hmiss
      rw [h4 i j (fun e he => hmiss e (List.mem_cons_of_mem _ he))]
      apply getCell_setCell_ne
      intro hij
      exact hmiss x (List.mem_cons_self _ _) (Prod.ext hij.1.symm hij.2.symm)
    · intro hT hs e he hinj hr hc
      rw [CellMap.Sorted, List.pairwise_cons] at hs
      rcases List.mem_cons.mp he with h | h
      · subst h
        rw [h4]
        · exact getCell_setCell_eq hT _ _ _ hr hc
        · intro e1 he1 hg1
          have hk := hinj e1 (List.mem_cons_of_mem _ he1) hg1
          have hlt := hs.1 e1 he1
          rw [hk, CellMap.keyLt_irrefl] at hlt
          cases hlt
      · have hne : g x.1 ≠ g e.1 := by
          intro hg1
          have hk := hinj x (List.mem_cons_self _ _) hg1
          have hlt := hs.1 e h
          rw [hk, CellMap.keyLt_irrefl] at hlt
          cases hlt
        rw [h5 (WF_setCell hT _ _ _) hs.2 e h
          (fun e1 he1 => hinj e1 (List.mem_cons_of_mem _ he1)) hr hc]
        congr 1
        apply getCell_setCell_ne
        intro hij
        exact hne (Prod.ext hij.1.symm hij.2.symm)

/-- The cell of the folded target, read through an inverse `src` of the position map. -/
theorem foldCells_getCell (M : SparseMatrix) (hM : M.WF) (g : Nat × Nat → Nat × Nat)
    (F : ℚ → ℚ → ℚ) (T : DenseMatrix) (hT : T.WF)
    (hrange : ∀ k, k.1 < M.numRows → k.2 < M.numColumns →
      (g k).1 < T.numRows ∧ (g k).2 < T.numColumns)
    (i j : Nat) (src : Nat × Nat) (hsrc : ∀ k, g k = (i, j) → k = src) :
    (M.sparseMatrix.foldl (fun t e =>
        t.setCell (g e.1).1 (g e.1).2 (F (t.getCell (g e.1).1 (g e.1).2) e.2)) T).getCell i j
      = match M.sparseMatrix.find src with
        | some v => if g src = (i, j) then F (T.getCell i j) v else T.getCell i j
        | none => T.getCell i j := by
  obtain ⟨_, _, _, h4, h5⟩ := foldCells_props M.sparseMatrix g F T
  have hmiss : ¬ g src = (i, j) ∨ M.sparseMatrix.find src = none →
      (M.sparseMatrix.foldl (fun t e =>
        t.setCell (g e.1).1 (g e.1).2 (F (t.getCell (g e.1).1 (g e.1).2) e.2)) T).getCell i j
      = T.getCell i j := by
    intro hno
    apply h4
    intro e he hge
    have hk := hsrc e.1 hge
    rcases hno with hno | hno
    · exact hno (hk ▸ hge)
    · have hfe := CellMap.find_of_mem hM.sorted he
      rw [hk, hno] at hfe
      cases hfe
  cases hf : M.sparseMatrix.find src with
  | none => simp only; exact hmiss (Or.inr hf)
  | some v =>
    simp only
    by_cases hcase : g src = (i, j)
    · rw [if_pos hcase]
      have hmem := CellMap.mem_of_find hf
      have hin := hM.inRange src v hf
      have hg := hrange src hin.1 hin.2
      have := h5 hT hM.sorted (src, v) hmem
        (fun e1 _ hg1 => hsrc e1.1 (hg1.trans hcase)) hg.1 hg.2
      simp only [hcase] at this
      exact this
    · rw [if_neg hcase]; exact hmiss (Or.inl hcase)

end DenseMatrix

namespace SparseMatrix

theorem holds_cloneAsDenseMatrix {M : SparseMatrix} (hM : M.WF) :
    DenseMatrix.Holds M.cloneAsDenseMatrix M.numRows M.numColumns M.getCell := by
  have hshape : M.cloneAsDenseMatrix = M.sparseMatrix.foldl (fun t e =>
      t.setCell (id e.1).1 (id e.1).2 ((fun _ v => v) (t.getCell (id e.1).1 (id e.1).2) e.2))
      (DenseMatrix.new M.numRows M.numColumns 0) := rfl
  obtain ⟨h1, h2, h3, _, _⟩ := DenseMatrix.foldCells_props M.sparseMatrix id (fun _ v => v)
    (DenseMatrix.new M.numRows M.numColumns 0)
  refine ⟨?_, ?_, ?_, ?_⟩
  · rw [hshape]; exact h3 (DenseMatrix.WF_new _ _ _)
  · rw [hshape, h1]; rfl
  · rw [hshape, h2]; rfl
  · intro i j hi hj
    rw [hshape, DenseMatrix.foldCells_getCell M hM id (fun _ v => v) _
      (DenseMatrix.WF_new _ _ _) (fun k h1 h2 => ⟨h1, h2⟩) i j (i, j) (fun k hk => hk)]
    rw [getCell_eq_find]
    cases hf : M.sparseMatrix.find (i, j) with
    | none => simp [DenseMatrix.getCell_new _ _ _ i j hi hj]
    | some v => simp

end SparseMatrix

theorem mcu.almostEqual_flush (x : ℚ) : mcu.almostEqual (mcu.flush x) x = true := by
  unfold mcu.flush
  split
  · rename_i h
    rw [mcu.almostEqual_comm]; exact h
  · exact mcu.almostEqual_self x

namespace DenseMatrix

theorem holds_cloneAsSparseMatrix (M : DenseMatrix) :
    SparseMatrix.Holds M.cloneAsSparseMatrix M.numRows M.numColumns
      (fun i j => mcu.flush (M.getCell i j)) :=
  SparseMatrix.sparse_holds_fill_new M.numRows M.numColumns M.getCell

end DenseMatrix

namespace MatrixBase

/-- What a correct result of either class looks like: well formed, of the given dimensions,
holding the given cells. -/
theorem holds_dense {S : DenseMatrix} {R C : Nat} {f : Nat → Nat → ℚ}
    (h : DenseMatrix.Holds S R C f) :
    (MatrixBase.dense S).WF ∧ (MatrixBase.dense S).getNumRows = R ∧
      (MatrixBase.dense S).getNumColumns = C ∧
      ∀ i j, i < R → j < C → (MatrixBase.dense S).getCell i j = f i j :=
  ⟨h.wf, h.rows, h.cols, h.cell⟩

theorem holds_sparse {S : SparseMatrix} {R C : Nat} {f : Nat → Nat → ℚ}
    (h : SparseMatrix.Holds S R C f) :
    (MatrixBase.sparse S).WF ∧ (MatrixBase.sparse S).getNumRows = R ∧
      (MatrixBase.sparse S).getNumColumns = C ∧
      ∀ i j, i < R → j < C → (MatrixBase.sparse S).getCell i j = f i j :=
  ⟨h.wf, h.rows, h.cols, h.cell⟩

theorem cloneAsDenseMatrix_spec {m : MatrixBase} (hm : m.WF) :
    (MatrixBase.dense m.cloneAsDenseMatrix).WF ∧
      (MatrixBase.dense m.cloneAsDenseMatrix).getNumRows = m.getNumRows ∧
      (MatrixBase.dense m.cloneAsDenseMatrix).getNumColumns = m.getNumColumns ∧
      ∀ i j, i < m.getNumRows → j < m.getNumColumns →
        (MatrixBase.dense m.cloneAsDenseMatrix).getCell i j = m.getCell i j := by
  cases m with
  | dense d => exact holds_dense (DenseMatrix.holds_clone d)
  | sparse s => exact holds_dense (SparseMatrix.holds_cloneAsDenseMatrix hm)

theorem cloneAsSparseMatrix_spec {m : MatrixBase} (hm : m.WF) :
    (MatrixBase.sparse m.cloneAsSparseMatrix).WF ∧
      (MatrixBase.sparse m.cloneAsSparseMatrix).getNumRows = m.getNumRows ∧
      (MatrixBase.sparse m.cloneAsSparseMatrix).getNumColumns = m.getNumColumns ∧
      ∀ i j, i < m.getNumRows → j < m.getNumColumns →
        (MatrixBase.sparse m.cloneAsSparseMatrix).getCell i j = mcu.flush (m.getCell i j) := by
  cases m with
  | dense d => exact holds_sparse (DenseMatrix.holds_cloneAsSparseMatrix d)
  | sparse s =>
    have h := holds_sparse (SparseMatrix.sparse_holds_clone hm)
    refine ⟨h.1, h.2.1, h.2.2.1, fun i j hi hj => ?_⟩
    exact (h.2.2.2 i j hi hj).trans
      (mcu.flush_of_crisp (SparseMatrix.WF.crisp hm i j)).symm

theorem equal_comm {A B : MatrixBase} (hA : A.WF) (hB : B.WF) : A.equal B = B.equal A := by
  rw [Bool.eq_iff_iff, equal_iff hA hB, equal_iff hB hA]
  constructor
  · rintro ⟨h1, h2, h3⟩
    refine ⟨h1.symm, h2.symm, fun r c hr hc => ?_⟩
    rw [mcu.almostEqual_comm]
    exact h3 r c (h1 ▸ hr) (h2 ▸ hc)
  · rintro ⟨h1, h2, h3⟩
    refine ⟨h1.symm, h2.symm, fun r c hr hc => ?_⟩
    rw [mcu.almostEqual_comm]
    exact h3 r c (h1 ▸ hr) (h2 ▸ hc)

/-- Two matrices hold the same logical values: same dimensions, same cells. -/
theorem equal_congr {A A1 B B1 : MatrixBase} (hA : A.WF) (hA1 : A1.WF) (hB : B.WF) (hB1 : B1.WF)
    (hAr : A1.getNumRows = A.getNumRows) (hAc : A1.getNumColumns = A.getNumColumns)
    (hAcell : ∀ r c, r < A.getNumRows → c < A.getNumColumns → A1.getCell r c = A.getCell r c)
    (hBr : B1.getNumRows = B.getNumRows) (hBc : B1.getNumColumns = B.getNumColumns)
    (hBcell : ∀ r c, r < B.getNumRows → c < B.getNumColumns → B1.getCell r c = B.getCell r c) :
    A1.equal B1 = A.equal B := by
  rw [Bool.eq_iff_iff, equal_iff hA hB, equal_iff hA1 hB1, hAr, hAc, hBr, hBc]
  constructor
  · rintro ⟨h1, h2, h3⟩
    refine ⟨h1, h2, fun r c hr hc => ?_⟩
    have := h3 r c hr hc
    rwa [hAcell r c hr hc, hBcell r c (h1 ▸ hr) (h2 ▸ hc)] at this
  · rintro ⟨h1, h2, h3⟩
    refine ⟨h1, h2, fun r c hr hc => ?_⟩
    rw [hAcell r c hr hc, hBcell r c (h1 ▸ hr) (h2 ▸ hc)]
    exact h3 r c hr hc

end MatrixBase

/-- C9: for valid matrices A and B in any of the four backend combinations (the sparse
operands well formed), A == B is true exactly when they have the same numbers of rows and of
columns and every pair of corresponding cells is almost-equal; consequently
(A == B) = (B == A), and the answer does not depend on which backend holds the values: it is
the same for any two matrices A1 and B1 holding the dimensions and cells of A and B. -/
theorem C9_operatorEq_iff_cells (A B : MatrixBase) (hA : A.WF) (hB : B.WF) :
    ((Matrix.mk (some A)).operatorEq ⟨some B⟩ = true ↔
      A.getNumRows = B.getNumRows ∧ A.getNumColumns = B.getNumColumns ∧
      ∀ r c, r < A.getNumRows → c < A.getNumColumns →
        mcu.doubleAlmostEqual (.fin (A.getCell r c)) (.fin (B.getCell r c)) (.fin mcu.EPSILON)
          = true) ∧
    (Matrix.mk (some A)).operatorEq ⟨some B⟩ = (Matrix.mk (some B)).operatorEq ⟨some A⟩ ∧
    (∀ A1 B1 : MatrixBase, A1.WF → B1.WF →
      A1.getNumRows = A.getNumRows → A1.getNumColumns = A.getNumColumns →
      (∀ r c, r < A.getNumRows → c < A.getNumColumns → A1.getCell r c = A.getCell r c) →
      B1.getNumRows = B.getNumRows → B1.getNumColumns = B.getNumColumns →
      (∀ r c, r < B.getNumRows → c < B.getNumColumns → B1.getCell r c = B.getCell r c) →
      (Matrix.mk (some A1)).operatorEq ⟨some B1⟩ = (Matrix.mk (some A)).operatorEq ⟨some B⟩) := by
  refine ⟨MatrixBase.equal_iff hA hB, MatrixBase.equal_comm hA hB, ?_⟩
  intro A1 B1 hA1 hB1 h1 h2 h3 h4 h5 h6
  exact MatrixBase.equal_congr hA hA1 hB hB1 h1 h2 h3 h4 h5 h6

/-- C9 (witness): the claim applied to the dense matrix [[1,2],[3,4]] and its sparse
conversion. -/
theorem C9_operatorEq_iff_cells_witness :
    (MatrixBase.dense ⟨2, 2, [[1, 2], [3, 4]]⟩).WF ∧
    (MatrixBase.sparse (DenseMatrix.cloneAsSparseMatrix ⟨2, 2, [[1, 2], [3, 4]]⟩)).WF ∧
    (Matrix.mk (some (MatrixBase.dense ⟨2, 2, [[1, 2], [3, 4]]⟩))).operatorEq
      ⟨some (MatrixBase.sparse (DenseMatrix.cloneAsSparseMatrix ⟨2, 2, [[1, 2], [3, 4]]⟩))⟩
      = (Matrix.mk (some (MatrixBase.sparse
          (DenseMatrix.cloneAsSparseMatrix ⟨2, 2, [[1, 2], [3, 4]]⟩)))).operatorEq
        ⟨some (MatrixBase.dense ⟨2, 2, [[1, 2], [3, 4]]⟩)⟩ := by
  have hA : (MatrixBase.dense ⟨2, 2, [[1, 2], [3, 4]]⟩).WF := by
    show DenseMatrix.WF _
    decide
  have hB : (MatrixBase.sparse
      (DenseMatrix.cloneAsSparseMatrix ⟨2, 2, [[1, 2], [3, 4]]⟩)).WF :=
    (MatrixBase.cloneAsSparseMatrix_spec hA).1
  exact ⟨hA, hB, (C9_operatorEq_iff_cells _ _ hA hB).2.1⟩

namespace MatrixBase

/-- A matrix that holds, up to the flush of `SparseMatrix::setCell`, the cells of `m` is
`==` to `m`. -/
theorem equal_of_flush_cells {A m : MatrixBase} (hA : A.WF) (hm : m.WF)
    (hr : A.getNumRows = m.getNumRows) (hc : A.getNumColumns = m.getNumColumns)
    (hcell : ∀ i j, i < m.getNumRows → j < m.getNumColumns →
      A.getCell i j = m.getCell i j ∨ A.getCell i j = mcu.flush (m.getCell i j)) :
    A.equal m = true := by
  rw [equal_iff hA hm]
  refine ⟨hr, hc, fun i j hi hj => ?_⟩
  rcases hcell i j (hr ▸ hi) (hc ▸ hj) with h | h
  · rw [h]; exact mcu.almostEqual_self _
  · rw [h]; exact mcu.almostEqual_flush _

end MatrixBase

/-- C10: for every valid matrix M, in either backend, converting to the other representation
keeps the logical values: `toSparse()` gives a sparse-backed matrix == M, `toDense()` a
dense-backed matrix == M, and the round trips through `toSparse()` then `toDense()` and
through `toDense()` then `toSparse()` give a matrix == M with the dimensions of M. -/
theorem C10_conversion_keeps_values (m : MatrixBase) (hm : m.WF) :
    ((Matrix.mk (some m)).toSparse.isSparseBacked = true ∧
      (Matrix.mk (some m)).toSparse.operatorEq ⟨some m⟩ = true) ∧
    ((Matrix.mk (some m)).toDense.isDenseBacked = true ∧
      (Matrix.mk (some m)).toDense.operatorEq ⟨some m⟩ = true) ∧
    ((Matrix.mk (some m)).toSparse.toDense.operatorEq ⟨some m⟩ = true ∧
      (Matrix.mk (some m)).toSparse.toDense.getNumRows = m.getNumRows ∧
      (Matrix.mk (some m)).toSparse.toDense.getNumColumns = m.getNumColumns) ∧
    ((Matrix.mk (some m)).toDense.toSparse.operatorEq ⟨some m⟩ = true ∧
      (Matrix.mk (some m)).toDense.toSparse.getNumRows = m.getNumRows ∧
      (Matrix.mk (some m)).toDense.toSparse.getNumColumns = m.getNumColumns) := by
  obtain ⟨hs1, hs2, hs3, hs4⟩ := MatrixBase.cloneAsSparseMatrix_spec hm
  obtain ⟨hd1, hd2, hd3, hd4⟩ := MatrixBase.cloneAsDenseMatrix_spec hm
  obtain ⟨hsd1, hsd2, hsd3, hsd4⟩ := MatrixBase.cloneAsDenseMatrix_spec hs1
  obtain ⟨hds1, hds2, hds3, hds4⟩ := MatrixBase.cloneAsSparseMatrix_spec hd1
  refine ⟨⟨rfl, ?_⟩, ⟨rfl, ?_⟩, ⟨?_, hsd2.trans hs2, hsd3.trans hs3⟩,
    ⟨?_, hds2.trans hd2, hds3.trans hd3⟩⟩
  · exact MatrixBase.equal_of_flush_cells hs1 hm hs2 hs3
      (fun i j hi hj => Or.inr (hs4 i j hi hj))
  · exact MatrixBase.equal_of_flush_cells hd1 hm hd2 hd3
      (fun i j hi hj => Or.inl (hd4 i j hi hj))
  · refine MatrixBase.equal_of_flush_cells hsd1 hm (hsd2.trans hs2) (hsd3.trans hs3) ?_
    intro i j hi hj
    right
    exact (hsd4 i j (hs2 ▸ hi) (hs3 ▸ hj)).trans (hs4 i j hi hj)
  · refine MatrixBase.equal_of_flush_cells hds1 hm (hds2.trans hd2) (hds3.trans hd3) ?_
    intro i j hi hj
    right
    rw [← hd4 i j hi hj]
    exact hds4 i j (hd2 ▸ hi) (hd3 ▸ hj)

/-- C10 (witness): the claim applied to the dense matrix [[1,0],[0,4]]. -/
theorem C10_conversion_keeps_values_witness :
    (MatrixBase.dense ⟨2, 2, [[1, 0], [0, 4]]⟩).WF ∧
    (Matrix.mk (some (MatrixBase.dense ⟨2, 2, [[1, 0], [0, 4]]⟩))).toSparse.toDense.operatorEq
      ⟨some (MatrixBase.dense ⟨2, 2, [[1, 0], [0, 4]]⟩)⟩ = true := by
  have hA : (MatrixBase.dense ⟨2, 2, [[1, 0], [0, 4]]⟩).WF := by
    show DenseMatrix.WF _
    decide
  exact ⟨hA, (C10_conversion_keeps_values _ hA).2.2.1.1⟩

namespace DenseMatrix

/-- A loop that rewrites the first `p` cells of row `r`, each from its own old value. -/
theorem rowPass_props (G : Nat → ℚ → ℚ) (r : Nat) (T : DenseMatrix) (hT : T.WF)
    (hr : r < T.numRows) (p : Nat) (hp : p ≤ T.numColumns) :
    (forLoop p (fun k t => t.setCell r k (G k (t.getCell r k))) T).WF ∧
    (forLoop p (fun k t => t.setCell r k (G k (t.getCell r k))) T).numRows = T.numRows ∧
    (forLoop p (fun k t => t.setCell r k (G k (t.getCell r k))) T).numColumns = T.numColumns ∧
    ∀ i j, (forLoop p (fun k t => t.setCell r k (G k (t.getCell r k))) T).getCell i j =
      if i = r ∧ j < p then G j (T.getCell i j) else T.getCell i j := by
  induction p with
  | zero => exact ⟨hT, rfl, rfl, fun i j => by simp [forLoop_zero]⟩
  | succ k ih =>
    obtain ⟨a1, a2, a3, a4⟩ := ih (by omega)
    simp only [forLoop_succ]
    refine ⟨WF_setCell a1 _ _ _, a2, a3, ?_⟩
    intro i j
    rw [getCell_setCell a1 r k _ i j (by rw [a2]; exact hr) (by rw [a3]; omega), a4, a4]
    by_cases h1 : i = r ∧ j = k
    · obtain ⟨rfl, rfl⟩ := h1
      simp
    · rw [if_neg h1]
      by_cases h2 : i = r ∧ j < k
      · rw [if_pos h2, if_pos ⟨h2.1, by omega⟩]
      · rw [if_neg h2, if_neg]
        intro h3
        apply h1
        refine ⟨h3.1, ?_⟩
        have : ¬ j < k := fun h => h2 ⟨h3.1, h⟩
        omega

/-- The two inner loops of `multiply` for one row of the left operand. -/
theorem multiplyRow_props (leftCell rightCell : Nat → Nat → ℚ) (r p : Nat) (T : DenseMatrix)
    (hT : T.WF) (hr : r < T.numRows) (hp : p ≤ T.numColumns) (n : Nat) :
    (forLoop n (fun leftCol t => forLoop p (fun rightCol t =>
      t.setCell r rightCol (t.getCell r rightCol + leftCell r leftCol * rightCell leftCol rightCol))
      t) T).WF ∧
    (forLoop n (fun leftCol t => forLoop p (fun rightCol t =>
      t.setCell r rightCol (t.getCell r rightCol + leftCell r leftCol * rightCell leftCol rightCol))
      t) T).numRows = T.numRows ∧
    (forLoop n (fun leftCol t => forLoop p (fun rightCol t =>
      t.setCell r rightCol (t.getCell r rightCol + leftCell r leftCol * rightCell leftCol rightCol))
      t) T).numColumns = T.numColumns ∧
    ∀ i k, (forLoop n (fun leftCol t => forLoop p (fun rightCol t =>
      t.setCell r rightCol (t.getCell r rightCol + leftCell r leftCol * rightCell leftCol rightCol))
      t) T).getCell i k =
      if i = r ∧ k < p then
        T.getCell i k + ∑ j in Finset.range n, leftCell r j * rightCell j k
      else T.getCell i k := by
  induction n with
  | zero => exact ⟨hT, rfl, rfl, fun i k => by simp [forLoop_zero]⟩
  | succ m ih =>
    obtain ⟨a1, a2, a3, a4⟩ := ih
    simp only [forLoop_succ]
    obtain ⟨b1, b2, b3, b4⟩ := rowPass_props
      (fun rightCol x => x + leftCell r m * rightCell m rightCol) r _ a1
      (by rw [a2]; exact hr) p (by rw [a3]; exact hp)
    refine ⟨b1, b2.trans a2, b3.trans a3, ?_⟩
    intro i k
    rw [b4, a4]
    by_cases h : i = r ∧ k < p
    · simp only [if_pos h, Finset.sum_range_succ]
      ring
    · simp only [if_neg h]

/-- The triple loop of `multiply` on a zero matrix computes the matrix product. -/
theorem holds_multiplyLoop (m n p : Nat) (leftCell rightCell : Nat → Nat → ℚ) :
    Holds (multiplyLoop m n p leftCell rightCell (new m p 0)) m p
      (fun i k => ∑ j in Finset.range n, leftCell i j * rightCell j k) := by
  have hall : ∀ r0, r0 ≤ m →
      (forLoop r0 (fun leftRow t => forLoop n (fun leftCol t => forLoop p (fun rightCol t =>
        t.setCell leftRow rightCol
          (t.getCell leftRow rightCol + leftCell leftRow leftCol * rightCell leftCol rightCol))
        t) t) (new m p 0)).WF ∧
      (forLoop r0 (fun leftRow t => forLoop n (fun leftCol t => forLoop p (fun rightCol t =>
        t.setCell leftRow rightCol
          (t.getCell leftRow rightCol + leftCell leftRow leftCol * rightCell leftCol rightCol))
        t) t) (new m p 0)).numRows = m ∧
      (forLoop r0 (fun leftRow t => forLoop n (fun leftCol t => forLoop p (fun rightCol t =>
        t.setCell leftRow rightCol
          (t.getCell leftRow rightCol + leftCell leftRow leftCol * rightCell leftCol rightCol))
        t) t) (new m p 0)).numColumns = p ∧
      ∀ i k, i < m → k < p →
        (forLoop r0 (fun leftRow t => forLoop n (fun leftCol t => forLoop p (fun rightCol t =>
        t.setCell leftRow rightCol
          (t.getCell leftRow rightCol + leftCell leftRow leftCol * rightCell leftCol rightCol))
        t) t) (new m p 0)).getCell i k =
        if i < r0 then ∑ j in Finset.range n, leftCell i j * rightCell j k else 0 := by
    intro r0
    induction r0 with
    | zero =>
      intro _
      refine ⟨WF_new _ _ _, rfl, rfl, fun i k hi hk => ?_⟩
      simp [forLoop_zero, getCell_new m p 0 i k hi hk]
    | succ q ih =>
      intro hq
      obtain ⟨a1, a2, a3, a4⟩ := ih (by omega)
      simp only [forLoop_succ]
      obtain ⟨b1, b2, b3, b4⟩ := multiplyRow_props leftCell rightCell q p _ a1
        (by rw [a2]; omega) (by rw [a3]) n
      refine ⟨b1, b2.trans a2, b3.trans a3, ?_⟩
      intro i k hi hk
      rw [b4, a4 i k hi hk]
      by_cases h : i = q
      · subst h
        simp [hk]
      · rw [if_neg (fun h1 => h h1.1)]
        by_cases h2 : i < q
        · rw [if_pos h2, if_pos (by omega)]
        · rw [if_neg h2, if_neg (by omega)]
  obtain ⟨a1, a2, a3, a4⟩ := hall m (le_refl m)
  refine ⟨a1, a2, a3, fun i k hi hk => ?_⟩
  have := a4 i k hi hk
  rw [if_pos hi] at this
  exact this

theorem holds_addD {self left : DenseMatrix} (hr : left.numRows = self.numRows)
    (hc : left.numColumns = self.numColumns) :
    Holds (self.addD left) self.numRows self.numColumns
      (fun i j => left.getCell i j + self.getCell i j) := by
  have h1 := holds_fill_new self.numRows self.numColumns (fun r c => left.getCell r c)
  unfold addD
  simp only [hr, hc]
  have := holds_rewrite self.numRows self.numColumns
    (fun r c t => t.setCell r c (t.getCell r c + self.getCell r c))
    (fun r c x => x + self.getCell r c)
    (fun _ _ _ => rfl) (fun _ _ _ => rfl) (fun _ _ _ ht => WF_setCell ht _ _ _)
    (fun r c t i j ht hr hc => getCell_setCell ht r c _ i j hr hc) _ h1.wf h1.rows h1.cols
  exact this.congr (fun i j hi hj => by simp only [h1.cell i j hi hj])

theorem holds_subtractD {self left : DenseMatrix} (hr : left.numRows = self.numRows)
    (hc : left.numColumns = self.numColumns) :
    Holds (self.subtractD left) self.numRows self.numColumns
      (fun i j => left.getCell i j - self.getCell i j) := by
  have h1 := holds_fill_new self.numRows self.numColumns (fun r c => left.getCell r c)
  unfold subtractD
  simp only [hr, hc]
  have := holds_rewrite self.numRows self.numColumns
    (fun r c t => t.setCell r c (t.getCell r c - self.getCell r c))
    (fun r c x => x - self.getCell r c)
    (fun _ _ _ => rfl) (fun _ _ _ => rfl) (fun _ _ _ ht => WF_setCell ht _ _ _)
    (fun r c t i j ht hr hc => getCell_setCell ht r c _ i j hr hc) _ h1.wf h1.rows h1.cols
  exact this.congr (fun i j hi hj => by simp only [h1.cell i j hi hj])

/-- The copy of the stored cells of a sparse left operand into a fresh dense matrix. -/
theorem holds_copyCells {left : SparseMatrix} (hl : left.WF) :
    Holds (left.getCellDataList.foldl
      (fun t cellData => t.setCell cellData.1 cellData.2.1 cellData.2.2)
      (new left.numRows left.numColumns 0)) left.numRows left.numColumns left.getCell := by
  have h := SparseMatrix.holds_cloneAsDenseMatrix hl
  have hshape : left.getCellDataList.foldl
      (fun t cellData => t.setCell cellData.1 cellData.2.1 cellData.2.2)
      (new left.numRows left.numColumns 0) = left.cloneAsDenseMatrix := by
    simp only [SparseMatrix.getCellDataList, List.foldl_map]
    rfl
  rw [hshape]
  exact h

theorem holds_addS {self : DenseMatrix} {left : SparseMatrix} (hl : left.WF)
    (hr : left.numRows = self.numRows) (hc : left.numColumns = self.numColumns) :
    Holds (self.addS left) self.numRows self.numColumns
      (fun i j => left.getCell i j + self.getCell i j) := by
  have h1 := holds_copyCells hl
  rw [hr, hc] at h1
  unfold addS
  simp only []
  have := holds_rewrite self.numRows self.numColumns
    (fun r c t => t.setCell r c (t.getCell r c + self.getCell r c))
    (fun r c x => x + self.getCell r c)
    (fun _ _ _ => rfl) (fun _ _ _ => rfl) (fun _ _ _ ht => WF_setCell ht _ _ _)
    (fun r c t i j ht hr hc => getCell_setCell ht r c _ i j hr hc) _ h1.wf h1.rows h1.cols
  exact this.congr (fun i j hi hj => by simp only [h1.cell i j hi hj])

theorem holds_subtractS {self : DenseMatrix} {left : SparseMatrix} (hl : left.WF)
    (hr : left.numRows = self.numRows) (hc : left.numColumns = self.numColumns) :
    Holds (self.subtractS left) self.numRows self.numColumns
      (fun i j => left.getCell i j - self.getCell i j) := by
  have h1 := holds_copyCells hl
  rw [hr, hc] at h1
  unfold subtractS
  simp only []
  have := holds_rewrite self.numRows self.numColumns
    (fun r c t => t.setCell r c (t.getCell r c - self.getCell r c))
    (fun r c x => x - self.getCell r c)
    (fun _ _ _ => rfl) (fun _ _ _ => rfl) (fun _ _ _ ht => WF_setCell ht _ _ _)
    (fun r c t i j ht hr hc => getCell_setCell ht r c _ i j hr hc) _ h1.wf h1.rows h1.cols
  exact this.congr (fun i j hi hj => by simp only [h1.cell i j hi hj])

end DenseMatrix
namespace SparseMatrix

/-- The loop over stored cells that rewrites the cell of the target at each key, combining
the stored value with the cell of the target by `F`. -/
theorem sparse_foldCells_props (cells : CellMap) (F : ℚ → ℚ → ℚ) (T : SparseMatrix) :
    (cells.foldl (fun t e => t.setCell e.1.1 e.1.2 (F (t.getCell e.1.1 e.1.2) e.2)) T).numRows
      = T.numRows ∧
    (cells.foldl (fun t e => t.setCell e.1.1 e.1.2 (F (t.getCell e.1.1 e.1.2) e.2)) T).numColumns
      = T.numColumns ∧
    (T.WF → (∀ e ∈ cells, e.1.1 < T.numRows ∧ e.1.2 < T.numColumns) →
      (cells.foldl (fun t e => t.setCell e.1.1 e.1.2 (F (t.getCell e.1.1 e.1.2) e.2)) T).WF) ∧
    (∀ i j, (∀ e ∈ cells, e.1 ≠ (i, j)) →
      (cells.foldl (fun t e => t.setCell e.1.1 e.1.2 (F (t.getCell e.1.1 e.1.2) e.2)) T).getCell
        i j = T.getCell i j) ∧
    (cells.Sorted → ∀ e ∈ cells,
      (cells.foldl (fun t e => t.setCell e.1.1 e.1.2 (F (t.getCell e.1.1 e.1.2) e.2)) T).getCell
        e.1.1 e.1.2 = mcu.flush (F (T.getCell e.1.1 e.1.2) e.2)) := by
  induction cells generalizing T with
  | nil =>
    refine ⟨rfl, rfl, fun h _ => h, fun _ _ _ => rfl, ?_⟩
    intro _ e he
    cases he
  | cons x rest ih =>
    simp only [List.foldl_cons]
    obtain ⟨h1, h2, h3, h4, h5⟩ := ih (T.setCell x.1.1 x.1.2 (F (T.getCell x.1.1 x.1.2) x.2))
    have hd1 : (T.setCell x.1.1 x.1.2 (F (T.getCell x.1.1 x.1.2) x.2)).numRows = T.numRows := by
      unfold setCell; split <;> rfl
    have hd2 : (T.setCell x.1.1 x.1.2 (F (T.getCell x.1.1 x.1.2) x.2)).numColumns
        = T.numColumns := by
      unfold setCell; split <;> rfl
    refine ⟨h1.trans hd1, h2.trans hd2, ?_, ?_, ?_⟩
    · intro hT hin
      have hx := hin x (List.mem_cons_self _ _)
      apply h3 (sparse_WF_setCell hT _ _ _ hx.1 hx.2)
      intro e he
      rw [hd1, hd2]
      exact hin e (List.mem_cons_of_mem _ he)
    · intro i j hmiss
      rw [h4 i j (fun e he => hmiss e (List.mem_cons_of_mem _ he)), sparse_getCell_setCell,
        if_neg]
      exact hmiss x (List.mem_cons_self _ _)
    · intro hs e he
      rw [CellMap.Sorted, List.pairwise_cons] at hs
      rcases List.mem_cons.mp he with h | h
      · subst h
        rw [h4, sparse_getCell_setCell, if_pos rfl]
        intro e1 he1 hk
        have hlt := hs.1 e1 he1
        rw [hk] at hlt
        have : e.1 = (e.1.1, e.1.2) := rfl
        rw [← this, CellMap.keyLt_irrefl] at hlt
        cases hlt
      · rw [h5 hs.2 e h, sparse_getCell_setCell, if_neg]
        intro hk
        have hlt := hs.1 e h
        have : e.1 = (e.1.1, e.1.2) := rfl
        have hx : x.1 = (x.1.1, x.1.2) := rfl
        rw [this, ← hk, ← hx, CellMap.keyLt_irrefl] at hlt
        cases hlt

/-- The cell of the folded sparse target when the cells come from a well-formed matrix. -/
theorem sparse_foldCells_getCell (M : SparseMatrix) (hM : M.WF) (F : ℚ → ℚ → ℚ)
    (T : SparseMatrix) (i j : Nat) :
    (M.sparseMatrix.foldl (fun t e =>
        t.setCell e.1.1 e.1.2 (F (t.getCell e.1.1 e.1.2) e.2)) T).getCell i j
      = match M.sparseMatrix.find (i, j) with
        | some v => mcu.flush (F (T.getCell i j) v)
        | none => T.getCell i j := by
  obtain ⟨_, _, _, h4, h5⟩ := sparse_foldCells_props M.sparseMatrix F T
  cases hf : M.sparseMatrix.find (i, j) with
  | none =>
    simp only
    apply h4
    intro e he hk
    have hfe := CellMap.find_of_mem hM.sorted he
    rw [hk, hf] at hfe
    cases hfe
  | some v =>
    simp only
    exact h5 hM.sorted ((i, j), v) (CellMap.mem_of_find hf)

/-- The copy of the stored cells of a sparse left operand into a fresh sparse matrix. -/
theorem sparse_holds_copyCells {left : SparseMatrix} (hl : left.WF) :
    Holds (left.getCellDataList.foldl
      (fun t cellData => t.setCell cellData.1 cellData.2.1 cellData.2.2)
      (new left.numRows left.numColumns)) left.numRows left.numColumns left.getCell := by
  have h := sparse_holds_clone hl
  have hshape : left.getCellDataList.foldl
      (fun t cellData => t.setCell cellData.1 cellData.2.1 cellData.2.2)
      (new left.numRows left.numColumns) = left.clone := by
    simp only [getCellDataList, List.foldl_map]
    rfl
  rw [hshape]
  exact h

/-- The second loop of the sparse `add` and `subtract` on a well-formed target. -/
theorem sparse_holds_combine {self : SparseMatrix} (hs : self.WF) (F : ℚ → ℚ → ℚ)
    (hF : ∀ x, mcu.Crisp x → F x 0 = x)
    {T : SparseMatrix} {f : Nat → Nat → ℚ} (hT : Holds T self.numRows self.numColumns f) :
    Holds (self.getCellDataList.foldl (fun t cellData =>
      t.setCell cellData.1 cellData.2.1 (F (t.getCell cellData.1 cellData.2.1) cellData.2.2)) T)
      self.numRows self.numColumns (fun i j => mcu.flush (F (f i j) (self.getCell i j))) := by
  have hshape : self.getCellDataList.foldl (fun t cellData =>
      t.setCell cellData.1 cellData.2.1 (F (t.getCell cellData.1 cellData.2.1) cellData.2.2)) T
      = self.sparseMatrix.foldl (fun t e =>
        t.setCell e.1.1 e.1.2 (F (t.getCell e.1.1 e.1.2) e.2)) T := by
    simp only [getCellDataList, List.foldl_map]
  rw [hshape]
  obtain ⟨h1, h2, h3, _, _⟩ := sparse_foldCells_props self.sparseMatrix F T
  refine ⟨?_, h1.trans hT.rows, h2.trans hT.cols, ?_⟩
  · apply h3 hT.wf
    intro e he
    rw [hT.rows, hT.cols]
    exact hs.inRange e.1 e.2 (CellMap.find_of_mem hs.sorted he)
  · intro i j hi hj
    have hself := getCell_eq_find self i j
    rw [sparse_foldCells_getCell self hs F T i j]
    cases hf : self.sparseMatrix.find (i, j) with
    | none =>
      rw [hf] at hself
      simp only [Option.getD_none] at hself
      simp only [hself]
      have hc : mcu.Crisp (T.getCell i j) := WF.crisp hT.wf i j
      rw [← hT.cell i j hi hj, hF _ hc, mcu.flush_of_crisp hc]
    | some v =>
      rw [hf] at hself
      simp only [Option.getD_some] at hself
      simp only [hself]
      rw [hT.cell i j hi hj]

theorem sparse_holds_addS {self left : SparseMatrix} (hs : self.WF) (hl : left.WF)
    (hr : left.numRows = self.numRows) (hc : left.numColumns = self.numColumns) :
    Holds (self.addS left) self.numRows self.numColumns
      (fun i j => mcu.flush (left.getCell i j + self.getCell i j)) := by
  have h1 := sparse_holds_copyCells hl
  rw [hr, hc] at h1
  exact sparse_holds_combine hs (fun x v => x + v) (fun x _ => add_zero x) h1

theorem sparse_holds_subtractS {self left : SparseMatrix} (hs : self.WF) (hl : left.WF)
    (hr : left.numRows = self.numRows) (hc : left.numColumns = self.numColumns) :
    Holds (self.subtractS left) self.numRows self.numColumns
      (fun i j => mcu.flush (left.getCell i j - self.getCell i j)) := by
  have h1 := sparse_holds_copyCells hl
  rw [hr, hc] at h1
  exact sparse_holds_combine hs (fun x v => x - v) (fun x _ => sub_zero x) h1

/-- The second loop of the sparse `add` and `subtract` with a dense left operand. -/
theorem holds_combineDense {self : SparseMatrix} (hs : self.WF) (F : ℚ → ℚ → ℚ)
    (hF : ∀ x, F x 0 = x)
    {T : DenseMatrix} {f : Nat → Nat → ℚ}
    (hT : DenseMatrix.Holds T self.numRows self.numColumns f) :
    DenseMatrix.Holds (self.getCellDataList.foldl (fun t cellData =>
      t.setCell cellData.1 cellData.2.1 (F (t.getCell cellData.1 cellData.2.1) cellData.2.2)) T)
      self.numRows self.numColumns (fun i j => F (f i j) (self.getCell i j)) := by
  have hshape : self.getCellDataList.foldl (fun t cellData =>
      t.setCell cellData.1 cellData.2.1 (F (t.getCell cellData.1 cellData.2.1) cellData.2.2)) T
      = self.sparseMatrix.foldl (fun t e =>
        t.setCell (id e.1).1 (id e.1).2 (F (t.getCell (id e.1).1 (id e.1).2) e.2)) T := by
    simp only [getCellDataList, List.foldl_map]
    rfl
  rw [hshape]
  obtain ⟨h1, h2, h3, _, _⟩ := DenseMatrix.foldCells_props self.sparseMatrix id F T
  refine ⟨h3 hT.wf, h1.trans hT.rows, h2.trans hT.cols, ?_⟩
  intro i j hi hj
  rw [DenseMatrix.foldCells_getCell self hs id F T hT.wf
    (fun k h1 h2 => by rw [hT.rows, hT.cols]; exact ⟨h1, h2⟩) i j (i, j) (fun k hk => hk)]
  have hself := getCell_eq_find self i j
  cases hf : self.sparseMatrix.find (i, j) with
  | none =>
    rw [hf] at hself
    simp only [Option.getD_none] at hself
    simp [hself, hF, hT.cell i j hi hj]
  | some v =>
    rw [hf] at hself
    simp only [Option.getD_some] at hself
    simp [hself, hT.cell i j hi hj]

theorem sparse_holds_addD {self : SparseMatrix} {left : DenseMatrix} (hs : self.WF)
    (hr : left.numRows = self.numRows) (hc : left.numColumns = self.numColumns) :
    DenseMatrix.Holds (self.addD left) self.numRows self.numColumns
      (fun i j => left.getCell i j + self.getCell i j) := by
  have h1 := DenseMatrix.holds_fill_new self.numRows self.numColumns
    (fun r c => left.getCell r c)
  unfold addD
  simp only [DenseMatrix.getNumRows, DenseMatrix.getNumColumns, hr, hc]
  exact holds_combineDense hs (fun x v => x + v) (fun x => add_zero x) h1

theorem sparse_holds_subtractD {self : SparseMatrix} {left : DenseMatrix} (hs : self.WF)
    (hr : left.numRows = self.numRows) (hc : left.numColumns = self.numColumns) :
    DenseMatrix.Holds (self.subtractD left) self.numRows self.numColumns
      (fun i j => left.getCell i j - self.getCell i j) := by
  have h1 := DenseMatrix.holds_fill_new self.numRows self.numColumns
    (fun r c => left.getCell r c)
  unfold subtractD
  simp only [DenseMatrix.getNumRows, DenseMatrix.getNumColumns, hr, hc]
  exact holds_combineDense hs (fun x v => x - v) (fun x => sub_zero x) h1

end SparseMatrix

theorem mcu.flush_flush_neg (x : ℚ) : mcu.flush (mcu.flush x * -1) = mcu.flush (-x) := by
  unfold mcu.flush
  by_cases h : mcu.almostEqual x 0 = true
  · have h1 : mcu.almostEqual (-x) 0 = true := by rw [SparseMatrix.mcu_almostEqual_neg]; exact h
    simp [h, h1, mcu.almostEqual_self]
  · simp only [h]
    simp

namespace MatrixBase

theorem add_spec {A B : MatrixBase} (hA : A.WF) (hB : B.WF)
    (hr : A.getNumRows = B.getNumRows) (hc : A.getNumColumns = B.getNumColumns) :
    (A.add B).WF ∧ (A.add B).getNumRows = A.getNumRows ∧
      (A.add B).getNumColumns = A.getNumColumns ∧
      ∀ i j, i < A.getNumRows → j < A.getNumColumns →
        (A.add B).getCell i j =
          if A.isDenseBacked || B.isDenseBacked then A.getCell i j + B.getCell i j
          else mcu.flush (A.getCell i j + B.getCell i j) := by
  rw [hr, hc]
  cases A with
  | dense a =>
    cases B with
    | dense b => exact holds_dense (DenseMatrix.holds_addD hr hc)
    | sparse b => exact holds_dense (SparseMatrix.sparse_holds_addD hB hr hc)
  | sparse a =>
    cases B with
    | dense b => exact holds_dense (DenseMatrix.holds_addS hA hr hc)
    | sparse b => exact holds_sparse (SparseMatrix.sparse_holds_addS hB hA hr hc)

theorem subtract_spec {A B : MatrixBase} (hA : A.WF) (hB : B.WF)
    (hr : A.getNumRows = B.getNumRows) (hc : A.getNumColumns = B.getNumColumns) :
    (A.subtract B).WF ∧ (A.subtract B).getNumRows = A.getNumRows ∧
      (A.subtract B).getNumColumns = A.getNumColumns ∧
      ∀ i j, i < A.getNumRows → j < A.getNumColumns →
        (A.subtract B).getCell i j =
          if A.isDenseBacked || B.isDenseBacked then A.getCell i j - B.getCell i j
          else mcu.flush (A.getCell i j - B.getCell i j) := by
  rw [hr, hc]
  cases A with
  | dense a =>
    cases B with
    | dense b => exact holds_dense (DenseMatrix.holds_subtractD hr hc)
    | sparse b => exact holds_dense (SparseMatrix.sparse_holds_subtractD hB hr hc)
  | sparse a =>
    cases B with
    | dense b => exact holds_dense (DenseMatrix.holds_subtractS hA hr hc)
    | sparse b => exact holds_sparse (SparseMatrix.sparse_holds_subtractS hB hA hr hc)

theorem clone_spec {m : MatrixBase} (hm : m.WF) :
    m.clone.WF ∧ m.clone.getNumRows = m.getNumRows ∧ m.clone.getNumColumns = m.getNumColumns ∧
      ∀ i j, i < m.getNumRows → j < m.getNumColumns → m.clone.getCell i j = m.getCell i j := by
  cases m with
  | dense d => exact holds_dense (DenseMatrix.holds_clone d)
  | sparse s => exact holds_sparse (SparseMatrix.sparse_holds_clone hm)

theorem scale_spec {m : MatrixBase} (hm : m.WF) (scalar : ℚ) :
    (m.scale scalar).WF ∧ (m.scale scalar).getNumRows = m.getNumRows ∧
      (m.scale scalar).getNumColumns = m.getNumColumns ∧
      ∀ i j, i < m.getNumRows → j < m.getNumColumns →
        (m.scale scalar).getCell i j =
          if m.isDenseBacked then m.getCell i j * scalar
          else mcu.flush (m.getCell i j * scalar) := by
  cases m with
  | dense d => exact holds_dense (DenseMatrix.holds_scale hm scalar)
  | sparse s => exact holds_sparse (SparseMatrix.sparse_holds_scale hm scalar)

theorem multiply_spec (A B : MatrixBase) (h : (A.isDenseBacked || B.isDenseBacked) = true) :
    (A.multiply B).WF ∧ (A.multiply B).getNumRows = A.getNumRows ∧
      (A.multiply B).getNumColumns = B.getNumColumns ∧
      ∀ i k, i < A.getNumRows → k < B.getNumColumns →
        (A.multiply B).getCell i k =
          ∑ j in Finset.range A.getNumColumns, A.getCell i j * B.getCell j k := by
  cases A with
  | dense a =>
    cases B with
    | dense b => exact holds_dense (DenseMatrix.holds_multiplyLoop _ _ _ _ _)
    | sparse b => exact holds_dense (DenseMatrix.holds_multiplyLoop _ _ _ _ _)
  | sparse a =>
    cases B with
    | dense b => exact holds_dense (DenseMatrix.holds_multiplyLoop _ _ _ _ _)
    | sparse b => cases h

end MatrixBase

/-- With exact finite cells, for valid matrices A and B of equal dimensions, in any backend
combination, A + B == B + A and A - B == (-1) * (B - A). -/
theorem Matrix.add_subtract_symmetry (A B : MatrixBase) (hA : A.WF) (hB : B.WF)
    (hr : A.getNumRows = B.getNumRows) (hc : A.getNumColumns = B.getNumColumns) :
    ((Matrix.mk (some A)).operatorAdd ⟨some B⟩).operatorEq
        ((Matrix.mk (some B)).operatorAdd ⟨some A⟩) = true ∧
    ((Matrix.mk (some A)).operatorSub ⟨some B⟩).operatorEq
        (Matrix.scalarMul (-1) ((Matrix.mk (some B)).operatorSub ⟨some A⟩)) = true := by
  obtain ⟨a1, a2, a3, a4⟩ := MatrixBase.add_spec hA hB hr hc
  obtain ⟨b1, b2, b3, b4⟩ := MatrixBase.add_spec hB hA hr.symm hc.symm
  obtain ⟨s1, s2, s3, s4⟩ := MatrixBase.subtract_spec hA hB hr hc
  obtain ⟨t1, t2, t3, t4⟩ := MatrixBase.subtract_spec hB hA hr.symm hc.symm
  obtain ⟨c1, c2, c3, c4⟩ := MatrixBase.clone_spec t1
  obtain ⟨d1, d2, d3, d4⟩ := MatrixBase.scale_spec c1 (-1)
  have hback : ∀ X Y : MatrixBase, (X.subtract Y).clone.isDenseBacked
      = (X.isDenseBacked || Y.isDenseBacked) := by
    intro X Y
    cases X <;> cases Y <;> rfl
  constructor
  · show (A.add B).equal (B.add A) = true
    rw [MatrixBase.equal_iff a1 b1]
    refine ⟨a2.trans (hr.trans b2.symm), a3.trans (hc.trans b3.symm), fun i j hi hj => ?_⟩
    rw [a2] at hi
    rw [a3] at hj
    rw [a4 i j hi hj, b4 i j (hr ▸ hi) (hc ▸ hj), Bool.or_comm, add_comm (B.getCell i j)]
    exact mcu.almostEqual_self _
  · show (A.subtract B).equal ((B.subtract A).clone.scale (-1)) = true
    rw [MatrixBase.equal_iff s1 d1]
    refine ⟨?_, ?_, fun i j hi hj => ?_⟩
    · rw [s2, d2, c2, t2, hr]
    · rw [s3, d3, c3, t3, hc]
    · rw [s2] at hi
      rw [s3] at hj
      have hi1 : i < B.getNumRows := hr ▸ hi
      have hj1 : j < B.getNumColumns := hc ▸ hj
      rw [s4 i j hi hj, d4 i j (by rw [c2, t2]; exact hi1) (by rw [c3, t3]; exact hj1),
        c4 i j (by rw [t2]; exact hi1) (by rw [t3]; exact hj1), t4 i j hi1 hj1, hback,
        Bool.or_comm]
      cases hb : (B.isDenseBacked || A.isDenseBacked)
      · simp only [Bool.false_eq_true, if_false]
        rw [mcu.flush_flush_neg, neg_sub]
        exact mcu.almostEqual_self _
      · simp only [if_true]
        have : (B.getCell i j - A.getCell i j) * -1 = A.getCell i j - B.getCell i j := by ring
        rw [this]
        exact mcu.almostEqual_self _

/-- C12 (failing input): for the dense 1×1 matrices A = [[2^1023]] and B = [[3·2^1022]],
both finite doubles, A + B and B + A both hold +infinity, the sum being beyond the range of
the finite doubles, and `A + B == B + A` is false: `doubleAlmostEqual(inf, inf)` computes
`std::abs(inf - inf)`, which is NaN, and no comparison with NaN holds.  Likewise for
A = [[2^1023]] and B = [[-2^1023]], A - B and (-1) * (B - A) both hold +infinity and
`A - B == (-1) * (B - A)` is false.  On [[1]] and [[2]] both comparisons are true.  What
holds: as long as the cells are finite and no sum or difference overflows (cells taken as
exact numbers), for valid matrices A and B of equal dimensions, in any backend combination,
A + B == B + A and A - B == (-1) * (B - A). -/
theorem C12_symmetry_fails_on_overflow :
    (ieee.operatorAdd ⟨1, 1, [[.fin (2 ^ 1023)]]⟩ ⟨1, 1, [[.fin (3 * 2 ^ 1022)]]⟩
        = ⟨1, 1, [[.posInf]]⟩ ∧
      ieee.operatorAdd ⟨1, 1, [[.fin (3 * 2 ^ 1022)]]⟩ ⟨1, 1, [[.fin (2 ^ 1023)]]⟩
        = ⟨1, 1, [[.posInf]]⟩ ∧
      ieee.doubleAlmostEqual .posInf .posInf ieee.EPSILON = false ∧
      ieee.operatorEq
        (ieee.operatorAdd ⟨1, 1, [[.fin (2 ^ 1023)]]⟩ ⟨1, 1, [[.fin (3 * 2 ^ 1022)]]⟩)
        (ieee.operatorAdd ⟨1, 1, [[.fin (3 * 2 ^ 1022)]]⟩ ⟨1, 1, [[.fin (2 ^ 1023)]]⟩)
        = false) ∧
    (ieee.operatorSub ⟨1, 1, [[.fin (2 ^ 1023)]]⟩ ⟨1, 1, [[.fin (-(2 ^ 1023))]]⟩
        = ⟨1, 1, [[.posInf]]⟩ ∧
      ieee.scalarMul (.fin (-1))
        (ieee.operatorSub ⟨1, 1, [[.fin (-(2 ^ 1023))]]⟩ ⟨1, 1, [[.fin (2 ^ 1023)]]⟩)
        = ⟨1, 1, [[.posInf]]⟩ ∧
      ieee.operatorEq
        (ieee.operatorSub ⟨1, 1, [[.fin (2 ^ 1023)]]⟩ ⟨1, 1, [[.fin (-(2 ^ 1023))]]⟩)
        (ieee.scalarMul (.fin (-1))
          (ieee.operatorSub ⟨1, 1, [[.fin (-(2 ^ 1023))]]⟩ ⟨1, 1, [[.fin (2 ^ 1023)]]⟩))
        = false) ∧
    (ieee.operatorEq (ieee.operatorAdd ⟨1, 1, [[.fin 1]]⟩ ⟨1, 1, [[.fin 2]]⟩)
        (ieee.operatorAdd ⟨1, 1, [[.fin 2]]⟩ ⟨1, 1, [[.fin 1]]⟩) = true ∧
      ieee.operatorEq (ieee.operatorSub ⟨1, 1, [[.fin 1]]⟩ ⟨1, 1, [[.fin 2]]⟩)
        (ieee.scalarMul (.fin (-1))
          (ieee.operatorSub ⟨1, 1, [[.fin 2]]⟩ ⟨1, 1, [[.fin 1]]⟩)) = true) ∧
    (∀ A B : MatrixBase, A.WF → B.WF → A.getNumRows = B.getNumRows →
      A.getNumColumns = B.getNumColumns →
      ((Matrix.mk (some A)).operatorAdd ⟨some B⟩).operatorEq
          ((Matrix.mk (some B)).operatorAdd ⟨some A⟩) = true ∧
      ((Matrix.mk (some A)).operatorSub ⟨some B⟩).operatorEq
          (Matrix.scalarMul (-1) ((Matrix.mk (some B)).operatorSub ⟨some A⟩)) = true) := by
  refine ⟨⟨by decide!, by decide!, by decide!, by decide!⟩,
    ⟨by decide!, by decide!, by decide!⟩, ⟨by decide!, by decide!⟩, ?_⟩
  intro A B hA hB hr hc
  exact Matrix.add_subtract_symmetry A B hA hB hr hc

/-- C12 (witness): the claim applied to the dense matrix [[1,2],[3,4]] and the sparse
conversion of [[4,3],[2,1]]. -/
theorem C12_symmetry_fails_on_overflow_witness :
    (MatrixBase.dense ⟨2, 2, [[1, 2], [3, 4]]⟩).WF ∧
    (MatrixBase.sparse (DenseMatrix.cloneAsSparseMatrix ⟨2, 2, [[4, 3], [2, 1]]⟩)).WF ∧
    ((Matrix.mk (some (MatrixBase.dense ⟨2, 2, [[1, 2], [3, 4]]⟩))).operatorAdd
      ⟨some (MatrixBase.sparse
        (DenseMatrix.cloneAsSparseMatrix ⟨2, 2, [[4, 3], [2, 1]]⟩))⟩).operatorEq
      ((Matrix.mk (some (MatrixBase.sparse
        (DenseMatrix.cloneAsSparseMatrix ⟨2, 2, [[4, 3], [2, 1]]⟩)))).operatorAdd
        ⟨some (MatrixBase.dense ⟨2, 2, [[1, 2], [3, 4]]⟩)⟩) = true := by
  have hA : (MatrixBase.dense ⟨2, 2, [[1, 2], [3, 4]]⟩).WF := by
    show DenseMatrix.WF _
    decide
  have hB0 : (MatrixBase.dense ⟨2, 2, [[4, 3], [2, 1]]⟩).WF := by
    show DenseMatrix.WF _
    decide
  have hB : (MatrixBase.sparse
      (DenseMatrix.cloneAsSparseMatrix ⟨2, 2, [[4, 3], [2, 1]]⟩)).WF :=
    (MatrixBase.cloneAsSparseMatrix_spec hB0).1
  exact ⟨hA, hB, (C12_symmetry_fails_on_overflow.2.2.2 _ _ hA hB
    (MatrixBase.cloneAsSparseMatrix_spec hB0).2.1.symm
    (MatrixBase.cloneAsSparseMatrix_spec hB0).2.2.1.symm).1⟩

/-- C13: for valid A (m×n) and B (n×p) of which at least one is dense-backed, A * B is the
m×p matrix with cell (i,k) = Σ_j A(i,j)·B(j,k), that is, the matrix product; e.g.
[[1,2,3],[4,5,6]] times the 3×2 all-fives matrix is [[30,30],[75,75]]. -/
theorem C13_multiply_is_matrix_product :
    (∀ (m n p : Nat) (A B : MatrixBase), A.WF → B.WF →
      A.getNumRows = m → A.getNumColumns = n → B.getNumRows = n → B.getNumColumns = p →
      (A.isDenseBacked || B.isDenseBacked) = true →
      ((Matrix.mk (some A)).operatorMul ⟨some B⟩).getNumRows = m ∧
      ((Matrix.mk (some A)).operatorMul ⟨some B⟩).getNumColumns = p ∧
      (∀ i k, i < m → k < p →
        ((Matrix.mk (some A)).operatorMul ⟨some B⟩).getCell i k =
          .fin (∑ j in Finset.range n, A.getCell i j * B.getCell j k)) ∧
      cellMatrix (A.multiply B).getCell m p = cellMatrix A.getCell m n * cellMatrix B.getCell n p)
    ∧ (Matrix.denseOfRows [[1, 2, 3], [4, 5, 6]]).operatorMul (Matrix.createDense 3 2 5)
      = Matrix.denseOfRows [[30, 30], [75, 75]]
    ∧ (Matrix.sparseOfRows [[1, 2, 3], [4, 5, 6]]).operatorMul (Matrix.createDense 3 2 5)
      = Matrix.denseOfRows [[30, 30], [75, 75]]
    ∧ (Matrix.denseOfRows [[1, 2, 3], [4, 5, 6]]).operatorMul
        (Matrix.createDense 3 2 5).toSparse
      = Matrix.denseOfRows [[30, 30], [75, 75]] := by
  refine ⟨?_, by decide!, by decide!, by decide!⟩
  intro m n p A B _ _ hAr hAc _ hBc hback
  obtain ⟨_, a2, a3, a4⟩ := MatrixBase.multiply_spec A B hback
  refine ⟨a2.trans hAr, a3.trans hBc, fun i k hi hk => ?_, ?_⟩
  · show mcu.Double.fin ((A.multiply B).getCell i k) = _
    rw [a4 i k (hAr ▸ hi) (hBc ▸ hk), hAc]
  · ext i k
    rw [Matrix.mul_apply]
    simp only [cellMatrix, Matrix.of_apply]
    rw [a4 i k (hAr ▸ i.isLt) (hBc ▸ k.isLt), hAc,
      ← Fin.sum_univ_eq_sum_range (fun j => A.getCell i j * B.getCell j k) n]

/-- C13 (witness): the claim applied to the dense matrices [[1,2],[3,4]] and [[0,1],[1,0]]. -/
theorem C13_multiply_is_matrix_product_witness :
    (MatrixBase.dense ⟨2, 2, [[1, 2], [3, 4]]⟩).WF ∧
    (MatrixBase.dense ⟨2, 2, [[0, 1], [1, 0]]⟩).WF ∧
    cellMatrix ((MatrixBase.dense ⟨2, 2, [[1, 2], [3, 4]]⟩).multiply
        (MatrixBase.dense ⟨2, 2, [[0, 1], [1, 0]]⟩)).getCell 2 2
      = cellMatrix (MatrixBase.dense ⟨2, 2, [[1, 2], [3, 4]]⟩).getCell 2 2
        * cellMatrix (MatrixBase.dense ⟨2, 2, [[0, 1], [1, 0]]⟩).getCell 2 2 := by
  have hA : (MatrixBase.dense ⟨2, 2, [[1, 2], [3, 4]]⟩).WF := by
    show DenseMatrix.WF _
    decide
  have hB : (MatrixBase.dense ⟨2, 2, [[0, 1], [1, 0]]⟩).WF := by
    show DenseMatrix.WF _
    decide
  exact ⟨hA, hB, (C13_multiply_is_matrix_product.1 2 2 2 _ _ hA hB rfl rfl rfl rfl rfl).2.2.2⟩

/-- C14: the representation-selection rule: for add, subtract, multiply, mergeByColumns and
mergeByRows on valid matrices the result is dense-backed whenever at least one operand is
dense-backed and sparse-backed exactly when both operands are sparse-backed, whatever the
operand order. -/
theorem C14_result_backend (A B : MatrixBase) :
    (((Matrix.mk (some A)).operatorAdd ⟨some B⟩).isDenseBacked
        = (A.isDenseBacked || B.isDenseBacked) ∧
      ((Matrix.mk (some A)).operatorAdd ⟨some B⟩).isSparseBacked
        = (!A.isDenseBacked && !B.isDenseBacked)) ∧
    (((Matrix.mk (some A)).operatorSub ⟨some B⟩).isDenseBacked
        = (A.isDenseBacked || B.isDenseBacked) ∧
      ((Matrix.mk (some A)).operatorSub ⟨some B⟩).isSparseBacked
        = (!A.isDenseBacked && !B.isDenseBacked)) ∧
    (((Matrix.mk (some A)).operatorMul ⟨some B⟩).isDenseBacked
        = (A.isDenseBacked || B.isDenseBacked) ∧
      ((Matrix.mk (some A)).operatorMul ⟨some B⟩).isSparseBacked
        = (!A.isDenseBacked && !B.isDenseBacked)) ∧
    (((Matrix.mk (some A)).mergeByColumns ⟨some B⟩).isDenseBacked
        = (A.isDenseBacked || B.isDenseBacked) ∧
      ((Matrix.mk (some A)).mergeByColumns ⟨some B⟩).isSparseBacked
        = (!A.isDenseBacked && !B.isDenseBacked)) ∧
    (((Matrix.mk (some A)).mergeByRows ⟨some B⟩).isDenseBacked
        = (A.isDenseBacked || B.isDenseBacked) ∧
      ((Matrix.mk (some A)).mergeByRows ⟨some B⟩).isSparseBacked
        = (!A.isDenseBacked && !B.isDenseBacked)) := by
  cases A <;> cases B <;> exact ⟨⟨rfl, rfl⟩, ⟨rfl, rfl⟩, ⟨rfl, rfl⟩, ⟨rfl, rfl⟩, ⟨rfl, rfl⟩⟩

theorem foldl_invariant_mem {σ α : Type} (P : σ → Prop) (l : List α) (step : σ → α → σ) (s : σ)
    (h0 : P s) (hstep : ∀ t a, a ∈ l → P t → P (step t a)) : P (l.foldl step s) := by
  induction l generalizing s with
  | nil => exact h0
  | cons x rest ih =>
    simp only [List.foldl_cons]
    exact ih _ (hstep s x (List.mem_cons_self _ _) h0)
      (fun t a ha => hstep t a (List.mem_cons_of_mem _ ha))

namespace SparseMatrix

theorem noZero_new (R C : Nat) : (new R C).NoZeroEntry := by
  intro e he
  cases he

theorem noZero_setCell {S : SparseMatrix} (h : S.NoZeroEntry) (r c : Nat) (v : ℚ) :
    (S.setCell r c v).NoZeroEntry := by
  intro e he
  unfold setCell at he
  split at he
  · simp only [CellMap.erase, List.mem_filter, decide_eq_true_eq] at he
    rcases CellMap.mem_assign he.1 with h1 | h1
    · exact absurd (by rw [h1]) he.2
    · exact h e h1
  · rename_i hv
    rcases CellMap.mem_assign he with h1 | h1
    · rw [h1]
      simpa using hv
    · exact h e h1

theorem noZero_ite (c : Prop) [Decidable c] {A B : SparseMatrix} (ha : A.NoZeroEntry)
    (hb : B.NoZeroEntry) : (if c then A else B).NoZeroEntry := by
  split
  · exact ha
  · exact hb

theorem noZero_foldl {α : Type} (l : List α) (step : SparseMatrix → α → SparseMatrix)
    (T : SparseMatrix) (hT : T.NoZeroEntry)
    (hstep : ∀ t a, t.NoZeroEntry → (step t a).NoZeroEntry) : (l.foldl step T).NoZeroEntry :=
  foldl_invariant_mem NoZeroEntry l step T hT (fun t a _ ht => hstep t a ht)

theorem noZero_forLoop (n : Nat) (body : Nat → SparseMatrix → SparseMatrix) (T : SparseMatrix)
    (hT : T.NoZeroEntry) (hstep : ∀ i t, t.NoZeroEntry → (body i t).NoZeroEntry) :
    (forLoop n body T).NoZeroEntry :=
  forLoop_invariant NoZeroEntry n body T hT (fun i t _ ht => hstep i t ht)

theorem noZero_eraseAll {S : SparseMatrix} (h : S.NoZeroEntry) (keys : List (Nat × Nat)) :
    ∀ e ∈ keys.foldl (fun m key => CellMap.erase m key) S.sparseMatrix,
      mcu.almostEqual e.2 0 = false := by
  refine foldl_invariant_mem (fun m : CellMap => ∀ e ∈ m, mcu.almostEqual e.2 0 = false)
    keys _ _ h ?_
  intro m k _ hm e he
  simp only [CellMap.erase, List.mem_filter] at he
  exact hm e he.1

theorem noZero_resizeNumRows {S : SparseMatrix} (h : S.NoZeroEntry) (R : Nat) :
    (S.resizeNumRows R).NoZeroEntry := by
  unfold resizeNumRows
  simp only []
  split
  · exact h
  · split
    · exact noZero_eraseAll h _
    · exact h

theorem noZero_resizeNumColumns {S : SparseMatrix} (h : S.NoZeroEntry) (C : Nat) :
    (S.resizeNumColumns C).NoZeroEntry := by
  unfold resizeNumColumns
  simp only []
  split
  · exact h
  · split
    · exact noZero_eraseAll h _
    · exact h

theorem noZero_resize {S : SparseMatrix} (h : S.NoZeroEntry) (R C : Nat) :
    (S.resize R C).NoZeroEntry :=
  noZero_resizeNumColumns (noZero_resizeNumRows h R) C

theorem noZero_transpose {S : SparseMatrix} (h : S.NoZeroEntry) : S.transpose.NoZeroEntry := by
  unfold transpose forEachCell
  refine foldl_invariant_mem (fun m : CellMap => ∀ e ∈ m, mcu.almostEqual e.2 0 = false)
    S.sparseMatrix _ _ (fun e he => by cases he) ?_
  intro m a ha hm e he
  rcases CellMap.mem_assign he with h1 | h1
  · rw [h1]
    exact h a ha
  · exact hm e h1

theorem noZero_scale {S : SparseMatrix} (h : S.NoZeroEntry) (scalar : ℚ) :
    (S.scale scalar).NoZeroEntry :=
  noZero_foldl _ _ _ h (fun _ _ ht => noZero_setCell ht _ _ _)

theorem noZero_applyCheckerboardPattern {S : SparseMatrix} (h : S.NoZeroEntry) :
    S.applyCheckerboardPattern.NoZeroEntry := by
  unfold applyCheckerboardPattern forEachCell
  refine noZero_foldl _ _ _ h ?_
  intro t a ht
  exact noZero_ite _ ht (noZero_setCell ht _ _ _)

theorem noZero_clone (S : SparseMatrix) : S.clone.NoZeroEntry :=
  noZero_foldl _ _ _ (noZero_new _ _) (fun _ _ ht => noZero_setCell ht _ _ _)

theorem noZero_addS (self left : SparseMatrix) : (self.addS left).NoZeroEntry :=
  noZero_foldl _ _ _
    (noZero_foldl _ _ _ (noZero_new _ _) (fun _ _ ht => noZero_setCell ht _ _ _))
    (fun _ _ ht => noZero_setCell ht _ _ _)

theorem noZero_subtractS (self left : SparseMatrix) : (self.subtractS left).NoZeroEntry :=
  noZero_foldl _ _ _
    (noZero_foldl _ _ _ (noZero_new _ _) (fun _ _ ht => noZero_setCell ht _ _ _))
    (fun _ _ ht => noZero_setCell ht _ _ _)

theorem noZero_multiplyS (self left : SparseMatrix) : (self.multiplyS left).NoZeroEntry :=
  noZero_forLoop _ _ _ (noZero_new _ _) (fun _ _ ht =>
    noZero_forLoop _ _ _ ht (fun _ _ ht =>
      noZero_forLoop _ _ _ ht (fun _ _ ht => noZero_setCell ht _ _ _)))

theorem noZero_mergeByColumnsS (self left : SparseMatrix) :
    (self.mergeByColumnsS left).NoZeroEntry :=
  noZero_foldl _ _ _
    (noZero_foldl _ _ _ (noZero_new _ _) (fun _ _ ht => noZero_setCell ht _ _ _))
    (fun _ _ ht => noZero_setCell ht _ _ _)

theorem noZero_mergeByRowsS (self left : SparseMatrix) :
    (self.mergeByRowsS left).NoZeroEntry :=
  noZero_foldl _ _ _
    (noZero_foldl _ _ _ (noZero_new _ _) (fun _ _ ht => noZero_setCell ht _ _ _))
    (fun _ _ ht => noZero_setCell ht _ _ _)

theorem noZero_splitByColumn (S : SparseMatrix) (k : Nat) (b : Bool) :
    (S.splitByColumn k b).NoZeroEntry := by
  unfold splitByColumn forEachCell
  refine noZero_foldl _ _ _ (noZero_new _ _) ?_
  intro t a ht
  exact noZero_ite _ (noZero_setCell ht _ _ _) ht

theorem noZero_splitByRow (S : SparseMatrix) (k : Nat) (b : Bool) :
    (S.splitByRow k b).NoZeroEntry := by
  unfold splitByRow forEachCell
  refine noZero_foldl _ _ _ (noZero_new _ _) ?_
  intro t a ht
  exact noZero_ite _ (noZero_setCell ht _ _ _) ht

theorem noZero_gather (cells : CellMap) (test : Nat × Nat → Prop) [DecidablePred test]
    (g : Nat × Nat → Nat × Nat) (T : SparseMatrix) (hT : T.NoZeroEntry) :
    (gather cells test g T).NoZeroEntry := by
  unfold gather
  refine noZero_foldl _ _ _ hT ?_
  intro t a ht
  exact noZero_ite _ (noZero_setCell ht _ _ _) ht

theorem noZero_getSubMatrixRect (S : SparseMatrix) (rb R cb C : Nat) (S1 : SparseMatrix)
    (h : S.getSubMatrixRect rb R cb C = some S1) : S1.NoZeroEntry := by
  rw [getSubMatrixRect_eq_gather] at h
  split at h
  · cases h
  · cases h
    exact noZero_gather _ _ _ _ (noZero_new _ _)

theorem noZero_mergeParts (merge : SparseMatrix → SparseMatrix → SparseMatrix)
    (hmerge : ∀ a b, (merge a b).NoZeroEntry) (o1 o2 : Option SparseMatrix) (S1 : SparseMatrix)
    (h : mergeParts merge o1 o2 = some S1) : S1.NoZeroEntry := by
  cases o1 <;> cases o2 <;> simp only [mergeParts] at h
  · cases h
  · cases h; exact noZero_clone _
  · cases h; exact noZero_clone _
  · cases h; exact hmerge _ _

theorem noZero_getSubMatrix (S : SparseMatrix) (r c : Nat) (S1 : SparseMatrix)
    (h : S.getSubMatrix r c = some S1) : S1.NoZeroEntry := by
  unfold getSubMatrix at h
  exact noZero_mergeParts _ (fun t b => noZero_mergeByRowsS b t) _ _ S1 h

theorem noZero_getMinorMatrix (S : SparseMatrix) (S1 : SparseMatrix)
    (h : S.getMinorMatrix = some S1) : S1.NoZeroEntry := by
  have key : ∀ X, S.getMinorMatrix = some X → X.NoZeroEntry := by
    unfold getMinorMatrix
    refine forLoop_invariant (fun acc : Option SparseMatrix => ∀ X, acc = some X → X.NoZeroEntry)
      _ _ _ ?_ ?_
    · intro X hX
      cases hX
      exact noZero_new _ _
    · intro r acc _ hacc
      refine forLoop_invariant
        (fun acc : Option SparseMatrix => ∀ X, acc = some X → X.NoZeroEntry) _ _ _ hacc ?_
      intro c acc1 _ hacc1 X hX
      cases acc1 with
      | none => simp at hX
      | some minor =>
        cases hsub : S.getSubMatrix r c with
        | none => simp [hsub] at hX
        | some sub =>
          simp only [hsub, Option.some.injEq] at hX
          subst hX
          exact noZero_setCell (hacc1 minor rfl) _ _ _
  exact key S1 h

theorem noZero_getInverse (S : SparseMatrix) (d : mcu.Double) (S1 : SparseMatrix)
    (h : S.getInverse d = some (some S1)) : S1.NoZeroEntry := by
  unfold getInverse at h
  split at h
  · cases h
  · split at h
    · cases h
    · split at h
      · cases h
        exact noZero_setCell (noZero_new _ _) _ _ _
      · split at h
        · cases h
        · cases h
          rename_i inverse hinv
          exact noZero_scale (noZero_transpose (noZero_applyCheckerboardPattern
            (noZero_getMinorMatrix S inverse hinv))) _

end SparseMatrix

theorem DenseMatrix.noZero_cloneAsSparseMatrix (D : DenseMatrix) :
    D.cloneAsSparseMatrix.NoZeroEntry :=
  SparseMatrix.noZero_forLoop _ _ _ (SparseMatrix.noZero_new _ _) (fun _ _ ht =>
    SparseMatrix.noZero_forLoop _ _ _ ht (fun _ _ ht => SparseMatrix.noZero_setCell ht _ _ _))

/-- C15: in the sparse backend no stored entry is within tolerance of zero: this holds for a
new sparse matrix, is preserved by setCell, resize, transpose, scale,
applyCheckerboardPattern, clone and conversion, and holds for every sparse result of add,
subtract, multiply, mergeByColumns, mergeByRows, splitByColumn, splitByRow, getSubMatrix,
getMinorMatrix and getInverse. -/
theorem C15_sparse_no_zero_entry :
    (∀ R C, (SparseMatrix.new R C).NoZeroEntry) ∧
    (∀ S : SparseMatrix, S.NoZeroEntry →
      (∀ r c v, (S.setCell r c v).NoZeroEntry) ∧
      (∀ R, (S.resizeNumRows R).NoZeroEntry) ∧
      (∀ C, (S.resizeNumColumns C).NoZeroEntry) ∧
      (∀ R C, (S.resize R C).NoZeroEntry) ∧
      S.transpose.NoZeroEntry ∧
      (∀ scalar, (S.scale scalar).NoZeroEntry) ∧
      S.applyCheckerboardPattern.NoZeroEntry ∧
      S.clone.NoZeroEntry ∧
      S.cloneAsSparseMatrix.NoZeroEntry) ∧
    (∀ D : DenseMatrix, D.cloneAsSparseMatrix.NoZeroEntry) ∧
    (∀ left right : SparseMatrix,
      (right.addS left).NoZeroEntry ∧ (right.subtractS left).NoZeroEntry ∧
      (right.multiplyS left).NoZeroEntry ∧ (right.mergeByColumnsS left).NoZeroEntry ∧
      (right.mergeByRowsS left).NoZeroEntry) ∧
    (∀ (S : SparseMatrix) (k : Nat) (b : Bool),
      (S.splitByColumn k b).NoZeroEntry ∧ (S.splitByRow k b).NoZeroEntry) ∧
    (∀ (S : SparseMatrix) (rb R cb C : Nat) (S1 : SparseMatrix),
      S.getSubMatrixRect rb R cb C = some S1 → S1.NoZeroEntry) ∧
    (∀ (S : SparseMatrix) (r c : Nat) (S1 : SparseMatrix),
      S.getSubMatrix r c = some S1 → S1.NoZeroEntry) ∧
    (∀ S S1 : SparseMatrix, S.getMinorMatrix = some S1 → S1.NoZeroEntry) ∧
    (∀ (S : SparseMatrix) (d : mcu.Double) (S1 : SparseMatrix),
      S.getInverse d = some (some S1) → S1.NoZeroEntry) :=
  ⟨SparseMatrix.noZero_new,
    fun _ h => ⟨fun _ _ _ => SparseMatrix.noZero_setCell h _ _ _,
      fun _ => SparseMatrix.noZero_resizeNumRows h _,
      fun _ => SparseMatrix.noZero_resizeNumColumns h _,
      fun _ _ => SparseMatrix.noZero_resize h _ _,
      SparseMatrix.noZero_transpose h,
      fun _ => SparseMatrix.noZero_scale h _,
      SparseMatrix.noZero_applyCheckerboardPattern h,
      SparseMatrix.noZero_clone _,
      SparseMatrix.noZero_clone _⟩,
    DenseMatrix.noZero_cloneAsSparseMatrix,
    fun l r => ⟨SparseMatrix.noZero_addS r l, SparseMatrix.noZero_subtractS r l,
      SparseMatrix.noZero_multiplyS r l, SparseMatrix.noZero_mergeByColumnsS r l,
      SparseMatrix.noZero_mergeByRowsS r l⟩,
    fun S k b => ⟨SparseMatrix.noZero_splitByColumn S k b, SparseMatrix.noZero_splitByRow S k b⟩,
    SparseMatrix.noZero_getSubMatrixRect,
    SparseMatrix.noZero_getSubMatrix,
    SparseMatrix.noZero_getMinorMatrix,
    SparseMatrix.noZero_getInverse⟩

/-- C15 (witness): the claim applied to the sparse 2×2 matrix with the entries (0,0) = 1 and
(1,1) = 4, transposed. -/
theorem C15_sparse_no_zero_entry_witness :
    (⟨2, 2, [((0, 0), 1), ((1, 1), 4)]⟩ : SparseMatrix).NoZeroEntry ∧
    (SparseMatrix.transpose ⟨2, 2, [((0, 0), 1), ((1, 1), 4)]⟩).NoZeroEntry := by
  have h : (⟨2, 2, [((0, 0), 1), ((1, 1), 4)]⟩ : SparseMatrix).NoZeroEntry := by
    intro e he
    simp only [List.mem_cons, List.mem_singleton, List.not_mem_nil, or_false] at he
    rcases he with rfl | rfl <;> decide!
  exact ⟨h, (C15_sparse_no_zero_entry.2.1 _ h).2.2.2.2.1⟩

namespace MatrixBase

theorem transpose_spec {m : MatrixBase} (hm : m.WF) :
    m.transpose.WF ∧ m.transpose.getNumRows = m.getNumColumns ∧
      m.transpose.getNumColumns = m.getNumRows ∧
      ∀ i j, i < m.getNumColumns → j < m.getNumRows →
        m.transpose.getCell i j = m.getCell j i := by
  cases m with
  | dense d => exact holds_dense (DenseMatrix.holds_transpose d)
  | sparse s => exact holds_sparse (SparseMatrix.sparse_holds_transpose hm)

end MatrixBase

/-- C16: transpose involution: for every valid matrix A, in either backend, `transpose()`
yields a numColumns×numRows matrix whose cell (c,r) is the old cell (r,c), and transposing
twice restores exactly the original dimensions and cells. -/
theorem C16_transpose_involution (A : MatrixBase) (hA : A.WF) :
    ((Matrix.mk (some A)).transpose.getNumRows = A.getNumColumns ∧
      (Matrix.mk (some A)).transpose.getNumColumns = A.getNumRows ∧
      ∀ r c, r < A.getNumRows → c < A.getNumColumns →
        (Matrix.mk (some A)).transpose.getCell c r = .fin (A.getCell r c)) ∧
    ((Matrix.mk (some A)).transpose.transpose.getNumRows = A.getNumRows ∧
      (Matrix.mk (some A)).transpose.transpose.getNumColumns = A.getNumColumns ∧
      ∀ r c, r < A.getNumRows → c < A.getNumColumns →
        (Matrix.mk (some A)).transpose.transpose.getCell r c = .fin (A.getCell r c)) := by
  obtain ⟨a1, a2, a3, a4⟩ := MatrixBase.transpose_spec hA
  obtain ⟨_, b2, b3, b4⟩ := MatrixBase.transpose_spec a1
  refine ⟨⟨a2, a3, fun r c hr hc => ?_⟩, ⟨b2.trans a3, b3.trans a2, fun r c hr hc => ?_⟩⟩
  · show mcu.Double.fin (A.transpose.getCell c r) = _
    rw [a4 c r hc hr]
  · show mcu.Double.fin (A.transpose.transpose.getCell r c) = _
    rw [b4 r c (a3 ▸ hr) (a2 ▸ hc), a4 c r hc hr]

/-- C16 (witness): the claim applied to the dense matrix [[1,2,3],[4,5,6]]. -/
theorem C16_transpose_involution_witness :
    (MatrixBase.dense ⟨2, 3, [[1, 2, 3], [4, 5, 6]]⟩).WF ∧
    (Matrix.mk (some (MatrixBase.dense ⟨2, 3, [[1, 2, 3], [4, 5, 6]]⟩))).transpose.getNumRows
      = 3 := by
  have hA : (MatrixBase.dense ⟨2, 3, [[1, 2, 3], [4, 5, 6]]⟩).WF := by
    show DenseMatrix.WF _
    decide
  exact ⟨hA, (C16_transpose_involution _ hA).1.1⟩

/-- C20 (failing input): on the sparse 1×1 matrix [[1]], `splitByColumn(0, true)` computes
the last column index 0 - 1, which wraps around, so every stored entry passes the range
test: the result has 1 row and 0 columns and stores the entry (0,0) = 1 outside its bounds.
`splitByRow(0, true)` does the same on rows.  The dense backend returns the empty matrix. -/
theorem C20_sparse_split_at_zero_keeps_entries :
    (Matrix.sparseOfRows [[1]]).splitByColumn 0 true
      = ⟨some (.sparse ⟨1, 0, [((0, 0), 1)]⟩)⟩ ∧
    ((Matrix.sparseOfRows [[1]]).splitByColumn 0 true).getNumColumns = 0 ∧
    ((Matrix.sparseOfRows [[1]]).splitByColumn 0 true).getCell 0 0 = .fin 1 ∧
    (Matrix.sparseOfRows [[1]]).splitByRow 0 true
      = ⟨some (.sparse ⟨0, 1, [((0, 0), 1)]⟩)⟩ ∧
    (Matrix.denseOfRows [[1]]).splitByColumn 0 true = ⟨some (.dense ⟨1, 0, [[]]⟩)⟩ ∧
    (Matrix.sparseOfRows [[1, 2, 3], [4, 5, 6]]).splitByColumn 1 true
      = Matrix.sparseOfRows [[1], [4]] ∧
    (Matrix.sparseOfRows [[1, 2, 3], [4, 5, 6]]).splitByColumn 1 false
      = Matrix.sparseOfRows [[2, 3], [5, 6]] := by
  refine ⟨by decide!, by decide!, by decide!, by decide!, by decide!, by decide!, by decide!⟩

theorem forLoop_count (p : Nat → Prop) [DecidablePred p] (n n0 : Nat) :
    forLoop n (fun c k => if p c then k + 1 else k) n0
      = n0 + ((Finset.range n).filter p).card := by
  induction n with
  | zero => simp [forLoop_zero]
  | succ m ih =>
    rw [forLoop_succ, ih, Finset.range_succ, Finset.filter_insert]
    by_cases h : p m
    · rw [if_pos h, if_pos h, Finset.card_insert_of_not_mem]
      · omega
      · simp
    · rw [if_neg h, if_neg h]

theorem forLoop_add (g : Nat → Nat) (n n0 : Nat) :
    forLoop n (fun r k => k + g r) n0 = n0 + ∑ r in Finset.range n, g r := by
  induction n with
  | zero => simp [forLoop_zero]
  | succ m ih =>
    rw [forLoop_succ, ih, Finset.sum_range_succ]
    omega

theorem forLoop_count_mod (p : Nat → Prop) [DecidablePred p] (W n n0 : Nat) (h0 : n0 < W) :
    forLoop n (fun c k => if p c then (k + 1) % W else k) n0
      = (n0 + ((Finset.range n).filter p).card) % W := by
  induction n with
  | zero => simp [forLoop_zero, Nat.mod_eq_of_lt h0]
  | succ m ih =>
    rw [forLoop_succ, ih, Finset.range_succ, Finset.filter_insert]
    by_cases h : p m
    · rw [if_pos h, if_pos h, Finset.card_insert_of_not_mem (by simp), Nat.mod_add_mod,
        Nat.add_assoc]
    · rw [if_neg h, if_neg h]

theorem forLoop_add_mod (g : Nat → Nat) (W : Nat) (F : Nat → Nat → Nat)
    (hF : ∀ r k, k < W → F r k = (k + g r) % W) (n n0 : Nat) (h0 : n0 < W) :
    forLoop n F n0 = (n0 + ∑ r in Finset.range n, g r) % W := by
  have hW : 0 < W := by omega
  induction n with
  | zero => simp [forLoop_zero, Nat.mod_eq_of_lt h0]
  | succ m ih =>
    rw [forLoop_succ, ih, hF _ _ (Nat.mod_lt _ hW), Nat.mod_add_mod, Finset.sum_range_succ,
      Nat.add_assoc]

theorem zeroCellCount_eq_sum (cell : Nat → Nat → ℚ) (R C : Nat) :
    zeroCellCount cell R C = ∑ r in Finset.range R,
      ((Finset.range C).filter (fun c => mcu.almostEqual (cell r c) 0 = true)).card := by
  unfold zeroCellCount
  rw [Finset.card_filter, Finset.sum_product]
  apply Finset.sum_congr rfl
  intro r _
  rw [Finset.card_filter]

theorem zeroCellCount_congr {f g : Nat → Nat → ℚ} {R C : Nat}
    (h : ∀ i j, i < R → j < C → mcu.almostEqual (f i j) 0 = mcu.almostEqual (g i j) 0) :
    zeroCellCount f R C = zeroCellCount g R C := by
  unfold zeroCellCount
  congr 1
  apply Finset.filter_congr
  intro p hp
  rw [Finset.mem_product, Finset.mem_range, Finset.mem_range] at hp
  rw [h p.1 p.2 hp.1 hp.2]

theorem zeroCellCount_le (cell : Nat → Nat → ℚ) (R C : Nat) : zeroCellCount cell R C ≤ R * C := by
  unfold zeroCellCount
  calc _ ≤ (Finset.range R ×ˢ Finset.range C).card := Finset.card_filter_le _ _
    _ = R * C := by rw [Finset.card_product, Finset.card_range, Finset.card_range]

theorem mcu.almostEqual_flush_zero (x : ℚ) :
    mcu.almostEqual (mcu.flush x) 0 = mcu.almostEqual x 0 := by
  unfold mcu.flush
  split
  · rename_i h
    rw [h]; exact mcu.almostEqual_self 0
  · rfl

namespace DenseMatrix

theorem getSparsity_eq (M : DenseMatrix) :
    M.getSparsity = mcu.countQuotient
      (zeroCellCount M.getCell M.numRows M.numColumns % 2 ^ 64)
      ((M.numRows * M.numColumns) % 2 ^ 64) := by
  unfold getSparsity
  simp only []
  congr 1
  rw [zeroCellCount_eq_sum]
  have hinner : ∀ r n0, n0 < 2 ^ 64 → forLoop M.numColumns (fun c numZeroElements =>
      if mcu.almostEqual (M.getCell r c) 0 then (numZeroElements + 1) % 2 ^ 64
      else numZeroElements) n0
      = (n0 + ((Finset.range M.numColumns).filter
        (fun c => mcu.almostEqual (M.getCell r c) 0 = true)).card) % 2 ^ 64 := by
    intro r n0 h0
    exact forLoop_count_mod (fun c => mcu.almostEqual (M.getCell r c) 0 = true) _ _ n0 h0
  have := forLoop_add_mod (fun r => ((Finset.range M.numColumns).filter
      (fun c => mcu.almostEqual (M.getCell r c) 0 = true)).card) (2 ^ 64)
    (fun r numZeroElements => forLoop M.numColumns (fun c numZeroElements =>
      if mcu.almostEqual (M.getCell r c) 0 then (numZeroElements + 1) % 2 ^ 64
      else numZeroElements) numZeroElements) hinner M.numRows 0 (by norm_num)
  rw [this, Nat.zero_add]

end DenseMatrix

namespace SparseMatrix

/-- The stored keys of a well-formed sparse matrix are exactly the cells that are not
within tolerance of zero. -/
theorem find_ne_none_iff {M : SparseMatrix} (hM : M.WF) (i j : Nat) :
    M.sparseMatrix.find (i, j) ≠ none ↔ mcu.almostEqual (M.getCell i j) 0 = false := by
  rw [getCell_eq_find]
  cases hf : M.sparseMatrix.find (i, j) with
  | none => simp [mcu.almostEqual_self]
  | some v => simpa using hM.nonZero (i, j) v hf

theorem size_add_zeroCellCount {M : SparseMatrix} (hM : M.WF) :
    M.sparseMatrix.size + zeroCellCount M.getCell M.numRows M.numColumns
      = M.numRows * M.numColumns := by
  have hkeys : (M.sparseMatrix.map Prod.fst).toFinset
      = (Finset.range M.numRows ×ˢ Finset.range M.numColumns).filter
        (fun p => ¬ mcu.almostEqual (M.getCell p.1 p.2) 0 = true) := by
    ext p
    rw [List.mem_toFinset, CellMap.mem_keys_iff hM.sorted, Finset.mem_filter,
      Finset.mem_product, Finset.mem_range, Finset.mem_range]
    have hp : p = (p.1, p.2) := rfl
    constructor
    · intro h
      have h2 := (find_ne_none_iff hM p.1 p.2).mp (hp ▸ h)
      cases hf : M.sparseMatrix.find p with
      | none => exact absurd hf h
      | some v =>
        refine ⟨hM.inRange p v hf, ?_⟩
        rw [h2]; simp
    · intro h
      have := (find_ne_none_iff hM p.1 p.2).mpr (by simpa using h.2)
      exact hp ▸ this
  have hsize : M.sparseMatrix.size = (M.sparseMatrix.map Prod.fst).toFinset.card := by
    rw [List.toFinset_card_of_nodup (CellMap.nodup_keys hM.sorted), List.length_map]
    rfl
  rw [hsize, hkeys, zeroCellCount, add_comm, Finset.filter_card_add_filter_neg_card_eq_card,
    Finset.card_product, Finset.card_range, Finset.card_range]

/-- The wrapping difference of two `size_t` values is the difference modulo 2^64. -/
theorem sizeSub_mod (s z : Nat) :
    sizeSub ((s + z) % 2 ^ 64) (s % 2 ^ 64) = z % 2 ^ 64 := by
  unfold sizeSub
  split <;> omega

theorem sparse_getSparsity_eq {M : SparseMatrix} (hM : M.WF) :
    M.getSparsity = mcu.countQuotient
      (zeroCellCount M.getCell M.numRows M.numColumns % 2 ^ 64)
      ((M.numRows * M.numColumns) % 2 ^ 64) := by
  have h := size_add_zeroCellCount hM
  unfold getSparsity
  simp only []
  rw [← h, sizeSub_mod]

end SparseMatrix

namespace MatrixBase

theorem base_getSparsity_eq {m : MatrixBase} (hm : m.WF) :
    m.getSparsity = mcu.countQuotient
      (zeroCellCount m.getCell m.getNumRows m.getNumColumns % 2 ^ 64)
      ((m.getNumRows * m.getNumColumns) % 2 ^ 64) := by
  cases m with
  | dense d => exact DenseMatrix.getSparsity_eq d
  | sparse s => exact SparseMatrix.sparse_getSparsity_eq hm

/-- The test `isSparse()` in terms of the cells: both counts are taken modulo 2^64. -/
theorem isSparse_eq {m : MatrixBase} (hm : m.WF) (T : ℚ) :
    m.isSparse T = (mcu.countQuotient
      (zeroCellCount m.getCell m.getNumRows m.getNumColumns % 2 ^ 64)
      ((m.getNumRows * m.getNumColumns) % 2 ^ 64)).gt T := by
  have hs : m.isSparse T = m.getSparsity.gt T := by cases m <;> rfl
  rw [hs, base_getSparsity_eq hm]

theorem isSparse_iff {m : MatrixBase} (hm : m.WF) (T : ℚ)
    (hsize : m.getNumRows * m.getNumColumns < 2 ^ 64) :
    m.isSparse T = true ↔ 0 < m.getNumRows * m.getNumColumns ∧
      ((zeroCellCount m.getCell m.getNumRows m.getNumColumns : ℕ) : ℚ)
        / ((m.getNumRows * m.getNumColumns : ℕ) : ℚ) > T := by
  have hle := zeroCellCount_le m.getCell m.getNumRows m.getNumColumns
  rw [isSparse_eq hm, Nat.mod_eq_of_lt hsize, Nat.mod_eq_of_lt (by omega)]
  unfold mcu.countQuotient
  by_cases h0 : m.getNumRows * m.getNumColumns = 0
  · have hz : zeroCellCount m.getCell m.getNumRows m.getNumColumns = 0 := by omega
    rw [if_pos h0, if_pos hz]
    simp [mcu.CountQuotient.gt, h0]
  · rw [if_neg h0]
    simp only [mcu.CountQuotient.gt, decide_eq_true_eq]
    constructor
    · intro h; exact ⟨by omega, h⟩
    · intro h; exact h.2

theorem getConvertedCopy_spec {m : MatrixBase} (hm : m.WF) :
    m.getConvertedCopy.WF ∧ m.getConvertedCopy.getNumRows = m.getNumRows ∧
      m.getConvertedCopy.getNumColumns = m.getNumColumns ∧
      (∀ i j, i < m.getNumRows → j < m.getNumColumns →
        m.getConvertedCopy.getCell i j = mcu.flush (m.getCell i j)) ∧
      m.getConvertedCopy.isDenseBacked = !m.isDenseBacked := by
  cases m with
  | dense d =>
    obtain ⟨h1, h2, h3, h4⟩ := cloneAsSparseMatrix_spec hm
    exact ⟨h1, h2, h3, h4, rfl⟩
  | sparse s =>
    obtain ⟨h1, h2, h3, h4⟩ := cloneAsDenseMatrix_spec hm
    refine ⟨h1, h2, h3, fun i j hi hj => ?_, rfl⟩
    exact (h4 i j hi hj).trans (mcu.flush_of_crisp (SparseMatrix.WF.crisp hm i j)).symm

theorem isSparse_getConvertedCopy {m : MatrixBase} (hm : m.WF) (T : ℚ) :
    m.getConvertedCopy.isSparse T = m.isSparse T := by
  obtain ⟨h1, h2, h3, h4, _⟩ := getConvertedCopy_spec hm
  rw [isSparse_eq h1, isSparse_eq hm, h2, h3]
  have : zeroCellCount m.getConvertedCopy.getCell m.getNumRows m.getNumColumns
      = zeroCellCount m.getCell m.getNumRows m.getNumColumns := by
    apply zeroCellCount_congr
    intro i j hi hj
    rw [h4 i j hi hj, mcu.almostEqual_flush_zero]
  rw [this]

end MatrixBase

/-- C18 (failing input): the sparse matrix `createSparse(2^32, 2^32)` is valid and each of
its 2^64 cells is 0, so its sparsity is 1; `getSparsity()` computes `numRows * numColumns` as
a `size_t`, which wraps around to 0, divides 0.0 by 0.0 and returns NaN, so `isSparse()` is
false for every threshold and `requiresConversion()` is true.  What holds: for every valid
matrix with fewer than 2^64 cells and every value of the threshold, `isSparse()` is true iff
the sparsity (cells within tolerance of zero / total cells) is strictly greater than the
threshold, and `isDense()` is the negation, so a matrix whose sparsity equals the threshold
is dense; `requiresConversion()` is true exactly for a dense-backed matrix that is sparse or
a sparse-backed matrix that is dense; e.g. for a threshold between 1/2 and 3/4 a 2×2 matrix
with two zero cells is dense and with three zero cells is sparse, in both backends. -/
theorem C18_isSparse_wraps_on_large_dimensions :
    ((MatrixBase.sparse (SparseMatrix.new (2 ^ 32) (2 ^ 32))).WF ∧
      (∀ i j, (SparseMatrix.new (2 ^ 32) (2 ^ 32)).getCell i j = 0) ∧
      zeroCellCount (SparseMatrix.new (2 ^ 32) (2 ^ 32)).getCell (2 ^ 32) (2 ^ 32)
        = 2 ^ 32 * 2 ^ 32 ∧
      (SparseMatrix.new (2 ^ 32) (2 ^ 32)).getSparsity = .nan ∧
      ∀ sparsityThreshold : ℚ,
        (Matrix.createSparse (2 ^ 32) (2 ^ 32)).isSparse sparsityThreshold = false ∧
        (Matrix.createSparse (2 ^ 32) (2 ^ 32)).isDense sparsityThreshold = true ∧
        (Matrix.createSparse (2 ^ 32) (2 ^ 32)).requiresConversion sparsityThreshold = true) ∧
    (∀ (m : MatrixBase) (sparsityThreshold : ℚ), m.WF →
      m.getNumRows * m.getNumColumns < 2 ^ 64 →
      ((Matrix.mk (some m)).isSparse sparsityThreshold = true ↔
        0 < m.getNumRows * m.getNumColumns ∧
        ((zeroCellCount m.getCell m.getNumRows m.getNumColumns : ℕ) : ℚ)
          / ((m.getNumRows * m.getNumColumns : ℕ) : ℚ) > sparsityThreshold) ∧
      (Matrix.mk (some m)).isDense sparsityThreshold
        = !(Matrix.mk (some m)).isSparse sparsityThreshold ∧
      (((zeroCellCount m.getCell m.getNumRows m.getNumColumns : ℕ) : ℚ)
          / ((m.getNumRows * m.getNumColumns : ℕ) : ℚ) = sparsityThreshold →
        (Matrix.mk (some m)).isDense sparsityThreshold = true) ∧
      ((Matrix.mk (some m)).requiresConversion sparsityThreshold = true ↔
        ((Matrix.mk (some m)).isDenseBacked = true ∧
          (Matrix.mk (some m)).isSparse sparsityThreshold = true) ∨
        ((Matrix.mk (some m)).isSparseBacked = true ∧
          (Matrix.mk (some m)).isDense sparsityThreshold = true))) ∧
    (∀ sparsityThreshold : ℚ, 1 / 2 ≤ sparsityThreshold → sparsityThreshold < 3 / 4 →
      (Matrix.denseOfRows [[1, 0], [0, 1]]).isDense sparsityThreshold = true ∧
      (Matrix.sparseOfRows [[1, 0], [0, 1]]).isDense sparsityThreshold = true ∧
      (Matrix.denseOfRows [[1, 0], [0, 0]]).isSparse sparsityThreshold = true ∧
      (Matrix.sparseOfRows [[1, 0], [0, 0]]).isSparse sparsityThreshold = true) := by
  refine ⟨?_, ?_, ?_⟩
  · have hnan : (SparseMatrix.new (2 ^ 32) (2 ^ 32)).getSparsity = .nan := by decide!
    refine ⟨SparseMatrix.sparse_WF_new _ _, fun _ _ => rfl, ?_, hnan, fun T => ?_⟩
    · unfold zeroCellCount
      rw [Finset.filter_true_of_mem, Finset.card_product, Finset.card_range]
      intro p _
      exact mcu.almostEqual_self 0
    · have h1 : (Matrix.createSparse (2 ^ 32) (2 ^ 32)).isSparse T = false := by
        show (SparseMatrix.new (2 ^ 32) (2 ^ 32)).getSparsity.gt T = false
        rw [hnan]
        rfl
      refine ⟨h1, ?_, ?_⟩
      · show (!((Matrix.createSparse (2 ^ 32) (2 ^ 32)).isSparse T)) = true
        rw [h1]
        rfl
      · show (!((Matrix.createSparse (2 ^ 32) (2 ^ 32)).isSparse T)) = true
        rw [h1]
        rfl
  · intro m T hm hsize
    have hiff := MatrixBase.isSparse_iff hm T hsize
    have hdense : (Matrix.mk (some m)).isDense T = !(Matrix.mk (some m)).isSparse T := by
      cases m <;> rfl
    refine ⟨hiff, hdense, ?_, ?_⟩
    · intro heq
      rw [hdense]
      have : ¬ (Matrix.mk (some m)).isSparse T = true := by
        intro h
        have := (hiff.mp h).2
        rw [heq] at this
        exact lt_irrefl _ this
      simpa using this
    · cases m with
      | dense d =>
        show (!(!(d.isSparse T))) = true ↔ (true = true ∧ d.isSparse T = true) ∨
          (false = true ∧ (!(d.isSparse T)) = true)
        simp
      | sparse s =>
        show (!(s.isSparse T)) = true ↔ (false = true ∧ s.isSparse T = true) ∨
          (true = true ∧ (!(s.isSparse T)) = true)
        simp
  · intro T h1 h2
    have e1 : (DenseMatrix.getSparsity ⟨2, 2, [[1, 0], [0, 1]]⟩) = .fin (1 / 2) := by decide!
    have e2 : (DenseMatrix.cloneAsSparseMatrix ⟨2, 2, [[1, 0], [0, 1]]⟩).getSparsity
        = .fin (1 / 2) := by decide!
    have e3 : (DenseMatrix.getSparsity ⟨2, 2, [[1, 0], [0, 0]]⟩) = .fin (3 / 4) := by decide!
    have e4 : (DenseMatrix.cloneAsSparseMatrix ⟨2, 2, [[1, 0], [0, 0]]⟩).getSparsity
        = .fin (3 / 4) := by decide!
    have n1 : ¬ (1 / 2 : ℚ) > T := not_lt.mpr h1
    refine ⟨?_, ?_, ?_, ?_⟩
    · show (!((DenseMatrix.getSparsity ⟨2, 2, [[1, 0], [0, 1]]⟩).gt T)) = true
      rw [e1]
      simpa [mcu.CountQuotient.gt] using h1
    · show (!((DenseMatrix.cloneAsSparseMatrix ⟨2, 2, [[1, 0], [0, 1]]⟩).getSparsity.gt T))
        = true
      rw [e2]
      simpa [mcu.CountQuotient.gt] using h1
    · show (DenseMatrix.getSparsity ⟨2, 2, [[1, 0], [0, 0]]⟩).gt T = true
      rw [e3]
      simpa [mcu.CountQuotient.gt] using h2
    · show (DenseMatrix.cloneAsSparseMatrix ⟨2, 2, [[1, 0], [0, 0]]⟩).getSparsity.gt T = true
      rw [e4]
      simpa [mcu.CountQuotient.gt] using h2

/-- C18 (witness): the claim applied to the dense matrix [[1,0],[0,0]] and the threshold
1/2. -/
theorem C18_isSparse_wraps_on_large_dimensions_witness :
    (MatrixBase.dense ⟨2, 2, [[1, 0], [0, 0]]⟩).WF ∧
    (MatrixBase.dense ⟨2, 2, [[1, 0], [0, 0]]⟩).getNumRows
      * (MatrixBase.dense ⟨2, 2, [[1, 0], [0, 0]]⟩).getNumColumns < 2 ^ 64 ∧
    (1 / 2 : ℚ) ≤ 1 / 2 ∧ (1 / 2 : ℚ) < 3 / 4 ∧
    (Matrix.mk (some (MatrixBase.dense ⟨2, 2, [[1, 0], [0, 0]]⟩))).isDense (1 / 2)
      = !(Matrix.mk (some (MatrixBase.dense ⟨2, 2, [[1, 0], [0, 0]]⟩))).isSparse (1 / 2) ∧
    (Matrix.denseOfRows [[1, 0], [0, 0]]).isSparse (1 / 2) = true := by
  have hA : (MatrixBase.dense ⟨2, 2, [[1, 0], [0, 0]]⟩).WF := by
    show DenseMatrix.WF _
    decide
  have hsize : (MatrixBase.dense ⟨2, 2, [[1, 0], [0, 0]]⟩).getNumRows
      * (MatrixBase.dense ⟨2, 2, [[1, 0], [0, 0]]⟩).getNumColumns < 2 ^ 64 := by decide
  exact ⟨hA, hsize, le_refl _, by norm_num,
    (C18_isSparse_wraps_on_large_dimensions.2.1 _ (1 / 2) hA hsize).2.1,
    (C18_isSparse_wraps_on_large_dimensions.2.2 (1 / 2) (le_refl _) (by norm_num)).2.2.1⟩

/-- C19 (counterexample): the dense 2×2 matrix of ones has no cell within tolerance of 0, so
for every threshold that is not negative it does not require conversion; yet
`convertToAppropriateMatrixType()` replaces its resource by the sparse copy: the matrix does
not keep its backend, and afterwards `requiresConversion()` is true. -/
theorem C19_counterexample :
    (Matrix.createDense 2 2 1).isDenseBacked = true ∧
    (Matrix.createDense 2 2 1).convertToAppropriateMatrixType.isSparseBacked = true ∧
    (Matrix.createDense 2 2 1).requiresConversion (1 / 2) = false ∧
    (Matrix.createDense 2 2 1).convertToAppropriateMatrixType.requiresConversion (1 / 2)
      = true ∧
    (∀ sparsityThreshold : ℚ, 0 ≤ sparsityThreshold →
      (Matrix.createDense 2 2 1).requiresConversion sparsityThreshold = false ∧
      (Matrix.createDense 2 2 1).convertToAppropriateMatrixType.requiresConversion
        sparsityThreshold = true) := by
  have h1 : (DenseMatrix.new 2 2 1).getSparsity = .fin 0 := by decide!
  have h2 : (DenseMatrix.new 2 2 1).cloneAsSparseMatrix.getSparsity = .fin 0 := by decide!
  have key : ∀ T : ℚ, 0 ≤ T →
      (Matrix.createDense 2 2 1).requiresConversion T = false ∧
      (Matrix.createDense 2 2 1).convertToAppropriateMatrixType.requiresConversion T
        = true := by
    intro T h
    have h3 : ¬ (0 : ℚ) > T := not_lt.mpr h
    constructor
    · show (!(!((DenseMatrix.new 2 2 1).getSparsity.gt T))) = false
      rw [h1]
      simp [mcu.CountQuotient.gt, h3]
    · show (!((DenseMatrix.new 2 2 1).cloneAsSparseMatrix.getSparsity.gt T)) = true
      rw [h2]
      simp [mcu.CountQuotient.gt, h3]
  exact ⟨rfl, rfl, (key (1 / 2) (by norm_num)).1, (key (1 / 2) (by norm_num)).2, key⟩

/-- C19 (amended): `convertToAppropriateMatrixType()` replaces the backend of a valid matrix
by the other one, keeping the dimensions and the logical values (the result is == the
original); when the matrix required conversion, `requiresConversion()` is false
afterwards. -/
theorem C19_convert_when_required (m : MatrixBase) (hm : m.WF) (sparsityThreshold : ℚ) :
    (Matrix.mk (some m)).convertToAppropriateMatrixType.isDenseBacked
      = (Matrix.mk (some m)).isSparseBacked ∧
    (Matrix.mk (some m)).convertToAppropriateMatrixType.getNumRows = m.getNumRows ∧
    (Matrix.mk (some m)).convertToAppropriateMatrixType.getNumColumns = m.getNumColumns ∧
    (Matrix.mk (some m)).convertToAppropriateMatrixType.operatorEq ⟨some m⟩ = true ∧
    ((Matrix.mk (some m)).requiresConversion sparsityThreshold = true →
      (Matrix.mk (some m)).convertToAppropriateMatrixType.requiresConversion sparsityThreshold
        = false) := by
  obtain ⟨h1, h2, h3, h4, h5⟩ := MatrixBase.getConvertedCopy_spec hm
  have hsp := MatrixBase.isSparse_getConvertedCopy hm sparsityThreshold
  refine ⟨h5, h2, h3, ?_, ?_⟩
  · exact MatrixBase.equal_of_flush_cells h1 hm h2 h3 (fun i j hi hj => Or.inr (h4 i j hi hj))
  · intro hreq
    cases m with
    | dense d =>
      have hreq1 : (!(!(d.isSparse sparsityThreshold))) = true := hreq
      have hsp1 : d.cloneAsSparseMatrix.isSparse sparsityThreshold
          = d.isSparse sparsityThreshold := hsp
      show (!(d.cloneAsSparseMatrix.isSparse sparsityThreshold)) = false
      rw [hsp1]
      simpa using hreq1
    | sparse s =>
      have hreq1 : (!(s.isSparse sparsityThreshold)) = true := hreq
      have hsp1 : s.cloneAsDenseMatrix.isSparse sparsityThreshold
          = s.isSparse sparsityThreshold := hsp
      show (!(!(s.cloneAsDenseMatrix.isSparse sparsityThreshold))) = false
      rw [hsp1]
      simpa using hreq1

/-- C19 (witness): the amended claim applied to the dense matrix [[1,0],[0,0]], which at the
threshold 1/2 requires conversion. -/
theorem C19_convert_when_required_witness :
    (MatrixBase.dense ⟨2, 2, [[1, 0], [0, 0]]⟩).WF ∧
    (Matrix.mk (some (MatrixBase.dense ⟨2, 2, [[1, 0], [0, 0]]⟩))).requiresConversion (1 / 2)
      = true ∧
    (Matrix.mk (some (MatrixBase.dense
      ⟨2, 2, [[1, 0], [0, 0]]⟩))).convertToAppropriateMatrixType.requiresConversion (1 / 2)
      = false := by
  have hA : (MatrixBase.dense ⟨2, 2, [[1, 0], [0, 0]]⟩).WF := by
    show DenseMatrix.WF _
    decide
  have hreq : (Matrix.mk (some (MatrixBase.dense
      ⟨2, 2, [[1, 0], [0, 0]]⟩))).requiresConversion (1 / 2) = true := by decide!
  exact ⟨hA, hreq, (C19_convert_when_required _ hA (1 / 2)).2.2.2.2 hreq⟩

theorem vectorResize_length {α : Type} (v : List α) (n : Nat) (d : α) :
    (vectorResize v n d).length = n := by
  unfold vectorResize
  simp only [List.length_append, List.length_take, List.length_replicate]
  omega

theorem vectorResize_getD {α : Type} (v : List α) (n : Nat) (d : α) (i : Nat) :
    (vectorResize v n d).getD i d = if i < n then v.getD i d else d := by
  unfold vectorResize
  simp only [List.getD_eq_getElem?_getD]
  by_cases h1 : i < (v.take n).length
  · rw [List.getElem?_append_left h1]
    simp only [List.length_take] at h1
    rw [List.getElem?_take_of_lt (by omega), if_pos (by omega)]
  · rw [List.getElem?_append_right (by omega)]
    simp only [List.length_take] at h1 ⊢
    by_cases h2 : i < n
    · rw [if_pos h2, List.getElem?_replicate]
      have h3 : v.length ≤ i := by omega
      rw [List.getElem?_eq_none h3]
      split <;> rfl
    · rw [if_neg h2, List.getElem?_replicate]
      split <;> rfl

theorem forLoop_invariant_idx {σ : Type} (P : Nat → σ → Prop) (n : Nat) (body : Nat → σ → σ)
    (s : σ) (h0 : P 0 s) (hstep : ∀ i t, i < n → P i t → P (i + 1) (body i t)) :
    P n (forLoop n body s) := by
  induction n with
  | zero => exact h0
  | succ k ih =>
    rw [forLoop_succ]
    exact hstep k _ (Nat.lt_succ_self k)
      (ih (fun i t hi hp => hstep i t (Nat.lt_succ_of_lt hi) hp))

namespace DenseMatrix

/-- The row `i` of the grid after a modification of row `r`. -/
theorem getD_modify (l : List (List ℚ)) (f : List ℚ → List ℚ) (r i : Nat) (hr : r < l.length) :
    (l.modify f r).getD i [] = if i = r then f (l.getD i []) else l.getD i [] := by
  simp only [List.getD_eq_getElem?_getD, List.getElem?_modify]
  by_cases h : i = r
  · subst h
    rw [if_pos rfl, List.getElem?_eq_getElem hr]
    simp
  · rw [if_neg h]
    cases l[i]? with
    | none => rfl
    | some a => simp [Ne.symm h]

/-- The effect of `setCell` on any grid, well formed or not. -/
theorem getCell_setCell_raw (t : DenseMatrix) (r c : Nat) (v : ℚ) (i j : Nat) :
    (t.setCell r c v).getCell i j =
      if i = r ∧ j = c ∧ c < (t.denseMatrix.getD r []).length then v else t.getCell i j := by
  unfold getCell setCell
  simp only [getD_modify_set]
  by_cases hi : i = r
  · subst hi
    simp only [if_true, true_and]
    simp only [List.getD_eq_getElem?_getD, List.getElem?_set]
    by_cases hj : j = c
    · subst hj
      by_cases hlen : j < ((t.denseMatrix[i]?).getD []).length
      · simp [hlen]
      · simp only [hlen, and_false, if_false]
        rw [List.getElem?_eq_none (by omega)]
        rfl
    · simp [hj, Ne.symm hj]
  · simp [hi]

theorem rowLength_setCell (t : DenseMatrix) (r c : Nat) (v : ℚ) (i : Nat) :
    ((t.setCell r c v).denseMatrix.getD i []).length = (t.denseMatrix.getD i []).length := by
  unfold setCell
  simp only [getD_modify_set]
  split <;> simp

theorem gridLength_setCell (t : DenseMatrix) (r c : Nat) (v : ℚ) :
    (t.setCell r c v).denseMatrix.length = t.denseMatrix.length := by
  simp [setCell]

/-- A loop of `setCell(r, pos k, 0)` on a row whose cells are all zero changes no cell. -/
theorem zeroRowPass (r : Nat) (pos : Nat → Nat) (n : Nat) (t : DenseMatrix)
    (hzero : ∀ j, t.getCell r j = 0) :
    (forLoop n (fun k t => t.setCell r (pos k) 0) t).numRows = t.numRows ∧
    (forLoop n (fun k t => t.setCell r (pos k) 0) t).numColumns = t.numColumns ∧
    (forLoop n (fun k t => t.setCell r (pos k) 0) t).denseMatrix.length
      = t.denseMatrix.length ∧
    (∀ i, ((forLoop n (fun k t => t.setCell r (pos k) 0) t).denseMatrix.getD i []).length
      = (t.denseMatrix.getD i []).length) ∧
    (∀ i j, (forLoop n (fun k t => t.setCell r (pos k) 0) t).getCell i j = t.getCell i j) := by
  induction n with
  | zero => exact ⟨rfl, rfl, rfl, fun _ => rfl, fun _ _ => rfl⟩
  | succ m ih =>
    obtain ⟨a1, a2, a3, a4, a5⟩ := ih
    simp only [forLoop_succ]
    refine ⟨a1, a2, by rw [gridLength_setCell, a3], fun i => by rw [rowLength_setCell, a4], ?_⟩
    intro i j
    rw [getCell_setCell_raw, a5]
    split
    · rename_i h
      rw [h.1, hzero]
    · rfl

theorem getCell_resizeRow (t : DenseMatrix) (r n : Nat) (hr : r < t.denseMatrix.length)
    (i j : Nat) :
    (t.resizeRow r n).getCell i j
      = if i = r then (if j < n then t.getCell r j else 0) else t.getCell i j := by
  unfold getCell resizeRow
  simp only [getD_modify _ _ _ _ hr]
  by_cases h : i = r
  · subst h
    simp only [if_true]
    exact vectorResize_getD _ _ _ _
  · simp only [if_neg h]

theorem rowLength_resizeRow (t : DenseMatrix) (r n : Nat) (hr : r < t.denseMatrix.length)
    (i : Nat) :
    (((t.resizeRow r n).denseMatrix.getD i []).length)
      = if i = r then n else (t.denseMatrix.getD i []).length := by
  unfold resizeRow
  simp only [getD_modify _ _ _ _ hr]
  split
  · exact vectorResize_length _ _ _
  · rfl

theorem gridLength_resizeRow (t : DenseMatrix) (r n : Nat) :
    (t.resizeRow r n).denseMatrix.length = t.denseMatrix.length := by
  simp [resizeRow]

/-- What the loops of `resize` keep true of the grid: its dimensions, the number of rows it
holds, the length of its first `k` rows and all its cells. -/
theorem holds_of_rows {t : DenseMatrix} {R C : Nat} {f : Nat → Nat → ℚ} (h1 : t.numRows = R)
    (h2 : t.numColumns = C) (h3 : t.denseMatrix.length = R)
    (h4 : ∀ i, i < R → (t.denseMatrix.getD i []).length = C)
    (h5 : ∀ i j, i < R → j < C → t.getCell i j = f i j) : Holds t R C f :=
  ⟨⟨h3.trans h1.symm, fun i hi => by rw [h2]; exact h4 i (h1 ▸ hi)⟩, h1, h2, h5⟩

theorem holds_resizeNumRows {M : DenseMatrix} (hM : M.WF) (R : Nat) :
    Holds (M.resizeNumRows R) R M.numColumns
      (fun i j => if i < M.numRows then M.getCell i j else 0) := by
  unfold resizeNumRows
  by_cases h : M.numRows = R
  · rw [if_pos h]
    subst h
    exact (holds_self hM).congr (fun i j hi _ => by rw [if_pos hi])
  · rw [if_neg h]
    simp only []
    have hrow1 : ∀ i, (vectorResize M.denseMatrix R []).getD i []
        = if i < R then M.denseMatrix.getD i [] else [] := fun i => vectorResize_getD _ _ _ _
    have hcell1 : ∀ i j, (DenseMatrix.getCell
        { M with numRows := R, denseMatrix := vectorResize M.denseMatrix R [] } i j)
        = if i < R then M.getCell i j else 0 := by
      intro i j
      unfold getCell
      simp only [hrow1]
      split
      · rfl
      · rfl
    by_cases h2 : M.numRows < R
    · rw [if_pos h2]
      have key := forLoop_invariant_idx
        (fun k (t : DenseMatrix) => t.numRows = R ∧ t.numColumns = M.numColumns ∧
          t.denseMatrix.length = R ∧
          (∀ i, i < M.numRows + k → (t.denseMatrix.getD i []).length = M.numColumns) ∧
          (∀ i j, t.getCell i j = if i < M.numRows then M.getCell i j else 0))
        (R - M.numRows)
        (fun i (t : DenseMatrix) =>
          forLoop (t.resizeRow (M.numRows + i) t.numColumns).numColumns
            (fun c t => t.setCell (M.numRows + i) c 0)
            (t.resizeRow (M.numRows + i) t.numColumns))
        { M with numRows := R, denseMatrix := vectorResize M.denseMatrix R [] }
        (by
          beta_reduce
          refine ⟨rfl, rfl, vectorResize_length _ _ _, ?_, ?_⟩
          · intro i hi
            have hi1 : i < M.numRows := hi
            have hi2 : i < R := by omega
            simp only [hrow1, if_pos hi2]
            exact hM.2 i hi1
          · intro i j
            rw [hcell1]
            by_cases h3 : i < M.numRows
            · have hi2 : i < R := by omega
              simp only [if_pos h3, if_pos hi2]
            · simp only [if_neg h3]
              split
              · exact getCell_of_not_lt hM i j (fun hh => h3 hh.1)
              · rfl)
        (by
          intro k t hk ⟨a1, a2, a3, a4, a5⟩
          beta_reduce
          have hr : M.numRows + k < t.denseMatrix.length := by omega
          have hnk : ¬ M.numRows + k < M.numRows := by omega
          have hz : ∀ j, (t.resizeRow (M.numRows + k) t.numColumns).getCell (M.numRows + k) j
              = 0 := by
            intro j
            rw [getCell_resizeRow t _ _ hr, if_pos rfl, a5, if_neg hnk]
            split <;> rfl
          obtain ⟨b1, b2, b3, b4, b5⟩ := zeroRowPass (M.numRows + k) (fun c => c)
            (t.resizeRow (M.numRows + k) t.numColumns).numColumns
            (t.resizeRow (M.numRows + k) t.numColumns) hz
          refine ⟨b1.trans a1, b2.trans a2, ?_, ?_, ?_⟩
          · rw [b3, gridLength_resizeRow]
            exact a3
          · intro i hi
            rw [b4, rowLength_resizeRow t _ _ hr]
            split
            · exact a2
            · exact a4 i (by omega)
          · intro i j
            rw [b5, getCell_resizeRow t _ _ hr]
            by_cases hi : i = M.numRows + k
            · subst hi
              simp only [if_true, a5, if_neg hnk]
              split <;> rfl
            · simp only [if_neg hi]
              exact a5 i j)
      beta_reduce at key
      obtain ⟨c1, c2, c3, c4, c5⟩ := key
      exact holds_of_rows c1 c2 c3 (fun i hi => c4 i (by omega)) (fun i j _ _ => c5 i j)
    · rw [if_neg h2]
      have hR : R < M.numRows := by omega
      refine holds_of_rows rfl rfl (vectorResize_length _ _ _) (fun i hi => ?_)
        (fun i j hi _ => ?_)
      · simp only [hrow1, if_pos hi]
        exact hM.2 i (by omega)
      · have hi2 : i < M.numRows := by omega
        rw [hcell1]
        simp only [if_pos hi, if_pos hi2]

/-- The loop of `resizeNumColumns` that zeroes the new cells of row `k` changes no cell,
the new cells being zero already. -/
theorem zeroTailPass (k c0 : Nat) (n : Nat) (t : DenseMatrix)
    (hzero : ∀ j, c0 ≤ j → t.getCell k j = 0) :
    (forLoop n (fun i t => t.setCell k (c0 + i) 0) t).numRows = t.numRows ∧
    (forLoop n (fun i t => t.setCell k (c0 + i) 0) t).numColumns = t.numColumns ∧
    (forLoop n (fun i t => t.setCell k (c0 + i) 0) t).denseMatrix.length
      = t.denseMatrix.length ∧
    (∀ i, ((forLoop n (fun i t => t.setCell k (c0 + i) 0) t).denseMatrix.getD i []).length
      = (t.denseMatrix.getD i []).length) ∧
    (∀ i j, (forLoop n (fun i t => t.setCell k (c0 + i) 0) t).getCell i j = t.getCell i j) := by
  induction n with
  | zero => exact ⟨rfl, rfl, rfl, fun _ => rfl, fun _ _ => rfl⟩
  | succ m ih =>
    obtain ⟨a1, a2, a3, a4, a5⟩ := ih
    simp only [forLoop_succ]
    refine ⟨a1, a2, by rw [gridLength_setCell, a3], fun i => by rw [rowLength_setCell, a4], ?_⟩
    intro i j
    rw [getCell_setCell_raw, a5]
    split
    · rename_i h
      rw [h.1, h.2.1, hzero _ (by omega)]
    · rfl

theorem holds_resizeNumColumns {M : DenseMatrix} (hM : M.WF) (C : Nat) :
    Holds (M.resizeNumColumns C) M.numRows C
      (fun i j => if j < M.numColumns then M.getCell i j else 0) := by
  have hout : ∀ i j, ¬ j < M.numColumns → M.getCell i j = 0 :=
    fun i j hj => getCell_of_not_lt hM i j (fun hh => hj hh.2)
  unfold resizeNumColumns
  by_cases h : M.numColumns = C
  · rw [if_pos h]
    subst h
    exact (holds_self hM).congr (fun i j _ hj => by rw [if_pos hj])
  · rw [if_neg h]
    simp only []
    have key := forLoop_invariant_idx
      (fun k (t : DenseMatrix) => t.numRows = M.numRows ∧ t.numColumns = C ∧
        t.denseMatrix.length = M.numRows ∧
        (∀ i, i < k → (t.denseMatrix.getD i []).length = C) ∧
        (∀ i j, t.getCell i j = if i < k then (if j < C then M.getCell i j else 0)
          else M.getCell i j))
      M.numRows
      (fun r (t : DenseMatrix) =>
        if M.numColumns < (t.resizeRow r t.numColumns).numColumns then
          forLoop ((t.resizeRow r t.numColumns).numColumns - M.numColumns)
            (fun i t => t.setCell r (M.numColumns + i) 0) (t.resizeRow r t.numColumns)
        else t.resizeRow r t.numColumns)
      { M with numColumns := C }
      (by
        beta_reduce
        refine ⟨rfl, rfl, hM.1, fun i hi => absurd hi (Nat.not_lt_zero i), fun i j => ?_⟩
        simp only [Nat.not_lt_zero, if_false]
        rfl)
      (by
        intro k t hk ⟨a1, a2, a3, a4, a5⟩
        beta_reduce
        have hr : k < t.denseMatrix.length := by omega
        have hkk : ¬ k < k := Nat.lt_irrefl k
        have hcellk : ∀ i j, (t.resizeRow k t.numColumns).getCell i j
            = if i < k + 1 then (if j < C then M.getCell i j else 0) else M.getCell i j := by
          intro i j
          rw [getCell_resizeRow t _ _ hr, a2]
          by_cases hi : i = k
          · subst hi
            have : i < i + 1 := Nat.lt_succ_self i
            simp only [if_true, a5, if_neg hkk, if_pos this]
          · simp only [if_neg hi, a5]
            by_cases hi2 : i < k
            · have : i < k + 1 := by omega
              simp only [if_pos hi2, if_pos this]
            · have : ¬ i < k + 1 := by omega
              simp only [if_neg hi2, if_neg this]
        have hlenk : ∀ i, i < k + 1 →
            ((t.resizeRow k t.numColumns).denseMatrix.getD i []).length = C := by
          intro i hi
          rw [rowLength_resizeRow t _ _ hr]
          split
          · exact a2
          · exact a4 i (by omega)
        have hz : ∀ j, M.numColumns ≤ j → (t.resizeRow k t.numColumns).getCell k j = 0 := by
          intro j hj
          rw [hcellk, if_pos (Nat.lt_succ_self k)]
          split
          · exact hout k j (by omega)
          · rfl
        by_cases hgrow : M.numColumns < (t.resizeRow k t.numColumns).numColumns
        · simp only [if_pos hgrow]
          obtain ⟨b1, b2, b3, b4, b5⟩ := zeroTailPass k M.numColumns
            ((t.resizeRow k t.numColumns).numColumns - M.numColumns)
            (t.resizeRow k t.numColumns) hz
          refine ⟨b1.trans a1, b2.trans a2, ?_, fun i hi => ?_, fun i j => ?_⟩
          · rw [b3, gridLength_resizeRow]; exact a3
          · rw [b4]; exact hlenk i hi
          · rw [b5]; exact hcellk i j
        · simp only [if_neg hgrow]
          refine ⟨a1, a2, ?_, hlenk, hcellk⟩
          rw [gridLength_resizeRow]; exact a3)
    beta_reduce at key
    obtain ⟨c1, c2, c3, c4, c5⟩ := key
    refine holds_of_rows c1 c2 c3 c4 (fun i j hi hj => ?_)
    rw [c5]
    simp only [if_pos hi, if_pos hj]
    by_cases hj2 : j < M.numColumns
    · rw [if_pos hj2]
    · rw [if_neg hj2]; exact hout i j hj2

theorem holds_resize {M : DenseMatrix} (hM : M.WF) (R C : Nat) :
    Holds (M.resize R C) R C
      (fun i j => if i < M.numRows ∧ j < M.numColumns then M.getCell i j else 0) := by
  have h1 := holds_resizeNumRows hM R
  have h2 := holds_resizeNumColumns h1.wf C
  unfold resize
  rw [h1.rows, h1.cols] at h2
  refine ⟨h2.wf, h2.rows, h2.cols, fun i j hi hj => ?_⟩
  rw [h2.cell i j hi hj]
  by_cases hj2 : j < M.numColumns
  · rw [if_pos hj2, h1.cell i j hi hj2]
    by_cases hi2 : i < M.numRows
    · rw [if_pos hi2, if_pos ⟨hi2, hj2⟩]
    · rw [if_neg hi2, if_neg (fun hh => hi2 hh.1)]
  · rw [if_neg hj2, if_neg (fun hh => hj2 hh.2)]

end DenseMatrix

namespace CellMap

theorem find_eraseAll (m : CellMap) (keys : List (Nat × Nat)) (k : Nat × Nat) :
    find (keys.foldl (fun m key => erase m key) m) k = if k ∈ keys then none else find m k := by
  induction keys generalizing m with
  | nil => simp
  | cons x rest ih =>
    simp only [List.foldl_cons, ih, find_erase, List.mem_cons]
    by_cases h1 : k ∈ rest
    · simp [h1]
    · by_cases h2 : x = k
      · subst h2; simp
      · have h3 : ¬ k = x := fun h => h2 h.symm
        simp [h1, h2, h3]

theorem sorted_eraseAll {m : CellMap} (hs : m.Sorted) (keys : List (Nat × Nat)) :
    (keys.foldl (fun m key => erase m key) m).Sorted := by
  induction keys generalizing m with
  | nil => exact hs
  | cons x rest ih =>
    simp only [List.foldl_cons]
    exact ih (sorted_erase hs x)

/-- The map after the erasure of every stored key that fails the test `keep`. -/
theorem find_eraseFailing {m : CellMap} (hs : m.Sorted) (drop : Nat × Nat → Bool)
    (k : Nat × Nat) :
    find (((m.filter (fun e => drop e.1)).map Prod.fst).foldl (fun m key => erase m key) m) k
      = if drop k = true then none else find m k := by
  rw [find_eraseAll]
  by_cases hd : drop k = true
  · rw [if_pos hd]
    split
    · rfl
    · rename_i hk
      cases hf : find m k with
      | none => rfl
      | some v =>
        exfalso
        apply hk
        rw [List.mem_map]
        exact ⟨(k, v), List.mem_filter.mpr ⟨mem_of_find hf, hd⟩, rfl⟩
  · rw [if_neg hd, if_neg]
    intro hk
    rw [List.mem_map] at hk
    obtain ⟨e, he, hek⟩ := hk
    rw [List.mem_filter] at he
    rw [← hek] at hd
    exact hd he.2

end CellMap

namespace SparseMatrix

theorem sparse_holds_resizeNumRows {M : SparseMatrix} (hM : M.WF) (R : Nat) :
    Holds (M.resizeNumRows R) R M.numColumns
      (fun i j => if i < M.numRows then M.getCell i j else 0) := by
  have hout : ∀ i j, ¬ i < M.numRows → M.getCell i j = 0 :=
    fun i j hi => WF.sparse_getCell_of_not_lt hM i j (fun hh => hi hh.1)
  unfold resizeNumRows
  by_cases h : M.numRows = R
  · rw [if_pos h]
    subst h
    exact (sparse_holds_self hM).sparse_congr (fun i j hi _ => by rw [if_pos hi])
  · rw [if_neg h]
    simp only []
    by_cases h2 : M.numRows > R
    · rw [if_pos h2]
      have hfind := CellMap.find_eraseFailing hM.sorted (fun k => decide (k.1 ≥ R))
      refine ⟨⟨CellMap.sorted_eraseAll hM.sorted _, ?_, ?_⟩, rfl, rfl, ?_⟩
      · intro k v hk
        simp only [hfind] at hk
        split at hk
        · cases hk
        · rename_i hd
          have := hM.inRange k v hk
          simp only [ge_iff_le, decide_eq_true_eq, not_le] at hd
          exact ⟨hd, this.2⟩
      · intro k v hk
        simp only [hfind] at hk
        split at hk
        · cases hk
        · exact hM.nonZero k v hk
      · intro i j hi _
        have hi2 : i < M.numRows := by omega
        rw [getCell_eq_find]
        simp only [hfind]
        have : ¬ (decide ((i, j).1 ≥ R) = true) := by simp; omega
        rw [if_neg this, if_pos hi2, getCell_eq_find]
    · rw [if_neg h2]
      refine ⟨⟨hM.sorted, ?_, hM.nonZero⟩, rfl, rfl, ?_⟩
      · intro k v hk
        have := hM.inRange k v hk
        exact ⟨by show k.1 < R; omega, this.2⟩
      · intro i j _ _
        show M.getCell i j = _
        split
        · rfl
        · rename_i hi
          exact hout i j hi

theorem sparse_holds_resizeNumColumns {M : SparseMatrix} (hM : M.WF) (C : Nat) :
    Holds (M.resizeNumColumns C) M.numRows C
      (fun i j => if j < M.numColumns then M.getCell i j else 0) := by
  have hout : ∀ i j, ¬ j < M.numColumns → M.getCell i j = 0 :=
    fun i j hj => WF.sparse_getCell_of_not_lt hM i j (fun hh => hj hh.2)
  unfold resizeNumColumns
  by_cases h : M.numColumns = C
  · rw [if_pos h]
    subst h
    exact (sparse_holds_self hM).sparse_congr (fun i j _ hj => by rw [if_pos hj])
  · rw [if_neg h]
    simp only []
    by_cases h2 : M.numColumns > C
    · rw [if_pos h2]
      have hfind := CellMap.find_eraseFailing hM.sorted (fun k => decide (k.2 ≥ C))
      refine ⟨⟨CellMap.sorted_eraseAll hM.sorted _, ?_, ?_⟩, rfl, rfl, ?_⟩
      · intro k v hk
        simp only [hfind] at hk
        split at hk
        · cases hk
        · rename_i hd
          have := hM.inRange k v hk
          simp only [ge_iff_le, decide_eq_true_eq, not_le] at hd
          exact ⟨this.1, hd⟩
      · intro k v hk
        simp only [hfind] at hk
        split at hk
        · cases hk
        · exact hM.nonZero k v hk
      · intro i j _ hj
        have hj2 : j < M.numColumns := by omega
        rw [getCell_eq_find]
        simp only [hfind]
        have : ¬ (decide ((i, j).2 ≥ C) = true) := by simp; omega
        rw [if_neg this, if_pos hj2, getCell_eq_find]
    · rw [if_neg h2]
      refine ⟨⟨hM.sorted, ?_, hM.nonZero⟩, rfl, rfl, ?_⟩
      · intro k v hk
        have := hM.inRange k v hk
        exact ⟨this.1, by show k.2 < C; omega⟩
      · intro i j _ _
        show M.getCell i j = _
        split
        · rfl
        · rename_i hj
          exact hout i j hj

theorem sparse_holds_resize {M : SparseMatrix} (hM : M.WF) (R C : Nat) :
    Holds (M.resize R C) R C
      (fun i j => if i < M.numRows ∧ j < M.numColumns then M.getCell i j else 0) := by
  have h1 := sparse_holds_resizeNumRows hM R
  have h2 := sparse_holds_resizeNumColumns h1.wf C
  unfold resize
  rw [h1.rows, h1.cols] at h2
  refine ⟨h2.wf, h2.rows, h2.cols, fun i j hi hj => ?_⟩
  rw [h2.cell i j hi hj]
  by_cases hj2 : j < M.numColumns
  · rw [if_pos hj2, h1.cell i j hi hj2]
    by_cases hi2 : i < M.numRows
    · rw [if_pos hi2, if_pos ⟨hi2, hj2⟩]
    · rw [if_neg hi2, if_neg (fun hh => hi2 hh.1)]
  · rw [if_neg hj2, if_neg (fun hh => hj2 hh.2)]

end SparseMatrix

namespace MatrixBase

theorem resize_spec {m : MatrixBase} (hm : m.WF) (R C : Nat) :
    ((m.resizeNumRows R).resizeNumColumns C).WF ∧
      ((m.resizeNumRows R).resizeNumColumns C).getNumRows = R ∧
      ((m.resizeNumRows R).resizeNumColumns C).getNumColumns = C ∧
      ∀ i j, i < R → j < C → ((m.resizeNumRows R).resizeNumColumns C).getCell i j =
        if i < m.getNumRows ∧ j < m.getNumColumns then m.getCell i j else 0 := by
  cases m with
  | dense d => exact holds_dense (DenseMatrix.holds_resize hm R C)
  | sparse s => exact holds_sparse (SparseMatrix.sparse_holds_resize hm R C)

theorem resize_self (m : MatrixBase) :
    (m.resizeNumRows m.getNumRows).resizeNumColumns m.getNumColumns = m := by
  cases m with
  | dense d =>
    simp [resizeNumRows, resizeNumColumns, DenseMatrix.resizeNumRows,
      DenseMatrix.resizeNumColumns, getNumRows, getNumColumns, DenseMatrix.getNumRows,
      DenseMatrix.getNumColumns]
  | sparse s =>
    simp [resizeNumRows, resizeNumColumns, SparseMatrix.resizeNumRows,
      SparseMatrix.resizeNumColumns, getNumRows, getNumColumns, SparseMatrix.getNumRows,
      SparseMatrix.getNumColumns]

end MatrixBase

/-- C17: for every valid matrix, in either backend, and every new size R×C, `resize(R, C)`
yields an R×C matrix whose cell (i,j) equals the old cell when i < oldRows and
j < oldColumns and is 0 otherwise; hence resizing to the current size changes nothing, and
shrinking to R1×C1 then growing back to the original size keeps the cells with i < R1 and
j < C1 and zero-fills the rest. -/
theorem C17_resize_cells (m : MatrixBase) (hm : m.WF) :
    (∀ R C, ((Matrix.mk (some m)).resize R C).getNumRows = R ∧
      ((Matrix.mk (some m)).resize R C).getNumColumns = C ∧
      ∀ i j, i < R → j < C → ((Matrix.mk (some m)).resize R C).getCell i j =
        .fin (if i < m.getNumRows ∧ j < m.getNumColumns then m.getCell i j else 0)) ∧
    (Matrix.mk (some m)).resize m.getNumRows m.getNumColumns = ⟨some m⟩ ∧
    (∀ R1 C1, R1 ≤ m.getNumRows → C1 ≤ m.getNumColumns →
      (((Matrix.mk (some m)).resize R1 C1).resize m.getNumRows m.getNumColumns).getNumRows
        = m.getNumRows ∧
      (((Matrix.mk (some m)).resize R1 C1).resize m.getNumRows m.getNumColumns).getNumColumns
        = m.getNumColumns ∧
      ∀ i j, i < m.getNumRows → j < m.getNumColumns →
        (((Matrix.mk (some m)).resize R1 C1).resize m.getNumRows m.getNumColumns).getCell i j
          = .fin (if i < R1 ∧ j < C1 then m.getCell i j else 0)) := by
  refine ⟨fun R C => ?_, ?_, fun R1 C1 hR1 hC1 => ?_⟩
  · obtain ⟨_, a2, a3, a4⟩ := MatrixBase.resize_spec hm R C
    refine ⟨a2, a3, fun i j hi hj => ?_⟩
    show mcu.Double.fin (((m.resizeNumRows R).resizeNumColumns C).getCell i j) = _
    rw [a4 i j hi hj]
  · show Matrix.mk (some ((m.resizeNumRows m.getNumRows).resizeNumColumns m.getNumColumns)) = _
    rw [MatrixBase.resize_self]
  · obtain ⟨a1, a2, a3, a4⟩ := MatrixBase.resize_spec hm R1 C1
    obtain ⟨_, b2, b3, b4⟩ := MatrixBase.resize_spec a1 m.getNumRows m.getNumColumns
    refine ⟨b2, b3, fun i j hi hj => ?_⟩
    show mcu.Double.fin (((((m.resizeNumRows R1).resizeNumColumns C1).resizeNumRows
      m.getNumRows).resizeNumColumns m.getNumColumns).getCell i j) = _
    rw [b4 i j hi hj, a2, a3]
    by_cases hc : i < R1 ∧ j < C1
    · rw [if_pos hc, if_pos hc, a4 i j hc.1 hc.2, if_pos ⟨hi, hj⟩]
    · rw [if_neg hc, if_neg hc]

/-- C17 (witness): the claim applied to the dense matrix [[1,2,3],[4,5,6]]. -/
theorem C17_resize_cells_witness :
    (MatrixBase.dense ⟨2, 3, [[1, 2, 3], [4, 5, 6]]⟩).WF ∧
    ((Matrix.mk (some (MatrixBase.dense ⟨2, 3, [[1, 2, 3], [4, 5, 6]]⟩))).resize 3
      2).getNumRows = 3 := by
  have hA : (MatrixBase.dense ⟨2, 3, [[1, 2, 3], [4, 5, 6]]⟩).WF := by
    show DenseMatrix.WF _
    decide
  exact ⟨hA, ((C17_resize_cells _ hA).1 3 2).1⟩

namespace DenseMatrix

theorem getD_set_set (l : List (List ℚ)) (r p i : Nat) (a b : List ℚ) (hr : r < l.length)
    (hp : p < l.length) :
    ((l.set r a).set p b).getD i [] =
      if i = p then b else if i = r then a else l.getD i [] := by
  simp only [List.getD_eq_getElem?_getD, List.getElem?_set, List.length_set]
  by_cases h1 : i = p
  · subst h1
    simp [hp]
  · have h1' : ¬ p = i := fun h => h1 h.symm
    simp only [if_neg h1, if_neg h1']
    by_cases h2 : i = r
    · subst h2
      simp [hr]
    · have h2' : ¬ r = i := fun h => h2 h.symm
      simp only [if_neg h2, if_neg h2']

theorem swapRows_props {M : DenseMatrix} (hM : M.WF) (r p : Nat) (hr : r < M.numRows)
    (hp : p < M.numRows) :
    (M.swapRows r p).WF ∧ (M.swapRows r p).numRows = M.numRows ∧
      (M.swapRows r p).numColumns = M.numColumns ∧
      ∀ i j, (M.swapRows r p).getCell i j =
        M.getCell (if i = p then r else if i = r then p else i) j := by
  have hr1 : r < M.denseMatrix.length := by rw [hM.1]; exact hr
  have hp1 : p < M.denseMatrix.length := by rw [hM.1]; exact hp
  have hrow : ∀ i, (M.swapRows r p).denseMatrix.getD i [] =
      M.denseMatrix.getD (if i = p then r else if i = r then p else i) [] := by
    intro i
    unfold swapRows
    simp only [getD_set_set _ _ _ _ _ _ hr1 hp1]
    split
    · rfl
    · split
      · rfl
      · rfl
  refine ⟨⟨?_, ?_⟩, rfl, rfl, ?_⟩
  · unfold swapRows
    simp only [List.length_set]
    exact hM.1
  · intro i hi
    rw [hrow]
    have hi1 : i < M.numRows := hi
    show _ = M.numColumns
    apply hM.2
    split
    · exact hr
    · split
      · exact hp
      · exact hi1
  · intro i j
    unfold getCell
    rw [hrow]

/-- The row operation `row r -= coefficient * row p` over the first `n` columns. -/
theorem rowOperation_props {M : DenseMatrix} (hM : M.WF) (r p : Nat) (coefficient : ℚ)
    (hr : r < M.numRows) (hrp : r ≠ p) (n : Nat) (hn : n ≤ M.numColumns) :
    (M.rowOperation r p 0 n coefficient).WF ∧
      (M.rowOperation r p 0 n coefficient).numRows = M.numRows ∧
      (M.rowOperation r p 0 n coefficient).numColumns = M.numColumns ∧
      ∀ i j, (M.rowOperation r p 0 n coefficient).getCell i j =
        if i = r ∧ j < n then M.getCell r j - coefficient * M.getCell p j
        else M.getCell i j := by
  unfold rowOperation
  simp only [Nat.sub_zero, Nat.zero_add]
  induction n with
  | zero => exact ⟨hM, rfl, rfl, fun i j => by simp [forLoop_zero]⟩
  | succ k ih =>
    obtain ⟨a1, a2, a3, a4⟩ := ih (by omega)
    simp only [forLoop_succ]
    refine ⟨WF_setCell a1 _ _ _, a2, a3, ?_⟩
    intro i j
    rw [getCell_setCell a1 r k _ i j (by rw [a2]; exact hr) (by rw [a3]; omega), a4, a4, a4]
    have hpr : ¬ (p = r ∧ k < k) := fun h => hrp h.1.symm
    have hrk : ¬ (r = r ∧ k < k) := fun h => Nat.lt_irrefl k h.2
    simp only [if_neg hpr, if_neg hrk]
    by_cases h1 : i = r ∧ j = k
    · obtain ⟨rfl, rfl⟩ := h1
      simp
    · rw [if_neg h1]
      by_cases h2 : i = r ∧ j < k
      · rw [if_pos h2, if_pos ⟨h2.1, by omega⟩]
      · rw [if_neg h2, if_neg]
        intro h3
        apply h1
        refine ⟨h3.1, ?_⟩
        have : ¬ j < k := fun h => h2 ⟨h3.1, h⟩
        omega

/-- The elimination below the leading entry, when the tested cells of column `c` are each
exactly zero or not almost equal to zero. -/
theorem eliminateBelow_props {M : DenseMatrix} (hM : M.WF) (c p : Nat)
    (hcrisp : ∀ i, i < M.numRows → mcu.Crisp (M.getCell i c)) (n : Nat)
    (hn : p + 1 + n ≤ M.numRows) :
    (forLoop n (fun i t =>
        if mcu.almostEqual (t.getCell (p + 1 + i) c) 0 then t
        else t.rowOperation (p + 1 + i) p 0 M.numColumns
          (t.getCell (p + 1 + i) c / M.getCell p c)) M).WF ∧
    (forLoop n (fun i t =>
        if mcu.almostEqual (t.getCell (p + 1 + i) c) 0 then t
        else t.rowOperation (p + 1 + i) p 0 M.numColumns
          (t.getCell (p + 1 + i) c / M.getCell p c)) M).numRows = M.numRows ∧
    (forLoop n (fun i t =>
        if mcu.almostEqual (t.getCell (p + 1 + i) c) 0 then t
        else t.rowOperation (p + 1 + i) p 0 M.numColumns
          (t.getCell (p + 1 + i) c / M.getCell p c)) M).numColumns = M.numColumns ∧
    ∀ i j, j < M.numColumns → (forLoop n (fun i t =>
        if mcu.almostEqual (t.getCell (p + 1 + i) c) 0 then t
        else t.rowOperation (p + 1 + i) p 0 M.numColumns
          (t.getCell (p + 1 + i) c / M.getCell p c)) M).getCell i j =
      if p < i ∧ i < p + 1 + n then
        M.getCell i j - M.getCell i c / M.getCell p c * M.getCell p j
      else M.getCell i j := by
  induction n with
  | zero =>
    refine ⟨hM, rfl, rfl, fun i j _ => ?_⟩
    rw [forLoop_zero, if_neg (by omega)]
  | succ k ih =>
    obtain ⟨a1, a2, a3, a4⟩ := ih (by omega)
    simp only [forLoop_succ]
    have hrow : ∀ j, j < M.numColumns →
        (forLoop k (fun i t =>
          if mcu.almostEqual (t.getCell (p + 1 + i) c) 0 then t
          else t.rowOperation (p + 1 + i) p 0 M.numColumns
            (t.getCell (p + 1 + i) c / M.getCell p c)) M).getCell (p + 1 + k) j
          = M.getCell (p + 1 + k) j := by
      intro j hj
      rw [a4 _ j hj, if_neg (by omega)]
    have hpiv : ∀ j, j < M.numColumns →
        (forLoop k (fun i t =>
          if mcu.almostEqual (t.getCell (p + 1 + i) c) 0 then t
          else t.rowOperation (p + 1 + i) p 0 M.numColumns
            (t.getCell (p + 1 + i) c / M.getCell p c)) M).getCell p j = M.getCell p j := by
      intro j hj
      rw [a4 _ j hj, if_neg (by omega)]
    by_cases hc : c < M.numColumns
    · rw [hrow c hc]
      by_cases hz : mcu.almostEqual (M.getCell (p + 1 + k) c) 0 = true
      · rw [if_pos hz]
        have h0 : M.getCell (p + 1 + k) c = 0 := (hcrisp _ (by omega)).eq_zero hz
        refine ⟨a1, a2, a3, fun i j hj => ?_⟩
        rw [a4 i j hj]
        by_cases hi : i = p + 1 + k
        · subst hi
          rw [if_neg (by omega), if_pos (by omega), h0]
          simp
        · by_cases h2 : p < i ∧ i < p + 1 + k
          · rw [if_pos h2, if_pos ⟨h2.1, by omega⟩]
          · rw [if_neg h2, if_neg (by omega)]
      · rw [if_neg hz]
        obtain ⟨b1, b2, b3, b4⟩ := rowOperation_props a1 (p + 1 + k) p
          (M.getCell (p + 1 + k) c / M.getCell p c) (by rw [a2]; omega) (by omega)
          M.numColumns (by rw [a3])
        refine ⟨b1, b2.trans a2, b3.trans a3, fun i j hj => ?_⟩
        rw [b4]
        by_cases hi : i = p + 1 + k
        · subst hi
          rw [if_pos ⟨rfl, hj⟩, hrow j hj, hpiv j hj, if_pos (by omega)]
        · rw [if_neg (fun h => hi h.1), a4 i j hj]
          by_cases h2 : p < i ∧ i < p + 1 + k
          · rw [if_pos h2, if_pos ⟨h2.1, by omega⟩]
          · rw [if_neg h2, if_neg (by omega)]
    · -- a column outside the matrix reads as zero
      have hz0 : ∀ t : DenseMatrix, t.WF → t.numColumns = M.numColumns → ∀ i, t.getCell i c = 0 :=
        fun t ht hcols i => getCell_of_not_lt ht i c (fun hh => hc (hcols ▸ hh.2))
      rw [hz0 _ a1 a3, if_pos (mcu.almostEqual_self 0)]
      refine ⟨a1, a2, a3, fun i j hj => ?_⟩
      rw [a4 i j hj]
      by_cases hi : i = p + 1 + k
      · subst hi
        rw [if_neg (by omega), if_pos (by omega), hz0 M hM rfl]
        simp
      · by_cases h2 : p < i ∧ i < p + 1 + k
        · rw [if_pos h2, if_pos ⟨h2.1, by omega⟩]
        · rw [if_neg h2, if_neg (by omega)]

end DenseMatrix
namespace DenseMatrix

theorem forwardColumn_none {M : DenseMatrix} {c p R C : Nat}
    (h : M.forwardColumn c p R C = none) :
    ∀ r, p ≤ r → r < R → mcu.almostEqual (M.getCell r c) 0 = true := by
  unfold forwardColumn at h
  cases hf : M.findPivotRow c p R with
  | some r => rw [hf] at h; cases h
  | none =>
    intro r hr1 hr2
    unfold findPivotRow at hf
    rw [List.find?_eq_none] at hf
    have := hf r (by rw [List.mem_range']; exact ⟨r - p, by omega, by omega⟩)
    simpa using this

/-- The row that a forward step places in row `i`: the rows `p` and `r` are exchanged. -/
theorem forwardColumn_some {M : DenseMatrix} (hM : M.WF) {c p : Nat}
    (hcrisp : ∀ i, i < M.numRows → mcu.Crisp (M.getCell i c)) {t : DenseMatrix}
    (h : M.forwardColumn c p M.numRows M.numColumns = some t) :
    ∃ r, p ≤ r ∧ r < M.numRows ∧ mcu.almostEqual (M.getCell r c) 0 = false ∧
      t.WF ∧ t.numRows = M.numRows ∧ t.numColumns = M.numColumns ∧
      ∀ i j, j < M.numColumns → t.getCell i j =
        if p < i ∧ i < M.numRows then
          M.getCell (if i = p then r else if i = r then p else i) j
            - M.getCell (if i = p then r else if i = r then p else i) c / M.getCell r c
              * M.getCell r j
        else M.getCell (if i = p then r else if i = r then p else i) j := by
  unfold forwardColumn at h
  cases hf : M.findPivotRow c p M.numRows with
  | none => rw [hf] at h; cases h
  | some r =>
    rw [hf] at h
    simp only [Option.some.injEq] at h
    unfold findPivotRow at hf
    have hmem := List.mem_of_find?_eq_some hf
    have hpred := List.find?_some hf
    rw [List.mem_range'] at hmem
    obtain ⟨d, hd, hrd⟩ := hmem
    have hr1 : p ≤ r := by omega
    have hr2 : r < M.numRows := by omega
    have hp2 : p < M.numRows := by omega
    have hnz : mcu.almostEqual (M.getCell r c) 0 = false := by simpa using hpred
    -- the matrix after the exchange
    have hswap : ∃ M1 : DenseMatrix, (if r ≠ p then M.swapRows r p else M) = M1 ∧ M1.WF ∧
        M1.numRows = M.numRows ∧ M1.numColumns = M.numColumns ∧
        ∀ i j, M1.getCell i j = M.getCell (if i = p then r else if i = r then p else i) j := by
      by_cases hrp : r = p
      · refine ⟨M, by simp [hrp], hM, rfl, rfl, fun i j => ?_⟩
        subst hrp
        split
        · rename_i hi; rw [hi]
        · rfl
      · obtain ⟨s1, s2, s3, s4⟩ := swapRows_props hM r p hr2 hp2
        exact ⟨M.swapRows r p, by simp [hrp], s1, s2, s3, s4⟩
    obtain ⟨M1, hM1, w1, w2, w3, w4⟩ := hswap
    rw [hM1] at h
    have hc1 : ∀ i, i < M1.numRows → mcu.Crisp (M1.getCell i c) := by
      intro i hi
      rw [w4]
      apply hcrisp
      rw [w2] at hi
      split
      · exact hr2
      · split
        · exact hp2
        · exact hi
    obtain ⟨e1, e2, e3, e4⟩ := eliminateBelow_props w1 c p hc1 (M.numRows - (p + 1))
      (by rw [w2]; omega)
    have hshape : t = forLoop (M.numRows - (p + 1)) (fun i t =>
        if mcu.almostEqual (t.getCell (p + 1 + i) c) 0 then t
        else t.rowOperation (p + 1 + i) p 0 M1.numColumns
          (t.getCell (p + 1 + i) c / M1.getCell p c)) M1 := by
      rw [← h, w3]
      rfl
    rw [← hshape] at e1 e2 e3 e4
    refine ⟨r, hr1, hr2, hnz, e1, e2.trans w2, e3.trans w3, fun i j hj => ?_⟩
    rw [e4 i j (by rw [w3]; exact hj)]
    have hpp : M1.getCell p c = M.getCell r c := by rw [w4, if_pos rfl]
    have hpj : M1.getCell p j = M.getCell r j := by rw [w4, if_pos rfl]
    by_cases hi : p < i ∧ i < M.numRows
    · rw [if_pos (by omega), if_pos hi, w4, w4, hpp, hpj]
    · rw [if_neg (by omega), if_neg hi, w4]

end DenseMatrix

theorem span_range_eq_of_mem {ι : Type} {C : Nat} {a b : ι → (Fin C → ℚ)}
    (h1 : ∀ i, b i ∈ Submodule.span ℚ (Set.range a))
    (h2 : ∀ i, a i ∈ Submodule.span ℚ (Set.range b)) :
    Submodule.span ℚ (Set.range b) = Submodule.span ℚ (Set.range a) := by
  apply le_antisymm
  · rw [Submodule.span_le]
    rintro _ ⟨i, rfl⟩
    exact h1 i
  · rw [Submodule.span_le]
    rintro _ ⟨i, rfl⟩
    exact h2 i

/-- A forward step (exchange of the rows `p` and `r`, then subtraction of multiples of the
new row `p` from the rows below it) keeps the span of the rows. -/
theorem span_forward_step {R C : Nat} (a b : Nat → (Fin C → ℚ)) (p r : Nat) (hp : p ≤ r)
    (hr : r < R) (coef : Nat → ℚ)
    (hb : ∀ i, i < R → b i =
      if p < i then a (if i = p then r else if i = r then p else i) - coef i • a r
      else a (if i = p then r else if i = r then p else i)) :
    Submodule.span ℚ (Set.range (fun i : Fin R => b i))
      = Submodule.span ℚ (Set.range (fun i : Fin R => a i)) := by
  have hmem : ∀ i, i < R → a i ∈ Submodule.span ℚ (Set.range (fun i : Fin R => a i)) :=
    fun i hi => Submodule.subset_span ⟨⟨i, hi⟩, rfl⟩
  have hmemb : ∀ i, i < R → b i ∈ Submodule.span ℚ (Set.range (fun i : Fin R => b i)) :=
    fun i hi => Submodule.subset_span ⟨⟨i, hi⟩, rfl⟩
  have hpR : p < R := by omega
  have hsig : ∀ i, i < R → (if i = p then r else if i = r then p else i) < R := by
    intro i hi
    split
    · exact hr
    · split
      · exact hpR
      · exact hi
  have hbp : b p = a r := by
    rw [hb p hpR, if_neg (Nat.lt_irrefl p), if_pos rfl]
  apply span_range_eq_of_mem
  · rintro ⟨i, hi⟩
    show b i ∈ _
    rw [hb i hi]
    split
    · exact Submodule.sub_mem _ (hmem _ (hsig i hi)) (Submodule.smul_mem _ _ (hmem r hr))
    · exact hmem _ (hsig i hi)
  · rintro ⟨i, hi⟩
    show a i ∈ _
    -- the row of `b` that holds the row `i` of `a`
    by_cases hir : i = r
    · rw [hir, ← hbp]
      exact hmemb p hpR
    · by_cases hip : i = p
      · -- row p of a is held by row r of b
        have hrp : r ≠ p := fun h => hir (hip.trans h.symm)
        have hbr := hb r hr
        rw [if_pos (by omega), if_neg hrp, if_pos rfl] at hbr
        have : a i = b r + coef r • b p := by
          rw [hbr, hbp, hip]
          abel
        rw [this]
        exact Submodule.add_mem _ (hmemb r hr) (Submodule.smul_mem _ _ (hmemb p hpR))
      · have hbi := hb i hi
        rw [if_neg hip, if_neg hir] at hbi
        by_cases hlt : p < i
        · rw [if_pos hlt] at hbi
          have : a i = b i + coef i • b p := by
            rw [hbi, hbp]
            abel
          rw [this]
          exact Submodule.add_mem _ (hmemb i hi) (Submodule.smul_mem _ _ (hmemb p hpR))
        · rw [if_neg hlt] at hbi
          rw [← hbi]
          exact hmemb i hi

/-- The rows of a matrix in row echelon form with `lead` pivot rows span a space of
dimension `lead`. -/
theorem finrank_span_echelon {R C : Nat} (a : Nat → (Fin C → ℚ)) (lead : Nat) (hlead : lead ≤ R)
    (piv : Nat → Nat)
    (hzero : ∀ i, lead ≤ i → i < R → a i = 0)
    (hpiv : ∀ i, i < lead → ∃ h : piv i < C, a i ⟨piv i, h⟩ ≠ 0 ∧
      ∀ j : Fin C, j.val < piv i → a i j = 0)
    (hmono : ∀ i i1, i < i1 → i1 < lead → piv i < piv i1) :
    Module.finrank ℚ (Submodule.span ℚ (Set.range (fun i : Fin R => a i))) = lead := by
  have hspan : Submodule.span ℚ (Set.range (fun i : Fin R => a i))
      = Submodule.span ℚ (Set.range (fun i : Fin lead => a i)) := by
    apply le_antisymm
    · rw [Submodule.span_le]
      rintro _ ⟨⟨i, hi⟩, rfl⟩
      by_cases h : i < lead
      · exact Submodule.subset_span ⟨⟨i, h⟩, rfl⟩
      · show a i ∈ _
        rw [hzero i (by omega) hi]
        exact Submodule.zero_mem _
    · rw [Submodule.span_le]
      rintro _ ⟨⟨i, hi⟩, rfl⟩
      exact Submodule.subset_span ⟨⟨i, by omega⟩, rfl⟩
  have hli : LinearIndependent ℚ (fun i : Fin lead => a i) := by
    rw [Fintype.linearIndependent_iff]
    intro g hg
    have key : ∀ n, ∀ i : Fin lead, i.val < n → g i = 0 := by
      intro n
      induction n with
      | zero => intro i hi; omega
      | succ m ih =>
        intro i hi
        by_cases him : i.val < m
        · exact ih i him
        · have him2 : i.val = m := by omega
          obtain ⟨hc, hne, _⟩ := hpiv i.val i.isLt
          have hcol := congrFun hg ⟨piv i.val, hc⟩
          simp only [Finset.sum_apply, Pi.smul_apply, smul_eq_mul, Pi.zero_apply] at hcol
          rw [Finset.sum_eq_single i] at hcol
          · rcases mul_eq_zero.mp hcol with h | h
            · exact h
            · exact absurd h hne
          · intro i1 _ hne1
            by_cases hlt : i1.val < i.val
            · rw [ih i1 (by omega)]
              simp
            · have hgt : i.val < i1.val := by
                have : i1.val ≠ i.val := fun h => hne1 (Fin.ext h)
                omega
              obtain ⟨_, _, hz⟩ := hpiv i1.val i1.isLt
              rw [hz ⟨piv i.val, hc⟩ (hmono i.val i1.val hgt i1.isLt)]
              simp
          · intro h
            exact absurd (Finset.mem_univ i) h
    intro i
    exact key (i.val + 1) i (Nat.lt_succ_self _)
  rw [hspan, finrank_span_eq_card hli, Fintype.card_fin]

namespace DenseMatrix

theorem rankStage_succ (M : DenseMatrix) (k : Nat) :
    M.rankStage (k + 1) =
      match (M.rankStage k).1.forwardColumn k (M.rankStage k).2 M.cloneAsDenseMatrix.getNumRows
        M.cloneAsDenseMatrix.getNumColumns with
      | none => M.rankStage k
      | some reduced => (reduced, (M.rankStage k).2 + 1) := rfl

theorem rankInv_zero {M : DenseMatrix} : M.RankInv 0 (M.rankStage 0) := by
  have h := holds_clone M
  refine ⟨h.wf, h.rows, h.cols, ?_, Nat.zero_le _, ?_, ⟨fun _ => 0, ?_, ?_⟩⟩
  · congr 1
    apply congrArg
    funext i
    funext j
    exact h.cell i j i.isLt j.isLt
  · intro i j _ _ hj
    exact absurd hj (Nat.not_lt_zero j)
  · intro i hi
    exact absurd hi (Nat.not_lt_zero i)
  · intro i i1 _ hi1
    exact absurd hi1 (Nat.not_lt_zero i1)

theorem rankInv_step {M : DenseMatrix} {k : Nat} (hk : k < M.numColumns)
    (hinv : M.RankInv k (M.rankStage k))
    (hcrisp : ∀ i, i < M.numRows → mcu.Crisp ((M.rankStage k).1.getCell i k)) :
    M.RankInv (k + 1) (M.rankStage (k + 1)) := by
  have hclone := holds_clone M
  have hR : M.cloneAsDenseMatrix.getNumRows = (M.rankStage k).1.numRows :=
    hclone.rows.trans hinv.rows.symm
  have hC : M.cloneAsDenseMatrix.getNumColumns = (M.rankStage k).1.numColumns :=
    hclone.cols.trans hinv.cols.symm
  rw [rankStage_succ, hR, hC]
  obtain ⟨piv, hpiv, hmono⟩ := hinv.echelon
  cases hf : (M.rankStage k).1.forwardColumn k (M.rankStage k).2 (M.rankStage k).1.numRows
      (M.rankStage k).1.numColumns with
  | none =>
    simp only
    have hz := forwardColumn_none hf
    refine ⟨hinv.wf, hinv.rows, hinv.cols, hinv.span, hinv.lead_le, ?_, ⟨piv, ?_, hmono⟩⟩
    · intro i j hi hiR hj hjC
      by_cases hjk : j < k
      · exact hinv.below i j hi hiR hjk hjC
      · have : j = k := by omega
        subst this
        exact (hcrisp i hiR).eq_zero (hz i hi (by rw [hinv.rows]; exact hiR))
    · intro i hi
      obtain ⟨h1, h2, h3, h4⟩ := hpiv i hi
      exact ⟨by omega, h2, h3, h4⟩
  | some t =>
    simp only
    obtain ⟨r, hr1, hr2, hnz, t1, t2, t3, t4⟩ := forwardColumn_some hinv.wf
      (fun i hi => hcrisp i (by rw [← hinv.rows]; exact hi)) hf
    rw [hinv.rows] at hr2 t2 t4
    rw [hinv.cols] at t3 t4
    have hpne : (M.rankStage k).1.getCell r k ≠ 0 := mcu.ne_zero_of_not_almostEqual hnz
    -- the rows from the leading row on are zero in the columns before `k`
    have hzero : ∀ i j, (M.rankStage k).2 ≤ i → i < M.numRows → j < k →
        (M.rankStage k).1.getCell i j = 0 :=
      fun i j hi hiR hj => hinv.below i j hi hiR hj (by omega)
    have hsig : ∀ i, (M.rankStage k).2 ≤ i → i < M.numRows →
        (M.rankStage k).2 ≤ (if i = (M.rankStage k).2 then r else if i = r then (M.rankStage k).2
          else i) ∧
        (if i = (M.rankStage k).2 then r else if i = r then (M.rankStage k).2 else i)
          < M.numRows := by
      intro i hi hiR
      split
      · exact ⟨hr1, hr2⟩
      · split
        · exact ⟨Nat.le_refl _, by omega⟩
        · exact ⟨hi, hiR⟩
    have hsame : ∀ i, i < (M.rankStage k).2 → ∀ j, j < M.numColumns →
        t.getCell i j = (M.rankStage k).1.getCell i j := by
      intro i hi j hj
      rw [t4 i j hj, if_neg (by omega), if_neg (by omega), if_neg (by omega)]
    refine ⟨t1, t2, t3, ?_, by show (M.rankStage k).2 + 1 ≤ M.numRows; omega, ?_, ?_⟩
    · rw [← hinv.span]
      apply span_forward_step (fun i => (M.rankStage k).1.rowVec M.numColumns i)
        (fun i => t.rowVec M.numColumns i) (M.rankStage k).2 r hr1 hr2
        (fun i => (M.rankStage k).1.getCell
          (if i = (M.rankStage k).2 then r else if i = r then (M.rankStage k).2 else i) k
          / (M.rankStage k).1.getCell r k)
      intro i hi
      funext j
      show t.getCell i j.val = _
      rw [t4 i j.val j.isLt]
      by_cases hlt : (M.rankStage k).2 < i
      · rw [if_pos ⟨hlt, hi⟩, if_pos hlt]
        simp only [Pi.sub_apply, Pi.smul_apply, smul_eq_mul, rowVec]
      · rw [if_neg (fun h => hlt h.1), if_neg hlt]
        rfl
    · intro i j hi hiR hj hjC
      have hi1 : (M.rankStage k).2 < i := hi
      rw [t4 i j hjC, if_pos ⟨hi1, hiR⟩]
      obtain ⟨s1, s2⟩ := hsig i (by omega) hiR
      by_cases hjk : j < k
      · rw [hzero _ j s1 s2 hjk, hzero r j hr1 hr2 hjk]
        simp
      · have : j = k := by omega
        subst this
        field_simp
    · refine ⟨fun i => if i = (M.rankStage k).2 then k else piv i, ?_, ?_⟩
      · intro i hi
        have hi1 : i < (M.rankStage k).2 + 1 := hi
        by_cases hil : i = (M.rankStage k).2
        · subst hil
          simp only [if_true]
          refine ⟨Nat.lt_succ_self k, hk, ?_, ?_⟩
          · rw [t4 _ k hk, if_neg (by omega), if_pos rfl]
            exact hpne
          · intro j hj
            rw [t4 _ j (by omega), if_neg (by omega), if_pos rfl]
            exact hzero r j hr1 hr2 hj
        · simp only [if_neg hil]
          have hi2 : i < (M.rankStage k).2 := by omega
          obtain ⟨h1, h2, h3, h4⟩ := hpiv i hi2
          refine ⟨by omega, h2, ?_, ?_⟩
          · rw [hsame i hi2 _ h2]
            exact h3
          · intro j hj
            rw [hsame i hi2 j (by omega)]
            exact h4 j hj
      · intro i i1 hlt hi1
        have hi2 : i1 < (M.rankStage k).2 + 1 := hi1
        have hne : ¬ i = (M.rankStage k).2 := by omega
        simp only [if_neg hne]
        by_cases hil : i1 = (M.rankStage k).2
        · simp only [if_pos hil]
          exact (hpiv i (by omega)).1
        · simp only [if_neg hil]
          exact hmono i i1 hlt (by omega)

theorem rankInv_all {M : DenseMatrix} (hc : M.RankCrisp) :
    ∀ k, k ≤ M.numColumns → M.RankInv k (M.rankStage k) := by
  intro k
  induction k with
  | zero => intro _; exact rankInv_zero
  | succ n ih =>
    intro hn
    exact rankInv_step (by omega) (ih (by omega))
      (fun i hi => hc n (by omega) i hi n (by omega))

end DenseMatrix
namespace DenseMatrix

theorem card_filter_ge (R lead : Nat) (h : lead ≤ R) (p : Nat → Prop) [DecidablePred p]
    (hp : ∀ r, r < R → (p r ↔ lead ≤ r)) :
    ((Finset.range R).filter p).card = R - lead := by
  have h1 : (Finset.range R).filter (fun r => ¬ p r) = Finset.range lead := by
    ext r
    simp only [Finset.mem_filter, Finset.mem_range]
    constructor
    · rintro ⟨hr, hnp⟩
      by_contra hlt
      exact hnp ((hp r hr).mpr (by omega))
    · intro hr
      refine ⟨by omega, fun hpr => ?_⟩
      have := (hp r (by omega)).mp hpr
      omega
  have h2 := Finset.filter_card_add_filter_neg_card_eq_card (s := Finset.range R) p
  rw [h1, Finset.card_range, Finset.card_range] at h2
  omega

theorem getRank_eq_rank {M : DenseMatrix} (hc : M.RankCrisp) :
    M.getRank = (cellMatrix M.getCell M.numRows M.numColumns).rank := by
  have hclone := holds_clone M
  have hinv := rankInv_all hc M.numColumns (Nat.le_refl _)
  have hstage : rankForward M.cloneAsDenseMatrix = M.rankStage M.numColumns := by
    have : rankForward M.cloneAsDenseMatrix = M.rankStage M.cloneAsDenseMatrix.getNumColumns :=
      rfl
    rw [this]
    congr 1
    exact hclone.cols
  obtain ⟨piv, hpiv, hmono⟩ := hinv.echelon
  -- the zero rows of the reduced clone are the rows from the leading row on
  have hzrow : ∀ r, r < M.numRows →
      ((M.rankStage M.numColumns).1.isZeroRow r = true ↔ (M.rankStage M.numColumns).2 ≤ r) := by
    intro r hr
    unfold isZeroRow
    rw [List.all_eq_true]
    constructor
    · intro hall
      by_contra hlt
      obtain ⟨_, h2, h3, _⟩ := hpiv r (by omega)
      have hz := hall (piv r) (by
        rw [List.mem_range]
        show piv r < (M.rankStage M.numColumns).1.numColumns
        rw [hinv.cols]
        exact h2)
      exact h3 ((hc M.numColumns (Nat.le_refl _) r hr (piv r) h2).eq_zero hz)
    · intro hle c hcm
      rw [List.mem_range] at hcm
      have hc2 : c < M.numColumns := by
        have : c < (M.rankStage M.numColumns).1.numColumns := hcm
        rw [hinv.cols] at this
        exact this
      rw [hinv.below r c hle hr hc2 hc2]
      exact mcu.almostEqual_self 0
  have hcount : forLoop (M.rankStage M.numColumns).1.getNumRows (fun r numZeroRows =>
      if (M.rankStage M.numColumns).1.isZeroRow r then numZeroRows + 1 else numZeroRows) 0
      = M.numRows - (M.rankStage M.numColumns).2 := by
    have hrows : (M.rankStage M.numColumns).1.getNumRows = M.numRows := hinv.rows
    rw [hrows]
    have := forLoop_count (fun r => (M.rankStage M.numColumns).1.isZeroRow r = true)
      M.numRows 0
    rw [this, Nat.zero_add]
    exact card_filter_ge _ _ hinv.lead_le _ hzrow
  have hget : M.getRank = (M.rankStage M.numColumns).2 := by
    unfold getRank
    simp only []
    rw [hstage, hcount]
    have hrows : (M.rankStage M.numColumns).1.getNumRows = M.numRows := hinv.rows
    rw [hrows]
    have := hinv.lead_le
    omega
  rw [hget, Matrix.rank_eq_finrank_span_row]
  have hrange : Set.range (cellMatrix M.getCell M.numRows M.numColumns)
      = Set.range (fun i : Fin M.numRows => M.rowVec M.numColumns i) := rfl
  rw [hrange, ← hinv.span]
  symm
  apply finrank_span_echelon (fun i => (M.rankStage M.numColumns).1.rowVec M.numColumns i)
    (M.rankStage M.numColumns).2 hinv.lead_le piv
  · intro i hi hiR
    funext j
    exact hinv.below i j.val hi hiR j.isLt j.isLt
  · intro i hi
    obtain ⟨_, h2, h3, h4⟩ := hpiv i hi
    exact ⟨h2, h3, fun j hj => h4 j.val hj⟩
  · exact hmono

end DenseMatrix

namespace MatrixBase

theorem base_getRank_eq_rank {m : MatrixBase} (hm : m.WF) (hc : m.RankCrisp) :
    m.getRank = (cellMatrix m.getCell m.getNumRows m.getNumColumns).rank := by
  cases m with
  | dense d => exact DenseMatrix.getRank_eq_rank hc
  | sparse s =>
    have h := SparseMatrix.holds_cloneAsDenseMatrix hm
    have h1 : s.cloneAsDenseMatrix.getRank
        = (cellMatrix s.cloneAsDenseMatrix.getCell s.cloneAsDenseMatrix.numRows
          s.cloneAsDenseMatrix.numColumns).rank := DenseMatrix.getRank_eq_rank hc
    show s.cloneAsDenseMatrix.getRank = (cellMatrix s.getCell s.numRows s.numColumns).rank
    rw [h1, h.rows, h.cols]
    congr 1
    ext i j
    exact h.cell i j i.isLt j.isLt

end MatrixBase

namespace DenseMatrix

/-- Two well-formed dense matrices with the same dimensions and the same cells are the same
grid. -/
theorem eq_of_cells {D E : DenseMatrix} (hD : D.WF) (hE : E.WF) (hr : D.numRows = E.numRows)
    (hc : D.numColumns = E.numColumns)
    (hcell : ∀ i j, i < D.numRows → j < D.numColumns → D.getCell i j = E.getCell i j) :
    D = E := by
  obtain ⟨dR, dC, dG⟩ := D
  obtain ⟨eR, eC, eG⟩ := E
  simp only at hr hc
  subst hr hc
  have hlen : dG.length = eG.length := hD.1.trans hE.1.symm
  have hgrid : dG = eG := by
    apply List.ext_getElem hlen
    intro i h1 h2
    have hi : i < dR := by
      have := hD.1
      simp only at this
      omega
    have hrow1 : (dG.getD i []).length = dC := hD.2 i hi
    have hrow2 : (eG.getD i []).length = dC := hE.2 i hi
    rw [List.getD_eq_getElem _ _ h1] at hrow1
    rw [List.getD_eq_getElem _ _ h2] at hrow2
    apply List.ext_getElem (hrow1.trans hrow2.symm)
    intro j g1 g2
    have hj : j < dC := by omega
    have := hcell i j hi hj
    simp only [getCell] at this
    rw [List.getD_eq_getElem _ _ h1, List.getD_eq_getElem _ _ h2,
      List.getD_eq_getElem _ _ g1, List.getD_eq_getElem _ _ g2] at this
    exact this
  rw [hgrid]

end DenseMatrix

namespace MatrixBase

/-- The virtual `getRank()` is the dense `getRank()` of the dense clone, in both backends. -/
theorem getRank_eq_clone {m : MatrixBase} (hm : m.WF) :
    m.getRank = m.cloneAsDenseMatrix.getRank := by
  cases m with
  | dense d =>
    have h := DenseMatrix.holds_clone d
    have heq : d.clone = d := DenseMatrix.eq_of_cells h.wf hm h.rows h.cols
      (fun i j hi hj => h.cell i j (h.rows ▸ hi) (h.cols ▸ hj))
    show d.getRank = d.clone.getRank
    rw [heq]
  | sparse s => rfl

/-- The rank that `getRank()` returns depends on the dimensions and the cells only, not on
the backend. -/
theorem getRank_eq_of_cells {m1 m2 : MatrixBase} (h1 : m1.WF) (h2 : m2.WF)
    (hr : m1.getNumRows = m2.getNumRows) (hc : m1.getNumColumns = m2.getNumColumns)
    (hcell : ∀ i j, i < m1.getNumRows → j < m1.getNumColumns →
      m1.getCell i j = m2.getCell i j) :
    m1.getRank = m2.getRank := by
  obtain ⟨a1, a2, a3, a4⟩ := cloneAsDenseMatrix_spec h1
  obtain ⟨b1, b2, b3, b4⟩ := cloneAsDenseMatrix_spec h2
  have ha2 : m1.cloneAsDenseMatrix.numRows = m1.getNumRows := a2
  have ha3 : m1.cloneAsDenseMatrix.numColumns = m1.getNumColumns := a3
  have heq : m1.cloneAsDenseMatrix = m2.cloneAsDenseMatrix := by
    refine DenseMatrix.eq_of_cells a1 b1 (a2.trans (hr.trans b2.symm))
      (a3.trans (hc.trans b3.symm)) (fun i j hi hj => ?_)
    rw [ha2] at hi
    rw [ha3] at hj
    exact (a4 i j hi hj).trans ((hcell i j hi hj).trans (b4 i j (hr ▸ hi) (hc ▸ hj)).symm)
  rw [getRank_eq_clone h1, getRank_eq_clone h2, heq]

end MatrixBase

/-- C8 (counterexample): the dense 1×1 matrix [[2^-60]] has rank 1, its only row being a
non-zero vector, but `getRank()` returns 0: the cell is within tolerance of 0, so the
forward phase finds no pivot and the final count takes the row for a zero row. -/
theorem C8_counterexample :
    (Matrix.denseOfRows [[1 / 2 ^ 60]]).getRank = 0 ∧
    (cellMatrix (DenseMatrix.getCell ⟨1, 1, [[1 / 2 ^ 60]]⟩) 1 1).rank = 1 := by
  refine ⟨by decide!, ?_⟩
  have hunit : IsUnit (cellMatrix (DenseMatrix.getCell ⟨1, 1, [[1 / 2 ^ 60]]⟩) 1 1) := by
    rw [Matrix.isUnit_iff_isUnit_det, Matrix.det_fin_one, isUnit_iff_ne_zero]
    simp [cellMatrix, DenseMatrix.getCell]
  rw [Matrix.rank_of_isUnit _ hunit, Fintype.card_fin]

/-- C8 (amended): for every valid matrix (square or not), in either backend, such that every
cell the forward elimination of `getRank()` goes through is exactly 0 or not within
tolerance of 0, `getRank()` returns the rank of the matrix; and for every two valid
matrices with the same dimensions and the same cells, whatever their backends and without
any condition on the cells, `getRank()` returns the same value; e.g.
[[0,4,10,1],[4,8,18,7],[10,18,40,17],[1,7,17,3]] has rank 2 and
[[1,2,2,1,3],[2,1,3,1,2],[2,2,0,1,3],[2,0,1,2,2],[1,-5,3,2,-3]] has rank 4, in both
backends. -/
theorem C8_getRank_of_crisp :
    (∀ m : MatrixBase, m.WF → m.RankCrisp →
      (Matrix.mk (some m)).getRank
        = (cellMatrix m.getCell m.getNumRows m.getNumColumns).rank) ∧
    (∀ m1 m2 : MatrixBase, m1.WF → m2.WF →
      m1.getNumRows = m2.getNumRows → m1.getNumColumns = m2.getNumColumns →
      (∀ i j, i < m1.getNumRows → j < m1.getNumColumns → m1.getCell i j = m2.getCell i j) →
      (Matrix.mk (some m1)).getRank = (Matrix.mk (some m2)).getRank) ∧
    (Matrix.denseOfRows
      [[0, 4, 10, 1], [4, 8, 18, 7], [10, 18, 40, 17], [1, 7, 17, 3]]).getRank = 2 ∧
    (Matrix.sparseOfRows
      [[0, 4, 10, 1], [4, 8, 18, 7], [10, 18, 40, 17], [1, 7, 17, 3]]).getRank = 2 ∧
    (Matrix.denseOfRows [[1, 2, 2, 1, 3], [2, 1, 3, 1, 2], [2, 2, 0, 1, 3], [2, 0, 1, 2, 2],
      [1, -5, 3, 2, -3]]).getRank = 4 ∧
    (Matrix.sparseOfRows [[1, 2, 2, 1, 3], [2, 1, 3, 1, 2], [2, 2, 0, 1, 3], [2, 0, 1, 2, 2],
      [1, -5, 3, 2, -3]]).getRank = 4 := by
  refine ⟨fun m hm hc => MatrixBase.base_getRank_eq_rank hm hc, ?_, by decide!,
    by decide!, by decide!, by decide!⟩
  intro m1 m2 h1 h2 hr hc hcell
  exact MatrixBase.getRank_eq_of_cells h1 h2 hr hc hcell

/-- C8 (witness): the amended claim applied to the dense matrix [[1,2],[2,4]], of rank 1, and
to its sparse conversion. -/
theorem C8_getRank_of_crisp_witness :
    (MatrixBase.dense ⟨2, 2, [[1, 2], [2, 4]]⟩).WF ∧
    (MatrixBase.dense ⟨2, 2, [[1, 2], [2, 4]]⟩).RankCrisp ∧
    (Matrix.mk (some (MatrixBase.dense ⟨2, 2, [[1, 2], [2, 4]]⟩))).getRank
      = (cellMatrix (MatrixBase.dense ⟨2, 2, [[1, 2], [2, 4]]⟩).getCell 2 2).rank ∧
    (MatrixBase.sparse (DenseMatrix.cloneAsSparseMatrix ⟨2, 2, [[1, 2], [2, 4]]⟩)).WF ∧
    (Matrix.mk (some (MatrixBase.dense ⟨2, 2, [[1, 2], [2, 4]]⟩))).getRank
      = (Matrix.mk (some (MatrixBase.sparse
          (DenseMatrix.cloneAsSparseMatrix ⟨2, 2, [[1, 2], [2, 4]]⟩)))).getRank := by
  have hA : (MatrixBase.dense ⟨2, 2, [[1, 2], [2, 4]]⟩).WF := by
    show DenseMatrix.WF _
    decide
  have hc : (MatrixBase.dense ⟨2, 2, [[1, 2], [2, 4]]⟩).RankCrisp := by decide!
  have sA := MatrixBase.cloneAsSparseMatrix_spec hA
  refine ⟨hA, hc, C8_getRank_of_crisp.1 _ hA hc, sA.1,
    C8_getRank_of_crisp.2.1 _ _ hA sA.1 sA.2.1.symm sA.2.2.1.symm ?_⟩
  intro i j hi hj
  have hi2 : i < 2 := hi
  have hj2 : j < 2 := hj
  refine Eq.trans ?_ (sA.2.2.2 i j hi hj).symm
  clear hi hj
  interval_cases i <;> interval_cases j <;> decide!

/-- C28: the documentation of `operator!=` says that it returns false whenever one of the
two matrices is invalid; the code returns the negation of `operator==`, which is false in
that case, so `operator!=` returns true as soon as one operand is invalid. -/
theorem C28_operatorNe_true_on_invalid (M : Matrix) :
    Matrix.invalid.operatorNe M = true ∧ M.operatorNe Matrix.invalid = true ∧
    Matrix.invalid.operatorEq M = false ∧ M.operatorEq Matrix.invalid = false ∧
    Matrix.invalid.operatorNe (Matrix.createDense 1 1 0) = true := by
  have h1 : Matrix.invalid.operatorEq M = false := rfl
  have h2 : M.operatorEq Matrix.invalid = false := by
    unfold Matrix.operatorEq
    cases M.matrixPtr <;> rfl
  refine ⟨?_, ?_, h1, h2, rfl⟩
  · simp [Matrix.operatorNe, h1]
  · simp [Matrix.operatorNe, h2]

/-- C30: `doubleAlmostEqual(a, b, eps)` is false when eps is NaN; for another eps it is true
when a and b are both NaN and false when exactly one of them is; on two numbers it is true
iff |a-b| ≤ eps or |a-b| ≤ eps·max(a,b). -/
theorem C30_doubleAlmostEqual_cases :
    (∀ a b : mcu.Double, mcu.doubleAlmostEqual a b .nan = false) ∧
    (∀ eps : ℚ, mcu.doubleAlmostEqual .nan .nan (.fin eps) = true) ∧
    (∀ x eps : ℚ, mcu.doubleAlmostEqual .nan (.fin x) (.fin eps) = false ∧
      mcu.doubleAlmostEqual (.fin x) .nan (.fin eps) = false) ∧
    (∀ a b eps : ℚ, mcu.doubleAlmostEqual (.fin a) (.fin b) (.fin eps) = true ↔
      |a - b| ≤ eps ∨ |a - b| ≤ eps * max a b) := by
  refine ⟨?_, fun _ => rfl, fun _ _ => ⟨rfl, rfl⟩, ?_⟩
  · intro a b
    cases a <;> cases b <;> rfl
  · intro a b eps
    simp [mcu.doubleAlmostEqual]

/-- C27: for a matrix with one row and one column, in either backend, and a determinant d
that is a number not within tolerance of 0, `getInverse(d)` returns the 1×1 matrix whose
single cell is d; e.g. the inverse of [[5]] is [[5]], in both backends. -/
theorem C27_getInverse_one_by_one :
    (∀ (m : MatrixBase) (d : ℚ), m.getNumRows = 1 → m.getNumColumns = 1 →
      mcu.almostEqual d 0 = false →
      ∃ B : MatrixBase, (Matrix.mk (some m)).getInverse (.fin d) = some ⟨some B⟩ ∧ B.WF ∧
        B.getNumRows = 1 ∧ B.getNumColumns = 1 ∧ B.getCell 0 0 = d ∧
        (Matrix.mk (some B)).getCell 0 0 = .fin d ∧ B.isDenseBacked = m.isDenseBacked) ∧
    (Matrix.createDense 1 1 5).getInverse (Matrix.createDense 1 1 5).getDeterminant
      = some (Matrix.createDense 1 1 5) ∧
    ((Matrix.createSparse 1 1).setCell 0 0 5).getInverse
        ((Matrix.createSparse 1 1).setCell 0 0 5).getDeterminant
      = some ((Matrix.createSparse 1 1).setCell 0 0 5) := by
  refine ⟨?_, by decide!, by decide!⟩
  intro m d hR hC hd
  have hguard : (mcu.doubleAlmostEqual (.fin d) (.fin 0) (.fin mcu.EPSILON)
      || mcu.doubleAlmostEqual (.fin d) .nan (.fin mcu.EPSILON)) = false := by
    have : mcu.doubleAlmostEqual (.fin d) (.fin 0) (.fin mcu.EPSILON) = false := hd
    rw [this]
    rfl
  cases m with
  | dense M =>
    have hR1 : M.getNumRows = 1 := hR
    refine ⟨.dense (DenseMatrix.new 1 1 d), ?_, ?_, rfl, rfl, rfl, rfl, rfl⟩
    · simp only [Matrix.getInverse, MatrixBase.getInverse, DenseMatrix.getInverse, hguard, hR1]
      rfl
    · show DenseMatrix.WF _
      refine ⟨rfl, ?_⟩
      intro i hi
      have hi0 : i = 0 := by
        have : i < 1 := hi
        omega
      subst hi0
      rfl
  | sparse M =>
    have hR1 : M.getNumRows = 1 := hR
    have hcell : ((SparseMatrix.new 1 1).setCell 0 0 d).getCell 0 0 = d := by
      rw [SparseMatrix.sparse_getCell_setCell]
      simp [mcu.flush, hd]
    refine ⟨.sparse ((SparseMatrix.new 1 1).setCell 0 0 d), ?_, ?_,
      SparseMatrix.sparse_numRows_setCell _ _ _ _, SparseMatrix.sparse_numColumns_setCell _ _ _ _,
      hcell, ?_, rfl⟩
    · simp only [Matrix.getInverse, MatrixBase.getInverse, SparseMatrix.getInverse, hguard, hR1]
      rfl
    · exact SparseMatrix.sparse_WF_setCell (SparseMatrix.sparse_WF_new 1 1) 0 0 d
        (by decide) (by decide)
    · exact congrArg mcu.Double.fin hcell

/-- C27 (witness): the claim applied to the dense matrix [[5]] and the determinant 5. -/
theorem C27_getInverse_one_by_one_witness :
    (MatrixBase.dense (DenseMatrix.new 1 1 5)).getNumRows = 1 ∧
    (MatrixBase.dense (DenseMatrix.new 1 1 5)).getNumColumns = 1 ∧
    mcu.almostEqual 5 0 = false ∧
    ∃ B : MatrixBase, (Matrix.mk (some (MatrixBase.dense (DenseMatrix.new 1 1 5)))).getInverse
        (.fin 5) = some ⟨some B⟩ ∧ B.WF ∧
      B.getNumRows = 1 ∧ B.getNumColumns = 1 ∧ B.getCell 0 0 = 5 ∧
      (Matrix.mk (some B)).getCell 0 0 = .fin 5 ∧
      B.isDenseBacked = (MatrixBase.dense (DenseMatrix.new 1 1 5)).isDenseBacked :=
  ⟨rfl, rfl, by decide!,
    C27_getInverse_one_by_one.1 (MatrixBase.dense (DenseMatrix.new 1 1 5)) 5 rfl rfl
      (by decide!)⟩

namespace SparseMatrix

theorem ite_setCell_dims (c : Prop) [Decidable c] (t : SparseMatrix) (r k : Nat) (v : ℚ) :
    (if c then t.setCell r k v else t).numRows = t.numRows ∧
      (if c then t.setCell r k v else t).numColumns = t.numColumns := by
  split <;> simp

/-- The dimensions of a sparse split are those of the matrix it is constructed with. -/
theorem sparse_splitByColumn_dims (M : SparseMatrix) (k : Nat) (b : Bool) :
    (M.splitByColumn k b).numRows = M.numRows ∧
      (M.splitByColumn k b).numColumns = if b then k else sizeSub M.numColumns k := by
  unfold splitByColumn forEachCell
  refine foldl_invariant_mem
    (fun t : SparseMatrix => t.numRows = M.numRows ∧
      t.numColumns = if b then k else sizeSub M.numColumns k) _ _ _ ⟨rfl, rfl⟩ ?_
  intro t e _ ht
  exact ⟨(ite_setCell_dims _ t _ _ _).1.trans ht.1, (ite_setCell_dims _ t _ _ _).2.trans ht.2⟩

theorem sparse_splitByRow_dims (M : SparseMatrix) (k : Nat) (b : Bool) :
    (M.splitByRow k b).numRows = (if b then k else sizeSub M.numRows k) ∧
      (M.splitByRow k b).numColumns = M.numColumns := by
  unfold splitByRow forEachCell
  refine foldl_invariant_mem
    (fun t : SparseMatrix => t.numRows = (if b then k else sizeSub M.numRows k) ∧
      t.numColumns = M.numColumns) _ _ _ ⟨rfl, rfl⟩ ?_
  intro t e _ ht
  exact ⟨(ite_setCell_dims _ t _ _ _).1.trans ht.1, (ite_setCell_dims _ t _ _ _).2.trans ht.2⟩

end SparseMatrix

namespace MatrixBase

theorem splitByColumn_dims (m : MatrixBase) (k : Nat) (b : Bool) (hk : k ≤ m.getNumColumns) :
    (m.splitByColumn k b).getNumRows = m.getNumRows ∧
      (m.splitByColumn k b).getNumColumns = if b then k else m.getNumColumns - k := by
  cases m with
  | dense d =>
    have h := DenseMatrix.holds_splitByColumn d k b
    exact ⟨h.rows, h.cols⟩
  | sparse s =>
    have h := SparseMatrix.sparse_splitByColumn_dims s k b
    have hk1 : k ≤ s.numColumns := hk
    refine ⟨h.1, ?_⟩
    show (s.splitByColumn k b).numColumns = if b then k else s.numColumns - k
    rw [h.2]
    simp [sizeSub, hk1]

theorem splitByRow_dims (m : MatrixBase) (k : Nat) (b : Bool) (hk : k ≤ m.getNumRows) :
    (m.splitByRow k b).getNumRows = (if b then k else m.getNumRows - k) ∧
      (m.splitByRow k b).getNumColumns = m.getNumColumns := by
  cases m with
  | dense d =>
    have h := DenseMatrix.holds_splitByRow d k b
    exact ⟨h.rows, h.cols⟩
  | sparse s =>
    have h := SparseMatrix.sparse_splitByRow_dims s k b
    have hk1 : k ≤ s.numRows := hk
    refine ⟨?_, h.2⟩
    show (s.splitByRow k b).numRows = if b then k else s.numRows - k
    rw [h.1]
    simp [sizeSub, hk1]

theorem getSubMatrixRect_zero (m : MatrixBase) (rb cb n : Nat) :
    m.getSubMatrixRect rb 0 cb n = none ∧ m.getSubMatrixRect rb n cb 0 = none := by
  cases m <;>
    simp [getSubMatrixRect, DenseMatrix.getSubMatrixRect, SparseMatrix.getSubMatrixRect]

/-- The rectangle overload of `getSubMatrix` on a rectangle with at least one cell. -/
theorem getSubMatrixRect_spec {m : MatrixBase} (hm : m.WF) (rb R cb C : Nat) (hR : 0 < R)
    (hC : 0 < C) :
    ∃ S : MatrixBase, m.getSubMatrixRect rb R cb C = some S ∧ S.WF ∧ S.getNumRows = R ∧
      S.getNumColumns = C ∧ S.isDenseBacked = m.isDenseBacked ∧
      ∀ i j, i < R → j < C → S.getCell i j = m.getCell (i + rb) (j + cb) := by
  cases m with
  | dense d =>
    have h := DenseMatrix.isBlock_getSubMatrixRect d rb R cb C
    cases hs : d.getSubMatrixRect rb R cb C with
    | none =>
      rw [hs] at h
      rcases h with h | h <;> omega
    | some S =>
      rw [hs] at h
      obtain ⟨_, _, hS⟩ := h
      exact ⟨.dense S, by simp [getSubMatrixRect, hs], hS.wf, hS.rows, hS.cols, rfl, hS.cell⟩
  | sparse s =>
    have h := SparseMatrix.sparse_isBlock_getSubMatrixRect s hm rb R cb C
    cases hs : s.getSubMatrixRect rb R cb C with
    | none =>
      rw [hs] at h
      rcases h with h | h <;> omega
    | some S =>
      rw [hs] at h
      obtain ⟨_, _, hS⟩ := h
      exact ⟨.sparse S, by simp [getSubMatrixRect, hs], hS.wf, hS.rows, hS.cols, rfl, hS.cell⟩

/-- The overload of `getSubMatrix` that leaves out one row and one column, on a matrix with
at least two rows and two columns. -/
theorem getSubMatrix_spec {m : MatrixBase} (hm : m.WF) (r c : Nat) (hR : 2 ≤ m.getNumRows)
    (hC : 2 ≤ m.getNumColumns) (hr : r < m.getNumRows) (hc : c < m.getNumColumns) :
    ∃ S : MatrixBase, m.getSubMatrix r c = some S ∧ S.WF ∧ S.getNumRows = m.getNumRows - 1 ∧
      S.getNumColumns = m.getNumColumns - 1 ∧ S.isDenseBacked = m.isDenseBacked ∧
      ∀ i j, i < m.getNumRows - 1 → j < m.getNumColumns - 1 →
        S.getCell i j = m.getCell (if i < r then i else i + 1) (if j < c then j else j + 1) := by
  cases m with
  | dense d =>
    have hR1 : 2 ≤ d.numRows := hR
    have hC1 : 2 ≤ d.numColumns := hC
    have h := DenseMatrix.isBlock_getSubMatrix d r c hr hc
    cases hs : d.getSubMatrix r c with
    | none =>
      rw [hs] at h
      rcases h with h | h <;> omega
    | some S =>
      rw [hs] at h
      obtain ⟨_, _, hS⟩ := h
      exact ⟨.dense S, by simp [getSubMatrix, hs], hS.wf, hS.rows, hS.cols, rfl, hS.cell⟩
  | sparse s =>
    have hR1 : 2 ≤ s.numRows := hR
    have hC1 : 2 ≤ s.numColumns := hC
    have h := SparseMatrix.sparse_isBlock_getSubMatrix s hm r c hr hc
    cases hs : s.getSubMatrix r c with
    | none =>
      rw [hs] at h
      rcases h with h | h <;> omega
    | some S =>
      rw [hs] at h
      obtain ⟨_, _, hS⟩ := h
      exact ⟨.sparse S, by simp [getSubMatrix, hs], hS.wf, hS.rows, hS.cols, rfl, hS.cell⟩

end MatrixBase

/-- C21 (counterexample): on the dense 2×2 matrix of ones, `splitByColumn(0, true)` returns
a valid matrix with 2 rows and 0 columns, not the invalid matrix, which reports 0 rows. -/
theorem C21_counterexample :
    (Matrix.createDense 2 2 1).splitByColumn 0 true ≠ Matrix.invalid ∧
    ((Matrix.createDense 2 2 1).splitByColumn 0 true).getNumRows = 2 ∧
    ((Matrix.createDense 2 2 1).splitByColumn 0 true).getNumColumns = 0 ∧
    (Matrix.createDense 2 2 1).splitByColumn 0 true = ⟨some (.dense ⟨2, 0, [[], []]⟩)⟩ := by
  refine ⟨by decide!, by decide!, by decide!, by decide!⟩

/-- C21 (amended): a zero-sized split of a valid matrix, in either backend, is a valid
matrix with one dimension equal to zero: `splitByColumn(0, true)` and
`splitByColumn(numColumns, false)` report numRows rows and 0 columns, `splitByRow(0, true)`
and `splitByRow(numRows, false)` report 0 rows and numColumns columns.  Only the rectangle
overload of `getSubMatrix` with a zero count returns the invalid matrix, which reports 0
rows and 0 columns. -/
theorem C21_zero_sized_split_is_valid (m : MatrixBase) :
    ((Matrix.mk (some m)).splitByColumn 0 true ≠ Matrix.invalid ∧
      ((Matrix.mk (some m)).splitByColumn 0 true).getNumRows = m.getNumRows ∧
      ((Matrix.mk (some m)).splitByColumn 0 true).getNumColumns = 0) ∧
    ((Matrix.mk (some m)).splitByColumn m.getNumColumns false ≠ Matrix.invalid ∧
      ((Matrix.mk (some m)).splitByColumn m.getNumColumns false).getNumRows = m.getNumRows ∧
      ((Matrix.mk (some m)).splitByColumn m.getNumColumns false).getNumColumns = 0) ∧
    ((Matrix.mk (some m)).splitByRow 0 true ≠ Matrix.invalid ∧
      ((Matrix.mk (some m)).splitByRow 0 true).getNumRows = 0 ∧
      ((Matrix.mk (some m)).splitByRow 0 true).getNumColumns = m.getNumColumns) ∧
    ((Matrix.mk (some m)).splitByRow m.getNumRows false ≠ Matrix.invalid ∧
      ((Matrix.mk (some m)).splitByRow m.getNumRows false).getNumRows = 0 ∧
      ((Matrix.mk (some m)).splitByRow m.getNumRows false).getNumColumns = m.getNumColumns) ∧
    (∀ rb cb n, (Matrix.mk (some m)).getSubMatrixRect rb 0 cb n = Matrix.invalid ∧
      (Matrix.mk (some m)).getSubMatrixRect rb n cb 0 = Matrix.invalid) ∧
    Matrix.invalid.getNumRows = 0 ∧ Matrix.invalid.getNumColumns = 0 := by
  have hne : ∀ x : MatrixBase, (Matrix.mk (some x)) ≠ Matrix.invalid := by
    intro x h
    have := congrArg Matrix.matrixPtr h
    cases this
  have c1 := m.splitByColumn_dims 0 true (Nat.zero_le _)
  have c2 := m.splitByColumn_dims m.getNumColumns false (le_refl _)
  have r1 := m.splitByRow_dims 0 true (Nat.zero_le _)
  have r2 := m.splitByRow_dims m.getNumRows false (le_refl _)
  simp only [if_true, Bool.false_eq_true, if_false, Nat.sub_self] at c1 c2 r1 r2
  refine ⟨⟨hne _, c1.1, c1.2⟩, ⟨hne _, c2.1, c2.2⟩, ⟨hne _, r1.1, r1.2⟩, ⟨hne _, r2.1, r2.2⟩,
    ?_, rfl, rfl⟩
  intro rb cb n
  have h := m.getSubMatrixRect_zero rb cb n
  constructor
  · show Matrix.mk (m.getSubMatrixRect rb 0 cb n) = Matrix.invalid
    rw [h.1]
    rfl
  · show Matrix.mk (m.getSubMatrixRect rb n cb 0) = Matrix.invalid
    rw [h.2]
    rfl

/-- C23: for every valid matrix with at least 2 rows and 2 columns, in either backend, and
every in-range (r, c), `getSubMatrix(r, c)` is the valid (numRows-1)×(numColumns-1) matrix of
the same backend whose cell (i, j) is the source cell (i + [i ≥ r], j + [j ≥ c]); on the 3×3
matrix [[1,2,3],[4,5,6],[7,8,9]] the calls (2,1), (0,0), (0,2), (2,0) and (2,2), which lie on
the border, give the expected 2×2 matrices in both backends. -/
theorem C23_getSubMatrix_deletes_row_and_column :
    (∀ (m : MatrixBase) (r c : Nat), m.WF → 2 ≤ m.getNumRows → 2 ≤ m.getNumColumns →
      r < m.getNumRows → c < m.getNumColumns →
      ∃ S : MatrixBase, (Matrix.mk (some m)).getSubMatrix r c = ⟨some S⟩ ∧ S.WF ∧
        S.getNumRows = m.getNumRows - 1 ∧ S.getNumColumns = m.getNumColumns - 1 ∧
        S.isDenseBacked = m.isDenseBacked ∧
        ∀ i j, i < m.getNumRows - 1 → j < m.getNumColumns - 1 →
          S.getCell i j =
            m.getCell (if i < r then i else i + 1) (if j < c then j else j + 1)) ∧
    (Matrix.denseOfRows [[1, 2, 3], [4, 5, 6], [7, 8, 9]]).getSubMatrix 2 1
      = Matrix.denseOfRows [[1, 3], [4, 6]] ∧
    (Matrix.denseOfRows [[1, 2, 3], [4, 5, 6], [7, 8, 9]]).getSubMatrix 0 0
      = Matrix.denseOfRows [[5, 6], [8, 9]] ∧
    (Matrix.denseOfRows [[1, 2, 3], [4, 5, 6], [7, 8, 9]]).getSubMatrix 0 2
      = Matrix.denseOfRows [[4, 5], [7, 8]] ∧
    (Matrix.denseOfRows [[1, 2, 3], [4, 5, 6], [7, 8, 9]]).getSubMatrix 2 0
      = Matrix.denseOfRows [[2, 3], [5, 6]] ∧
    (Matrix.denseOfRows [[1, 2, 3], [4, 5, 6], [7, 8, 9]]).getSubMatrix 2 2
      = Matrix.denseOfRows [[1, 2], [4, 5]] ∧
    (Matrix.sparseOfRows [[1, 2, 3], [4, 5, 6], [7, 8, 9]]).getSubMatrix 2 1
      = Matrix.sparseOfRows [[1, 3], [4, 6]] ∧
    (Matrix.sparseOfRows [[1, 2, 3], [4, 5, 6], [7, 8, 9]]).getSubMatrix 0 0
      = Matrix.sparseOfRows [[5, 6], [8, 9]] ∧
    (Matrix.sparseOfRows [[1, 2, 3], [4, 5, 6], [7, 8, 9]]).getSubMatrix 0 2
      = Matrix.sparseOfRows [[4, 5], [7, 8]] ∧
    (Matrix.sparseOfRows [[1, 2, 3], [4, 5, 6], [7, 8, 9]]).getSubMatrix 2 0
      = Matrix.sparseOfRows [[2, 3], [5, 6]] ∧
    (Matrix.sparseOfRows [[1, 2, 3], [4, 5, 6], [7, 8, 9]]).getSubMatrix 2 2
      = Matrix.sparseOfRows [[1, 2], [4, 5]] := by
  refine ⟨?_, by decide!, by decide!, by decide!, by decide!, by decide!, by decide!,
    by decide!, by decide!, by decide!, by decide!⟩
  intro m r c hm hR hC hr hc
  obtain ⟨S, hS, rest⟩ := MatrixBase.getSubMatrix_spec hm r c hR hC hr hc
  refine ⟨S, ?_, rest⟩
  show Matrix.mk (m.getSubMatrix r c) = _
  rw [hS]

/-- C23 (witness): the claim applied to the dense matrix [[1,2],[3,4]] and (r, c) = (0, 1),
which lies on the border. -/
theorem C23_getSubMatrix_deletes_row_and_column_witness :
    (MatrixBase.dense ⟨2, 2, [[1, 2], [3, 4]]⟩).WF ∧
    ∃ S : MatrixBase,
      (Matrix.mk (some (MatrixBase.dense ⟨2, 2, [[1, 2], [3, 4]]⟩))).getSubMatrix 0 1
        = ⟨some S⟩ ∧ S.WF ∧
      S.getNumRows = (MatrixBase.dense ⟨2, 2, [[1, 2], [3, 4]]⟩).getNumRows - 1 ∧
      S.getNumColumns = (MatrixBase.dense ⟨2, 2, [[1, 2], [3, 4]]⟩).getNumColumns - 1 ∧
      S.isDenseBacked = (MatrixBase.dense ⟨2, 2, [[1, 2], [3, 4]]⟩).isDenseBacked ∧
      ∀ i j, i < (MatrixBase.dense ⟨2, 2, [[1, 2], [3, 4]]⟩).getNumRows - 1 →
        j < (MatrixBase.dense ⟨2, 2, [[1, 2], [3, 4]]⟩).getNumColumns - 1 →
        S.getCell i j = (MatrixBase.dense ⟨2, 2, [[1, 2], [3, 4]]⟩).getCell
          (if i < 0 then i else i + 1) (if j < 1 then j else j + 1) := by
  have hA : (MatrixBase.dense ⟨2, 2, [[1, 2], [3, 4]]⟩).WF := by
    show DenseMatrix.WF _
    decide
  exact ⟨hA, C23_getSubMatrix_deletes_row_and_column.1 _ 0 1 hA (by decide) (by decide)
    (by decide) (by decide)⟩

/-- C24: the rectangle overload `getSubMatrix(rowBegin, rowCount, colBegin, colCount)`
returns the invalid matrix (0 rows, 0 columns) whenever rowCount or colCount is 0, whatever
the other arguments; for counts that are not 0 and a rectangle inside a valid matrix, in
either backend, it returns the valid rowCount×colCount matrix of the same backend with cell
(i, j) = source cell (rowBegin + i, colBegin + j), and the full rectangle
(0, numRows, 0, numColumns) is == the original. -/
theorem C24_getSubMatrix_rectangle :
    (∀ (m : MatrixBase) (rowBegin colBegin n : Nat),
      (Matrix.mk (some m)).getSubMatrixRect rowBegin 0 colBegin n = Matrix.invalid ∧
      (Matrix.mk (some m)).getSubMatrixRect rowBegin n colBegin 0 = Matrix.invalid) ∧
    (Matrix.invalid.getNumRows = 0 ∧ Matrix.invalid.getNumColumns = 0) ∧
    (∀ (m : MatrixBase) (rowBegin rowCount colBegin colCount : Nat), m.WF →
      0 < rowCount → 0 < colCount → rowBegin + rowCount ≤ m.getNumRows →
      colBegin + colCount ≤ m.getNumColumns →
      ∃ S : MatrixBase,
        (Matrix.mk (some m)).getSubMatrixRect rowBegin rowCount colBegin colCount = ⟨some S⟩ ∧
        S.WF ∧ S.getNumRows = rowCount ∧ S.getNumColumns = colCount ∧
        S.isDenseBacked = m.isDenseBacked ∧
        ∀ i j, i < rowCount → j < colCount →
          S.getCell i j = m.getCell (rowBegin + i) (colBegin + j)) ∧
    (∀ m : MatrixBase, m.WF → 0 < m.getNumRows → 0 < m.getNumColumns →
      ((Matrix.mk (some m)).getSubMatrixRect 0 m.getNumRows 0 m.getNumColumns).operatorEq
        ⟨some m⟩ = true) := by
  refine ⟨?_, ⟨rfl, rfl⟩, ?_, ?_⟩
  · intro m rb cb n
    have h := m.getSubMatrixRect_zero rb cb n
    constructor
    · show Matrix.mk (m.getSubMatrixRect rb 0 cb n) = Matrix.invalid
      rw [h.1]
      rfl
    · show Matrix.mk (m.getSubMatrixRect rb n cb 0) = Matrix.invalid
      rw [h.2]
      rfl
  · intro m rb R cb C hm hR hC _ _
    obtain ⟨S, hS, hwf, hr, hc, hb, hcell⟩ := MatrixBase.getSubMatrixRect_spec hm rb R cb C hR hC
    refine ⟨S, ?_, hwf, hr, hc, hb, ?_⟩
    · show Matrix.mk (m.getSubMatrixRect rb R cb C) = _
      rw [hS]
    · intro i j hi hj
      rw [hcell i j hi hj, Nat.add_comm i rb, Nat.add_comm j cb]
  · intro m hm hR hC
    obtain ⟨S, hS, hwf, hr, hc, _, hcell⟩ :=
      MatrixBase.getSubMatrixRect_spec hm 0 m.getNumRows 0 m.getNumColumns hR hC
    show (Matrix.mk (m.getSubMatrixRect 0 m.getNumRows 0 m.getNumColumns)).operatorEq
      ⟨some m⟩ = true
    rw [hS]
    show S.equal m = true
    rw [MatrixBase.equal_iff hwf hm]
    refine ⟨hr, hc, ?_⟩
    intro r c hr1 hc1
    rw [hr] at hr1
    rw [hc] at hc1
    rw [hcell r c hr1 hc1]
    exact mcu.almostEqual_self _

/-- C24 (witness): the claim applied to the dense matrix [[1,2],[3,4]] and the rectangle
(1, 1, 0, 2), its second row. -/
theorem C24_getSubMatrix_rectangle_witness :
    (MatrixBase.dense ⟨2, 2, [[1, 2], [3, 4]]⟩).WF ∧
    (∃ S : MatrixBase,
      (Matrix.mk (some (MatrixBase.dense ⟨2, 2, [[1, 2], [3, 4]]⟩))).getSubMatrixRect 1 1 0 2
        = ⟨some S⟩ ∧ S.WF ∧ S.getNumRows = 1 ∧ S.getNumColumns = 2 ∧
      S.isDenseBacked = (MatrixBase.dense ⟨2, 2, [[1, 2], [3, 4]]⟩).isDenseBacked ∧
      ∀ i j, i < 1 → j < 2 →
        S.getCell i j = (MatrixBase.dense ⟨2, 2, [[1, 2], [3, 4]]⟩).getCell (1 + i) (0 + j)) ∧
    ((Matrix.mk (some (MatrixBase.dense ⟨2, 2, [[1, 2], [3, 4]]⟩))).getSubMatrixRect 0
        (MatrixBase.dense ⟨2, 2, [[1, 2], [3, 4]]⟩).getNumRows 0
        (MatrixBase.dense ⟨2, 2, [[1, 2], [3, 4]]⟩).getNumColumns).operatorEq
      ⟨some (MatrixBase.dense ⟨2, 2, [[1, 2], [3, 4]]⟩)⟩ = true := by
  have hA : (MatrixBase.dense ⟨2, 2, [[1, 2], [3, 4]]⟩).WF := by
    show DenseMatrix.WF _
    decide
  exact ⟨hA, C24_getSubMatrix_rectangle.2.2.1 _ 1 1 0 2 hA (by decide) (by decide)
      (by decide) (by decide),
    C24_getSubMatrix_rectangle.2.2.2 _ hA (by decide) (by decide)⟩

namespace DenseMatrix

/-- Copying the stored cells of a sparse matrix into a dense target, each cell shifted by
`dr` rows and `dc` columns, when the target is zero on the destination area. -/
theorem holds_place {S : SparseMatrix} (hS : S.WF) (dr dc : Nat) {T : DenseMatrix} {R C : Nat}
    {f : Nat → Nat → ℚ} (hT : Holds T R C f) (hfitR : S.numRows + dr ≤ R)
    (hfitC : S.numColumns + dc ≤ C)
    (hzero : ∀ i j, i < R → j < C → dr ≤ i → dc ≤ j → f i j = 0) :
    Holds (S.sparseMatrix.foldl (fun t e => t.setCell (e.1.1 + dr) (e.1.2 + dc) e.2) T) R C
      (fun i j => if dr ≤ i ∧ dc ≤ j then S.getCell (i - dr) (j - dc) else f i j) := by
  have hshape : S.sparseMatrix.foldl (fun t e => t.setCell (e.1.1 + dr) (e.1.2 + dc) e.2) T
      = S.sparseMatrix.foldl (fun t e =>
        t.setCell ((fun k : Nat × Nat => (k.1 + dr, k.2 + dc)) e.1).1
          ((fun k : Nat × Nat => (k.1 + dr, k.2 + dc)) e.1).2
          ((fun (_ : ℚ) (v : ℚ) => v)
            (t.getCell ((fun k : Nat × Nat => (k.1 + dr, k.2 + dc)) e.1).1
              ((fun k : Nat × Nat => (k.1 + dr, k.2 + dc)) e.1).2) e.2)) T := rfl
  rw [hshape]
  obtain ⟨h1, h2, h3, _, _⟩ := foldCells_props S.sparseMatrix
    (fun k : Nat × Nat => (k.1 + dr, k.2 + dc)) (fun (_ : ℚ) (v : ℚ) => v) T
  refine ⟨h3 hT.wf, h1.trans hT.rows, h2.trans hT.cols, ?_⟩
  intro i j hi hj
  rw [foldCells_getCell S hS (fun k : Nat × Nat => (k.1 + dr, k.2 + dc))
    (fun (_ : ℚ) (v : ℚ) => v) T hT.wf
    (fun k hk1 hk2 => by rw [hT.rows, hT.cols]; constructor <;> simp only <;> omega)
    i j (i - dr, j - dc)
    (fun k hk => by
      have e1 : k.1 + dr = i := congrArg Prod.fst hk
      have e2 : k.2 + dc = j := congrArg Prod.snd hk
      exact Prod.ext (by simp only; omega) (by simp only; omega))]
  have hself := SparseMatrix.getCell_eq_find S (i - dr) (j - dc)
  by_cases hin : dr ≤ i ∧ dc ≤ j
  · have hg : ((i - dr + dr, j - dc + dc) : Nat × Nat) = (i, j) := by
      rw [Nat.sub_add_cancel hin.1, Nat.sub_add_cancel hin.2]
    simp only [if_pos hin]
    cases hf : S.sparseMatrix.find (i - dr, j - dc) with
    | none =>
      rw [hf] at hself
      simp only [Option.getD_none] at hself
      simp only
      rw [hself, hT.cell i j hi hj]
      exact hzero i j hi hj hin.1 hin.2
    | some v =>
      rw [hf] at hself
      simp only [Option.getD_some] at hself
      simp only
      rw [if_pos hg, hself]
  · have hg : ¬ ((i - dr + dr, j - dc + dc) : Nat × Nat) = (i, j) := by
      intro h
      have e1 : i - dr + dr = i := congrArg Prod.fst h
      have e2 : j - dc + dc = j := congrArg Prod.snd h
      exact hin ⟨by omega, by omega⟩
    simp only [if_neg hin]
    cases hf : S.sparseMatrix.find (i - dr, j - dc) with
    | none => simp only; exact hT.cell i j hi hj
    | some v =>
      simp only
      rw [if_neg hg]
      exact hT.cell i j hi hj

/-- The dense overload of `mergeByColumns` for a sparse left operand. -/
theorem dense_holds_mergeByColumnsS (self : DenseMatrix) {left : SparseMatrix} (hl : left.WF)
    (hrows : left.numRows = self.numRows) :
    Holds (self.mergeByColumnsS left) self.numRows (left.numColumns + self.numColumns)
      (fun i j => if j < left.numColumns then left.getCell i j
        else self.getCell i (j - left.numColumns)) := by
  have hT0 : Holds (new self.numRows (left.numColumns + self.numColumns) 0) self.numRows
      (left.numColumns + self.numColumns) (fun _ _ => (0 : ℚ)) :=
    ⟨WF_new _ _ _, rfl, rfl, fun i j hi hj => getCell_new _ _ _ i j hi hj⟩
  have h1 := holds_place hl 0 0 hT0 (by omega) (by omega) (fun _ _ _ _ _ _ => rfl)
  unfold mergeByColumnsS
  simp only [SparseMatrix.getNumColumns, getNumColumns, SparseMatrix.getCellDataList,
    List.foldl_map]
  set T1 := left.sparseMatrix.foldl (fun t e => t.setCell e.1.1 e.1.2 e.2)
    (new self.numRows (left.numColumns + self.numColumns) 0) with hT1
  have h1a : Holds T1 self.numRows (left.numColumns + self.numColumns)
      (fun i j => if 0 ≤ i ∧ 0 ≤ j then left.getCell (i - 0) (j - 0) else 0) := h1
  obtain ⟨b1, b2, b3, b4, b5⟩ := fillCells_props (fun r c => (r, c + left.numColumns))
    (fun r c => self.getCell r c) self.numRows self.numColumns T1
  refine ⟨b3 h1a.wf, by rw [b1]; exact h1a.rows, by rw [b2]; exact h1a.cols, ?_⟩
  intro i j hi hj
  by_cases hjl : j < left.numColumns
  · rw [if_pos hjl, b4 i j (fun r c _ _ h => by simp at h; omega), h1a.cell i j hi hj]
    simp
  · rw [if_neg hjl]
    have := b5 h1a.wf i (j - left.numColumns) hi (by omega)
      (fun r1 c1 _ _ h => by simpa using h) (by rw [h1a.rows]; exact hi)
      (by rw [h1a.cols]; show j - left.numColumns + left.numColumns
            < left.numColumns + self.numColumns
          omega)
    simpa [Nat.sub_add_cancel (Nat.le_of_not_lt hjl)] using this

/-- The dense overload of `mergeByRows` for a sparse top operand. -/
theorem dense_holds_mergeByRowsS (self : DenseMatrix) {left : SparseMatrix} (hl : left.WF)
    (hcols : left.numColumns = self.numColumns) :
    Holds (self.mergeByRowsS left) (left.numRows + self.numRows) self.numColumns
      (fun i j => if i < left.numRows then left.getCell i j
        else self.getCell (i - left.numRows) j) := by
  have hT0 : Holds (new (left.numRows + self.numRows) self.numColumns 0)
      (left.numRows + self.numRows) self.numColumns (fun _ _ => (0 : ℚ)) :=
    ⟨WF_new _ _ _, rfl, rfl, fun i j hi hj => getCell_new _ _ _ i j hi hj⟩
  have h1 := holds_place hl 0 0 hT0 (by omega) (by omega) (fun _ _ _ _ _ _ => rfl)
  unfold mergeByRowsS
  simp only [SparseMatrix.getNumRows, getNumRows, SparseMatrix.getCellDataList,
    List.foldl_map]
  set T1 := left.sparseMatrix.foldl (fun t e => t.setCell e.1.1 e.1.2 e.2)
    (new (left.numRows + self.numRows) self.numColumns 0) with hT1
  have h1a : Holds T1 (left.numRows + self.numRows) self.numColumns
      (fun i j => if 0 ≤ i ∧ 0 ≤ j then left.getCell (i - 0) (j - 0) else 0) := h1
  obtain ⟨b1, b2, b3, b4, b5⟩ := fillCells_props (fun r c => (r + left.numRows, c))
    (fun r c => self.getCell r c) self.numRows self.numColumns T1
  refine ⟨b3 h1a.wf, by rw [b1]; exact h1a.rows, by rw [b2]; exact h1a.cols, ?_⟩
  intro i j hi hj
  by_cases hil : i < left.numRows
  · rw [if_pos hil, b4 i j (fun r c _ _ h => by simp at h; omega), h1a.cell i j hi hj]
    simp
  · rw [if_neg hil]
    have := b5 h1a.wf (i - left.numRows) j (by omega) hj
      (fun r1 c1 _ _ h => by simpa using h)
      (by rw [h1a.rows]; show i - left.numRows + left.numRows < left.numRows + self.numRows
          omega) (by rw [h1a.cols]; exact hj)
    simpa [Nat.sub_add_cancel (Nat.le_of_not_lt hil)] using this

end DenseMatrix

namespace SparseMatrix

/-- The sparse overload of `mergeByColumns` for a dense left operand. -/
theorem sparse_holds_mergeByColumnsD {self : SparseMatrix} (left : DenseMatrix) (hs : self.WF) :
    DenseMatrix.Holds (self.mergeByColumnsD left) self.numRows
      (left.numColumns + self.numColumns)
      (fun i j => if j < left.numColumns then left.getCell i j
        else self.getCell i (j - left.numColumns)) := by
  unfold mergeByColumnsD
  simp only [DenseMatrix.getNumColumns, getCellDataList, List.foldl_map]
  set T0 := DenseMatrix.new self.numRows (left.numColumns + self.numColumns) 0 with hT0
  obtain ⟨a1, a2, a3, a4, a5⟩ := DenseMatrix.fillCells_props (fun r c => (r, c))
    (fun r c => left.getCell r c) self.numRows left.numColumns T0
  set T1 := DenseMatrix.fillCells self.numRows left.numColumns (fun r c => (r, c))
    (fun r c => left.getCell r c) T0 with hT1
  have hwf0 : T0.WF := DenseMatrix.WF_new _ _ _
  have hH1 : DenseMatrix.Holds T1 self.numRows (left.numColumns + self.numColumns)
      (fun i j => if j < left.numColumns then left.getCell i j else 0) := by
    refine ⟨a3 hwf0, a1, a2, ?_⟩
    intro i j hi hj
    by_cases hjl : j < left.numColumns
    · rw [if_pos hjl]
      exact a5 hwf0 i j hi hjl (fun r1 c1 _ _ h => by simpa using h) hi hj
    · rw [if_neg hjl, a4 i j (fun r c _ hc h => by simp at h; omega)]
      exact DenseMatrix.getCell_new _ _ _ i j hi hj
  have h2 := DenseMatrix.holds_place hs 0 left.numColumns hH1 (by omega) (by omega)
    (fun i j _ _ _ hj => if_neg (by omega))
  have h2a : DenseMatrix.Holds
      (self.sparseMatrix.foldl (fun t e => t.setCell e.1.1 (e.1.2 + left.numColumns) e.2) T1)
      self.numRows (left.numColumns + self.numColumns)
      (fun i j => if 0 ≤ i ∧ left.numColumns ≤ j
        then self.getCell (i - 0) (j - left.numColumns)
        else if j < left.numColumns then left.getCell i j else 0) := h2
  refine h2a.congr ?_
  intro i j _ _
  by_cases hjl : j < left.numColumns
  · have : ¬ (0 ≤ i ∧ left.numColumns ≤ j) := by omega
    simp [this, hjl]
  · have : 0 ≤ i ∧ left.numColumns ≤ j := ⟨Nat.zero_le _, by omega⟩
    simp [this, hjl]

/-- The sparse overload of `mergeByRows` for a dense top operand. -/
theorem sparse_holds_mergeByRowsD {self : SparseMatrix} (left : DenseMatrix) (hs : self.WF) :
    DenseMatrix.Holds (self.mergeByRowsD left) (left.numRows + self.numRows) self.numColumns
      (fun i j => if i < left.numRows then left.getCell i j
        else self.getCell (i - left.numRows) j) := by
  unfold mergeByRowsD
  simp only [DenseMatrix.getNumRows, getCellDataList, List.foldl_map]
  set T0 := DenseMatrix.new (left.numRows + self.numRows) self.numColumns 0 with hT0
  obtain ⟨a1, a2, a3, a4, a5⟩ := DenseMatrix.fillCells_props (fun r c => (r, c))
    (fun r c => left.getCell r c) left.numRows self.numColumns T0
  set T1 := DenseMatrix.fillCells left.numRows self.numColumns (fun r c => (r, c))
    (fun r c => left.getCell r c) T0 with hT1
  have hwf0 : T0.WF := DenseMatrix.WF_new _ _ _
  have hH1 : DenseMatrix.Holds T1 (left.numRows + self.numRows) self.numColumns
      (fun i j => if i < left.numRows then left.getCell i j else 0) := by
    refine ⟨a3 hwf0, a1, a2, ?_⟩
    intro i j hi hj
    by_cases hil : i < left.numRows
    · rw [if_pos hil]
      exact a5 hwf0 i j hil hj (fun r1 c1 _ _ h => by simpa using h) hi hj
    · rw [if_neg hil, a4 i j (fun r c hr _ h => by simp at h; omega)]
      exact DenseMatrix.getCell_new _ _ _ i j hi hj
  have h2 := DenseMatrix.holds_place hs left.numRows 0 hH1 (by omega) (by omega)
    (fun i j _ _ hi _ => if_neg (by omega))
  have h2a : DenseMatrix.Holds
      (self.sparseMatrix.foldl (fun t e => t.setCell (e.1.1 + left.numRows) e.1.2 e.2) T1)
      (left.numRows + self.numRows) self.numColumns
      (fun i j => if left.numRows ≤ i ∧ 0 ≤ j
        then self.getCell (i - left.numRows) (j - 0)
        else if i < left.numRows then left.getCell i j else 0) := h2
  refine h2a.congr ?_
  intro i j _ _
  by_cases hil : i < left.numRows
  · have : ¬ (left.numRows ≤ i ∧ 0 ≤ j) := by omega
    simp [this, hil]
  · have : left.numRows ≤ i ∧ 0 ≤ j := ⟨by omega, Nat.zero_le _⟩
    simp [this, hil]

end SparseMatrix

namespace MatrixBase

/-- The virtual `mergeByColumns` on two well-formed matrices with the same number of rows. -/
theorem mergeByColumns_spec {A B : MatrixBase} (hA : A.WF) (hB : B.WF)
    (hrows : A.getNumRows = B.getNumRows) :
    (A.mergeByColumns B).WF ∧ (A.mergeByColumns B).getNumRows = A.getNumRows ∧
      (A.mergeByColumns B).getNumColumns = A.getNumColumns + B.getNumColumns ∧
      ∀ i j, i < A.getNumRows → j < A.getNumColumns + B.getNumColumns →
        (A.mergeByColumns B).getCell i j =
          if j < A.getNumColumns then A.getCell i j else B.getCell i (j - A.getNumColumns) := by
  cases A with
  | dense a =>
    cases B with
    | dense b =>
      have hr : a.numRows = b.numRows := hrows
      have h := DenseMatrix.holds_mergeByColumnsD b a
      rw [← hr] at h
      exact holds_dense h
    | sparse b =>
      have hr : a.numRows = b.numRows := hrows
      have h := SparseMatrix.sparse_holds_mergeByColumnsD a hB
      rw [← hr] at h
      exact holds_dense h
  | sparse a =>
    cases B with
    | dense b =>
      have hr : a.numRows = b.numRows := hrows
      have h := DenseMatrix.dense_holds_mergeByColumnsS b hA hr
      rw [← hr] at h
      exact holds_dense h
    | sparse b =>
      have hr : a.numRows = b.numRows := hrows
      have h := SparseMatrix.holds_mergeByColumnsS hB hA hr
      rw [← hr] at h
      exact holds_sparse h

/-- The virtual `mergeByRows` on two well-formed matrices with the same number of columns. -/
theorem mergeByRows_spec {A B : MatrixBase} (hA : A.WF) (hB : B.WF)
    (hcols : A.getNumColumns = B.getNumColumns) :
    (A.mergeByRows B).WF ∧ (A.mergeByRows B).getNumRows = A.getNumRows + B.getNumRows ∧
      (A.mergeByRows B).getNumColumns = A.getNumColumns ∧
      ∀ i j, i < A.getNumRows + B.getNumRows → j < A.getNumColumns →
        (A.mergeByRows B).getCell i j =
          if i < A.getNumRows then A.getCell i j else B.getCell (i - A.getNumRows) j := by
  cases A with
  | dense a =>
    cases B with
    | dense b =>
      have hc : a.numColumns = b.numColumns := hcols
      have h := DenseMatrix.holds_mergeByRowsD b a
      rw [← hc] at h
      exact holds_dense h
    | sparse b =>
      have hc : a.numColumns = b.numColumns := hcols
      have h := SparseMatrix.sparse_holds_mergeByRowsD a hB
      rw [← hc] at h
      exact holds_dense h
  | sparse a =>
    cases B with
    | dense b =>
      have hc : a.numColumns = b.numColumns := hcols
      have h := DenseMatrix.dense_holds_mergeByRowsS b hA hc
      rw [← hc] at h
      exact holds_dense h
    | sparse b =>
      have hc : a.numColumns = b.numColumns := hcols
      have h := SparseMatrix.holds_mergeByRowsS hB hA hc
      rw [← hc] at h
      exact holds_sparse h

end MatrixBase

/-- C22: for valid A (m×p) and B (m×q) in any backend combination, `A.mergeByColumns(B)` is
the valid m×(p+q) matrix with A's cells in the columns [0,p) and B's cells in the columns
[p,p+q); for valid A (p×n) and B (q×n), `A.mergeByRows(B)` is the valid (p+q)×n matrix with
A's rows on top of B's; swapping the operands only moves the two blocks: the block of A
sits after the block of B instead of before it. -/
theorem C22_merge_layout :
    (∀ A B : MatrixBase, A.WF → B.WF → A.getNumRows = B.getNumRows →
      ∃ R : MatrixBase, (Matrix.mk (some A)).mergeByColumns ⟨some B⟩ = ⟨some R⟩ ∧ R.WF ∧
        R.getNumRows = A.getNumRows ∧ R.getNumColumns = A.getNumColumns + B.getNumColumns ∧
        (∀ i j, i < A.getNumRows → j < A.getNumColumns → R.getCell i j = A.getCell i j) ∧
        (∀ i j, i < A.getNumRows → j < B.getNumColumns →
          R.getCell i (A.getNumColumns + j) = B.getCell i j)) ∧
    (∀ A B : MatrixBase, A.WF → B.WF → A.getNumColumns = B.getNumColumns →
      ∃ R : MatrixBase, (Matrix.mk (some A)).mergeByRows ⟨some B⟩ = ⟨some R⟩ ∧ R.WF ∧
        R.getNumRows = A.getNumRows + B.getNumRows ∧ R.getNumColumns = A.getNumColumns ∧
        (∀ i j, i < A.getNumRows → j < A.getNumColumns → R.getCell i j = A.getCell i j) ∧
        (∀ i j, i < B.getNumRows → j < A.getNumColumns →
          R.getCell (A.getNumRows + i) j = B.getCell i j)) ∧
    (∀ A B : MatrixBase, A.WF → B.WF → A.getNumRows = B.getNumRows →
      ∃ R S : MatrixBase, (Matrix.mk (some A)).mergeByColumns ⟨some B⟩ = ⟨some R⟩ ∧
        (Matrix.mk (some B)).mergeByColumns ⟨some A⟩ = ⟨some S⟩ ∧
        R.getNumRows = S.getNumRows ∧ R.getNumColumns = S.getNumColumns ∧
        (∀ i j, i < A.getNumRows → j < A.getNumColumns →
          R.getCell i j = S.getCell i (B.getNumColumns + j)) ∧
        (∀ i j, i < A.getNumRows → j < B.getNumColumns →
          R.getCell i (A.getNumColumns + j) = S.getCell i j)) ∧
    (∀ A B : MatrixBase, A.WF → B.WF → A.getNumColumns = B.getNumColumns →
      ∃ R S : MatrixBase, (Matrix.mk (some A)).mergeByRows ⟨some B⟩ = ⟨some R⟩ ∧
        (Matrix.mk (some B)).mergeByRows ⟨some A⟩ = ⟨some S⟩ ∧
        R.getNumRows = S.getNumRows ∧ R.getNumColumns = S.getNumColumns ∧
        (∀ i j, i < A.getNumRows → j < A.getNumColumns →
          R.getCell i j = S.getCell (B.getNumRows + i) j) ∧
        (∀ i j, i < B.getNumRows → j < A.getNumColumns →
          R.getCell (A.getNumRows + i) j = S.getCell i j)) ∧
    (Matrix.denseOfRows [[1, 2], [3, 4]]).mergeByColumns (Matrix.sparseOfRows [[5], [6]])
      = Matrix.denseOfRows [[1, 2, 5], [3, 4, 6]] ∧
    (Matrix.sparseOfRows [[5], [6]]).mergeByColumns (Matrix.denseOfRows [[1, 2], [3, 4]])
      = Matrix.denseOfRows [[5, 1, 2], [6, 3, 4]] ∧
    (Matrix.sparseOfRows [[1, 2], [3, 4]]).mergeByRows (Matrix.sparseOfRows [[5, 6]])
      = Matrix.sparseOfRows [[1, 2], [3, 4], [5, 6]] ∧
    (Matrix.denseOfRows [[5, 6]]).mergeByRows (Matrix.sparseOfRows [[1, 2], [3, 4]])
      = Matrix.denseOfRows [[5, 6], [1, 2], [3, 4]] := by
  have hcol : ∀ A B : MatrixBase, A.WF → B.WF → A.getNumRows = B.getNumRows →
      (A.mergeByColumns B).WF ∧
        (A.mergeByColumns B).getNumRows = A.getNumRows ∧
        (A.mergeByColumns B).getNumColumns = A.getNumColumns + B.getNumColumns ∧
        (∀ i j, i < A.getNumRows → j < A.getNumColumns →
          (A.mergeByColumns B).getCell i j = A.getCell i j) ∧
        (∀ i j, i < A.getNumRows → j < B.getNumColumns →
          (A.mergeByColumns B).getCell i (A.getNumColumns + j) = B.getCell i j) := by
    intro A B hA hB hrows
    obtain ⟨h1, h2, h3, h4⟩ := MatrixBase.mergeByColumns_spec hA hB hrows
    refine ⟨h1, h2, h3, ?_, ?_⟩
    · intro i j hi hj
      rw [h4 i j hi (by omega), if_pos hj]
    · intro i j hi hj
      rw [h4 i _ hi (by omega), if_neg (by omega), Nat.add_sub_cancel_left]
  have hrow : ∀ A B : MatrixBase, A.WF → B.WF → A.getNumColumns = B.getNumColumns →
      (A.mergeByRows B).WF ∧
        (A.mergeByRows B).getNumRows = A.getNumRows + B.getNumRows ∧
        (A.mergeByRows B).getNumColumns = A.getNumColumns ∧
        (∀ i j, i < A.getNumRows → j < A.getNumColumns →
          (A.mergeByRows B).getCell i j = A.getCell i j) ∧
        (∀ i j, i < B.getNumRows → j < A.getNumColumns →
          (A.mergeByRows B).getCell (A.getNumRows + i) j = B.getCell i j) := by
    intro A B hA hB hcols
    obtain ⟨h1, h2, h3, h4⟩ := MatrixBase.mergeByRows_spec hA hB hcols
    refine ⟨h1, h2, h3, ?_, ?_⟩
    · intro i j hi hj
      rw [h4 i j (by omega) hj, if_pos hi]
    · intro i j hi hj
      rw [h4 _ j (by omega) hj, if_neg (by omega), Nat.add_sub_cancel_left]
  refine ⟨?_, ?_, ?_, ?_, by decide!, by decide!, by decide!, by decide!⟩
  · intro A B hA hB hrows
    exact ⟨A.mergeByColumns B, rfl, hcol A B hA hB hrows⟩
  · intro A B hA hB hcols
    exact ⟨A.mergeByRows B, rfl, hrow A B hA hB hcols⟩
  · intro A B hA hB hrows
    obtain ⟨_, r2, r3, r4, r5⟩ := hcol A B hA hB hrows
    obtain ⟨_, s2, s3, s4, s5⟩ := hcol B A hB hA hrows.symm
    refine ⟨A.mergeByColumns B, B.mergeByColumns A, rfl, rfl, ?_, ?_, ?_, ?_⟩
    · rw [r2, s2, hrows]
    · rw [r3, s3, Nat.add_comm]
    · intro i j hi hj
      rw [r4 i j hi hj, s5 i j (hrows ▸ hi) hj]
    · intro i j hi hj
      rw [r5 i j hi hj, s4 i j (hrows ▸ hi) hj]
  · intro A B hA hB hcols
    obtain ⟨_, r2, r3, r4, r5⟩ := hrow A B hA hB hcols
    obtain ⟨_, s2, s3, s4, s5⟩ := hrow B A hB hA hcols.symm
    refine ⟨A.mergeByRows B, B.mergeByRows A, rfl, rfl, ?_, ?_, ?_, ?_⟩
    · rw [r2, s2, Nat.add_comm]
    · rw [r3, s3, hcols]
    · intro i j hi hj
      rw [r4 i j hi hj, s5 i j hi (hcols ▸ hj)]
    · intro i j hi hj
      rw [r5 i j hi hj, s4 i j hi (hcols ▸ hj)]

/-- C22 (witness): the claim applied to the dense matrix [[1,2],[3,4]] and the sparse
matrix [[5],[6]], merged by columns. -/
theorem C22_merge_layout_witness :
    (MatrixBase.dense ⟨2, 2, [[1, 2], [3, 4]]⟩).WF ∧
    (MatrixBase.sparse (DenseMatrix.cloneAsSparseMatrix ⟨2, 1, [[5], [6]]⟩)).WF ∧
    (MatrixBase.dense ⟨2, 2, [[1, 2], [3, 4]]⟩).getNumRows
      = (MatrixBase.sparse (DenseMatrix.cloneAsSparseMatrix ⟨2, 1, [[5], [6]]⟩)).getNumRows ∧
    ∃ R : MatrixBase,
      (Matrix.mk (some (MatrixBase.dense ⟨2, 2, [[1, 2], [3, 4]]⟩))).mergeByColumns
        ⟨some (MatrixBase.sparse (DenseMatrix.cloneAsSparseMatrix ⟨2, 1, [[5], [6]]⟩))⟩
        = ⟨some R⟩ ∧ R.WF ∧
      R.getNumRows = (MatrixBase.dense ⟨2, 2, [[1, 2], [3, 4]]⟩).getNumRows ∧
      R.getNumColumns = (MatrixBase.dense ⟨2, 2, [[1, 2], [3, 4]]⟩).getNumColumns
        + (MatrixBase.sparse (DenseMatrix.cloneAsSparseMatrix ⟨2, 1, [[5], [6]]⟩)).getNumColumns ∧
      (∀ i j, i < (MatrixBase.dense ⟨2, 2, [[1, 2], [3, 4]]⟩).getNumRows →
        j < (MatrixBase.dense ⟨2, 2, [[1, 2], [3, 4]]⟩).getNumColumns →
        R.getCell i j = (MatrixBase.dense ⟨2, 2, [[1, 2], [3, 4]]⟩).getCell i j) ∧
      (∀ i j, i < (MatrixBase.dense ⟨2, 2, [[1, 2], [3, 4]]⟩).getNumRows →
        j < (MatrixBase.sparse
          (DenseMatrix.cloneAsSparseMatrix ⟨2, 1, [[5], [6]]⟩)).getNumColumns →
        R.getCell i ((MatrixBase.dense ⟨2, 2, [[1, 2], [3, 4]]⟩).getNumColumns + j)
          = (MatrixBase.sparse
            (DenseMatrix.cloneAsSparseMatrix ⟨2, 1, [[5], [6]]⟩)).getCell i j) := by
  have hA : (MatrixBase.dense ⟨2, 2, [[1, 2], [3, 4]]⟩).WF := by
    show DenseMatrix.WF _
    decide
  have hB0 : (MatrixBase.dense ⟨2, 1, [[5], [6]]⟩).WF := by
    show DenseMatrix.WF _
    decide
  have hB : (MatrixBase.sparse (DenseMatrix.cloneAsSparseMatrix ⟨2, 1, [[5], [6]]⟩)).WF :=
    (MatrixBase.cloneAsSparseMatrix_spec hB0).1
  have hrows : (MatrixBase.dense ⟨2, 2, [[1, 2], [3, 4]]⟩).getNumRows
      = (MatrixBase.sparse (DenseMatrix.cloneAsSparseMatrix ⟨2, 1, [[5], [6]]⟩)).getNumRows :=
    ((MatrixBase.cloneAsSparseMatrix_spec hB0).2.1).symm
  exact ⟨hA, hB, hrows, C22_merge_layout.1 _ _ hA hB hrows⟩

namespace DenseMatrix

/-- On a matrix with one row and one column all four parts of `getSubMatrix(0, 0)` are null,
so the result is the null pointer, and `getMinorMatrix()` dereferences it. -/
theorem getMinorMatrix_one_by_one (M : DenseMatrix) (hR : M.numRows = 1)
    (hC : M.numColumns = 1) : M.getSubMatrix 0 0 = none ∧ M.getMinorMatrix = none := by
  have hsub : M.getSubMatrix 0 0 = none := by
    simp [getSubMatrix, getSubMatrixTopLeft, getSubMatrixTopRight, getSubMatrixBottomLeft,
      getSubMatrixBottomRight, mergeParts, hR, hC]
  refine ⟨hsub, ?_⟩
  simp [getMinorMatrix, hR, hC, forLoop, hsub]

/-- The dense matrix of minors of a square matrix with at least two rows. -/
theorem holds_getMinorMatrix {M : DenseMatrix} (k : Nat) (hwf : M.WF) (hR : M.numRows = k + 2)
    (hC : M.numColumns = k + 2)
    (hcrisp : ∀ i j, i < k + 2 → j < k + 2 → mcu.Crisp (M.getCell i j)) :
    ∃ B, M.getMinorMatrix = some B ∧ B.WF ∧ B.numRows = k + 2 ∧ B.numColumns = k + 2 ∧
      ∀ r c : Fin (k + 2), B.getCell r c =
        ((cellMatrix M.getCell (k + 2) (k + 2)).submatrix r.succAbove c.succAbove).det := by
  have hsub : ∀ r c, r < M.numRows → c < M.numColumns → M.getSubMatrix r c ≠ none := by
    intro r c hr hc
    rw [hR] at hr
    rw [hC] at hc
    exact (minorValue_eq_det k hwf hR hC hcrisp ⟨r, hr⟩ ⟨c, hc⟩).1
  have hB := holds_fill_new M.numRows M.numColumns (fun r c => M.minorValue r c)
  refine ⟨_, getMinorMatrix_eq M hsub, hB.wf, hB.rows.trans hR, hB.cols.trans hC, ?_⟩
  intro r c
  rw [hB.cell r c (by rw [hR]; exact r.isLt) (by rw [hC]; exact c.isLt)]
  exact (minorValue_eq_det k hwf hR hC hcrisp r c).2

end DenseMatrix

namespace SparseMatrix

theorem sparse_getMinorMatrix_one_by_one (M : SparseMatrix) (hR : M.numRows = 1)
    (hC : M.numColumns = 1) : M.getSubMatrix 0 0 = none ∧ M.getMinorMatrix = none := by
  have hsub : M.getSubMatrix 0 0 = none := by
    simp [getSubMatrix, getSubMatrixTopLeft, getSubMatrixTopRight, getSubMatrixBottomLeft,
      getSubMatrixBottomRight, mergeParts, hR, hC]
  refine ⟨hsub, ?_⟩
  simp [getMinorMatrix, hR, hC, forLoop, hsub]

/-- The sparse matrix of minors of a square matrix with at least two rows: every minor goes
through `setCell`, which stores nothing for a value within tolerance of zero. -/
theorem sparse_holds_getMinorMatrix {M : SparseMatrix} (k : Nat) (hwf : M.WF)
    (hR : M.numRows = k + 2) (hC : M.numColumns = k + 2) :
    ∃ B, M.getMinorMatrix = some B ∧ B.WF ∧ B.numRows = k + 2 ∧ B.numColumns = k + 2 ∧
      ∀ r c : Fin (k + 2), B.getCell r c = mcu.flush
        ((cellMatrix M.getCell (k + 2) (k + 2)).submatrix r.succAbove c.succAbove).det := by
  have hsub : ∀ r c, r < M.numRows → c < M.numColumns → M.getSubMatrix r c ≠ none := by
    intro r c hr hc
    rw [hR] at hr
    rw [hC] at hc
    exact (sparse_minorValue_eq_det k hwf hR hC ⟨r, hr⟩ ⟨c, hc⟩).1
  have hB := sparse_holds_fill_new M.numRows M.numColumns (fun r c => M.minorValue r c)
  refine ⟨_, sparse_getMinorMatrix_eq M hsub, hB.wf, hB.rows.trans hR, hB.cols.trans hC, ?_⟩
  intro r c
  rw [hB.cell r c (by rw [hR]; exact r.isLt) (by rw [hC]; exact c.isLt)]
  exact congrArg mcu.flush (sparse_minorValue_eq_det k hwf hR hC r c).2

end SparseMatrix

/-- C25 (failing input): on every matrix with one row and one column, in either backend,
`getSubMatrix(0, 0)` returns the null pointer (there is no cell left) and `getMinorMatrix()`
calls `getDeterminant()` through it: the run fails, e.g. on the dense matrix [[5]].  From
two rows on, for a valid square matrix whose cells are each exactly 0 or not within
tolerance of 0, the run completes and returns the n×n matrix of the same backend whose cell
(r, c) is the determinant of the matrix without row r and column c (the sparse backend
stores it through `setCell`, so a determinant within tolerance of 0 reads as 0); the 4×4
matrix of the unit test gives the expected rows in both backends. -/
theorem C25_getMinorMatrix_fails_on_one_by_one :
    (∀ m : MatrixBase, m.getNumRows = 1 → m.getNumColumns = 1 →
      (Matrix.mk (some m)).getSubMatrix 0 0 = Matrix.invalid ∧
      (Matrix.mk (some m)).getMinorMatrix = none) ∧
    (Matrix.createDense 1 1 5).getMinorMatrix = none ∧
    (∀ (k : Nat) (m : MatrixBase), m.WF → m.getNumRows = k + 2 → m.getNumColumns = k + 2 →
      mcu.CrispMatrix (cellMatrix m.getCell (k + 2) (k + 2)) →
      ∃ B : MatrixBase, (Matrix.mk (some m)).getMinorMatrix = some ⟨some B⟩ ∧ B.WF ∧
        B.getNumRows = k + 2 ∧ B.getNumColumns = k + 2 ∧
        B.isDenseBacked = m.isDenseBacked ∧
        ∀ r c : Fin (k + 2), B.getCell r c =
          (if m.isDenseBacked then id else mcu.flush)
            ((cellMatrix m.getCell (k + 2) (k + 2)).submatrix r.succAbove c.succAbove).det) ∧
    (Matrix.denseOfRows
        [[12, 23, 34, 45], [1, 2, 2, 3], [3, 4, 4, 5], [56, 67, 78, 89]]).getMinorMatrix
      = some (Matrix.denseOfRows [[22, 22, -22, -22], [484, 484, -484, -484],
          [484, 484, -484, -484], [22, 22, -22, -22]]) ∧
    (Matrix.sparseOfRows
        [[12, 23, 34, 45], [1, 2, 2, 3], [3, 4, 4, 5], [56, 67, 78, 89]]).getMinorMatrix
      = some (Matrix.sparseOfRows [[22, 22, -22, -22], [484, 484, -484, -484],
          [484, 484, -484, -484], [22, 22, -22, -22]]) := by
  refine ⟨?_, by decide!, ?_, by decide!, by decide!⟩
  · intro m hR hC
    cases m with
    | dense d =>
      obtain ⟨h1, h2⟩ := DenseMatrix.getMinorMatrix_one_by_one d hR hC
      constructor
      · show Matrix.mk ((d.getSubMatrix 0 0).map MatrixBase.dense) = Matrix.invalid
        rw [h1]
        rfl
      · show (d.getMinorMatrix.map MatrixBase.dense).map _ = none
        rw [h2]
        rfl
    | sparse s =>
      obtain ⟨h1, h2⟩ := SparseMatrix.sparse_getMinorMatrix_one_by_one s hR hC
      constructor
      · show Matrix.mk ((s.getSubMatrix 0 0).map MatrixBase.sparse) = Matrix.invalid
        rw [h1]
        rfl
      · show (s.getMinorMatrix.map MatrixBase.sparse).map _ = none
        rw [h2]
        rfl
  · intro k m hwf hR hC hcrisp
    cases m with
    | dense d =>
      obtain ⟨B, hB, hwfB, hRB, hCB, hcell⟩ := DenseMatrix.holds_getMinorMatrix k hwf hR hC
        (fun i j hi hj => hcrisp ⟨i, hi⟩ ⟨j, hj⟩)
      refine ⟨.dense B, ?_, hwfB, hRB, hCB, rfl, hcell⟩
      show (d.getMinorMatrix.map MatrixBase.dense).map _ = _
      rw [hB]
      rfl
    | sparse s =>
      obtain ⟨B, hB, hwfB, hRB, hCB, hcell⟩ :=
        SparseMatrix.sparse_holds_getMinorMatrix k hwf hR hC
      refine ⟨.sparse B, ?_, hwfB, hRB, hCB, rfl, hcell⟩
      show (s.getMinorMatrix.map MatrixBase.sparse).map _ = _
      rw [hB]
      rfl

/-- C25 (witness): the claim applied to the dense matrix [[5]], and to the dense matrix
[[1,2],[3,4]]. -/
theorem C25_getMinorMatrix_fails_on_one_by_one_witness :
    (MatrixBase.dense ⟨1, 1, [[5]]⟩).getNumRows = 1 ∧
    (MatrixBase.dense ⟨1, 1, [[5]]⟩).getNumColumns = 1 ∧
    (Matrix.mk (some (MatrixBase.dense ⟨1, 1, [[5]]⟩))).getMinorMatrix = none ∧
    (MatrixBase.dense ⟨2, 2, [[1, 2], [3, 4]]⟩).WF ∧
    mcu.CrispMatrix (cellMatrix (MatrixBase.dense ⟨2, 2, [[1, 2], [3, 4]]⟩).getCell 2 2) ∧
    ∃ B : MatrixBase,
      (Matrix.mk (some (MatrixBase.dense ⟨2, 2, [[1, 2], [3, 4]]⟩))).getMinorMatrix
        = some ⟨some B⟩ ∧ B.WF ∧ B.getNumRows = 2 ∧ B.getNumColumns = 2 ∧
      B.isDenseBacked = (MatrixBase.dense ⟨2, 2, [[1, 2], [3, 4]]⟩).isDenseBacked ∧
      ∀ r c : Fin 2, B.getCell r c =
        (if (MatrixBase.dense ⟨2, 2, [[1, 2], [3, 4]]⟩).isDenseBacked then id else mcu.flush)
          ((cellMatrix (MatrixBase.dense ⟨2, 2, [[1, 2], [3, 4]]⟩).getCell 2 2).submatrix
            r.succAbove c.succAbove).det := by
  have hA : (MatrixBase.dense ⟨2, 2, [[1, 2], [3, 4]]⟩).WF := by
    show DenseMatrix.WF _
    decide
  have hc : mcu.CrispMatrix
      (cellMatrix (MatrixBase.dense ⟨2, 2, [[1, 2], [3, 4]]⟩).getCell 2 2) := by
    unfold mcu.CrispMatrix
    decide!
  exact ⟨rfl, rfl,
    (C25_getMinorMatrix_fails_on_one_by_one.1 (MatrixBase.dense ⟨1, 1, [[5]]⟩) rfl rfl).2, hA, hc,
    C25_getMinorMatrix_fails_on_one_by_one.2.2.1 0 _ hA rfl rfl hc⟩

theorem mcu.almostEqual_one_zero : mcu.almostEqual 1 0 = false := by decide!

theorem mcu.crisp_one : mcu.Crisp 1 := Or.inr mcu.almostEqual_one_zero

namespace MatrixBase

/-- The branch of `getInverse` for a matrix with one row: the result is the 1×1 matrix
holding the determinant that was passed in. -/
theorem getInverse_one_row (m : MatrixBase) (d : ℚ) (hR : m.getNumRows = 1)
    (hd : mcu.almostEqual d 0 = false) :
    ∃ B : MatrixBase, m.getInverse (.fin d) = some (some B) ∧ B.WF ∧
      B.getNumRows = 1 ∧ B.getNumColumns = 1 ∧ B.getCell 0 0 = d := by
  have hguard : (mcu.doubleAlmostEqual (.fin d) (.fin 0) (.fin mcu.EPSILON)
      || mcu.doubleAlmostEqual (.fin d) .nan (.fin mcu.EPSILON)) = false := by
    have : mcu.doubleAlmostEqual (.fin d) (.fin 0) (.fin mcu.EPSILON) = false := hd
    rw [this]
    rfl
  cases m with
  | dense M =>
    have hR1 : M.getNumRows = 1 := hR
    refine ⟨.dense (DenseMatrix.new 1 1 d), ?_, DenseMatrix.WF_new 1 1 d, rfl, rfl, rfl⟩
    simp only [MatrixBase.getInverse, DenseMatrix.getInverse, hguard, hR1]
    rfl
  | sparse M =>
    have hR1 : M.getNumRows = 1 := hR
    have hcell : ((SparseMatrix.new 1 1).setCell 0 0 d).getCell 0 0 = d := by
      rw [SparseMatrix.sparse_getCell_setCell]
      simp [mcu.flush, hd]
    refine ⟨.sparse ((SparseMatrix.new 1 1).setCell 0 0 d), ?_,
      SparseMatrix.sparse_WF_setCell (SparseMatrix.sparse_WF_new 1 1) 0 0 d (by decide)
        (by decide),
      SparseMatrix.sparse_numRows_setCell _ _ _ _, SparseMatrix.sparse_numColumns_setCell _ _ _ _,
      hcell⟩
    simp only [MatrixBase.getInverse, SparseMatrix.getInverse, hguard, hR1]
    rfl

/-- The cells of an identity matrix, as a Mathlib matrix. -/
theorem cellMatrix_identity {m : MatrixBase} (n : Nat)
    (hcell : ∀ i j, i < n → j < n → m.getCell i j = if i = j then 1 else 0) :
    cellMatrix m.getCell n n = 1 := by
  ext i j
  simp only [cellMatrix, Matrix.of_apply, Matrix.one_apply]
  rw [hcell i j i.isLt j.isLt]
  by_cases h : i = j
  · simp [h]
  · have : ¬ (i : Nat) = (j : Nat) := fun hv => h (Fin.ext hv)
    simp [h, this]

theorem crispMatrix_one (n : Nat) : mcu.CrispMatrix (1 : QMat n n) := by
  intro i j
  rw [Matrix.one_apply]
  split
  · exact mcu.crisp_one
  · exact mcu.crisp_zero

/-- An identity matrix has determinant 1 and is its own inverse. -/
theorem identity_self_inverse {m : MatrixBase} (n : Nat) (hwf : m.WF)
    (hR : m.getNumRows = n + 1) (hC : m.getNumColumns = n + 1)
    (hcell : ∀ i j, i < n + 1 → j < n + 1 → m.getCell i j = if i = j then 1 else 0) :
    m.getDeterminant = 1 ∧
      ∃ B : MatrixBase, m.getInverse (.fin m.getDeterminant) = some (some B) ∧
        B.equal m = true := by
  have hone := cellMatrix_identity (n + 1) hcell
  have hdet : m.getDeterminant = 1 := by
    rw [base_getDeterminant_eq_det n hwf hR hC (by rw [hone]; exact crispMatrix_one _), hone,
      Matrix.det_one]
  refine ⟨hdet, ?_⟩
  rw [hdet]
  cases n with
  | zero =>
    obtain ⟨B, hB, hwfB, hRB, hCB, hcellB⟩ :=
      getInverse_one_row m 1 hR mcu.almostEqual_one_zero
    refine ⟨B, hB, ?_⟩
    rw [equal_iff hwfB hwf]
    refine ⟨hRB.trans hR.symm, hCB.trans hC.symm, ?_⟩
    intro r c hr hc
    rw [hRB] at hr
    rw [hCB] at hc
    have hr0 : r = 0 := by omega
    have hc0 : c = 0 := by omega
    subst hr0
    subst hc0
    rw [hcellB, hcell 0 0 (by omega) (by omega)]
    exact mcu.almostEqual_self _
  | succ k =>
    have hadj : (cellMatrix m.getCell (k + 2) (k + 2)).adjugate = 1 := by
      rw [hone, Matrix.adjugate_one]
    obtain ⟨B, hB, hwfB, hRB, hCB, hBcells⟩ := getInverse_spec k hwf hR hC 1
      mcu.almostEqual_one_zero (by rw [hone]; exact crispMatrix_one _)
      (by rw [hadj]; exact crispMatrix_one _)
      (by rw [hadj, inv_one, one_smul]; exact crispMatrix_one _)
    refine ⟨B, hB, ?_⟩
    rw [hadj, inv_one, one_smul, ← hone] at hBcells
    rw [equal_iff hwfB hwf]
    refine ⟨hRB.trans hR.symm, hCB.trans hC.symm, ?_⟩
    intro r c hr hc
    rw [hRB] at hr
    rw [hCB] at hc
    have := congrFun (congrFun hBcells ⟨r, hr⟩) ⟨c, hc⟩
    simp only [cellMatrix, Matrix.of_apply] at this
    rw [this]
    exact mcu.almostEqual_self _

end MatrixBase

namespace Matrix

/-- The matrix that `createIdentity(n)` builds: sparse-backed, well formed, n×n, with ones
on the diagonal and zeros elsewhere. -/
theorem createIdentity_spec (n : Nat) :
    ∃ S : SparseMatrix, createIdentity n = ⟨some (.sparse S)⟩ ∧
      SparseMatrix.Holds S n n (fun i j => if i = j then 1 else 0) := by
  have key := forLoop_invariant_idx
    (fun (d : Nat) (t : Matrix) => ∃ S : SparseMatrix, t = ⟨some (.sparse S)⟩ ∧
      SparseMatrix.Holds S n n (fun i j => if i = j ∧ i < d then 1 else 0))
    n (fun d identity => identity.setCell d d 1) (createZero n n)
    ⟨SparseMatrix.new n n, rfl, SparseMatrix.sparse_WF_new n n, rfl, rfl,
      fun i j _ _ => by simp [SparseMatrix.sparse_getCell_new]⟩
    (by
      intro d t hd ⟨S, hS, hH⟩
      refine ⟨S.setCell d d 1, by rw [hS]; rfl, ?_, ?_, ?_, ?_⟩
      · exact SparseMatrix.sparse_WF_setCell hH.wf d d 1 (by rw [hH.rows]; exact hd)
          (by rw [hH.cols]; exact hd)
      · rw [SparseMatrix.sparse_numRows_setCell]; exact hH.rows
      · rw [SparseMatrix.sparse_numColumns_setCell]; exact hH.cols
      · intro i j hi hj
        rw [SparseMatrix.sparse_getCell_setCell, hH.cell i j hi hj,
          mcu.flush_of_crisp mcu.crisp_one]
        by_cases h : (d, d) = (i, j)
        · have h1 : d = i := congrArg Prod.fst h
          have h2 : d = j := congrArg Prod.snd h
          have : i = j ∧ i < d + 1 := ⟨by omega, by omega⟩
          rw [if_pos h, if_pos this]
        · rw [if_neg h]
          by_cases hij : i = j
          · have hne : i ≠ d := by
              intro hid
              apply h
              rw [← hij, hid]
            have : (i = j ∧ i < d) ↔ (i = j ∧ i < d + 1) := by
              constructor
              · intro ⟨a, b⟩; exact ⟨a, by omega⟩
              · intro ⟨a, b⟩; exact ⟨a, by omega⟩
            simp only [this]
          · simp [hij])
  obtain ⟨S, hS, hH⟩ := key
  refine ⟨S, hS, hH.sparse_congr ?_⟩
  intro i j hi _
  by_cases hij : i = j
  · simp [hij, hij ▸ hi]
  · simp [hij]

end Matrix

/-- C26: an identity matrix is its own inverse: for every n ≥ 1 and every valid n×n matrix,
in either backend, with ones on the diagonal and zeros elsewhere, `getDeterminant()` is 1
and `getInverse(getDeterminant())` is a matrix that is == the original; `createIdentity(n)`
is such a matrix (sparse-backed), so it has determinant 1 and is == its inverse. -/
theorem C26_identity_self_inverse :
    (∀ (n : Nat) (m : MatrixBase), m.WF → m.getNumRows = n + 1 → m.getNumColumns = n + 1 →
      (∀ i j, i < n + 1 → j < n + 1 → m.getCell i j = if i = j then 1 else 0) →
      (Matrix.mk (some m)).getDeterminant = .fin 1 ∧
      ∃ R : Matrix,
        (Matrix.mk (some m)).getInverse (Matrix.mk (some m)).getDeterminant = some R ∧
        R.operatorEq ⟨some m⟩ = true) ∧
    (∀ n : Nat, (Matrix.createIdentity (n + 1)).isSparseBacked = true ∧
      (Matrix.createIdentity (n + 1)).getNumRows = n + 1 ∧
      (Matrix.createIdentity (n + 1)).getNumColumns = n + 1 ∧
      (∀ i j, i < n + 1 → j < n + 1 →
        (Matrix.createIdentity (n + 1)).getCell i j = .fin (if i = j then 1 else 0)) ∧
      (Matrix.createIdentity (n + 1)).getDeterminant = .fin 1 ∧
      ∃ R : Matrix,
        (Matrix.createIdentity (n + 1)).getInverse
          (Matrix.createIdentity (n + 1)).getDeterminant = some R ∧
        R.operatorEq (Matrix.createIdentity (n + 1)) = true) ∧
    (Matrix.denseOfRows [[1, 0, 0], [0, 1, 0], [0, 0, 1]]).getInverse
        (Matrix.denseOfRows [[1, 0, 0], [0, 1, 0], [0, 0, 1]]).getDeterminant
      = some (Matrix.denseOfRows [[1, 0, 0], [0, 1, 0], [0, 0, 1]]) ∧
    (Matrix.createIdentity 3).getInverse (Matrix.createIdentity 3).getDeterminant
      = some (Matrix.createIdentity 3) := by
  have gen : ∀ (n : Nat) (m : MatrixBase), m.WF → m.getNumRows = n + 1 →
      m.getNumColumns = n + 1 →
      (∀ i j, i < n + 1 → j < n + 1 → m.getCell i j = if i = j then 1 else 0) →
      (Matrix.mk (some m)).getDeterminant = .fin 1 ∧
      ∃ R : Matrix,
        (Matrix.mk (some m)).getInverse (Matrix.mk (some m)).getDeterminant = some R ∧
        R.operatorEq ⟨some m⟩ = true := by
    intro n m hwf hR hC hcell
    obtain ⟨hdet, B, hB, hEq⟩ := MatrixBase.identity_self_inverse n hwf hR hC hcell
    refine ⟨congrArg mcu.Double.fin hdet, ⟨some B⟩, ?_, hEq⟩
    show (m.getInverse (.fin m.getDeterminant)).map Matrix.mk = _
    rw [hB]
    rfl
  refine ⟨gen, ?_, by decide!, by decide!⟩
  intro n
  obtain ⟨S, hS, hH⟩ := Matrix.createIdentity_spec (n + 1)
  rw [hS]
  refine ⟨rfl, hH.rows, hH.cols, ?_, gen n (.sparse S) hH.wf hH.rows hH.cols hH.cell⟩
  intro i j hi hj
  exact congrArg mcu.Double.fin (hH.cell i j hi hj)

/-- C26 (witness): the claim applied to the dense 2×2 matrix with ones on the diagonal. -/
theorem C26_identity_self_inverse_witness :
    (MatrixBase.dense ⟨2, 2, [[1, 0], [0, 1]]⟩).WF ∧
    (∀ i j, i < 2 → j < 2 →
      (MatrixBase.dense ⟨2, 2, [[1, 0], [0, 1]]⟩).getCell i j = if i = j then 1 else 0) ∧
    (Matrix.mk (some (MatrixBase.dense ⟨2, 2, [[1, 0], [0, 1]]⟩))).getDeterminant = .fin 1 ∧
    ∃ R : Matrix,
      (Matrix.mk (some (MatrixBase.dense ⟨2, 2, [[1, 0], [0, 1]]⟩))).getInverse
        (Matrix.mk (some (MatrixBase.dense ⟨2, 2, [[1, 0], [0, 1]]⟩))).getDeterminant
          = some R ∧
      R.operatorEq ⟨some (MatrixBase.dense ⟨2, 2, [[1, 0], [0, 1]]⟩)⟩ = true := by
  have hA : (MatrixBase.dense ⟨2, 2, [[1, 0], [0, 1]]⟩).WF := by
    show DenseMatrix.WF _
    decide
  have hcell : ∀ i j, i < 2 → j < 2 →
      (MatrixBase.dense ⟨2, 2, [[1, 0], [0, 1]]⟩).getCell i j = if i = j then 1 else 0 := by
    intro i j hi hj
    interval_cases i <;> interval_cases j <;> decide!
  exact ⟨hA, hcell, C26_identity_self_inverse.1 1 _ hA rfl rfl hcell⟩

theorem forLoop_eq_foldl {σ : Type} (n : Nat) (body : Nat → σ → σ) (s : σ) :
    forLoop n body s = (List.range n).foldl (fun t i => body i t) s := by
  induction n with
  | zero => rfl
  | succ k ih => rw [forLoop_succ, List.range_succ, List.foldl_append, ← ih]; rfl

theorem foldl_max_ge (l : List Nat) (a : Nat) : a ≤ l.foldl max a ∧ ∀ x ∈ l, x ≤ l.foldl max a := by
  induction l generalizing a with
  | nil => exact ⟨le_refl _, fun _ h => by cases h⟩
  | cons y rest ih =>
    simp only [List.foldl_cons]
    obtain ⟨h1, h2⟩ := ih (max a y)
    refine ⟨le_trans (le_max_left a y) h1, ?_⟩
    intro x hx
    rcases List.mem_cons.mp hx with h | h
    · subst h
      exact le_trans (le_max_right a x) h1
    · exact h2 x h

/-- Every shown value of a column fits the width of the column. -/
theorem digits_le_printWidth (cell : Nat → Nat → ℚ) (R r c : Nat) (hr : r < R) :
    mcu.getNumDigitsOfIntegerPart (mcu.flush (cell r c)) true ≤ printWidth cell R c := by
  unfold printWidth
  apply (foldl_max_ge _ 0).2
  exact List.mem_map.mpr ⟨r, List.mem_range.mpr hr, rfl⟩

/-- The loop of `getColumnAlignmentMapForPrinting()` computes the width of the column. -/
theorem alignmentLoop_eq (cell : Nat → Nat → ℚ) (R c : Nat) :
    forLoop R (fun r maxDigits =>
      let value := cell r c
      let value := if mcu.almostEqual value 0 then 0 else value
      let numDigits := mcu.getNumDigitsOfIntegerPart value true
      if numDigits > maxDigits then numDigits else maxDigits) 0 = printWidth cell R c := by
  rw [forLoop_eq_foldl, printWidth, List.foldl_map]
  congr 1
  funext t i
  simp only [mcu.flush]
  by_cases h : mcu.getNumDigitsOfIntegerPart (if mcu.almostEqual (cell i c) 0 then 0 else cell i c)
      true > t
  · rw [if_pos h, max_eq_right (le_of_lt h)]
  · rw [if_neg h, max_eq_left (not_lt.mp h)]

/-- The padding loop appends that many spaces. -/
theorem padLoop_eq (k : Nat) (s : String) :
    forLoop k (fun _ sst => sst ++ " ") s = s ++ String.mk (List.replicate k (Char.ofNat 32)) := by
  induction k with
  | zero =>
    rw [forLoop_zero]
    apply String.ext
    simp
  | succ n ih =>
    rw [forLoop_succ, ih]
    apply String.ext
    simp only [String.data_append, List.replicate_succ', List.append_assoc]

theorem intercalate_go_snoc (s : String) (l : List String) (acc a : String) :
    String.intercalate.go acc s (l ++ [a]) = String.intercalate.go acc s l ++ s ++ a := by
  induction l generalizing acc with
  | nil => rfl
  | cons x rest ih =>
    simp only [List.cons_append, String.intercalate.go]
    exact ih _

theorem intercalate_snoc (s : String) (l : List String) (a : String) (hl : l ≠ []) :
    s.intercalate (l ++ [a]) = s.intercalate l ++ s ++ a := by
  cases l with
  | nil => exact absurd rfl hl
  | cons x rest =>
    simp only [List.cons_append, String.intercalate]
    exact intercalate_go_snoc s rest x a

theorem join_snoc (l : List String) (a : String) :
    String.join (l ++ [a]) = String.join l ++ a := by
  simp [String.join, List.foldl_append]

/-- The body of the cell loop of `getPrintStr` appends one cell text, after a space when the
cell is not the first of its row and before a comma when it is not the last. -/
theorem printCell_eq (cell : Nat → Nat → ℚ) (R C precision r c : Nat) (sst : String) :
    (let sst := if c ≠ 0 then sst ++ " " else sst
      let value := cell r c
      let value := if mcu.almostEqual value 0 then 0 else value
      let intPartLength := mcu.getNumDigitsOfIntegerPart value true
      let maxIntPartLength := printWidth cell R c
      let sst := forLoop (maxIntPartLength - intPartLength) (fun _ sst => sst ++ " ") sst
      let sst := sst ++ mcu.formatFixed precision value
      if c ≠ C - 1 then sst ++ "," else sst)
    = sst ++ ((if c ≠ 0 then " " else "") ++ printCellText cell R precision r c
        ++ (if c ≠ C - 1 then "," else "")) := by
  simp only [padLoop_eq, printCellText, mcu.flush]
  by_cases h0 : c ≠ 0
  · by_cases h1 : c ≠ C - 1
    · simp only [if_pos h0, if_pos h1, String.append_assoc]
    · simp only [if_pos h0, if_neg h1, String.append_assoc, String.append_empty]
  · by_cases h1 : c ≠ C - 1
    · simp only [if_neg h0, if_pos h1, String.append_assoc, String.empty_append]
    · simp only [if_neg h0, if_neg h1, String.append_assoc, String.append_empty,
        String.empty_append]

/-- The cell loop of `getPrintStr` over the first `k` cells of a row. -/
theorem printRow_upTo (cell : Nat → Nat → ℚ) (R C precision r : Nat) (sst : String) (k : Nat)
    (hk : k ≤ C) :
    forLoop k (fun c sst =>
      let sst := if c ≠ 0 then sst ++ " " else sst
      let value := cell r c
      let value := if mcu.almostEqual value 0 then 0 else value
      let intPartLength := mcu.getNumDigitsOfIntegerPart value true
      let maxIntPartLength := printWidth cell R c
      let sst := forLoop (maxIntPartLength - intPartLength) (fun _ sst => sst ++ " ") sst
      let sst := sst ++ mcu.formatFixed precision value
      if c ≠ C - 1 then sst ++ "," else sst) sst
    = sst ++ (", ".intercalate ((List.range k).map fun c => printCellText cell R precision r c)
        ++ (if 0 < k ∧ k < C then "," else "")) := by
  induction k with
  | zero =>
    rw [forLoop_zero]
    simp [String.intercalate]
  | succ n ih =>
    rw [forLoop_succ, ih (by omega), printCell_eq, List.range_succ, List.map_append,
      List.map_singleton]
    by_cases hn : n = 0
    · subst hn
      have hC : (0 ≠ C - 1) ↔ (0 < 0 + 1 ∧ 0 + 1 < C) := by omega
      by_cases hc : 0 ≠ C - 1
      · have hc2 : 0 < 0 + 1 ∧ 0 + 1 < C := hC.mp hc
        simp only [List.range_zero, List.map_nil, List.nil_append, String.intercalate,
          String.intercalate.go, lt_self_iff_false, false_and, if_false, ne_eq,
          not_true_eq_false, String.append_empty, String.empty_append, if_pos hc, if_pos hc2]
      · have hc2 : ¬ (0 < 0 + 1 ∧ 0 + 1 < C) := fun h => hc (hC.mpr h)
        simp only [List.range_zero, List.map_nil, List.nil_append, String.intercalate,
          String.intercalate.go, lt_self_iff_false, false_and, if_false, ne_eq,
          not_true_eq_false, String.append_empty, String.empty_append, if_neg hc, if_neg hc2]
    · have hpos : 0 < n ∧ n < C := ⟨Nat.pos_of_ne_zero hn, by omega⟩
      have hne : (List.range n).map (fun c => printCellText cell R precision r c) ≠ [] := by
        intro h
        have := congrArg List.length h
        simp at this
        exact hn this
      rw [intercalate_snoc _ _ _ hne, if_pos hpos, if_pos hn]
      have hC : (n ≠ C - 1) ↔ (0 < n + 1 ∧ n + 1 < C) := by omega
      have hsep : "," ++ " " = ", " := rfl
      by_cases hc : n ≠ C - 1
      · rw [if_pos hc, if_pos (hC.mp hc)]
        simp only [String.append_assoc]
        rw [← String.append_assoc "," " ", hsep]
      · rw [if_neg hc, if_neg (fun h => hc (hC.mpr h))]
        simp only [String.append_assoc, String.append_empty]
        rw [← String.append_assoc "," " ", hsep]

/-- The two nested loops of `getPrintStr`, on any reader of cells, produce the print
layout. -/
theorem printLoop_eq (cell : Nat → Nat → ℚ) (R C precision : Nat) :
    forLoop R (fun r sst =>
      forLoop C (fun c sst =>
        let sst := if c ≠ 0 then sst ++ " " else sst
        let value := cell r c
        let value := if mcu.almostEqual value 0 then 0 else value
        let intPartLength := mcu.getNumDigitsOfIntegerPart value true
        let maxIntPartLength := printWidth cell R c
        let sst := forLoop (maxIntPartLength - intPartLength) (fun _ sst => sst ++ " ") sst
        let sst := sst ++ mcu.formatFixed precision value
        if c ≠ C - 1 then sst ++ "," else sst) sst ++ "\n") ""
    = printLayout cell R C precision := by
  have hrow : ∀ r sst, forLoop C (fun c sst =>
        let sst := if c ≠ 0 then sst ++ " " else sst
        let value := cell r c
        let value := if mcu.almostEqual value 0 then 0 else value
        let intPartLength := mcu.getNumDigitsOfIntegerPart value true
        let maxIntPartLength := printWidth cell R c
        let sst := forLoop (maxIntPartLength - intPartLength) (fun _ sst => sst ++ " ") sst
        let sst := sst ++ mcu.formatFixed precision value
        if c ≠ C - 1 then sst ++ "," else sst) sst ++ "\n"
      = sst ++ (", ".intercalate
          ((List.range C).map fun c => printCellText cell R precision r c) ++ "\n") := by
    intro r sst
    rw [printRow_upTo cell R C precision r sst C (le_refl _)]
    have : ¬ (0 < C ∧ C < C) := by omega
    rw [if_neg this, String.append_empty, String.append_assoc]
  simp only [hrow]
  unfold printLayout
  generalize R = R0 at *
  have hgen : ∀ n, forLoop n (fun r sst => sst ++ (", ".intercalate
      ((List.range C).map fun c => printCellText cell R0 precision r c) ++ "\n")) ""
      = String.join ((List.range n).map fun r => ", ".intercalate
        ((List.range C).map fun c => printCellText cell R0 precision r c) ++ "\n") := by
    intro n
    induction n with
    | zero => rfl
    | succ k ih =>
      rw [forLoop_succ, ih, List.range_succ, List.map_append, List.map_singleton,
        join_snoc]
  exact hgen R0

namespace DenseMatrix

theorem getPrintStr_eq_layout (M : DenseMatrix) (precision : Nat) :
    M.getPrintStr precision = printLayout M.getCell M.numRows M.numColumns precision := by
  rw [← printLoop_eq]
  unfold getPrintStr getColumnAlignmentMapForPrinting
  simp only [getNumRows, getNumColumns, alignmentLoop_eq]

end DenseMatrix

namespace SparseMatrix

theorem sparse_getPrintStr_eq_layout (M : SparseMatrix) (precision : Nat) :
    M.getPrintStr precision = printLayout M.getCell M.numRows M.numColumns precision := by
  rw [← printLoop_eq]
  unfold getPrintStr getColumnAlignmentMapForPrinting
  simp only [getNumRows, getNumColumns, alignmentLoop_eq]

end SparseMatrix

/-- The length of a cell text whose fixed notation has `extra` characters more than the
integer part has digits: the width of the column plus `extra`. -/
theorem printCellText_length (cell : Nat → Nat → ℚ) (R precision r c extra : Nat) (hr : r < R)
    (h : (mcu.formatFixed precision (mcu.flush (cell r c))).length
      = mcu.getNumDigitsOfIntegerPart (mcu.flush (cell r c)) true + extra) :
    (printCellText cell R precision r c).length = printWidth cell R c + extra := by
  have hle := digits_le_printWidth cell R r c hr
  unfold printCellText
  rw [String.length_append, String.length_mk, List.length_replicate, h]
  omega

theorem mcu.roundHalfEven_zero : mcu.roundHalfEven 0 = 0 := by decide!

/-- The fixed notation of zero: no sign, the digit 0 and, for a precision that is not 0,
the point and that many zeros. -/
theorem mcu.formatFixed_zero (precision : Nat) :
    mcu.formatFixed precision 0
      = if precision = 0 then "0"
        else "0." ++ String.mk (List.replicate precision (Char.ofNat 48)) := by
  unfold mcu.formatFixed
  simp only [abs_zero, zero_mul, mcu.roundHalfEven_zero, lt_self_iff_false, if_false,
    Nat.zero_div, Nat.zero_mod]
  by_cases hp : precision = 0
  · rw [if_pos hp, if_pos hp]
    rfl
  · rw [if_neg hp, if_neg hp]
    obtain ⟨k, rfl⟩ := Nat.exists_eq_succ_of_ne_zero hp
    unfold mcu.zeroPadded
    apply String.ext
    have h0 : (toString (0 : Nat)) = "0" := rfl
    simp only [h0, String.data_append, List.replicate_succ']
    rfl

/-- The text of a cell within tolerance of zero: the padding and the fixed notation of
zero. -/
theorem printCellText_zero (cell : Nat → Nat → ℚ) (R precision r c : Nat)
    (h : mcu.almostEqual (cell r c) 0 = true) :
    printCellText cell R precision r c
      = String.mk (List.replicate (printWidth cell R c - 1) (Char.ofNat 32))
        ++ (if precision = 0 then "0"
          else "0." ++ String.mk (List.replicate precision (Char.ofNat 48))) := by
  have hd : mcu.getNumDigitsOfIntegerPart 0 true = 1 := by decide!
  unfold printCellText
  simp only [mcu.flush, h, if_true, hd, mcu.formatFixed_zero]

theorem MatrixBase.base_getPrintStr_eq_layout (m : MatrixBase) (precision : Nat) :
    m.getPrintStr precision = printLayout m.getCell m.getNumRows m.getNumColumns precision := by
  cases m with
  | dense d => exact DenseMatrix.getPrintStr_eq_layout d precision
  | sparse s => exact SparseMatrix.sparse_getPrintStr_eq_layout s precision

/-- C29 (failing input and what holds): on the 2×1 matrix [[9.96875],[1]] at precision 1,
in both backends, `getPrintStr` returns the lines "10.0" and "1.0": the cell texts of the
column have 4 and 3 characters, because the padding counts the integer-part digits of the
value before it is rounded.  What holds for every valid matrix and precision: the result is
the print layout (one newline-terminated line per row, the cell texts separated by a comma
and a space, each the fixed notation of the shown value padded on the left up to the
integer-part width of its column), a cell within tolerance of 0 is shown as the fixed
notation of 0, without a sign, and the cell texts of a column have the same length whenever
their fixed notations exceed their integer-part digit counts by the same number of
characters; the two matrices of the unit test print as expected. -/
theorem C29_getPrintStr_misaligned_by_rounding :
    ((Matrix.denseOfRows [[319 / 32], [1]]).getPrintStr 1 = "10.0\n1.0\n" ∧
      (Matrix.sparseOfRows [[319 / 32], [1]]).getPrintStr 1 = "10.0\n1.0\n" ∧
      (printCellText (DenseMatrix.getCell ⟨2, 1, [[319 / 32], [1]]⟩) 2 1 0 0).length = 4 ∧
      (printCellText (DenseMatrix.getCell ⟨2, 1, [[319 / 32], [1]]⟩) 2 1 1 0).length = 3) ∧
    (∀ (m : MatrixBase) (precision : Nat),
      (Matrix.mk (some m)).getPrintStr precision
        = printLayout m.getCell m.getNumRows m.getNumColumns precision) ∧
    (∀ (cell : Nat → Nat → ℚ) (R precision r c : Nat), mcu.almostEqual (cell r c) 0 = true →
      printCellText cell R precision r c
        = String.mk (List.replicate (printWidth cell R c - 1) (Char.ofNat 32))
          ++ (if precision = 0 then "0"
            else "0." ++ String.mk (List.replicate precision (Char.ofNat 48)))) ∧
    (∀ (cell : Nat → Nat → ℚ) (R precision c extra : Nat),
      (∀ r, r < R → (mcu.formatFixed precision (mcu.flush (cell r c))).length
        = mcu.getNumDigitsOfIntegerPart (mcu.flush (cell r c)) true + extra) →
      ∀ r, r < R → (printCellText cell R precision r c).length = printWidth cell R c + extra) ∧
    (Matrix.denseOfRows
        [[10092 / 100, 5, 4802 / 100], [0, 6, 7], [1711 / 100, 5555 / 100, 102 / 100]]).getPrintStr
      2 = "100.92,  5.00, 48.02\n  0.00,  6.00,  7.00\n 17.11, 55.55,  1.02\n" ∧
    (Matrix.sparseOfRows
        [[10092 / 100, 5, 4802 / 100], [0, 6, 7], [1711 / 100, 5555 / 100, 102 / 100]]).getPrintStr
      2 = "100.92,  5.00, 48.02\n  0.00,  6.00,  7.00\n 17.11, 55.55,  1.02\n" ∧
    (Matrix.sparseOfRows [[1, 2, -3, 0, 1], [0, -3, 3, 1, -2], [0, 0, 0, 67 / 100, 167 / 100],
        [0, 0, 4, 0, 0]]).getPrintStr 2
      = "1.00,  2.00, -3.00, 0.00,  1.00\n0.00, -3.00,  3.00, 1.00, -2.00\n0.00,  0.00,  0.00, 0.67,  1.67\n0.00,  0.00,  4.00, 0.00,  0.00\n" := by
  refine ⟨⟨by decide!, by decide!, by decide!, by decide!⟩, ?_, ?_, ?_, by decide!, by decide!,
    by decide!⟩
  · intro m precision
    exact MatrixBase.base_getPrintStr_eq_layout m precision
  · intro cell R precision r c h
    exact printCellText_zero cell R precision r c h
  · intro cell R precision c extra h r hr
    exact printCellText_length cell R precision r c extra hr (h r hr)

/-- C29 (witness): the claim applied to the column of the dense matrix [[1],[20],[0]] at
precision 1: the fixed notations "1.0", "20.0" and "0.0" exceed the digit counts 1, 2 and 1
by two characters, so every cell text has 4 characters, and the cell 0 is shown as "0.0"
after one space. -/
theorem C29_getPrintStr_misaligned_by_rounding_witness :
    mcu.almostEqual (DenseMatrix.getCell ⟨3, 1, [[1], [20], [0]]⟩ 2 0) 0 = true ∧
    printCellText (DenseMatrix.getCell ⟨3, 1, [[1], [20], [0]]⟩) 3 1 2 0
      = String.mk (List.replicate
          (printWidth (DenseMatrix.getCell ⟨3, 1, [[1], [20], [0]]⟩) 3 0 - 1) (Char.ofNat 32))
        ++ (if 1 = 0 then "0" else "0." ++ String.mk (List.replicate 1 (Char.ofNat 48))) ∧
    (∀ r, r < 3 →
      (mcu.formatFixed 1 (mcu.flush (DenseMatrix.getCell ⟨3, 1, [[1], [20], [0]]⟩ r 0))).length
        = mcu.getNumDigitsOfIntegerPart
            (mcu.flush (DenseMatrix.getCell ⟨3, 1, [[1], [20], [0]]⟩ r 0)) true + 2) ∧
    (∀ r, r < 3 →
      (printCellText (DenseMatrix.getCell ⟨3, 1, [[1], [20], [0]]⟩) 3 1 r 0).length
        = printWidth (DenseMatrix.getCell ⟨3, 1, [[1], [20], [0]]⟩) 3 0 + 2) := by
  have h0 : mcu.almostEqual (DenseMatrix.getCell ⟨3, 1, [[1], [20], [0]]⟩ 2 0) 0 = true := by
    decide!
  have hlen : ∀ r, r < 3 →
      (mcu.formatFixed 1 (mcu.flush (DenseMatrix.getCell ⟨3, 1, [[1], [20], [0]]⟩ r 0))).length
        = mcu.getNumDigitsOfIntegerPart
            (mcu.flush (DenseMatrix.getCell ⟨3, 1, [[1], [20], [0]]⟩ r 0)) true + 2 := by
    intro r hr
    interval_cases r <;> decide!
  exact ⟨h0, C29_getPrintStr_misaligned_by_rounding.2.2.1 _ 3 1 2 0 h0, hlen,
    C29_getPrintStr_misaligned_by_rounding.2.2.2.1 _ 3 1 0 2 hlen⟩

/-- The loop of `getNumDigitsOfIntegerPart` adds the number of decimal digits of `n` to the
counter, when it is given at least `n` rounds. -/
theorem mcu.countDigitsLoop_eq (n : Nat) : ∀ fuel k, n ≤ fuel →
    mcu.countDigitsLoop fuel n k = k + (Nat.digits 10 n).length := by
  induction n using Nat.strong_induction_on with
  | _ n ih =>
    intro fuel k hf
    cases fuel with
    | zero =>
      have : n = 0 := by omega
      subst this
      simp [mcu.countDigitsLoop]
    | succ f =>
      rw [mcu.countDigitsLoop]
      by_cases hn : n = 0
      · subst hn
        simp
      · rw [if_neg hn]
        have hlt : n / 10 < n := Nat.div_lt_self (Nat.pos_of_ne_zero hn) (by norm_num)
        rw [ih (n / 10) hlt f (k + 1) (by omega),
          Nat.digits_def' (by norm_num : 1 < 10) (Nat.pos_of_ne_zero hn)]
        simp only [List.length_cons]
        omega

/-- The digit count of `getNumDigitsOfIntegerPart` in terms of the integer part of |x|. -/
theorem mcu.getNumDigitsOfIntegerPart_eq (x : ℚ) (includeNegativeSign : Bool) :
    mcu.getNumDigitsOfIntegerPart x includeNegativeSign
      = (if |x| < 1 then 1 else (Nat.digits 10 ⌊|x|⌋₊).length)
        + (if includeNegativeSign = true ∧ x < 0 then 1 else 0) := by
  have habs : (if x < 0 then -x else x) = |x| := by
    split
    · rename_i h
      rw [abs_of_neg h]
    · rename_i h
      rw [abs_of_nonneg (not_lt.mp h)]
  have hfloor : (Rat.floor |x|).toNat = ⌊|x|⌋₊ := by
    rw [← Int.floor_toNat]
    rfl
  unfold mcu.getNumDigitsOfIntegerPart
  simp only [habs, hfloor]
  rw [mcu.countDigitsLoop_eq _ _ _ (le_refl _), Nat.zero_add]
  have hcount : (if (Nat.digits 10 ⌊|x|⌋₊).length = 0 then 1 else (Nat.digits 10 ⌊|x|⌋₊).length)
      = if |x| < 1 then 1 else (Nat.digits 10 ⌊|x|⌋₊).length := by
    by_cases h1 : |x| < 1
    · have h0 : ⌊|x|⌋₊ = 0 := Nat.floor_eq_zero.mpr h1
      simp [h1, h0]
    · have h0 : ⌊|x|⌋₊ ≠ 0 := fun h => h1 (Nat.floor_eq_zero.mp h)
      have hlen : (Nat.digits 10 ⌊|x|⌋₊).length ≠ 0 := by
        rw [Nat.digits_len 10 _ (by norm_num) h0]
        omega
      rw [if_neg hlen, if_neg h1]
  rw [hcount]
  by_cases hs : includeNegativeSign = true ∧ x < 0
  · have : (includeNegativeSign && decide (x < 0)) = true := by simp [hs.1, hs.2]
    rw [if_pos this, if_pos hs]
  · have : ¬ (includeNegativeSign && decide (x < 0)) = true := by
      intro h
      simp only [Bool.and_eq_true, decide_eq_true_eq] at h
      exact hs h
    rw [if_neg this, if_neg hs, Nat.add_zero]

/-- C31: for every x with |x| < 2^63, `getNumDigitsOfIntegerPart(x, includeSign)` is the
number of base-10 digits of the integer part of |x| (1 when |x| < 1), plus 1 when includeSign
is true and x < 0; the number d of digits of an integer part that is not 0 is the one with
10^(d-1) ≤ |x| < 10^d; e.g. 100.92 has 3 digits and -3 has 2 with the sign and 1 without. -/
theorem C31_getNumDigitsOfIntegerPart_counts_digits :
    (∀ (x : ℚ) (includeSign : Bool), |x| < 2 ^ 63 →
      mcu.getNumDigitsOfIntegerPart x includeSign
        = (if |x| < 1 then 1 else (Nat.digits 10 ⌊|x|⌋₊).length)
          + (if includeSign = true ∧ x < 0 then 1 else 0)) ∧
    (∀ x : ℚ, |x| < 2 ^ 63 → 1 ≤ |x| →
      (10 : ℚ) ^ (mcu.getNumDigitsOfIntegerPart x false - 1) ≤ |x| ∧
      |x| < (10 : ℚ) ^ mcu.getNumDigitsOfIntegerPart x false) ∧
    mcu.getNumDigitsOfIntegerPart (10092 / 100) true = 3 ∧
    mcu.getNumDigitsOfIntegerPart (-3) true = 2 ∧
    mcu.getNumDigitsOfIntegerPart (-3) false = 1 ∧
    mcu.getNumDigitsOfIntegerPart 0 true = 1 ∧
    mcu.getNumDigitsOfIntegerPart (-1 / 2) true = 2 := by
  refine ⟨fun x s _ => mcu.getNumDigitsOfIntegerPart_eq x s, ?_, by decide!, by decide!,
    by decide!, by decide!, by decide!⟩
  intro x _ h1
  rw [mcu.getNumDigitsOfIntegerPart_eq]
  have hn1 : ¬ |x| < 1 := not_lt.mpr h1
  have h0 : ⌊|x|⌋₊ ≠ 0 := fun h => hn1 (Nat.floor_eq_zero.mp h)
  simp only [if_neg hn1, Bool.false_eq_true, false_and, if_false, Nat.add_zero]
  rw [Nat.digits_len 10 _ (by norm_num) h0, Nat.add_sub_cancel]
  constructor
  · have hle : 10 ^ Nat.log 10 ⌊|x|⌋₊ ≤ ⌊|x|⌋₊ := Nat.pow_log_le_self 10 h0
    have hfl : ((⌊|x|⌋₊ : ℕ) : ℚ) ≤ |x| := Nat.floor_le (abs_nonneg x)
    calc (10 : ℚ) ^ Nat.log 10 ⌊|x|⌋₊ = ((10 ^ Nat.log 10 ⌊|x|⌋₊ : ℕ) : ℚ) := by push_cast; rfl
      _ ≤ ((⌊|x|⌋₊ : ℕ) : ℚ) := by exact_mod_cast hle
      _ ≤ |x| := hfl
  · have hlt : ⌊|x|⌋₊ < 10 ^ (Nat.log 10 ⌊|x|⌋₊ + 1) :=
      Nat.lt_pow_succ_log_self (by norm_num) _
    have hfl : |x| < ((10 ^ (Nat.log 10 ⌊|x|⌋₊ + 1) : ℕ) : ℚ) := by
      rw [← Nat.floor_lt (abs_nonneg x)]
      exact hlt
    calc |x| < ((10 ^ (Nat.log 10 ⌊|x|⌋₊ + 1) : ℕ) : ℚ) := hfl
      _ = (10 : ℚ) ^ (Nat.log 10 ⌊|x|⌋₊ + 1) := by push_cast; rfl

/-- C31 (witness): the claim applied to x = -12.5, which has two digits and a sign. -/
theorem C31_getNumDigitsOfIntegerPart_counts_digits_witness :
    |(-25 / 2 : ℚ)| < 2 ^ 63 ∧ (1 : ℚ) ≤ |(-25 / 2 : ℚ)| ∧
    mcu.getNumDigitsOfIntegerPart (-25 / 2) true
      = (if |(-25 / 2 : ℚ)| < 1 then 1 else (Nat.digits 10 ⌊|(-25 / 2 : ℚ)|⌋₊).length)
        + (if true = true ∧ (-25 / 2 : ℚ) < 0 then 1 else 0) ∧
    (10 : ℚ) ^ (mcu.getNumDigitsOfIntegerPart (-25 / 2) false - 1) ≤ |(-25 / 2 : ℚ)| ∧
    |(-25 / 2 : ℚ)| < (10 : ℚ) ^ mcu.getNumDigitsOfIntegerPart (-25 / 2) false := by
  have h1 : |(-25 / 2 : ℚ)| < 2 ^ 63 := by
    rw [abs_of_neg (by norm_num)]
    norm_num
  have h2 : (1 : ℚ) ≤ |(-25 / 2 : ℚ)| := by
    rw [abs_of_neg (by norm_num)]
    norm_num
  exact ⟨h1, h2, C31_getNumDigitsOfIntegerPart_counts_digits.1 _ true h1,
    C31_getNumDigitsOfIntegerPart_counts_digits.2.1 _ h1 h2⟩

namespace DenseMatrix

/-- The sub-matrix that the Laplace step builds for column `c` of a square matrix with at
least three rows holds the cells of the matrix without row 0 and column `c`. -/
theorem cellMatrix_determinantSubMatrix {M : DenseMatrix} (k : Nat) (hR : M.numRows = k + 3)
    (hC : M.numColumns = k + 3) (c : Fin (k + 3)) :
    (M.determinantSubMatrix c).WF ∧ (M.determinantSubMatrix c).numRows = k + 2 ∧
      (M.determinantSubMatrix c).numColumns = k + 2 ∧
      (∀ i j, i < k + 2 → j < k + 2 → (M.determinantSubMatrix c).getCell i j
        = M.getCell (i + 1) (if j < (c : Nat) then j else j + 1)) ∧
      cellMatrix (M.determinantSubMatrix c).getCell (k + 2) (k + 2) =
        (cellMatrix M.getCell (k + 3) (k + 3)).submatrix Fin.succ c.succAbove := by
  have hc : (c : Nat) < M.numColumns := by rw [hC]; exact c.2
  have hsub := isBlock_determinantSubMatrix M c (by omega) hc (by omega)
  have hR' : M.numRows - 1 = k + 2 := by omega
  have hC' : M.numColumns - 1 = k + 2 := by omega
  rw [hR', hC'] at hsub
  refine ⟨hsub.wf, hsub.rows, hsub.cols, hsub.cell, ?_⟩
  ext i j
  simp only [cellMatrix, Matrix.of_apply, Matrix.submatrix_apply]
  rw [hsub.cell i j i.2 j.2]
  congr 1
  simp only [Fin.succAbove, Fin.lt_def, Fin.coe_castSucc]
  split <;> simp

end DenseMatrix

/-- C32: for every valid square dense n×n matrix (n ≥ 1) whose cells are each exactly 0 or
not within tolerance of 0, `getDeterminant()` is the determinant of the matrix (Mathlib's
Leibniz determinant), arithmetic being exact: a 1×1 matrix gives its cell, a 2×2 matrix
ad - bc, and from three rows on the value is the full Laplace expansion along row 0, with
sign + for even and - for odd columns, over the values that `getDeterminant()` gives on the
sub-matrices, so the skipped cells drop only zero terms. -/
theorem C32_dense_getDeterminant_is_det :
    (∀ (n : Nat) (M : DenseMatrix), M.WF → M.numRows = n + 1 → M.numColumns = n + 1 →
      mcu.CrispMatrix (cellMatrix M.getCell (n + 1) (n + 1)) →
      M.getDeterminant = (cellMatrix M.getCell (n + 1) (n + 1)).det ∧
      (Matrix.mk (some (.dense M))).getDeterminant
        = .fin (cellMatrix M.getCell (n + 1) (n + 1)).det) ∧
    (∀ M : DenseMatrix, M.numRows = 1 → M.getDeterminant = M.getCell 0 0) ∧
    (∀ M : DenseMatrix, M.numRows = 2 →
      M.getDeterminant = M.getCell 0 0 * M.getCell 1 1 - M.getCell 0 1 * M.getCell 1 0) ∧
    (∀ (k : Nat) (M : DenseMatrix), M.WF → M.numRows = k + 3 → M.numColumns = k + 3 →
      mcu.CrispMatrix (cellMatrix M.getCell (k + 3) (k + 3)) →
      M.getDeterminant = ∑ c : Fin (k + 3),
        (-1) ^ (c : Nat) * M.getCell 0 c * (M.determinantSubMatrix c).getDeterminant) := by
  refine ⟨?_, ?_, ?_, ?_⟩
  · intro n M hwf hR hC hcrisp
    have h := DenseMatrix.getDeterminant_eq_det n hwf hR hC
      (fun i j hi hj => hcrisp ⟨i, hi⟩ ⟨j, hj⟩)
    exact ⟨h, congrArg mcu.Double.fin h⟩
  · intro M hR
    simp [DenseMatrix.getDeterminant, DenseMatrix.getDeterminantAux, hR]
  · intro M hR
    simp [DenseMatrix.getDeterminant, DenseMatrix.getDeterminantAux, hR]
  · intro k M hwf hR hC hcrisp
    rw [DenseMatrix.getDeterminant_eq_det (k + 2) hwf hR hC
      (fun i j hi hj => hcrisp ⟨i, hi⟩ ⟨j, hj⟩), Matrix.det_succ_row_zero]
    refine Finset.sum_congr rfl ?_
    intro c _
    obtain ⟨swf, sR, sC, scell, smat⟩ := DenseMatrix.cellMatrix_determinantSubMatrix k hR hC c
    have hsubdet := DenseMatrix.getDeterminant_eq_det (k + 1) swf sR sC (by
      intro i j hi hj
      rw [scell i j hi hj]
      have hj2 : (if j < (c : Nat) then j else j + 1) < k + 3 := by split <;> omega
      exact hcrisp ⟨i + 1, by omega⟩ ⟨_, hj2⟩)
    rw [hsubdet, smat]
    simp [cellMatrix]

/-- C32 (witness): the claim applied to the dense matrix [[12,1,2],[3,4,5],[6,7,8]], whose
determinant is -36. -/
theorem C32_dense_getDeterminant_is_det_witness :
    (DenseMatrix.WF ⟨3, 3, [[12, 1, 2], [3, 4, 5], [6, 7, 8]]⟩) ∧
    mcu.CrispMatrix
      (cellMatrix (DenseMatrix.getCell ⟨3, 3, [[12, 1, 2], [3, 4, 5], [6, 7, 8]]⟩) 3 3) ∧
    DenseMatrix.getDeterminant ⟨3, 3, [[12, 1, 2], [3, 4, 5], [6, 7, 8]]⟩
      = (cellMatrix (DenseMatrix.getCell ⟨3, 3, [[12, 1, 2], [3, 4, 5], [6, 7, 8]]⟩) 3 3).det ∧
    DenseMatrix.getDeterminant ⟨3, 3, [[12, 1, 2], [3, 4, 5], [6, 7, 8]]⟩
      = ∑ c : Fin 3, (-1) ^ (c : Nat)
        * DenseMatrix.getCell ⟨3, 3, [[12, 1, 2], [3, 4, 5], [6, 7, 8]]⟩ 0 c
        * (DenseMatrix.determinantSubMatrix ⟨3, 3, [[12, 1, 2], [3, 4, 5], [6, 7, 8]]⟩
            c).getDeterminant ∧
    DenseMatrix.getDeterminant ⟨3, 3, [[12, 1, 2], [3, 4, 5], [6, 7, 8]]⟩ = -36 := by
  have hA : DenseMatrix.WF ⟨3, 3, [[12, 1, 2], [3, 4, 5], [6, 7, 8]]⟩ := by decide
  have hc : mcu.CrispMatrix
      (cellMatrix (DenseMatrix.getCell ⟨3, 3, [[12, 1, 2], [3, 4, 5], [6, 7, 8]]⟩) 3 3) := by
    unfold mcu.CrispMatrix
    decide!
  exact ⟨hA, hc, (C32_dense_getDeterminant_is_det.1 2 _ hA rfl rfl hc).1,
    C32_dense_getDeterminant_is_det.2.2.2 0 _ hA rfl rfl hc, by decide!⟩

/-- C33 (failing input): for A = [[2]] and b = [2] the augmented matrix after the backward
phase of `solveFor` is [[2, 2]]: the pivot of the first row is 2, not 1.  For
A = [[2,4],[1,4]], b = [2,2] it is [[2,0,0],[0,1,1/2]]: the pivot of the second row is 1 and
the entry above it is 0, but the first row still has the pivot 2.  Both backends run the
same elimination.  On the system of the unit test the first pivot is 1 from the start. -/
theorem C33_solveFor_backward_leaves_first_pivot :
    MatrixBase.eliminated (.dense ⟨1, 1, [[2]]⟩) (.dense ⟨1, 1, [[2]]⟩) = ⟨1, 2, [[2, 2]]⟩ ∧
    MatrixBase.eliminated (.sparse (DenseMatrix.cloneAsSparseMatrix ⟨1, 1, [[2]]⟩))
      (.dense ⟨1, 1, [[2]]⟩) = ⟨1, 2, [[2, 2]]⟩ ∧
    mcu.almostEqual 2 1 = false ∧
    MatrixBase.eliminated (.dense ⟨2, 2, [[2, 4], [1, 4]]⟩) (.dense ⟨2, 1, [[2], [2]]⟩)
      = ⟨2, 3, [[2, 0, 0], [0, 1, 1 / 2]]⟩ ∧
    MatrixBase.eliminated
        (.dense ⟨4, 4, [[1, 2, -3, 0], [1, -1, 0, 1], [0, 2, -2, 0], [2, 1, 1, 1]]⟩)
        (.dense ⟨4, 1, [[1], [-1], [3], [0]]⟩)
      = ⟨4, 5, [[1, 0, 0, 0, -2], [0, 1, 0, 0, 3 / 2], [0, 0, 1, 0, 0],
          [0, 0, 0, 1, 5 / 2]]⟩ := by
  refine ⟨by decide!, by decide!, by decide!, by decide!, by decide!⟩

/-- C35: for every valid square sparse matrix S (n ≥ 1), `S.getDeterminant()` is the value
that the dense backend computes on the dense conversion of S. -/
theorem C35_sparse_determinant_agrees_with_dense (n : Nat) (S : SparseMatrix) (hS : S.WF)
    (hR : S.numRows = n + 1) (hC : S.numColumns = n + 1) :
    S.getDeterminant = S.cloneAsDenseMatrix.getDeterminant ∧
    (Matrix.mk (some (.sparse S))).getDeterminant
      = (Matrix.mk (some (.sparse S))).toDense.getDeterminant ∧
    S.getDeterminant = (cellMatrix S.getCell (n + 1) (n + 1)).det := by
  have hsp := SparseMatrix.sparse_getDeterminant_eq_det n hS hR hC
  have hD := SparseMatrix.holds_cloneAsDenseMatrix hS
  have hdn := DenseMatrix.getDeterminant_eq_det n hD.wf (hD.rows.trans hR) (hD.cols.trans hC)
    (by
      intro i j hi hj
      rw [hD.cell i j (by omega) (by omega)]
      exact hS.crisp i j)
  have hmat : cellMatrix S.cloneAsDenseMatrix.getCell (n + 1) (n + 1)
      = cellMatrix S.getCell (n + 1) (n + 1) := by
    ext i j
    simp only [cellMatrix, Matrix.of_apply]
    exact hD.cell i j (by rw [hR]; exact i.2) (by rw [hC]; exact j.2)
  have heq : S.getDeterminant = S.cloneAsDenseMatrix.getDeterminant := by
    rw [hsp, hdn, hmat]
  exact ⟨heq, congrArg mcu.Double.fin heq, hsp⟩

/-- C35 (witness): the claim applied to the sparse matrix [[1,2],[3,4]]. -/
theorem C35_sparse_determinant_agrees_with_dense_witness :
    (DenseMatrix.cloneAsSparseMatrix ⟨2, 2, [[1, 2], [3, 4]]⟩).WF ∧
    (DenseMatrix.cloneAsSparseMatrix ⟨2, 2, [[1, 2], [3, 4]]⟩).getDeterminant
      = (DenseMatrix.cloneAsSparseMatrix ⟨2, 2, [[1, 2], [3, 4]]⟩).cloneAsDenseMatrix.getDeterminant
    := by
  have h0 : (MatrixBase.dense ⟨2, 2, [[1, 2], [3, 4]]⟩).WF := by
    show DenseMatrix.WF _
    decide
  have hS : (DenseMatrix.cloneAsSparseMatrix ⟨2, 2, [[1, 2], [3, 4]]⟩).WF :=
    (MatrixBase.cloneAsSparseMatrix_spec h0).1
  exact ⟨hS, (C35_sparse_determinant_agrees_with_dense 1 _ hS
    (MatrixBase.cloneAsSparseMatrix_spec h0).2.1 (MatrixBase.cloneAsSparseMatrix_spec h0).2.2.1).1⟩

namespace SparseMatrix

/-- The stored entries after `applyCheckerboardPattern()`: the same positions, the value
negated where row + column is odd. -/
theorem find_applyCheckerboardPattern {M : SparseMatrix} (hM : M.WF) (k : Nat × Nat) :
    M.applyCheckerboardPattern.sparseMatrix.find k
      = (M.sparseMatrix.find k).map (fun v => if (k.1 + k.2) % 2 = 0 then v else -v) := by
  rw [applyCheckerboardPattern_eq_rewrite]
  cases hf : M.sparseMatrix.find k with
  | none =>
    rw [rewrite_miss _ _ _ _ k, hf]
    · rfl
    · intro e he _ hek
      have := CellMap.find_of_mem hM.sorted he
      rw [hek, hf] at this
      cases this
  | some v =>
    by_cases hodd : (k.1 + k.2) % 2 = 0
    · rw [rewrite_miss _ _ _ _ k, hf]
      · simp [hodd]
      · intro e _ ht hek
        rw [hek] at ht
        exact ht hodd
    · have hmem := CellMap.mem_of_find hf
      have hnz := hM.nonZero k v hf
      have := rewrite_hit M.sparseMatrix (fun k => ¬ (k.1 + k.2) % 2 = 0) (fun _ v => -v) M
        hM.sorted (k, v) hmem hodd
      simp only at this
      rw [this, mcu_almostEqual_neg, hnz]
      simp [hodd]

end SparseMatrix

namespace MatrixBase

/-- The virtual `applyCheckerboardPattern()` on a well-formed matrix. -/
theorem applyCheckerboardPattern_spec {m : MatrixBase} (hm : m.WF) :
    m.applyCheckerboardPattern.WF ∧ m.applyCheckerboardPattern.getNumRows = m.getNumRows ∧
      m.applyCheckerboardPattern.getNumColumns = m.getNumColumns ∧
      ∀ i j, i < m.getNumRows → j < m.getNumColumns →
        m.applyCheckerboardPattern.getCell i j
          = if (i + j) % 2 = 0 then m.getCell i j else -m.getCell i j := by
  cases m with
  | dense d => exact holds_dense (DenseMatrix.holds_applyCheckerboardPattern hm)
  | sparse s => exact holds_sparse (SparseMatrix.sparse_holds_applyCheckerboardPattern hm)

end MatrixBase

/-- C36: on a valid matrix, in either backend, `applyCheckerboardPattern()` keeps the
dimensions and the backend, negates the cells whose row + column is odd and leaves the other
cells as they are; on a sparse matrix the stored positions are the same before and after;
applying it twice gives back every cell, so the result is == the original. -/
theorem C36_applyCheckerboardPattern_frame :
    (∀ m : MatrixBase, m.WF →
      ∃ R : MatrixBase, (Matrix.mk (some m)).applyCheckerboardPattern = ⟨some R⟩ ∧ R.WF ∧
        R.getNumRows = m.getNumRows ∧ R.getNumColumns = m.getNumColumns ∧
        R.isDenseBacked = m.isDenseBacked ∧
        (∀ i j, i < m.getNumRows → j < m.getNumColumns → (i + j) % 2 = 1 →
          R.getCell i j = -m.getCell i j) ∧
        (∀ i j, i < m.getNumRows → j < m.getNumColumns → (i + j) % 2 = 0 →
          R.getCell i j = m.getCell i j)) ∧
    (∀ S : SparseMatrix, S.WF → ∀ r c,
      (S.applyCheckerboardPattern.sparseMatrix.find (r, c)).isSome
        = (S.sparseMatrix.find (r, c)).isSome) ∧
    (∀ m : MatrixBase, m.WF →
      ∃ R : MatrixBase,
        (Matrix.mk (some m)).applyCheckerboardPattern.applyCheckerboardPattern = ⟨some R⟩ ∧
        R.getNumRows = m.getNumRows ∧ R.getNumColumns = m.getNumColumns ∧
        (∀ i j, i < m.getNumRows → j < m.getNumColumns → R.getCell i j = m.getCell i j) ∧
        (Matrix.mk (some R)).operatorEq ⟨some m⟩ = true) ∧
    (Matrix.denseOfRows [[1, 2, 3], [4, 5, 6], [7, 8, 9]]).applyCheckerboardPattern
      = Matrix.denseOfRows [[1, -2, 3], [-4, 5, -6], [7, -8, 9]] ∧
    (Matrix.sparseOfRows [[1, 2, 3], [4, 5, 6], [7, 8, 9]]).applyCheckerboardPattern
      = Matrix.sparseOfRows [[1, -2, 3], [-4, 5, -6], [7, -8, 9]] := by
  refine ⟨?_, ?_, ?_, by decide!, by decide!⟩
  · intro m hm
    obtain ⟨h1, h2, h3, h4⟩ := MatrixBase.applyCheckerboardPattern_spec hm
    refine ⟨m.applyCheckerboardPattern, rfl, h1, h2, h3, by cases m <;> rfl, ?_, ?_⟩
    · intro i j hi hj hodd
      rw [h4 i j hi hj, if_neg (by omega)]
    · intro i j hi hj hev
      rw [h4 i j hi hj, if_pos hev]
  · intro S hS r c
    rw [SparseMatrix.find_applyCheckerboardPattern hS]
    cases S.sparseMatrix.find (r, c) <;> rfl
  · intro m hm
    obtain ⟨h1, h2, h3, h4⟩ := MatrixBase.applyCheckerboardPattern_spec hm
    obtain ⟨g1, g2, g3, g4⟩ := MatrixBase.applyCheckerboardPattern_spec h1
    have hcell : ∀ i j, i < m.getNumRows → j < m.getNumColumns →
        m.applyCheckerboardPattern.applyCheckerboardPattern.getCell i j = m.getCell i j := by
      intro i j hi hj
      rw [g4 i j (by rw [h2]; exact hi) (by rw [h3]; exact hj), h4 i j hi hj]
      split <;> simp
    refine ⟨m.applyCheckerboardPattern.applyCheckerboardPattern, rfl, g2.trans h2,
      g3.trans h3, hcell, ?_⟩
    show MatrixBase.equal _ _ = true
    rw [MatrixBase.equal_iff g1 hm]
    refine ⟨g2.trans h2, g3.trans h3, ?_⟩
    intro r c hr hc
    rw [hcell r c (by rw [← h2, ← g2]; exact hr) (by rw [← h3, ← g3]; exact hc)]
    exact mcu.almostEqual_self _

/-- C36 (witness): the claim applied to the dense matrix [[1,2],[3,4]]. -/
theorem C36_applyCheckerboardPattern_frame_witness :
    (MatrixBase.dense ⟨2, 2, [[1, 2], [3, 4]]⟩).WF ∧
    ∃ R : MatrixBase,
      (Matrix.mk (some (MatrixBase.dense ⟨2, 2, [[1, 2], [3, 4]]⟩))).applyCheckerboardPattern
        = ⟨some R⟩ ∧ R.WF ∧
      R.getNumRows = (MatrixBase.dense ⟨2, 2, [[1, 2], [3, 4]]⟩).getNumRows ∧
      R.getNumColumns = (MatrixBase.dense ⟨2, 2, [[1, 2], [3, 4]]⟩).getNumColumns ∧
      R.isDenseBacked = (MatrixBase.dense ⟨2, 2, [[1, 2], [3, 4]]⟩).isDenseBacked ∧
      (∀ i j, i < (MatrixBase.dense ⟨2, 2, [[1, 2], [3, 4]]⟩).getNumRows →
        j < (MatrixBase.dense ⟨2, 2, [[1, 2], [3, 4]]⟩).getNumColumns → (i + j) % 2 = 1 →
        R.getCell i j = -(MatrixBase.dense ⟨2, 2, [[1, 2], [3, 4]]⟩).getCell i j) ∧
      (∀ i j, i < (MatrixBase.dense ⟨2, 2, [[1, 2], [3, 4]]⟩).getNumRows →
        j < (MatrixBase.dense ⟨2, 2, [[1, 2], [3, 4]]⟩).getNumColumns → (i + j) % 2 = 0 →
        R.getCell i j = (MatrixBase.dense ⟨2, 2, [[1, 2], [3, 4]]⟩).getCell i j) := by
  have hA : (MatrixBase.dense ⟨2, 2, [[1, 2], [3, 4]]⟩).WF := by
    show DenseMatrix.WF _
    decide
  exact ⟨hA, C36_applyCheckerboardPattern_frame.1 _ hA⟩

namespace DenseMatrix

theorem numRows_rowOperation (M : DenseMatrix) (r p b n : Nat) (coefficient : ℚ) :
    (M.rowOperation r p b n coefficient).numRows = M.numRows := by
  unfold rowOperation
  exact forLoop_invariant (fun t : DenseMatrix => t.numRows = M.numRows) _ _ _ rfl
    (fun i t _ ht => ht)

theorem numRows_eliminateBelow (M : DenseMatrix) (c p R C : Nat) :
    (M.eliminateBelow c p R C).numRows = M.numRows := by
  unfold eliminateBelow
  refine forLoop_invariant (fun t : DenseMatrix => t.numRows = M.numRows) _ _ _ rfl ?_
  intro i t _ ht
  show (if mcu.almostEqual (t.getCell (p + 1 + i) c) 0 = true then t
    else t.rowOperation (p + 1 + i) p 0 C (t.getCell (p + 1 + i) c / M.getCell p c)).numRows
      = M.numRows
  by_cases h : mcu.almostEqual (t.getCell (p + 1 + i) c) 0 = true
  · rw [if_pos h]
    exact ht
  · rw [if_neg h, numRows_rowOperation]
    exact ht

theorem numRows_forwardColumn {M t : DenseMatrix} {c p R C : Nat}
    (h : M.forwardColumn c p R C = some t) : t.numRows = M.numRows := by
  unfold forwardColumn at h
  cases hp : M.findPivotRow c p R with
  | none => rw [hp] at h; cases h
  | some r =>
    rw [hp] at h
    simp only [Option.some.injEq] at h
    rw [← h, numRows_eliminateBelow]
    split <;> rfl

/-- The number that `getRank()` returns never exceeds the number of rows. -/
theorem getRank_le_numRows (M : DenseMatrix) : M.getRank ≤ M.numRows := by
  have hrows : (rankForward M.cloneAsDenseMatrix).1.numRows = M.numRows := by
    unfold rankForward
    refine forLoop_invariant (fun st : DenseMatrix × Nat => st.1.numRows = M.numRows) _ _ _
      (holds_clone M).rows ?_
    intro c st _ hst
    beta_reduce
    cases hf : st.1.forwardColumn c st.2 M.cloneAsDenseMatrix.getNumRows
        M.cloneAsDenseMatrix.getNumColumns with
    | none => exact hst
    | some t => exact (numRows_forwardColumn hf).trans hst
  unfold getRank
  simp only [getNumRows]
  rw [hrows]
  exact Nat.sub_le _ _

end DenseMatrix

/-- C37 (failing input): on the dense 3×2 matrix [[2^-43, 1],[0, 2^43],[0, 2^43]]
`getRank()` returns 3, more than the matrix has columns.  Column 0 holds no pivot (2^-43 is
within tolerance of 0); the pivot of column 1 is the 1 of row 0, and the row operation that
clears 2^43 runs over all columns, so it puts -2^43 · 2^-43 = -1 into column 0 of rows 1
and 2: the forward phase ends with three non-zero rows.  What holds: the result never
exceeds the number of rows, and it is at most min(numRows, numColumns) for every valid
matrix on which every cell that the elimination goes through is exactly 0 or not within
tolerance of 0. -/
theorem C37_getRank_exceeds_numColumns :
    (Matrix.denseOfRows [[1 / 2 ^ 43, 1], [0, 2 ^ 43], [0, 2 ^ 43]]).getRank = 3 ∧
    (Matrix.denseOfRows [[1 / 2 ^ 43, 1], [0, 2 ^ 43], [0, 2 ^ 43]]).getNumColumns = 2 ∧
    (DenseMatrix.rankForward
        (DenseMatrix.cloneAsDenseMatrix ⟨3, 2, [[1 / 2 ^ 43, 1], [0, 2 ^ 43], [0, 2 ^ 43]]⟩)).1
      = ⟨3, 2, [[1 / 2 ^ 43, 1], [-1, 0], [-1, 0]]⟩ ∧
    (∀ M : DenseMatrix, (Matrix.mk (some (.dense M))).getRank ≤ M.numRows) ∧
    (∀ m : MatrixBase, m.WF → m.RankCrisp →
      (Matrix.mk (some m)).getRank ≤ min m.getNumRows m.getNumColumns) := by
  refine ⟨by decide!, by decide!, by decide!, fun M => DenseMatrix.getRank_le_numRows M, ?_⟩
  intro m hm hc
  show m.getRank ≤ _
  rw [MatrixBase.base_getRank_eq_rank hm hc]
  refine le_min ?_ ?_
  · have := Matrix.rank_le_card_height (cellMatrix m.getCell m.getNumRows m.getNumColumns)
    simpa using this
  · have := Matrix.rank_le_card_width (cellMatrix m.getCell m.getNumRows m.getNumColumns)
    simpa using this

/-- C37 (witness): the claim applied to the dense matrix [[1,2],[2,4]], which has rank 1. -/
theorem C37_getRank_exceeds_numColumns_witness :
    (MatrixBase.dense ⟨2, 2, [[1, 2], [2, 4]]⟩).WF ∧
    (MatrixBase.dense ⟨2, 2, [[1, 2], [2, 4]]⟩).RankCrisp ∧
    (Matrix.mk (some (MatrixBase.dense ⟨2, 2, [[1, 2], [2, 4]]⟩))).getRank
      ≤ min (MatrixBase.dense ⟨2, 2, [[1, 2], [2, 4]]⟩).getNumRows
        (MatrixBase.dense ⟨2, 2, [[1, 2], [2, 4]]⟩).getNumColumns := by
  have hA : (MatrixBase.dense ⟨2, 2, [[1, 2], [2, 4]]⟩).WF := by
    show DenseMatrix.WF _
    decide
  have hc : (MatrixBase.dense ⟨2, 2, [[1, 2], [2, 4]]⟩).RankCrisp := by decide!
  exact ⟨hA, hc, C37_getRank_exceeds_numColumns.2.2.2.2 _ hA hc⟩

/-- C38 (failing input): with the default epsilon, `doubleAlmostEqual(2^20, 2^20 + 2^-27)`
is true, by the relative tolerance epsilon · max(a, b), but
`doubleAlmostEqual(-2^20, -(2^20 + 2^-27))` is false: the maximum of two negative operands
is negative, so the relative tolerance is negative and only the absolute one is left.
Hence [[2^20]] == [[2^20 + 2^-27]] is true and is false after both matrices are multiplied
by -1.  What holds: the result is the same for (a, b) and (-a, -b) whenever |a - b| is within
the absolute tolerance, and in the comparison with 0. -/
theorem C38_doubleAlmostEqual_depends_on_sign :
    mcu.doubleAlmostEqual (.fin (2 ^ 20)) (.fin (2 ^ 20 + 1 / 2 ^ 27)) (.fin mcu.EPSILON)
      = true ∧
    mcu.doubleAlmostEqual (.fin (-(2 ^ 20))) (.fin (-(2 ^ 20 + 1 / 2 ^ 27))) (.fin mcu.EPSILON)
      = false ∧
    (Matrix.denseOfRows [[2 ^ 20]]).operatorEq (Matrix.denseOfRows [[2 ^ 20 + 1 / 2 ^ 27]])
      = true ∧
    ((Matrix.denseOfRows [[2 ^ 20]]).operatorMulScalar (-1)).operatorEq
      ((Matrix.denseOfRows [[2 ^ 20 + 1 / 2 ^ 27]]).operatorMulScalar (-1)) = false ∧
    (Matrix.denseOfRows [[2 ^ 20]]).operatorMulScalar (-1) = Matrix.denseOfRows [[-(2 ^ 20)]] ∧
    (∀ a b : ℚ, |a - b| ≤ mcu.EPSILON →
      mcu.doubleAlmostEqual (.fin a) (.fin b) (.fin mcu.EPSILON) = true ∧
      mcu.doubleAlmostEqual (.fin (-a)) (.fin (-b)) (.fin mcu.EPSILON) = true) ∧
    (∀ a : ℚ, mcu.doubleAlmostEqual (.fin (-a)) (.fin 0) (.fin mcu.EPSILON)
      = mcu.doubleAlmostEqual (.fin a) (.fin 0) (.fin mcu.EPSILON)) := by
  refine ⟨by decide!, by decide!, by decide!, by decide!, by decide!, ?_, ?_⟩
  · intro a b h
    constructor
    · simp only [mcu.doubleAlmostEqual, decide_eq_true_eq]
      exact Or.inl h
    · simp only [mcu.doubleAlmostEqual, decide_eq_true_eq]
      left
      have : -a - -b = -(a - b) := by ring
      rw [this, abs_neg]
      exact h
  · intro a
    exact SparseMatrix.mcu_almostEqual_neg a

/-- C38 (witness): the claim applied to a = 1 and b = 1 + 2^-50, which are within the
absolute tolerance. -/
theorem C38_doubleAlmostEqual_depends_on_sign_witness :
    |(1 : ℚ) - (1 + 1 / 2 ^ 50)| ≤ mcu.EPSILON ∧
    mcu.doubleAlmostEqual (.fin 1) (.fin (1 + 1 / 2 ^ 50)) (.fin mcu.EPSILON) = true ∧
    mcu.doubleAlmostEqual (.fin (-1)) (.fin (-(1 + 1 / 2 ^ 50))) (.fin mcu.EPSILON) = true := by
  have h : |(1 : ℚ) - (1 + 1 / 2 ^ 50)| ≤ mcu.EPSILON := by
    unfold mcu.EPSILON
    rw [abs_le]
    constructor <;> norm_num
  exact ⟨h, C38_doubleAlmostEqual_depends_on_sign.2.2.2.2.2.1 1 (1 + 1 / 2 ^ 50) h⟩

/-- The accumulation through `setCell` is the plain sum as long as no partial sum is within
tolerance of 0 without being 0. -/
theorem flushedSum_eq_sum (f : Nat → ℚ) (n : Nat)
    (h : ∀ m, m ≤ n → mcu.Crisp (∑ j in Finset.range m, f j)) :
    flushedSum f n = ∑ j in Finset.range n, f j := by
  induction n with
  | zero => rfl
  | succ k ih =>
    have hk := ih (fun m hm => h m (by omega))
    show mcu.flush (flushedSum f k + f k) = _
    rw [hk, ← Finset.sum_range_succ]
    exact mcu.flush_of_crisp (h (k + 1) le_rfl)

namespace SparseMatrix

/-- A loop that rewrites the first `p` cells of row `r`, each from its own old value. -/
theorem sparse_rowPass_props (G : Nat → ℚ → ℚ) (r : Nat) (T : SparseMatrix) (hT : T.WF)
    (hr : r < T.numRows) (p : Nat) (hp : p ≤ T.numColumns) :
    (forLoop p (fun k t => t.setCell r k (G k (t.getCell r k))) T).WF ∧
    (forLoop p (fun k t => t.setCell r k (G k (t.getCell r k))) T).numRows = T.numRows ∧
    (forLoop p (fun k t => t.setCell r k (G k (t.getCell r k))) T).numColumns = T.numColumns ∧
    ∀ i j, (forLoop p (fun k t => t.setCell r k (G k (t.getCell r k))) T).getCell i j =
      if i = r ∧ j < p then mcu.flush (G j (T.getCell i j)) else T.getCell i j := by
  induction p with
  | zero => exact ⟨hT, rfl, rfl, fun i j => by simp [forLoop_zero]⟩
  | succ k ih =>
    obtain ⟨a1, a2, a3, a4⟩ := ih (by omega)
    simp only [forLoop_succ]
    refine ⟨sparse_WF_setCell a1 _ _ _ (by rw [a2]; exact hr) (by rw [a3]; omega),
      (sparse_numRows_setCell _ _ _ _).trans a2, (sparse_numColumns_setCell _ _ _ _).trans a3, ?_⟩
    intro i j
    rw [sparse_getCell_setCell, a4, a4]
    by_cases h1 : i = r ∧ j = k
    · obtain ⟨rfl, rfl⟩ := h1
      simp
    · have hne : ¬ (r, k) = (i, j) := by
        intro h
        apply h1
        simp only [Prod.mk.injEq] at h
        exact ⟨h.1.symm, h.2.symm⟩
      rw [if_neg hne]
      by_cases h2 : i = r ∧ j < k
      · rw [if_pos h2, if_pos ⟨h2.1, by omega⟩]
      · rw [if_neg h2, if_neg]
        intro h3
        apply h1
        refine ⟨h3.1, ?_⟩
        have : ¬ j < k := fun h => h2 ⟨h3.1, h⟩
        omega

/-- The two inner loops of the sparse `multiply` for one row of the left operand, on a row
that starts empty. -/
theorem sparse_multiplyRow_props (leftCell rightCell : Nat → Nat → ℚ) (r p : Nat)
    (T : SparseMatrix) (hT : T.WF) (hr : r < T.numRows) (hp : p ≤ T.numColumns)
    (h0 : ∀ k, k < p → T.getCell r k = 0) (n : Nat) :
    (forLoop n (fun leftCol t => forLoop p (fun rightCol t =>
      t.setCell r rightCol (t.getCell r rightCol + leftCell r leftCol * rightCell leftCol rightCol))
      t) T).WF ∧
    (forLoop n (fun leftCol t => forLoop p (fun rightCol t =>
      t.setCell r rightCol (t.getCell r rightCol + leftCell r leftCol * rightCell leftCol rightCol))
      t) T).numRows = T.numRows ∧
    (forLoop n (fun leftCol t => forLoop p (fun rightCol t =>
      t.setCell r rightCol (t.getCell r rightCol + leftCell r leftCol * rightCell leftCol rightCol))
      t) T).numColumns = T.numColumns ∧
    ∀ i k, (forLoop n (fun leftCol t => forLoop p (fun rightCol t =>
      t.setCell r rightCol (t.getCell r rightCol + leftCell r leftCol * rightCell leftCol rightCol))
      t) T).getCell i k =
      if i = r ∧ k < p then flushedSum (fun j => leftCell r j * rightCell j k) n
      else T.getCell i k := by
  induction n with
  | zero =>
    refine ⟨hT, rfl, rfl, fun i k => ?_⟩
    simp only [forLoop_zero]
    by_cases h : i = r ∧ k < p
    · rw [if_pos h, h.1, h0 k h.2]
      rfl
    · rw [if_neg h]
  | succ m ih =>
    obtain ⟨a1, a2, a3, a4⟩ := ih
    simp only [forLoop_succ]
    obtain ⟨b1, b2, b3, b4⟩ := sparse_rowPass_props
      (fun rightCol x => x + leftCell r m * rightCell m rightCol) r _ a1
      (by rw [a2]; exact hr) p (by rw [a3]; exact hp)
    refine ⟨b1, b2.trans a2, b3.trans a3, ?_⟩
    intro i k
    rw [b4, a4]
    by_cases h : i = r ∧ k < p
    · simp only [if_pos h]
      rfl
    · simp only [if_neg h]

/-- The triple loop of the sparse `multiply`: every cell of the product is the sum of the
products, accumulated through `setCell`. -/
theorem sparse_holds_multiplyS (self left : SparseMatrix) :
    Holds (self.multiplyS left) left.numRows self.numColumns
      (fun i k => flushedSum (fun j => left.getCell i j * self.getCell j k) left.numColumns) := by
  have hall : ∀ r0, r0 ≤ left.numRows →
      (forLoop r0 (fun leftRow t => forLoop left.numColumns (fun leftCol t =>
        forLoop self.numColumns (fun rightCol t =>
        t.setCell leftRow rightCol
          (t.getCell leftRow rightCol + left.getCell leftRow leftCol * self.getCell leftCol rightCol))
        t) t) (new left.numRows self.numColumns)).WF ∧
      (forLoop r0 (fun leftRow t => forLoop left.numColumns (fun leftCol t =>
        forLoop self.numColumns (fun rightCol t =>
        t.setCell leftRow rightCol
          (t.getCell leftRow rightCol + left.getCell leftRow leftCol * self.getCell leftCol rightCol))
        t) t) (new left.numRows self.numColumns)).numRows = left.numRows ∧
      (forLoop r0 (fun leftRow t => forLoop left.numColumns (fun leftCol t =>
        forLoop self.numColumns (fun rightCol t =>
        t.setCell leftRow rightCol
          (t.getCell leftRow rightCol + left.getCell leftRow leftCol * self.getCell leftCol rightCol))
        t) t) (new left.numRows self.numColumns)).numColumns = self.numColumns ∧
      ∀ i k, i < left.numRows → k < self.numColumns →
        (forLoop r0 (fun leftRow t => forLoop left.numColumns (fun leftCol t =>
        forLoop self.numColumns (fun rightCol t =>
        t.setCell leftRow rightCol
          (t.getCell leftRow rightCol + left.getCell leftRow leftCol * self.getCell leftCol rightCol))
        t) t) (new left.numRows self.numColumns)).getCell i k =
        if i < r0 then
          flushedSum (fun j => left.getCell i j * self.getCell j k) left.numColumns
        else 0 := by
    intro r0
    induction r0 with
    | zero =>
      intro _
      refine ⟨sparse_WF_new _ _, rfl, rfl, fun i k _ _ => ?_⟩
      simp [forLoop_zero, sparse_getCell_new]
    | succ q ih =>
      intro hq
      obtain ⟨a1, a2, a3, a4⟩ := ih (by omega)
      simp only [forLoop_succ]
      obtain ⟨b1, b2, b3, b4⟩ := sparse_multiplyRow_props left.getCell self.getCell q
        self.numColumns _ a1 (by rw [a2]; omega) (by rw [a3])
        (fun k hk => by rw [a4 q k (by omega) hk, if_neg (by omega)]) left.numColumns
      refine ⟨b1, b2.trans a2, b3.trans a3, ?_⟩
      intro i k hi hk
      rw [b4, a4 i k hi hk]
      by_cases h : i = q
      · subst h
        rw [if_pos ⟨rfl, hk⟩, if_pos (by omega)]
      · rw [if_neg (fun h3 => h h3.1)]
        by_cases h2 : i < q
        · rw [if_pos h2, if_pos (by omega)]
        · rw [if_neg h2, if_neg (by omega)]
  obtain ⟨c1, c2, c3, c4⟩ := hall left.numRows le_rfl
  refine ⟨c1, c2, c3, ?_⟩
  intro i k hi hk
  have := c4 i k hi hk
  rw [if_pos hi] at this
  exact this

end SparseMatrix

namespace MatrixBase

/-- The virtual `multiply` on two sparse operands. -/
theorem multiply_sparse_spec (A B : SparseMatrix) :
    ((MatrixBase.sparse A).multiply (.sparse B)).WF ∧
      ((MatrixBase.sparse A).multiply (.sparse B)).getNumRows = A.numRows ∧
      ((MatrixBase.sparse A).multiply (.sparse B)).getNumColumns = B.numColumns ∧
      ((MatrixBase.sparse A).multiply (.sparse B)).isDenseBacked = false ∧
      ∀ i k, i < A.numRows → k < B.numColumns →
        ((MatrixBase.sparse A).multiply (.sparse B)).getCell i k =
          flushedSum (fun j => A.getCell i j * B.getCell j k) A.numColumns := by
  have h := holds_sparse (SparseMatrix.sparse_holds_multiplyS B A)
  exact ⟨h.1, h.2.1, h.2.2.1, rfl, h.2.2.2⟩

end MatrixBase

/-- C34 (failing input): for the sparse matrices A = [[2^-21, 2^-21]] and
B = [[2^-22],[2^-22]] the sparse product A * B stores no entry, so its cell (0,0) reads 0,
while the product of the dense conversions holds 2^-42, which is not within tolerance of 0,
and `A * B == toDense(A) * toDense(B)` is false.  The sparse loop adds every product to the
cell through `setCell`, which erases a value within tolerance of 0: the partial sum 2^-43 is
erased twice.  What holds for all sparse A and B: the product is a valid sparse matrix of
the dimensions numRows(A) × numColumns(B) whose cell (i,k) is the sum of A(i,j)·B(j,k)
accumulated with every partial sum within tolerance of 0 replaced by 0; when no partial sum
is within tolerance of 0 without being 0, the cell is Σ_j A(i,j)·B(j,k) and the product is
== the product of the dense conversions.  [[2],[4],[6]] times [[8,10]] is
[[16,20],[32,40],[48,60]]. -/
theorem C34_sparse_multiply_drops_small_partial_sums :
    ((Matrix.sparseOfRows [[1 / 2 ^ 21, 1 / 2 ^ 21]]).operatorMul
        (Matrix.sparseOfRows [[1 / 2 ^ 22], [1 / 2 ^ 22]]) = Matrix.createSparse 1 1 ∧
      (Matrix.sparseOfRows [[1 / 2 ^ 21, 1 / 2 ^ 21]]).toDense.operatorMul
        (Matrix.sparseOfRows [[1 / 2 ^ 22], [1 / 2 ^ 22]]).toDense
          = Matrix.denseOfRows [[1 / 2 ^ 42]] ∧
      mcu.almostEqual 0 (1 / 2 ^ 42) = false ∧
      ((Matrix.sparseOfRows [[1 / 2 ^ 21, 1 / 2 ^ 21]]).operatorMul
        (Matrix.sparseOfRows [[1 / 2 ^ 22], [1 / 2 ^ 22]])).operatorEq
        ((Matrix.sparseOfRows [[1 / 2 ^ 21, 1 / 2 ^ 21]]).toDense.operatorMul
          (Matrix.sparseOfRows [[1 / 2 ^ 22], [1 / 2 ^ 22]]).toDense) = false) ∧
    (∀ A B : SparseMatrix,
      ∃ P : SparseMatrix, (Matrix.mk (some (.sparse A))).operatorMul ⟨some (.sparse B)⟩
          = ⟨some (.sparse P)⟩ ∧ P.WF ∧ P.numRows = A.numRows ∧ P.numColumns = B.numColumns ∧
        ∀ i k, i < A.numRows → k < B.numColumns →
          P.getCell i k = flushedSum (fun j => A.getCell i j * B.getCell j k) A.numColumns) ∧
    (∀ A B : SparseMatrix, A.WF → B.WF → A.numColumns = B.numRows →
      (∀ i k m, i < A.numRows → k < B.numColumns → m ≤ A.numColumns →
        mcu.Crisp (∑ j in Finset.range m, A.getCell i j * B.getCell j k)) →
      (∀ i k, i < A.numRows → k < B.numColumns →
        ((Matrix.mk (some (.sparse A))).operatorMul ⟨some (.sparse B)⟩).getCell i k
          = .fin (∑ j in Finset.range A.numColumns, A.getCell i j * B.getCell j k)) ∧
      ((Matrix.mk (some (.sparse A))).operatorMul ⟨some (.sparse B)⟩).operatorEq
        ((Matrix.mk (some (.sparse A))).toDense.operatorMul
          (Matrix.mk (some (.sparse B))).toDense) = true) ∧
    (Matrix.sparseOfRows [[2], [4], [6]]).operatorMul (Matrix.sparseOfRows [[8, 10]])
      = Matrix.sparseOfRows [[16, 20], [32, 40], [48, 60]] := by
  refine ⟨⟨by decide!, by decide!, by decide!, by decide!⟩, ?_, ?_, by decide!⟩
  · intro A B
    have h := SparseMatrix.sparse_holds_multiplyS B A
    exact ⟨B.multiplyS A, rfl, h.wf, h.rows, h.cols, h.cell⟩
  · intro A B hA hB hdim hcrisp
    obtain ⟨p1, p2, p3, _, p5⟩ := MatrixBase.multiply_sparse_spec A B
    have hcell : ∀ i k, i < A.numRows → k < B.numColumns →
        ((MatrixBase.sparse A).multiply (.sparse B)).getCell i k
          = ∑ j in Finset.range A.numColumns, A.getCell i j * B.getCell j k := by
      intro i k hi hk
      rw [p5 i k hi hk]
      exact flushedSum_eq_sum _ _ (fun m hm => hcrisp i k m hi hk hm)
    refine ⟨fun i k hi hk => congrArg mcu.Double.fin (hcell i k hi hk), ?_⟩
    obtain ⟨a1, a2, a3, a4⟩ := MatrixBase.cloneAsDenseMatrix_spec (m := .sparse A) hA
    obtain ⟨b1, b2, b3, b4⟩ := MatrixBase.cloneAsDenseMatrix_spec (m := .sparse B) hB
    obtain ⟨d1, d2, d3, d4⟩ := MatrixBase.multiply_spec
      (.dense (MatrixBase.sparse A).cloneAsDenseMatrix)
      (.dense (MatrixBase.sparse B).cloneAsDenseMatrix) rfl
    show MatrixBase.equal ((MatrixBase.sparse A).multiply (.sparse B))
      ((MatrixBase.dense (MatrixBase.sparse A).cloneAsDenseMatrix).multiply
        (.dense (MatrixBase.sparse B).cloneAsDenseMatrix)) = true
    rw [MatrixBase.equal_iff p1 d1]
    refine ⟨p2.trans (show _ = A.numRows from d2.trans a2).symm, ?_, ?_⟩
    · exact p3.trans (show _ = B.numColumns from d3.trans b3).symm
    · intro r c hr hc
      have hr1 : r < A.numRows := by rw [← p2]; exact hr
      have hc1 : c < B.numColumns := by rw [← p3]; exact hc
      rw [hcell r c hr1 hc1, d4 r c (by rw [a2]; exact hr1) (by rw [b3]; exact hc1)]
      have hsum : ∑ j in Finset.range
            (MatrixBase.dense (MatrixBase.sparse A).cloneAsDenseMatrix).getNumColumns,
          (MatrixBase.dense (MatrixBase.sparse A).cloneAsDenseMatrix).getCell r j *
            (MatrixBase.dense (MatrixBase.sparse B).cloneAsDenseMatrix).getCell j c
          = ∑ j in Finset.range A.numColumns, A.getCell r j * B.getCell j c := by
        rw [a3]
        apply Finset.sum_congr rfl
        intro j hj
        have hj1 : j < A.numColumns := Finset.mem_range.mp hj
        rw [a4 r j hr1 hj1, b4 j c (by show j < B.numRows; omega) hc1]
        rfl
      rw [hsum]
      exact mcu.almostEqual_self _

/-- C34 (witness): the claim applied to the sparse matrices [[2],[4]] and [[8,10]]. -/
theorem C34_sparse_multiply_drops_small_partial_sums_witness :
    (DenseMatrix.cloneAsSparseMatrix ⟨2, 1, [[2], [4]]⟩).WF ∧
    (DenseMatrix.cloneAsSparseMatrix ⟨1, 2, [[8, 10]]⟩).WF ∧
    ((Matrix.mk (some (.sparse (DenseMatrix.cloneAsSparseMatrix ⟨2, 1, [[2], [4]]⟩)))).operatorMul
      ⟨some (.sparse (DenseMatrix.cloneAsSparseMatrix ⟨1, 2, [[8, 10]]⟩))⟩).operatorEq
      ((Matrix.mk (some (.sparse (DenseMatrix.cloneAsSparseMatrix
          ⟨2, 1, [[2], [4]]⟩)))).toDense.operatorMul
        (Matrix.mk (some (.sparse (DenseMatrix.cloneAsSparseMatrix
          ⟨1, 2, [[8, 10]]⟩)))).toDense) = true := by
  have sA := MatrixBase.cloneAsSparseMatrix_spec (m := .dense ⟨2, 1, [[2], [4]]⟩)
    (by show DenseMatrix.WF _; decide)
  have sB := MatrixBase.cloneAsSparseMatrix_spec (m := .dense ⟨1, 2, [[8, 10]]⟩)
    (by show DenseMatrix.WF _; decide)
  have hAr : (DenseMatrix.cloneAsSparseMatrix ⟨2, 1, [[2], [4]]⟩).numRows = 2 := sA.2.1
  have hAc : (DenseMatrix.cloneAsSparseMatrix ⟨2, 1, [[2], [4]]⟩).numColumns = 1 := sA.2.2.1
  have hBr : (DenseMatrix.cloneAsSparseMatrix ⟨1, 2, [[8, 10]]⟩).numRows = 1 := sB.2.1
  have hBc : (DenseMatrix.cloneAsSparseMatrix ⟨1, 2, [[8, 10]]⟩).numColumns = 2 := sB.2.2.1
  refine ⟨sA.1, sB.1, (C34_sparse_multiply_drops_small_partial_sums.2.2.1 _ _ sA.1 sB.1
    (hAc.trans hBr.symm) ?_).2⟩
  intro i k m hi hk hm
  have hi2 : i < 2 := lt_of_lt_of_eq hi hAr
  have hk2 : k < 2 := lt_of_lt_of_eq hk hBc
  have hm1 : m ≤ 1 := le_of_le_of_eq hm hAc
  clear hi hk hm
  interval_cases i <;> interval_cases k <;> interval_cases m <;> decide!

/-- The accumulation through `setCell` of a sequence with a single term that is not 0. -/
theorem flushedSum_single (f : Nat → ℚ) (c : Nat) (v : ℚ) (hv : mcu.Crisp v) :
    ∀ n, (∀ j, j < n → f j = if j = c then v else 0) →
      flushedSum f n = if c < n then v else 0 := by
  intro n
  induction n with
  | zero => intro _; rfl
  | succ k ih =>
    intro hf
    show mcu.flush (flushedSum f k + f k) = _
    rw [ih (fun j hj => hf j (by omega)), hf k (by omega)]
    by_cases h1 : c < k
    · rw [if_pos h1, if_neg (by omega), if_pos (by omega), add_zero]
      exact mcu.flush_of_crisp hv
    · by_cases h2 : k = c
      · rw [if_neg h1, if_pos h2, if_pos (by omega), zero_add]
        exact mcu.flush_of_crisp hv
      · rw [if_neg h1, if_neg h2, if_neg (by omega), add_zero]
        exact mcu.flush_zero

/-- The plain sum of a sequence with a single term that is not 0. -/
theorem sum_single (f : Nat → ℚ) (c : Nat) (v : ℚ) (n : Nat) (hc : c < n)
    (hf : ∀ j, j < n → f j = if j = c then v else 0) :
    ∑ j in Finset.range n, f j = v := by
  rw [Finset.sum_congr rfl (fun j hj => hf j (Finset.mem_range.mp hj))]
  rw [Finset.sum_ite_eq']
  simp [hc]

namespace MatrixBase

/-- The virtual `multiply` always returns a well-formed matrix of the dimensions
numRows(left) × numColumns(right). -/
theorem multiply_dims (A B : MatrixBase) :
    (A.multiply B).WF ∧ (A.multiply B).getNumRows = A.getNumRows ∧
      (A.multiply B).getNumColumns = B.getNumColumns := by
  cases A with
  | dense a =>
    have h := multiply_spec (.dense a) B rfl
    exact ⟨h.1, h.2.1, h.2.2.1⟩
  | sparse a =>
    cases B with
    | dense b =>
      have h := multiply_spec (.sparse a) (.dense b) rfl
      exact ⟨h.1, h.2.1, h.2.2.1⟩
    | sparse b =>
      have h := multiply_sparse_spec a b
      exact ⟨h.1, h.2.1, h.2.2.1⟩

/-- A cell of a product in which a single term of the sum is not 0. -/
theorem multiply_single (A B : MatrixBase) (i k c : Nat) (v : ℚ)
    (hi : i < A.getNumRows) (hk : k < B.getNumColumns) (hc : c < A.getNumColumns)
    (hv : (A.isDenseBacked || B.isDenseBacked) = false → mcu.Crisp v)
    (hf : ∀ j, j < A.getNumColumns → A.getCell i j * B.getCell j k = if j = c then v else 0) :
    (A.multiply B).getCell i k = v := by
  by_cases hd : (A.isDenseBacked || B.isDenseBacked) = true
  · rw [(multiply_spec A B hd).2.2.2 i k hi hk]
    exact sum_single _ c v _ hc hf
  · have hd2 : (A.isDenseBacked || B.isDenseBacked) = false := by simpa using hd
    cases A with
    | dense a => simp [isDenseBacked] at hd2
    | sparse a =>
      cases B with
      | dense b => simp [isDenseBacked] at hd2
      | sparse b =>
        rw [(multiply_sparse_spec a b).2.2.2.2 i k hi hk]
        have := flushedSum_single (fun j => a.getCell i j * b.getCell j k) c v (hv hd2)
          a.numColumns hf
        have hc2 : c < a.numColumns := hc
        rw [this, if_pos hc2]

end MatrixBase

/-- C40: for every valid matrix A, in either backend, with m rows and n columns,
`createIdentity(m) * A` and `A * createIdentity(n)` are valid matrices with m rows and n
columns whose cell (i,j) is exactly A(i,j). -/
theorem C40_createIdentity_two_sided (A : MatrixBase) (hA : A.WF) :
    (∃ L : MatrixBase,
      (Matrix.createIdentity A.getNumRows).operatorMul ⟨some A⟩ = ⟨some L⟩ ∧ L.WF ∧
      L.getNumRows = A.getNumRows ∧ L.getNumColumns = A.getNumColumns ∧
      ∀ i j, i < A.getNumRows → j < A.getNumColumns → L.getCell i j = A.getCell i j) ∧
    (∃ R : MatrixBase,
      (Matrix.mk (some A)).operatorMul (Matrix.createIdentity A.getNumColumns) = ⟨some R⟩ ∧
      R.WF ∧ R.getNumRows = A.getNumRows ∧ R.getNumColumns = A.getNumColumns ∧
      ∀ i j, i < A.getNumRows → j < A.getNumColumns → R.getCell i j = A.getCell i j) := by
  have hcrisp : ∀ (I : MatrixBase) (i j : Nat), I.isDenseBacked = false →
      ((A.isDenseBacked || I.isDenseBacked) = false ∨
        (I.isDenseBacked || A.isDenseBacked) = false) → mcu.Crisp (A.getCell i j) := by
    intro I i j hI h
    cases A with
    | dense a =>
      rcases h with h | h <;> simp [MatrixBase.isDenseBacked] at h
    | sparse a => exact SparseMatrix.WF.crisp hA i j
  constructor
  · obtain ⟨S, hS, hH⟩ := Matrix.createIdentity_spec A.getNumRows
    obtain ⟨d1, d2, d3⟩ := MatrixBase.multiply_dims (.sparse S) A
    refine ⟨(MatrixBase.sparse S).multiply A, by rw [hS]; rfl, d1, d2.trans hH.rows, d3, ?_⟩
    intro i j hi hj
    refine MatrixBase.multiply_single (.sparse S) A i j i (A.getCell i j)
      (by show i < S.numRows; rw [hH.rows]; exact hi) hj
      (by show i < S.numColumns; rw [hH.cols]; exact hi)
      (fun h => hcrisp (.sparse S) i j rfl (Or.inr h)) ?_
    intro c hc
    have hc1 : c < A.getNumRows := by
      have : c < S.numColumns := hc
      rw [hH.cols] at this
      exact this
    have : (MatrixBase.sparse S).getCell i c = if i = c then 1 else 0 := hH.cell i c hi hc1
    rw [this]
    by_cases h : c = i
    · subst h
      simp
    · rw [if_neg (fun h2 => h h2.symm), if_neg h, zero_mul]
  · obtain ⟨S, hS, hH⟩ := Matrix.createIdentity_spec A.getNumColumns
    obtain ⟨d1, d2, d3⟩ := MatrixBase.multiply_dims A (.sparse S)
    refine ⟨A.multiply (.sparse S), by rw [hS]; rfl, d1, d2, d3.trans hH.cols, ?_⟩
    intro i j hi hj
    refine MatrixBase.multiply_single A (.sparse S) i j j (A.getCell i j) hi
      (by show j < S.numColumns; rw [hH.cols]; exact hj) hj
      (fun h => hcrisp (.sparse S) i j rfl (Or.inl h)) ?_
    intro c hc
    have : (MatrixBase.sparse S).getCell c j = if c = j then 1 else 0 := hH.cell c j hc hj
    rw [this]
    by_cases h : c = j
    · subst h
      simp
    · rw [if_neg h, if_neg h, mul_zero]

/-- C40 (witness): the claim applied to the sparse matrix [[1,2,3],[4,5,6]]. -/
theorem C40_createIdentity_two_sided_witness :
    (MatrixBase.sparse (DenseMatrix.cloneAsSparseMatrix ⟨2, 3, [[1, 2, 3], [4, 5, 6]]⟩)).WF ∧
    (Matrix.createIdentity 2).operatorMul (Matrix.sparseOfRows [[1, 2, 3], [4, 5, 6]])
      = Matrix.sparseOfRows [[1, 2, 3], [4, 5, 6]] ∧
    (Matrix.sparseOfRows [[1, 2, 3], [4, 5, 6]]).operatorMul (Matrix.createIdentity 3)
      = Matrix.sparseOfRows [[1, 2, 3], [4, 5, 6]] ∧
    ∃ L : MatrixBase,
      (Matrix.createIdentity (MatrixBase.sparse (DenseMatrix.cloneAsSparseMatrix
          ⟨2, 3, [[1, 2, 3], [4, 5, 6]]⟩)).getNumRows).operatorMul
        ⟨some (MatrixBase.sparse (DenseMatrix.cloneAsSparseMatrix
          ⟨2, 3, [[1, 2, 3], [4, 5, 6]]⟩))⟩ = ⟨some L⟩ ∧ L.WF ∧
      L.getNumRows = (MatrixBase.sparse (DenseMatrix.cloneAsSparseMatrix
          ⟨2, 3, [[1, 2, 3], [4, 5, 6]]⟩)).getNumRows ∧
      L.getNumColumns = (MatrixBase.sparse (DenseMatrix.cloneAsSparseMatrix
          ⟨2, 3, [[1, 2, 3], [4, 5, 6]]⟩)).getNumColumns ∧
      ∀ i j, i < (MatrixBase.sparse (DenseMatrix.cloneAsSparseMatrix
          ⟨2, 3, [[1, 2, 3], [4, 5, 6]]⟩)).getNumRows →
        j < (MatrixBase.sparse (DenseMatrix.cloneAsSparseMatrix
          ⟨2, 3, [[1, 2, 3], [4, 5, 6]]⟩)).getNumColumns →
        L.getCell i j = (MatrixBase.sparse (DenseMatrix.cloneAsSparseMatrix
          ⟨2, 3, [[1, 2, 3], [4, 5, 6]]⟩)).getCell i j := by
  have hA := (MatrixBase.cloneAsSparseMatrix_spec
    (m := .dense ⟨2, 3, [[1, 2, 3], [4, 5, 6]]⟩) (by show DenseMatrix.WF _; decide)).1
  exact ⟨hA, by decide!, by decide!, (C40_createIdentity_two_sided _ hA).1⟩

namespace SparseMatrix

/-- A gather from a well-formed source into a fresh matrix, the positions of the stored cells
that pass the test in range. -/
theorem holds_gather_stored (M : SparseMatrix) (hM : M.WF) (test : Nat × Nat → Prop)
    [DecidablePred test] (g src : Nat × Nat → Nat × Nat) (R C : Nat)
    (hrange : ∀ k, k.1 < M.numRows → k.2 < M.numColumns → test k → (g k).1 < R ∧ (g k).2 < C)
    (hsrc : ∀ k, test k → src (g k) = k)
    (hin : ∀ i j, i < R → j < C → test (src (i, j)) ∧ g (src (i, j)) = (i, j)) :
    Holds (gather M.sparseMatrix test g (new R C)) R C
      (fun i j => M.getCell (src (i, j)).1 (src (i, j)).2) := by
  have hd := gather_dims M.sparseMatrix test g (new R C)
  refine ⟨?_, hd.1, hd.2, ?_⟩
  · refine gather_WF _ _ _ _ (sparse_WF_new R C) (fun e he ht => ?_)
    have hr := hM.inRange e.1 e.2 (CellMap.find_of_mem hM.sorted he)
    exact hrange e.1 hr.1 hr.2 ht
  · intro i j hi hj
    rw [gather_getCell_on M test g (new R C) hM.sorted i j (src (i, j))
      (fun k hk hg => by rw [← hg, hsrc k hk])]
    rw [getCell_eq_find M]
    cases hf : M.sparseMatrix.find (src (i, j)) with
    | none => rfl
    | some v =>
      simp only [hin i j hi hj, and_self, if_true, Option.getD_some]
      exact mcu.flush_of_crisp (Or.inr (hM.nonZero _ _ hf))

theorem splitByColumn_left_eq_gather (M : SparseMatrix) (k : Nat) :
    M.splitByColumn k true =
      gather M.sparseMatrix (fun key => 0 ≤ key.2 ∧ key.2 ≤ sizeSub k 1)
        (fun key => (key.1, key.2 + 0)) (new M.numRows k) := by
  simp [splitByColumn, gather, forEachCell]

theorem splitByColumn_right_eq_gather (M : SparseMatrix) (k : Nat) :
    M.splitByColumn k false =
      gather M.sparseMatrix (fun key => k ≤ key.2 ∧ key.2 ≤ sizeSub M.numColumns 1)
        (fun key => (key.1, key.2 - k)) (new M.numRows (sizeSub M.numColumns k)) := by
  simp [splitByColumn, gather, forEachCell]

theorem splitByRow_top_eq_gather (M : SparseMatrix) (k : Nat) :
    M.splitByRow k true =
      gather M.sparseMatrix (fun key => 0 ≤ key.1 ∧ key.1 ≤ sizeSub k 1)
        (fun key => (key.1 + 0, key.2)) (new k M.numColumns) := by
  simp [splitByRow, gather, forEachCell]

theorem splitByRow_bottom_eq_gather (M : SparseMatrix) (k : Nat) :
    M.splitByRow k false =
      gather M.sparseMatrix (fun key => k ≤ key.1 ∧ key.1 ≤ sizeSub M.numRows 1)
        (fun key => (key.1 - k, key.2)) (new (sizeSub M.numRows k) M.numColumns) := by
  simp [splitByRow, gather, forEachCell]

theorem sizeSub_of_le {a b : Nat} (h : b ≤ a) : sizeSub a b = a - b := by
  unfold sizeSub
  rw [if_pos h]

/-- The left part of a sparse split at a column k ≥ 1. -/
theorem sparse_holds_splitByColumn_left {M : SparseMatrix} (hM : M.WF) (k : Nat) (h1 : 1 ≤ k) :
    Holds (M.splitByColumn k true) M.numRows k M.getCell := by
  rw [splitByColumn_left_eq_gather, sizeSub_of_le h1]
  exact holds_gather_stored M hM (fun key => 0 ≤ key.2 ∧ key.2 ≤ k - 1)
    (fun key => (key.1, key.2 + 0)) (fun p => p) M.numRows k
    (fun key hr _ ht => ⟨hr, by
      have := ht.2
      simp only [Nat.add_zero]
      omega⟩)
    (fun key _ => rfl)
    (fun i j _ hj => ⟨⟨Nat.zero_le _, by
      show j ≤ k - 1
      omega⟩, rfl⟩)

/-- The right part of a sparse split at a column k ≤ numColumns. -/
theorem sparse_holds_splitByColumn_right {M : SparseMatrix} (hM : M.WF) (k : Nat)
    (hk : k ≤ M.numColumns) :
    Holds (M.splitByColumn k false) M.numRows (M.numColumns - k)
      (fun i j => M.getCell i (j + k)) := by
  rw [splitByColumn_right_eq_gather, sizeSub_of_le hk]
  exact holds_gather_stored M hM (fun key => k ≤ key.2 ∧ key.2 ≤ sizeSub M.numColumns 1)
    (fun key => (key.1, key.2 - k)) (fun p => (p.1, p.2 + k)) M.numRows (M.numColumns - k)
    (fun key hr hc ht => ⟨hr, by
      have := ht.1
      show key.2 - k < M.numColumns - k
      omega⟩)
    (fun key ht => by
      have := ht.1
      apply Prod.ext
      · rfl
      · show key.2 - k + k = key.2
        omega)
    (fun i j _ hj => ⟨⟨by show k ≤ j + k; omega, by
      show j + k ≤ sizeSub M.numColumns 1
      rw [sizeSub_of_le (by omega)]
      omega⟩, by
      apply Prod.ext
      · rfl
      · show j + k - k = j
        omega⟩)

/-- The top part of a sparse split at a row k ≥ 1. -/
theorem sparse_holds_splitByRow_top {M : SparseMatrix} (hM : M.WF) (k : Nat) (h1 : 1 ≤ k) :
    Holds (M.splitByRow k true) k M.numColumns M.getCell := by
  rw [splitByRow_top_eq_gather, sizeSub_of_le h1]
  exact holds_gather_stored M hM (fun key => 0 ≤ key.1 ∧ key.1 ≤ k - 1)
    (fun key => (key.1 + 0, key.2)) (fun p => p) k M.numColumns
    (fun key _ hc ht => ⟨by
      have := ht.2
      simp only [Nat.add_zero]
      omega, hc⟩)
    (fun key _ => rfl)
    (fun i j hi _ => ⟨⟨Nat.zero_le _, by
      show i ≤ k - 1
      omega⟩, rfl⟩)

/-- The bottom part of a sparse split at a row k ≤ numRows. -/
theorem sparse_holds_splitByRow_bottom {M : SparseMatrix} (hM : M.WF) (k : Nat)
    (hk : k ≤ M.numRows) :
    Holds (M.splitByRow k false) (M.numRows - k) M.numColumns
      (fun i j => M.getCell (i + k) j) := by
  rw [splitByRow_bottom_eq_gather, sizeSub_of_le hk]
  exact holds_gather_stored M hM (fun key => k ≤ key.1 ∧ key.1 ≤ sizeSub M.numRows 1)
    (fun key => (key.1 - k, key.2)) (fun p => (p.1 + k, p.2)) (M.numRows - k) M.numColumns
    (fun key hr hc ht => ⟨by
      have := ht.1
      show key.1 - k < M.numRows - k
      omega, hc⟩)
    (fun key ht => by
      have := ht.1
      apply Prod.ext
      · show key.1 - k + k = key.1
        omega
      · rfl)
    (fun i j hi _ => ⟨⟨by show k ≤ i + k; omega, by
      show i + k ≤ sizeSub M.numRows 1
      rw [sizeSub_of_le (by omega)]
      omega⟩, by
      apply Prod.ext
      · show i + k - k = i
        omega
      · rfl⟩)

end SparseMatrix

namespace MatrixBase

theorem isDenseBacked_mergeByColumns (A B : MatrixBase) :
    (A.mergeByColumns B).isDenseBacked = (A.isDenseBacked || B.isDenseBacked) := by
  cases A <;> cases B <;> rfl

theorem isDenseBacked_mergeByRows (A B : MatrixBase) :
    (A.mergeByRows B).isDenseBacked = (A.isDenseBacked || B.isDenseBacked) := by
  cases A <;> cases B <;> rfl

/-- The left part of a split at column k: on a sparse matrix for k ≥ 1. -/
theorem splitByColumn_left_spec {m : MatrixBase} (hm : m.WF) (k : Nat)
    (h : 1 ≤ k ∨ m.isDenseBacked = true) :
    (m.splitByColumn k true).WF ∧ (m.splitByColumn k true).getNumRows = m.getNumRows ∧
      (m.splitByColumn k true).getNumColumns = k ∧
      ∀ i j, i < m.getNumRows → j < k → (m.splitByColumn k true).getCell i j = m.getCell i j := by
  cases m with
  | dense d =>
    have hh := DenseMatrix.holds_splitByColumn d k true
    exact ⟨hh.wf, hh.rows, hh.cols, fun i j hi hj => hh.cell i j hi hj⟩
  | sparse s =>
    have h1 : 1 ≤ k := by
      rcases h with h | h
      · exact h
      · cases h
    exact holds_sparse (SparseMatrix.sparse_holds_splitByColumn_left hm k h1)

/-- The right part of a split at column k ≤ numColumns. -/
theorem splitByColumn_right_spec {m : MatrixBase} (hm : m.WF) (k : Nat)
    (hk : k ≤ m.getNumColumns) :
    (m.splitByColumn k false).WF ∧ (m.splitByColumn k false).getNumRows = m.getNumRows ∧
      (m.splitByColumn k false).getNumColumns = m.getNumColumns - k ∧
      ∀ i j, i < m.getNumRows → j < m.getNumColumns - k →
        (m.splitByColumn k false).getCell i j = m.getCell i (j + k) := by
  cases m with
  | dense d =>
    have hh := DenseMatrix.holds_splitByColumn d k false
    exact ⟨hh.wf, hh.rows, hh.cols, fun i j hi hj => hh.cell i j hi hj⟩
  | sparse s => exact holds_sparse (SparseMatrix.sparse_holds_splitByColumn_right hm k hk)

/-- The top part of a split at row k: on a sparse matrix for k ≥ 1. -/
theorem splitByRow_top_spec {m : MatrixBase} (hm : m.WF) (k : Nat)
    (h : 1 ≤ k ∨ m.isDenseBacked = true) :
    (m.splitByRow k true).WF ∧ (m.splitByRow k true).getNumRows = k ∧
      (m.splitByRow k true).getNumColumns = m.getNumColumns ∧
      ∀ i j, i < k → j < m.getNumColumns → (m.splitByRow k true).getCell i j = m.getCell i j := by
  cases m with
  | dense d =>
    have hh := DenseMatrix.holds_splitByRow d k true
    exact ⟨hh.wf, hh.rows, hh.cols, fun i j hi hj => hh.cell i j hi hj⟩
  | sparse s =>
    have h1 : 1 ≤ k := by
      rcases h with h | h
      · exact h
      · cases h
    exact holds_sparse (SparseMatrix.sparse_holds_splitByRow_top hm k h1)

/-- The bottom part of a split at row k ≤ numRows. -/
theorem splitByRow_bottom_spec {m : MatrixBase} (hm : m.WF) (k : Nat)
    (hk : k ≤ m.getNumRows) :
    (m.splitByRow k false).WF ∧ (m.splitByRow k false).getNumRows = m.getNumRows - k ∧
      (m.splitByRow k false).getNumColumns = m.getNumColumns ∧
      ∀ i j, i < m.getNumRows - k → j < m.getNumColumns →
        (m.splitByRow k false).getCell i j = m.getCell (i + k) j := by
  cases m with
  | dense d =>
    have hh := DenseMatrix.holds_splitByRow d k false
    exact ⟨hh.wf, hh.rows, hh.cols, fun i j hi hj => hh.cell i j hi hj⟩
  | sparse s => exact holds_sparse (SparseMatrix.sparse_holds_splitByRow_bottom hm k hk)

/-- Splitting a column merge at the number of columns of the left operand gives back both
operands. -/
theorem split_mergeByColumns {A B : MatrixBase} (hA : A.WF) (hB : B.WF)
    (hrows : A.getNumRows = B.getNumRows)
    (h : 1 ≤ A.getNumColumns ∨ (A.isDenseBacked || B.isDenseBacked) = true) :
    ((A.mergeByColumns B).splitByColumn A.getNumColumns true).equal A = true ∧
    ((A.mergeByColumns B).splitByColumn A.getNumColumns false).equal B = true := by
  obtain ⟨m1, m2, m3, m4⟩ := mergeByColumns_spec hA hB hrows
  obtain ⟨l1, l2, l3, l4⟩ := splitByColumn_left_spec m1 A.getNumColumns
    (by rw [isDenseBacked_mergeByColumns]; exact h)
  obtain ⟨r1, r2, r3, r4⟩ := splitByColumn_right_spec m1 A.getNumColumns (by rw [m3]; omega)
  constructor
  · rw [equal_iff l1 hA]
    refine ⟨l2.trans m2, l3, fun r c hr hc => ?_⟩
    have hr1 : r < A.getNumRows := by rw [← m2, ← l2]; exact hr
    have hc1 : c < A.getNumColumns := by rw [← l3]; exact hc
    rw [l4 r c (by rw [m2]; exact hr1) hc1, m4 r c hr1 (by omega), if_pos hc1]
    exact mcu.almostEqual_self _
  · rw [equal_iff r1 hB]
    refine ⟨r2.trans (m2.trans hrows), by rw [r3, m3]; omega, fun r c hr hc => ?_⟩
    have hr1 : r < A.getNumRows := by rw [← m2, ← r2]; exact hr
    have hc1 : c < B.getNumColumns := by rw [r3, m3] at hc; omega
    rw [r4 r c (by rw [m2]; exact hr1) (by rw [m3]; omega), m4 r _ hr1 (by omega),
      if_neg (by omega), Nat.add_sub_cancel]
    exact mcu.almostEqual_self _

/-- Splitting a row merge at the number of rows of the top operand gives back both
operands. -/
theorem split_mergeByRows {A B : MatrixBase} (hA : A.WF) (hB : B.WF)
    (hcols : A.getNumColumns = B.getNumColumns)
    (h : 1 ≤ A.getNumRows ∨ (A.isDenseBacked || B.isDenseBacked) = true) :
    ((A.mergeByRows B).splitByRow A.getNumRows true).equal A = true ∧
    ((A.mergeByRows B).splitByRow A.getNumRows false).equal B = true := by
  obtain ⟨m1, m2, m3, m4⟩ := mergeByRows_spec hA hB hcols
  obtain ⟨l1, l2, l3, l4⟩ := splitByRow_top_spec m1 A.getNumRows
    (by rw [isDenseBacked_mergeByRows]; exact h)
  obtain ⟨r1, r2, r3, r4⟩ := splitByRow_bottom_spec m1 A.getNumRows (by rw [m2]; omega)
  constructor
  · rw [equal_iff l1 hA]
    refine ⟨l2, l3.trans m3, fun r c hr hc => ?_⟩
    have hr1 : r < A.getNumRows := by rw [← l2]; exact hr
    have hc1 : c < A.getNumColumns := by rw [← m3, ← l3]; exact hc
    rw [l4 r c hr1 (by rw [m3]; exact hc1), m4 r c (by omega) hc1, if_pos hr1]
    exact mcu.almostEqual_self _
  · rw [equal_iff r1 hB]
    refine ⟨by rw [r2, m2]; omega, r3.trans (m3.trans hcols), fun r c hr hc => ?_⟩
    have hr1 : r < B.getNumRows := by rw [r2, m2] at hr; omega
    have hc1 : c < A.getNumColumns := by rw [← m3, ← r3]; exact hc
    rw [r4 r c (by rw [m2]; omega) (by rw [m3]; exact hc1), m4 _ c (by omega) hc1,
      if_neg (by omega), Nat.add_sub_cancel]
    exact mcu.almostEqual_self _

end MatrixBase

/-- C39: splitting undoes merging: for valid A (m×p) and B (m×q), in any backend
combination, with M = A.mergeByColumns(B), `M.splitByColumn(p, true) == A` and
`M.splitByColumn(p, false) == B`; likewise for A (p×n) and B (q×n) with
M = A.mergeByRows(B), `M.splitByRow(p, true) == A` and `M.splitByRow(p, false) == B`.  A
valid matrix has at least one row and one column; the statement asks less: that A has at
least one column (row), or that one of the two operands is dense. -/
theorem C39_split_undoes_merge :
    (∀ A B : MatrixBase, A.WF → B.WF → A.getNumRows = B.getNumRows →
      (1 ≤ A.getNumColumns ∨ (A.isDenseBacked || B.isDenseBacked) = true) →
      (((Matrix.mk (some A)).mergeByColumns ⟨some B⟩).splitByColumn A.getNumColumns
        true).operatorEq ⟨some A⟩ = true ∧
      (((Matrix.mk (some A)).mergeByColumns ⟨some B⟩).splitByColumn A.getNumColumns
        false).operatorEq ⟨some B⟩ = true) ∧
    (∀ A B : MatrixBase, A.WF → B.WF → A.getNumColumns = B.getNumColumns →
      (1 ≤ A.getNumRows ∨ (A.isDenseBacked || B.isDenseBacked) = true) →
      (((Matrix.mk (some A)).mergeByRows ⟨some B⟩).splitByRow A.getNumRows
        true).operatorEq ⟨some A⟩ = true ∧
      (((Matrix.mk (some A)).mergeByRows ⟨some B⟩).splitByRow A.getNumRows
        false).operatorEq ⟨some B⟩ = true) ∧
    ((Matrix.sparseOfRows [[1, 2], [3, 4]]).mergeByColumns
        (Matrix.denseOfRows [[5], [6]])).splitByColumn 2 false
      = Matrix.denseOfRows [[5], [6]] ∧
    ((Matrix.sparseOfRows [[1, 2], [3, 4]]).mergeByRows
        (Matrix.sparseOfRows [[5, 6]])).splitByRow 2 true
      = Matrix.sparseOfRows [[1, 2], [3, 4]] := by
  refine ⟨?_, ?_, by decide!, by decide!⟩
  · intro A B hA hB hrows h
    exact MatrixBase.split_mergeByColumns hA hB hrows h
  · intro A B hA hB hcols h
    exact MatrixBase.split_mergeByRows hA hB hcols h

/-- C39 (witness): the claim applied to the sparse matrices [[1,2],[3,4]] and [[5],[6]]. -/
theorem C39_split_undoes_merge_witness :
    (MatrixBase.sparse (DenseMatrix.cloneAsSparseMatrix ⟨2, 2, [[1, 2], [3, 4]]⟩)).WF ∧
    (MatrixBase.sparse (DenseMatrix.cloneAsSparseMatrix ⟨2, 1, [[5], [6]]⟩)).WF ∧
    (((Matrix.mk (some (MatrixBase.sparse (DenseMatrix.cloneAsSparseMatrix
        ⟨2, 2, [[1, 2], [3, 4]]⟩)))).mergeByColumns
      ⟨some (MatrixBase.sparse (DenseMatrix.cloneAsSparseMatrix
        ⟨2, 1, [[5], [6]]⟩))⟩).splitByColumn
      (MatrixBase.sparse (DenseMatrix.cloneAsSparseMatrix
        ⟨2, 2, [[1, 2], [3, 4]]⟩)).getNumColumns true).operatorEq
      ⟨some (MatrixBase.sparse (DenseMatrix.cloneAsSparseMatrix ⟨2, 2, [[1, 2], [3, 4]]⟩))⟩
      = true := by
  have sA := MatrixBase.cloneAsSparseMatrix_spec (m := .dense ⟨2, 2, [[1, 2], [3, 4]]⟩)
    (by show DenseMatrix.WF _; decide)
  have sB := MatrixBase.cloneAsSparseMatrix_spec (m := .dense ⟨2, 1, [[5], [6]]⟩)
    (by show DenseMatrix.WF _; decide)
  exact ⟨sA.1, sB.1, (C39_split_undoes_merge.1 _ _ sA.1 sB.1
    (sA.2.1.trans sB.2.1.symm) (Or.inl (by rw [sA.2.2.1]; decide))).1⟩

end MatrixCalculator
